import Mathlib

/-!
Lost and Found system: the multi-index item store and its matching engine.

A shallow embedding of `src/backend/DataStructures.h` and `src/backend/System.h`.

Conventions of the embedding.
* `std::string` is a Lean `String` (text in UTF-8); `::tolower` is the ASCII lower-casing of
  every character, and `std::string::find` is a first-match scan.
* `int` values are integers; the additions that can leave the 32-bit range, `dist + weight`
  in `getDistance` and `++itemCounter`, are reduced by `wrapInt` (signed overflow as two's
  complement wrap-around). The scores are sums of four small numbers and are kept unreduced.
* `unordered_map` is an association list in iteration order (registry, adjacency list) or a
  total function with the default value that `operator[]` inserts (the distance table).
* `std::priority_queue` is the list of its entries; `top` is the least entry.
* The clock `std::time(nullptr)` is an explicit argument `now`.
-/

set_option autoImplicit false

namespace LostFound

/-! ## Machine integers -/

/-- Largest `int`: `std::numeric_limits<int>::max()`. -/
def INT_MAX : Int := 2147483647

/-- Smallest `int`. -/
def INT_MIN : Int := -2147483648

/-- Two's complement reduction of an integer to the range of `int`. -/
def wrapInt (x : Int) : Int := (x + 2147483648) % 4294967296 - 2147483648

/-! ## Strings -/

/-- `std::transform(..., ::tolower)`: lower-cases every character. -/
def toLower (str : String) : String := String.mk (str.data.map Char.toLower)

/-- `std::string::find` on character lists: the first position, counted from `pos`, at which
`needle` starts in `hay`. -/
def findFrom (needle : List Char) : List Char → Nat → Option Nat
  | [], pos => if needle.isPrefixOf [] then some pos else none
  | c :: hay, pos =>
    if needle.isPrefixOf (c :: hay) then some pos else findFrom needle hay (pos + 1)

/-- `hay.find(needle)`, with `none` for `std::string::npos`. -/
def stringFind (hay needle : String) : Option Nat := findFrom needle.data hay.data 0

/-! ## Categories -/

/-- `enum class Category`. -/
inductive Category where
  | ELECTRONICS
  | BOOKS
  | CLOTHING
  | ACCESSORIES
  | DOCUMENTS
  | KEYS
  | BAGS
  | SPORTS
  | OTHER
  deriving DecidableEq, Repr

def categoryToString : Category → String
  | .ELECTRONICS => "electronics"
  | .BOOKS => "books"
  | .CLOTHING => "clothing"
  | .ACCESSORIES => "accessories"
  | .DOCUMENTS => "documents"
  | .KEYS => "keys"
  | .BAGS => "bags"
  | .SPORTS => "sports"
  | .OTHER => "other"

def stringToCategory (str : String) : Category :=
  let lower := toLower str
  if lower = "electronics" then .ELECTRONICS
  else if lower = "books" then .BOOKS
  else if lower = "clothing" then .CLOTHING
  else if lower = "accessories" then .ACCESSORIES
  else if lower = "documents" then .DOCUMENTS
  else if lower = "keys" then .KEYS
  else if lower = "bags" then .BAGS
  else if lower = "sports" then .SPORTS
  else .OTHER

/-! ## Items -/

/-- `struct Item`. -/
structure Item where
  id : String
  name : String
  color : String
  location : String
  owner : String
  email : String
  type : String
  timestamp : Int
  description : String
  category : Category
  archived : Bool
  expiresAt : Int
  claimed : Bool
  claimedBy : String
  claimedAt : Int
  deriving DecidableEq, Repr

/-- The ten-argument constructor of `Item`: expiry is thirty days after the time stamp. -/
def Item.create (id name color loc owner type : String) (time : Int) (desc : String)
    (cat : Category) (email : String) : Item :=
  { id := id, name := name, color := color, location := loc, owner := owner, email := email,
    type := type, timestamp := time, description := desc, category := cat, archived := false,
    expiresAt := time + 30 * 24 * 60 * 60, claimed := false, claimedBy := "", claimedAt := 0 }

/-! ## Name, colour and category scores -/

def calculateNameScore (name1 name2 : String) : Int :=
  let lower1 := toLower name1
  let lower2 := toLower name2
  if lower1 = lower2 then 10
  else if (stringFind lower1 lower2).isSome || (stringFind lower2 lower1).isSome then 7
  else 0

def calculateColorScore (color1 color2 : String) : Int :=
  if toLower color1 = toLower color2 then 5 else 0

def calculateCategoryScore (cat1 cat2 : Category) : Int :=
  if cat1 = cat2 then 8 else 0

/-! ## Location graph -/

/-- `class LocationGraph`: the adjacency list, one entry per location. -/
structure LocationGraph where
  adjacencyList : List (String × List (String × Int))
  deriving DecidableEq, Repr

namespace LocationGraph

/-- The graph of a default-constructed `LocationGraph`. -/
def empty : LocationGraph := ⟨[]⟩

/-- `adjacencyList.find(location) != adjacencyList.end()`. -/
def contains (g : LocationGraph) (location : String) : Bool :=
  g.adjacencyList.any (fun p => p.1 == location)

def addLocation (g : LocationGraph) (location : String) : LocationGraph :=
  if g.contains location then g else ⟨g.adjacencyList ++ [(location, [])]⟩

/-- `adjacencyList[key].push_back(entry)`. -/
def pushBack (g : LocationGraph) (key : String) (entry : String × Int) : LocationGraph :=
  if g.contains key then
    ⟨g.adjacencyList.map (fun p => if p.1 = key then (p.1, p.2 ++ [entry]) else p)⟩
  else ⟨g.adjacencyList ++ [(key, [entry])]⟩

def addEdge (g : LocationGraph) (src dst : String) (distance : Int) : LocationGraph :=
  (((g.addLocation src).addLocation dst).pushBack src (dst, distance)).pushBack dst (src, distance)

def getLocations (g : LocationGraph) : List String := g.adjacencyList.map (fun p => p.1)

/-- `adjacencyList[current]` read as a value: the edges leaving `current`. -/
def neighbors (g : LocationGraph) (current : String) : List (String × Int) :=
  match g.adjacencyList.find? (fun p => p.1 == current) with
  | some p => p.2
  | none => []

/-- Order of `std::pair<int, std::string>`: by distance, then by name. -/
def pairLt (a b : Int × String) : Bool :=
  decide (a.1 < b.1) || (decide (a.1 = b.1) && decide (a.2 < b.2))

/-- `pq.top()` of the min-queue: the least pair, `none` when the queue is empty. -/
def pqTop : List (Int × String) → Option (Int × String)
  | [] => none
  | a :: rest =>
    match pqTop rest with
    | none => some a
    | some b => if pairLt b a then some b else some a

/-- `distances[key] = value`. -/
def setDistance (distances : String → Int) (key : String) (value : Int) : String → Int :=
  fun k => if k = key then value else distances k

/-- The relaxation loop `for (auto& [neighbor, weight] : adjacencyList[current])`. -/
def relax (dist : Int) :
    List (String × Int) → (String → Int) × List (Int × String) → (String → Int) × List (Int × String)
  | [], st => st
  | (neighbor, weight) :: rest, (distances, pq) =>
    let newDist := wrapInt (dist + weight)
    if newDist < distances neighbor then
      relax dist rest (setDistance distances neighbor newDist, (newDist, neighbor) :: pq)
    else relax dist rest (distances, pq)

/-- The loop `while (!pq.empty())` of `getDistance`; `none` when the iteration budget is used up. -/
def dijkstraLoop (g : LocationGraph) (target : String) :
    Nat → (String → Int) → List (Int × String) → Option Int
  | 0, _, _ => none
  | fuel + 1, distances, pq =>
    match pqTop pq with
    | none => some (distances target)
    | some (dist, current) =>
      let pq1 := pq.erase (dist, current)
      if current = target then some dist
      else if dist > distances current then dijkstraLoop g target fuel distances pq1
      else
        let st := relax dist (g.neighbors current) (distances, pq1)
        dijkstraLoop g target fuel st.1 st.2

/-- The table `distances` after its initialisation: `INT_MAX` for every location, `0` for the
start, and the value `0` that `operator[]` would insert for any other key. -/
def initDistances (g : LocationGraph) (start : String) : String → Int :=
  setDistance (fun k => if g.contains k then INT_MAX else 0) start 0

/-- An iteration budget that the loop of `getDistance` never uses up. -/
def fuelBound (g : LocationGraph) : Nat :=
  (g.adjacencyList.length + (g.adjacencyList.map (fun p => p.2.length)).sum) * 4294967296 + 2

/-- Result of the loop of `getDistance` from `start`, `none` if the budget were used up. -/
def runDijkstra (g : LocationGraph) (start target : String) : Option Int :=
  dijkstraLoop g target (fuelBound g) (initDistances g start) [(0, start)]

/-- Dijkstra shortest distance between two locations. -/
def getDistance (g : LocationGraph) (start target : String) : Int :=
  if !g.contains start || !g.contains target then INT_MAX
  else (runDijkstra g start target).getD INT_MAX

def isNear (g : LocationGraph) (loc1 loc2 : String) (threshold : Int) : Bool :=
  decide (getDistance g loc1 loc2 ≤ threshold)

/-- The calls of `addEdge` made by `initializeDefaultCampus`, in order. -/
def campusEdges : List (String × String × Int) :=
  [("fmc-hostel", "basketball", 40), ("basketball", "prayer-area", 50),
   ("prayer-area", "mini-office", 30), ("mini-office", "ausom", 60),
   ("ausom", "fmc-building", 50), ("fmc-building", "fmc-lawn", 40),
   ("pre-fab", "b-block", 50), ("b-block", "mini-office", 60), ("b-block", "ausom", 80),
   ("ausom", "green-area", 50), ("green-area", "fmc-building", 60),
   ("fmc-lawn", "green-area-north", 70),
   ("pre-fab", "a-block", 40), ("a-block", "b-block", 40), ("a-block", "admin", 50),
   ("admin", "green-area", 60), ("green-area", "iaa", 50), ("iaa", "cafeteria", 40),
   ("cafeteria", "auditorium", 50),
   ("c-block", "a-block", 50), ("c-block", "sports", 60), ("sports", "main-office-lawn", 70),
   ("main-office-lawn", "admin", 40), ("main-office-lawn", "ausom-lawn", 50),
   ("ausom-lawn", "iaa-lawn-2", 60), ("iaa-lawn-2", "iaa-lawn-1", 40),
   ("iaa-lawn-1", "auditorium", 50),
   ("sports", "parking", 80), ("main-office-lawn", "parking", 60), ("ausom-lawn", "parking", 50),
   ("iaa-lawn-2", "parking", 60), ("iaa-lawn-1", "parking", 70), ("parking", "main-gate", 100),
   ("fmc-hostel", "pre-fab", 80), ("basketball", "pre-fab", 60), ("pre-fab", "c-block", 70),
   ("c-block", "parking", 120), ("b-block", "a-block", 40), ("a-block", "sports", 100),
   ("admin", "main-office-lawn", 40), ("admin", "ausom-lawn", 80),
   ("green-area", "ausom-lawn", 60), ("iaa", "iaa-lawn-2", 50), ("iaa", "iaa-lawn-1", 60),
   ("cafeteria", "iaa-lawn-1", 70), ("auditorium", "main-gate", 80),
   ("fmc-building", "iaa", 90), ("ausom", "admin", 100), ("b-block", "admin", 70),
   ("green-area", "cafeteria", 70)]

/-- A run of `addEdge` calls. -/
def addEdges (g : LocationGraph) (edges : List (String × String × Int)) : LocationGraph :=
  edges.foldl (fun acc e => acc.addEdge e.1 e.2.1 e.2.2) g

def initializeDefaultCampus (g : LocationGraph) : LocationGraph := g.addEdges campusEdges

end LocationGraph

/-- The member `campusGraph` of `LostFoundSystem`: set up by the constructor, never changed. -/
def campusGraph : LocationGraph := LocationGraph.empty.initializeDefaultCampus

/-! ## Match heap -/

/-- `struct MatchCandidate`. -/
structure MatchCandidate where
  itemId : String
  itemName : String
  owner : String
  location : String
  color : String
  score : Int
  nameScore : Int
  colorScore : Int
  proximityScore : Int
  deriving DecidableEq, Repr

/-- The default-constructed `MatchCandidate()`. -/
def MatchCandidate.empty : MatchCandidate :=
  { itemId := "", itemName := "", owner := "", location := "", color := "",
    score := 0, nameScore := 0, colorScore := 0, proximityScore := 0 }

instance : Inhabited MatchCandidate := ⟨MatchCandidate.empty⟩

namespace MatchHeap

/-- `heap[i]`. -/
def elemAt (heap : List MatchCandidate) (i : Nat) : MatchCandidate := heap.getD i MatchCandidate.empty

/-- `std::swap(heap[i], heap[j])`. -/
def swap (heap : List MatchCandidate) (i j : Nat) : List MatchCandidate :=
  (heap.set i (elemAt heap j)).set j (elemAt heap i)

def heapifyUp (heap : List MatchCandidate) (index : Nat) : List MatchCandidate :=
  if 0 < index then
    let parent := (index - 1) / 2
    if (elemAt heap index).score > (elemAt heap parent).score then
      heapifyUp (swap heap index parent) parent
    else heap
  else heap
termination_by index
decreasing_by omega

/-- The index `largest` chosen by one round of `heapifyDown`. -/
def largestOf (heap : List MatchCandidate) (index : Nat) : Nat :=
  let size := heap.length
  let left := 2 * index + 1
  let right := 2 * index + 2
  let largest :=
    if left < size ∧ (elemAt heap left).score > (elemAt heap index).score then left else index
  if right < size ∧ (elemAt heap right).score > (elemAt heap largest).score then right else largest

def heapifyDown (heap : List MatchCandidate) (index : Nat) : List MatchCandidate :=
  if largestOf heap index ≠ index then
    heapifyDown (swap heap index (largestOf heap index)) (largestOf heap index)
  else heap
termination_by heap.length - index
decreasing_by
  have hlen : (swap heap index (largestOf heap index)).length = heap.length := by simp [swap]
  have hcases : largestOf heap index = index ∨
      (largestOf heap index = 2 * index + 1 ∧ 2 * index + 1 < heap.length) ∨
      (largestOf heap index = 2 * index + 2 ∧ 2 * index + 2 < heap.length) := by
    unfold largestOf
    simp only
    split_ifs <;> simp_all
  rw [hlen]
  rcases hcases with h | h | h
  · contradiction
  · omega
  · omega

def insert (heap : List MatchCandidate) (candidate : MatchCandidate) : List MatchCandidate :=
  heapifyUp (heap ++ [candidate]) ((heap ++ [candidate]).length - 1)

/-- The element returned by `extractMax` together with the heap left behind. -/
def extractMax (heap : List MatchCandidate) : MatchCandidate × List MatchCandidate :=
  match heap with
  | [] => (MatchCandidate.empty, [])
  | max :: rest =>
    let heap1 := ((max :: rest).set 0 ((max :: rest).getLast (by simp))).dropLast
    if heap1 ≠ [] then (max, heapifyDown heap1 0) else (max, heap1)

/-- The loop of `getTopK`: `k` rounds left, `results` collected so far. -/
def getTopKLoop : Nat → List MatchCandidate → List MatchCandidate → List MatchCandidate
  | 0, _, results => results
  | k + 1, tempHeap, results =>
    if tempHeap = [] then results
    else getTopKLoop k (extractMax tempHeap).2 (results ++ [(extractMax tempHeap).1])

def getTopK (heap : List MatchCandidate) (k : Nat) : List MatchCandidate :=
  getTopKLoop k heap []

/-- The score stored at position `i`. -/
def scoreAt (heap : List MatchCandidate) (i : Nat) : Int := (elemAt heap i).score

/-- Max-heap order on the array: no element scores above its parent. -/
def IsHeap (heap : List MatchCandidate) : Prop :=
  ∀ j, 0 < j → j < heap.length → scoreAt heap j ≤ scoreAt heap ((j - 1) / 2)

end MatchHeap

/-! ## Registry -/

/-- `class ItemHashMap`: the entries of the `unordered_map`. The order of the list stands for
the iteration order, which the language leaves open; the list keeps the order of first
insertion, and a statement that depends on the order in which the records are handed out
(`saveToFile`) takes an arbitrary arrangement of them. -/
structure ItemHashMap where
  items : List (String × Item)
  deriving DecidableEq, Repr

namespace ItemHashMap

def empty : ItemHashMap := ⟨[]⟩

def «exists» (m : ItemHashMap) (id : String) : Bool := m.items.any (fun p => p.1 == id)

/-- `items[id] = item`: overwrites the entry of `id` if there is one, else adds an entry. -/
def insert (m : ItemHashMap) (id : String) (item : Item) : ItemHashMap :=
  if m.exists id then ⟨m.items.map (fun p => if p.1 = id then (p.1, item) else p)⟩
  else ⟨m.items ++ [(id, item)]⟩

/-- `get(id)`, with `none` for `nullptr`. -/
def get (m : ItemHashMap) (id : String) : Option Item :=
  (m.items.find? (fun p => p.1 == id)).map (fun p => p.2)

/-- `remove(id)`: the map left behind and whether an entry was erased. -/
def remove (m : ItemHashMap) (id : String) : ItemHashMap × Bool :=
  (⟨m.items.filter (fun p => p.1 != id)⟩, m.exists id)

def getAllItems (m : ItemHashMap) : List Item := m.items.map (fun p => p.2)

def getItemsByType (m : ItemHashMap) (type : String) : List Item :=
  (m.items.filter (fun p => p.2.type == type)).map (fun p => p.2)

def size (m : ItemHashMap) : Nat := m.items.length

end ItemHashMap

/-! ## History tree -/

/-- `class BSTNode`, with `nil` for `nullptr`. -/
inductive BSTNode where
  | nil
  | node (item : Item) (left right : BSTNode)
  deriving DecidableEq, Repr

namespace ItemBST

def insert : BSTNode → Item → BSTNode
  | .nil, item => .node item .nil .nil
  | .node x left right, item =>
    if item.timestamp < x.timestamp then .node x (insert left item) right
    else .node x left (insert right item)

def inorderTraversal : BSTNode → List Item → List Item
  | .nil, result => result
  | .node x left right, result => inorderTraversal right (inorderTraversal left result ++ [x])

def reverseInorderTraversal : BSTNode → List Item → List Item
  | .nil, result => result
  | .node x left right, result =>
    reverseInorderTraversal left (reverseInorderTraversal right result ++ [x])

def getSortedHistory (root : BSTNode) (ascending : Bool) : List Item :=
  if ascending then inorderTraversal root [] else reverseInorderTraversal root []

end ItemBST

/-! ## Autocomplete tries -/

/-- `class TrieNode`: the children by character, the end-of-word mark and the stored word. -/
inductive TrieNode where
  | mk (children : List (Char × TrieNode)) (isEndOfWord : Bool) (fullWord : String)

namespace TrieNode

/-- A fresh `TrieNode()`. -/
def empty : TrieNode := .mk [] false ""

/-- The child reached by `children[c]`, if present. -/
def child? : TrieNode → Char → Option TrieNode
  | .mk children _ _, c => (children.find? (fun p => p.1 == c)).map (fun p => p.2)

/-- The walk of `Trie::insert` along the characters still to be read. -/
def insertChars (word : String) : List Char → TrieNode → TrieNode
  | [], .mk children _ _ => .mk children true word
  | c :: cs, .mk children e w =>
    match (children.find? (fun p => p.1 == c)).map (fun p => p.2) with
    | some next =>
      .mk (children.map (fun p => if p.1 = c then (p.1, insertChars word cs next) else p)) e w
    | none => .mk (children ++ [(c, insertChars word cs empty)]) e w

end TrieNode

namespace Trie

/-- `Trie::insert(word)` on the root node. -/
def insert (root : TrieNode) (word : String) : TrieNode :=
  TrieNode.insertChars word (toLower word).data root

end Trie

/-- `class CategoryTrieManager`: the global trie and one trie per category. -/
structure CategoryTrieManager where
  globalTrie : TrieNode
  categoryTries : Category → TrieNode

namespace CategoryTrieManager

def empty : CategoryTrieManager := ⟨TrieNode.empty, fun _ => TrieNode.empty⟩

def insert (m : CategoryTrieManager) (word : String) (category : Category) :
    CategoryTrieManager :=
  { globalTrie := Trie.insert m.globalTrie word,
    categoryTries := fun c =>
      if c = category then Trie.insert (m.categoryTries c) word else m.categoryTries c }

end CategoryTrieManager

/-! ## Inverted index -/

/-- One of the four maps of `InvertedIndex`: key to the sorted set of item ids. -/
abbrev IndexMap := List (String × List String)

namespace IndexMap

/-- `std::set<std::string>::insert`. -/
def setInsert (ids : List String) (id : String) : List String :=
  if id ∈ ids then ids else ids.orderedInsert (fun a b => a ≤ b) id

/-- `index[key].insert(id)`. -/
def add (index : IndexMap) (key id : String) : IndexMap :=
  if index.any (fun p => p.1 == key) then
    index.map (fun p => if p.1 = key then (p.1, setInsert p.2 id) else p)
  else index ++ [(key, [id])]

/-- `index[key].erase(id)`. -/
def erase (index : IndexMap) (key id : String) : IndexMap :=
  if index.any (fun p => p.1 == key) then
    index.map (fun p => if p.1 = key then (p.1, p.2.filter (fun x => x != id)) else p)
  else index ++ [(key, [])]

end IndexMap

/-- The white space skipped by `iss >> token`. -/
def isSpace (c : Char) : Bool :=
  c == ' ' || c == '\t' || c == '\n' || c == '\r' || c.toNat == 11 || c.toNat == 12

/-- Splits a character list into its maximal runs of non-space characters. -/
def splitTokens : List Char → List Char → List String
  | [], cur => if cur = [] then [] else [String.mk cur]
  | c :: cs, cur =>
    if isSpace c then
      (if cur = [] then splitTokens cs [] else String.mk cur :: splitTokens cs [])
    else splitTokens cs (cur ++ [c])

/-- `InvertedIndex::tokenize`. -/
def tokenize (text : String) : List String := splitTokens (toLower text).data []

/-- `class InvertedIndex`. -/
structure InvertedIndex where
  nameIndex : IndexMap
  colorIndex : IndexMap
  locationIndex : IndexMap
  categoryIndex : IndexMap
  deriving DecidableEq, Repr

namespace InvertedIndex

def empty : InvertedIndex := ⟨[], [], [], []⟩

def indexItem (ix : InvertedIndex) (item : Item) : InvertedIndex :=
  { nameIndex := (tokenize item.name).foldl (fun acc token => IndexMap.add acc token item.id)
      ix.nameIndex,
    colorIndex := IndexMap.add ix.colorIndex (toLower item.color) item.id,
    locationIndex := IndexMap.add ix.locationIndex (toLower item.location) item.id,
    categoryIndex := IndexMap.add ix.categoryIndex (categoryToString item.category) item.id }

end InvertedIndex

/-! ## The system -/

/-- The state of `class LostFoundSystem`; its campus graph is the constant `campusGraph`. -/
structure LostFoundSystem where
  searchTrie : TrieNode
  itemMap : ItemHashMap
  historyBST : BSTNode
  invertedIndex : InvertedIndex
  categoryTries : CategoryTrieManager
  itemCounter : Int
  webhookUrl : String
  claimWebhookUrl : String

/-- `std::setfill('0') << std::setw(6) << n`: the decimal form of `n` padded on the left. -/
def padSix (n : Int) : String :=
  String.mk (List.replicate (6 - (toString n).length) '0') ++ toString n

namespace LostFoundSystem

/-- The constructor `LostFoundSystem()`. -/
def fresh : LostFoundSystem :=
  { searchTrie := TrieNode.empty, itemMap := ItemHashMap.empty, historyBST := .nil,
    invertedIndex := InvertedIndex.empty, categoryTries := CategoryTrieManager.empty,
    itemCounter := 0, webhookUrl := "", claimWebhookUrl := "" }

/-- `generateId`: the counter after `++itemCounter` and the id built from it. -/
def generateId (s : LostFoundSystem) : LostFoundSystem × String :=
  let counter := wrapInt (s.itemCounter + 1)
  ({ s with itemCounter := counter }, "ITEM-" ++ padSix counter)

def calculateProximityScore (loc1 loc2 : String) : Int :=
  let distance := campusGraph.getDistance (toLower loc1) (toLower loc2)
  if distance = INT_MAX then 0
  else if distance = 0 then 15
  else max 0 (15 - Int.tdiv distance 10)

/-- The insertion of a reported item into all data structures. -/
def store (s : LostFoundSystem) (item : Item) : LostFoundSystem :=
  { s with
    itemMap := s.itemMap.insert item.id item,
    searchTrie := Trie.insert s.searchTrie item.name,
    historyBST := ItemBST.insert s.historyBST item,
    invertedIndex := s.invertedIndex.indexItem item,
    categoryTries := s.categoryTries.insert item.name item.category }

/-- `reportLostItem` at clock time `now`: the new state and the returned id. -/
def reportLostItem (s : LostFoundSystem) (now : Int)
    (name color location owner description categoryStr email : String) :
    LostFoundSystem × String :=
  let (s1, id) := s.generateId
  let category := stringToCategory categoryStr
  let item := Item.create id name color location owner "lost" now description category email
  (s1.store item, id)

/-- The candidate built for one lost item in the loop of `reportFoundItem`. -/
def makeCandidate (name color location : String) (category : Category) (lostItem : Item) :
    MatchCandidate :=
  let nameScore := calculateNameScore name lostItem.name
  let colorScore := calculateColorScore color lostItem.color
  let proximityScore := calculateProximityScore location lostItem.location
  let categoryScore := calculateCategoryScore category lostItem.category
  { itemId := lostItem.id, itemName := lostItem.name, owner := lostItem.owner,
    location := lostItem.location, color := lostItem.color,
    score := nameScore + colorScore + proximityScore + categoryScore,
    nameScore := nameScore, colorScore := colorScore, proximityScore := proximityScore }

/-- The loop of `reportFoundItem` over the lost items, filling the match heap. -/
def fillHeap (name color location : String) (category : Category) :
    List Item → List MatchCandidate → List MatchCandidate
  | [], matchHeap => matchHeap
  | lostItem :: rest, matchHeap =>
    if lostItem.archived then fillHeap name color location category rest matchHeap
    else
      let candidate := makeCandidate name color location category lostItem
      if candidate.nameScore > 0 ∧ candidate.score > 0 then
        fillHeap name color location category rest (MatchHeap.insert matchHeap candidate)
      else fillHeap name color location category rest matchHeap

/-- `reportFoundItem` at clock time `now`: the new state and the returned matches. -/
def reportFoundItem (s : LostFoundSystem) (now : Int)
    (name color location finder description categoryStr email : String) :
    LostFoundSystem × List MatchCandidate :=
  let (s1, id) := s.generateId
  let category := stringToCategory categoryStr
  let foundItem := Item.create id name color location finder "found" now description category email
  let s2 := s1.store foundItem
  let lostItems := s2.itemMap.getItemsByType "lost"
  (s2, MatchHeap.getTopK (fillHeap name color location category lostItems []) 10)

end LostFoundSystem

/-- The lost items that may be offered for a found item named `name`: type "lost", not archived,
positive name score. -/
def eligibleLostItems (registry : ItemHashMap) (name : String) : List Item :=
  registry.getAllItems.filter
    (fun it => it.type == "lost" && !it.archived && decide (0 < calculateNameScore name it.name))

/-- The scored candidates of the eligible lost items of a registry. -/
def eligibleCandidates (registry : ItemHashMap) (name color location : String)
    (category : Category) : List MatchCandidate :=
  (eligibleLostItems registry name).map
    (LostFoundSystem.makeCandidate name color location category)

/-- Every registry entry is stored under the id of its item, as `reportLostItem`,
`reportFoundItem` and `loadFromFile` store it. -/
def KeysMatch (registry : ItemHashMap) : Prop := ∀ p ∈ registry.items, p.1 = p.2.id

/-- A system in which one lost item, a blue backpack at the cafeteria, has been reported. -/
def sampleSystem : LostFoundSystem :=
  (LostFoundSystem.fresh.reportLostItem 100 "blue backpack" "blue" "cafeteria" "owner" "" "bags"
    "").1

/-- The candidate returned when a blue backpack is reported found in `sampleSystem`. -/
def sampleCandidate : MatchCandidate :=
  { itemId := "ITEM-000001", itemName := "blue backpack", owner := "owner",
    location := "cafeteria", color := "blue", score := 38, nameScore := 10, colorScore := 5,
    proximityScore := 15 }

namespace LocationGraph

/-- `Walk g a b W`: some path of `g` leads from `a` to `b` along edges of total weight `W`. -/
inductive Walk (g : LocationGraph) (a : String) : String → Int → Prop
  | nil : Walk g a a 0
  | snoc {v u : String} {W w : Int} :
      Walk g a v W → (u, w) ∈ g.neighbors v → Walk g a u (W + w)

/-- `d` is the minimum total weight over all paths from `a` to `b`. -/
def IsMinPathWeight (g : LocationGraph) (a b : String) (d : Int) : Prop :=
  Walk g a b d ∧ ∀ W, Walk g a b W → d ≤ W

/-- All directed adjacency entries `(from, to, weight)` of the graph. -/
def entries (g : LocationGraph) : List (String × String × Int) :=
  g.adjacencyList.flatMap (fun p => p.2.map (fun e => (p.1, e.1, e.2)))

/-- The sum of the weights of all adjacency entries: every `addEdge` call counts twice. -/
def totalWeight (g : LocationGraph) : Int := (g.entries.map (fun t => t.2.2)).sum

/-- Every edge leads to a known location, as in every graph built by `addEdge`. -/
def Closed (g : LocationGraph) : Prop :=
  ∀ v x w, (x, w) ∈ g.neighbors v → g.contains x = true

/-- All edge weights are positive. -/
def PositiveWeights (g : LocationGraph) : Prop :=
  ∀ v x w, (x, w) ∈ g.neighbors v → 0 < w

/-- A path from `s` whose tentative distances never exceed the weight walked so far and which
leaves every location at most once; `steps` lists the adjacency entries used, last one first. -/
inductive GoodPath (g : LocationGraph) (s : String) (D : String → Int) :
    String → Int → List (String × String × Int) → Prop
  | nil : D s ≤ 0 → GoodPath g s D s 0 []
  | snoc {v u : String} {W w : Int} {steps : List (String × String × Int)} :
      GoodPath g s D v W steps → v ∉ steps.map (fun t => t.1) → (u, w) ∈ g.neighbors v →
      D u ≤ W + w → GoodPath g s D u (W + w) ((v, u, w) :: steps)

end LocationGraph

namespace LocationGraph

/-- Invariant of the loop of `getDistance` from `s` towards `e`, between two iterations. -/
structure DijkstraInv (g : LocationGraph) (s e : String) (D : String → Int)
    (Q : List (Int × String)) : Prop where
  start_le : D s ≤ 0
  good : ∀ v, g.contains v = true → D v < INT_MAX → ∃ steps, GoodPath g s D v (D v) steps
  le_max : ∀ v, g.contains v = true → D v ≤ INT_MAX
  queue : ∀ q ∈ Q, g.contains q.2 = true ∧ D q.2 ≤ q.1 ∧ q.1 < INT_MAX
  settled : ∀ v, g.contains v = true → D v < INT_MAX →
    (D v, v) ∈ Q ∨ (v ≠ e ∧ ∀ x w, (x, w) ∈ g.neighbors v → D x ≤ D v + w)

/-- Invariant of the relaxation loop over the edges of `u`, popped with distance `d`. -/
structure RelaxInv (g : LocationGraph) (s e u : String) (d : Int) (D : String → Int)
    (Q : List (Int × String)) : Prop where
  start_le : D s ≤ 0
  good : ∀ v, g.contains v = true → D v < INT_MAX → ∃ steps, GoodPath g s D v (D v) steps
  le_max : ∀ v, g.contains v = true → D v ≤ INT_MAX
  queue : ∀ q ∈ Q, g.contains q.2 = true ∧ D q.2 ≤ q.1 ∧ q.1 < INT_MAX
  cur : D u = d
  settled : ∀ v, v ≠ u → g.contains v = true → D v < INT_MAX →
    (D v, v) ∈ Q ∨ (v ≠ e ∧ ∀ x w, (x, w) ∈ g.neighbors v → D x ≤ D v + w)

end LocationGraph

namespace LocationGraph

/-- The names that occur as the end of some edge. -/
def targets (g : LocationGraph) : List String := (g.entries.map (fun t => t.2.1)).dedup

/-- Bound on the number of iterations the loop of `getDistance` can still make: the queue
length plus the room left below the tentative distances of all edge ends. -/
def potential (g : LocationGraph) (D : String → Int) (Q : List (Int × String)) : Int :=
  (Q.length : Int) + (g.targets.map (fun v => D v - INT_MIN)).sum

end LocationGraph

namespace LocationGraph

/-- The shape of every graph built by `addLocation` and `addEdge`: unique keys, edges that
lead to known locations, and every edge stored in both directions. -/
structure WellFormed (g : LocationGraph) : Prop where
  keys : (g.adjacencyList.map (fun p => p.1)).Nodup
  closed : g.Closed
  symm : ∀ v x w, (x, w) ∈ g.neighbors v → (v, w) ∈ g.neighbors x

end LocationGraph

namespace LocationGraph

/-- A chain a - b - c whose two weights add up to more than `INT_MAX`. -/
def overflowChain : LocationGraph :=
  empty.addEdges [("a", "b", 1073741824), ("b", "c", 1073741824)]

/-- A star with centre a in which going back along the heavy edge overflows. -/
def overflowStar : LocationGraph :=
  empty.addEdges [("a", "b", 1), ("a", "c", 1073741824)]

/-- A second star, used for the triangle inequality. -/
def overflowFork : LocationGraph :=
  empty.addEdges [("a", "b", 2), ("a", "c", 1073741824)]

end LocationGraph

/-! ## Autocomplete -/

/-- The conversion `(size_t) limit` made by the comparison `results.size() >= limit`. -/
def sizeOfLimit (limit : Int) : Nat := (limit % 18446744073709551616).toNat

namespace TrieNode

mutual
/-- `Trie::collectWords`. -/
def collectWords : TrieNode → List String → Int → List String
  | .mk children isEndOfWord fullWord, results, limit =>
    if results.length ≥ sizeOfLimit limit then results
    else collectChildren children (if isEndOfWord then results ++ [fullWord] else results) limit
/-- The loop `for (auto& pair : node->children)` of `collectWords`. -/
def collectChildren : List (Char × TrieNode) → List String → Int → List String
  | [], results, _ => results
  | (_, child) :: rest, results, limit =>
    collectChildren rest (collectWords child results limit) limit
end

/-- The loop that follows the characters of a word from a node; `none` when a child is missing. -/
def descend : TrieNode → List Char → Option TrieNode
  | node, [] => some node
  | .mk children _ _, c :: cs =>
    match (children.find? (fun p => p.1 == c)).map (fun p => p.2) with
    | some next => descend next cs
    | none => none

def isEnd : TrieNode → Bool
  | .mk _ isEndOfWord _ => isEndOfWord

def word : TrieNode → String
  | .mk _ _ fullWord => fullWord

def childList : TrieNode → List (Char × TrieNode)
  | .mk children _ _ => children

mutual
/-- All stored words below a node, in the order in which `collectWords` meets them. -/
def allWords : TrieNode → List String
  | .mk children isEndOfWord fullWord =>
    (if isEndOfWord then [fullWord] else []) ++ allChildWords children
/-- All stored words below a list of children. -/
def allChildWords : List (Char × TrieNode) → List String
  | [] => []
  | (_, child) :: rest => allWords child ++ allChildWords rest
end

mutual
/-- All stored words below a node, each with the characters that lead to it. -/
def allEntries : TrieNode → List (List Char × String)
  | .mk children isEndOfWord fullWord =>
    (if isEndOfWord then [([], fullWord)] else []) ++ allChildEntries children
/-- All stored words below a list of children, each with the characters that lead to it. -/
def allChildEntries : List (Char × TrieNode) → List (List Char × String)
  | [] => []
  | (c, child) :: rest =>
    (allEntries child).map (fun e => (c :: e.1, e.2)) ++ allChildEntries rest
end

mutual
/-- No node has two children for the same character. -/
def UniqueChildren : TrieNode → Prop
  | .mk children _ _ => (children.map (fun p => p.1)).Nodup ∧ UniqueChildrenList children
/-- `UniqueChildren` for every node of a list of children. -/
def UniqueChildrenList : List (Char × TrieNode) → Prop
  | [] => True
  | (_, child) :: rest => UniqueChildren child ∧ UniqueChildrenList rest
end

/-- The word stored at the end of `key`, if any. -/
def lookup (node : TrieNode) (key : List Char) : Option String :=
  match descend node key with
  | some n => if n.isEnd then some n.word else none
  | none => none

end TrieNode

namespace Trie

def search (root : TrieNode) (word : String) : Bool :=
  match TrieNode.descend root (toLower word).data with
  | some n => n.isEnd
  | none => false

def autocomplete (root : TrieNode) (pre : String) (limit : Int) : List String :=
  match TrieNode.descend root (toLower pre).data with
  | none => []
  | some node => TrieNode.collectWords node [] limit

/-- A run of `insert` calls. -/
def insertAll (root : TrieNode) (words : List String) : TrieNode :=
  words.foldl Trie.insert root

/-- The number of words stored below the node of `pre`. -/
def storedUnder (root : TrieNode) (pre : String) : Nat :=
  match TrieNode.descend root (toLower pre).data with
  | none => 0
  | some node => (TrieNode.allWords node).length

end Trie

namespace CategoryTrieManager

def autocomplete (m : CategoryTrieManager) (pre : String) (limit : Int) : List String :=
  Trie.autocomplete m.globalTrie pre limit

def autocompleteByCategory (m : CategoryTrieManager) (pre : String) (category : Category)
    (limit : Int) : List String :=
  Trie.autocomplete (m.categoryTries category) pre limit

/-- A run of `insert(word, category)` calls. -/
def insertAll (m : CategoryTrieManager) (calls : List (String × Category)) :
    CategoryTrieManager :=
  calls.foldl (fun acc e => acc.insert e.1 e.2) m

end CategoryTrieManager

namespace LostFoundSystem

def searchAutocomplete (s : LostFoundSystem) (pre : String) : List String :=
  Trie.autocomplete s.searchTrie pre 10

def searchAutocompleteByCategory (s : LostFoundSystem) (pre categoryStr : String) :
    List String :=
  s.categoryTries.autocompleteByCategory pre (stringToCategory categoryStr) 10

end LostFoundSystem

namespace Trie

/-- The word most recently inserted among `words` whose lower-cased characters are `key`. -/
def lastInserted (words : List String) (key : List Char) : Option String :=
  words.reverse.find? (fun w => (toLower w).data == key)

end Trie

/-! ## Search over the inverted index -/

namespace IndexMap

/-- `index.find(key)`: the set stored under `key`, `none` for `end()`. -/
def lookup (index : IndexMap) (key : String) : Option (List String) :=
  (index.find? (fun p => p.1 == key)).map (fun p => p.2)

/-- The set found under `key` contains the id `x`. -/
def Has (index : IndexMap) (key x : String) : Prop :=
  ∃ ids, lookup index key = some ids ∧ x ∈ ids

end IndexMap

namespace InvertedIndex

def removeItem (ix : InvertedIndex) (item : Item) : InvertedIndex :=
  { nameIndex := (tokenize item.name).foldl (fun acc token => IndexMap.erase acc token item.id)
      ix.nameIndex,
    colorIndex := IndexMap.erase ix.colorIndex (toLower item.color) item.id,
    locationIndex := IndexMap.erase ix.locationIndex (toLower item.location) item.id,
    categoryIndex := IndexMap.erase ix.categoryIndex (categoryToString item.category) item.id }

/-- The lambda `intersectOrInit` on the pair `(result, firstFilter)`. -/
def intersectOrInit (st : List String × Bool) (found : List String) : List String × Bool :=
  if st.2 then (found, false) else (st.1.filter (fun id => decide (id ∈ found)), false)

/-- The set `nameMatches`: the union of the sets of all tokens of the name filter. -/
def nameMatches (ix : InvertedIndex) (name : String) : List String :=
  (tokenize name).foldl
    (fun acc token =>
      match IndexMap.lookup ix.nameIndex token with
      | some ids => ids.foldl IndexMap.setInsert acc
      | none => acc)
    []

/-- The block of `search` for one of the filters color, location and category. -/
def filterStep (index : IndexMap) (value : String) (st : List String × Bool) :
    List String × Bool :=
  if value = "" then st
  else
    match IndexMap.lookup index (toLower value) with
    | some ids => intersectOrInit st ids
    | none => if !st.2 then ([], st.2) else st

def search (ix : InvertedIndex) (name color location category : String) : List String :=
  let st0 : List String × Bool := ([], true)
  let st1 := if name = "" then st0 else intersectOrInit st0 (nameMatches ix name)
  let st2 := filterStep ix.colorIndex color st1
  let st3 := filterStep ix.locationIndex location st2
  let st4 := filterStep ix.categoryIndex category st3
  st4.1

end InvertedIndex

/-- A call of `indexItem` or of `removeItem`. -/
inductive IndexOp where
  | index (item : Item)
  | remove (item : Item)

namespace InvertedIndex

def applyOp (ix : InvertedIndex) : IndexOp → InvertedIndex
  | .index item => ix.indexItem item
  | .remove item => ix.removeItem item

/-- A run of `indexItem` and `removeItem` calls. -/
def run (ix : InvertedIndex) (ops : List IndexOp) : InvertedIndex := ops.foldl applyOp ix

/-- The item `i` is recorded under each of its own keys. -/
def Holds (ix : InvertedIndex) (i : Item) : Prop :=
  (∀ t ∈ tokenize i.name, IndexMap.Has ix.nameIndex t i.id) ∧
  IndexMap.Has ix.colorIndex (toLower i.color) i.id ∧
  IndexMap.Has ix.locationIndex (toLower i.location) i.id ∧
  IndexMap.Has ix.categoryIndex (categoryToString i.category) i.id

/-- The id `x` occurs in some set of the index. -/
def Present (ix : InvertedIndex) (x : String) : Prop :=
  (∃ p ∈ ix.nameIndex, x ∈ p.2) ∨ (∃ p ∈ ix.colorIndex, x ∈ p.2) ∨
  (∃ p ∈ ix.locationIndex, x ∈ p.2) ∨ (∃ p ∈ ix.categoryIndex, x ∈ p.2)

/-- The id of `item` occurs in the index only under the keys of `item`: its name tokens, its
color, its location and its category. -/
def OnlyIndexedAs (ix : InvertedIndex) (item : Item) : Prop :=
  (∀ p ∈ ix.nameIndex, item.id ∈ p.2 → p.1 ∈ tokenize item.name) ∧
  (∀ p ∈ ix.colorIndex, item.id ∈ p.2 → p.1 = toLower item.color) ∧
  (∀ p ∈ ix.locationIndex, item.id ∈ p.2 → p.1 = toLower item.location) ∧
  (∀ p ∈ ix.categoryIndex, item.id ∈ p.2 → p.1 = categoryToString item.category)

end InvertedIndex

/-- A red backpack lost at the cafeteria. -/
def sampleItem : Item :=
  Item.create "ITEM-000001" "Red Backpack" "red" "cafeteria" "owner" "lost" 100 "" Category.BAGS ""

/-- A blue bottle lost at the cafeteria. -/
def sampleItem2 : Item :=
  Item.create "ITEM-000002" "Blue Bottle" "blue" "cafeteria" "owner" "lost" 100 "" Category.OTHER ""

/-! ## LocationCluster (union-find over location names) -/

/-- `m[key] = value` on a `std::unordered_map<std::string, T>` kept as an association list:
an existing entry is overwritten, a missing one is created. -/
def mapSet {α : Type} (m : List (String × α)) (key : String) (value : α) : List (String × α) :=
  if (m.lookup key).isSome then m.map (fun p => if p.1 = key then (p.1, value) else p)
  else m ++ [(key, value)]

/-- The effect on the map of reading `rank[key]`: `operator[]` creates a missing entry with
the value 0. -/
def mapTouch (m : List (String × Int)) (key : String) : List (String × Int) :=
  if (m.lookup key).isSome then m else m ++ [(key, 0)]

/-- The members `parent`, `rank`, `graph` (a pointer that may be null) and `clusterRadius`. -/
structure LocationCluster where
  parent : List (String × String)
  rank : List (String × Int)
  graph : Option LocationGraph
  clusterRadius : Int
  deriving DecidableEq

namespace LocationCluster

/-- The constructor `LocationCluster(g, radius)`: both maps start empty. -/
def create (g : Option LocationGraph) (radius : Int) : LocationCluster := ⟨[], [], g, radius⟩

/-- The value read by `parent[key]`. -/
def parentOf (st : LocationCluster) (key : String) : String := (st.parent.lookup key).getD ""

/-- The value read by `rank[key]`; a missing entry reads as 0. The rank of a root is at most
the logarithm of the number of names, so `rank[root1]++` stays far below INT_MAX and ranks
are kept as plain integers. -/
def rankOf (st : LocationCluster) (key : String) : Int := (st.rank.lookup key).getD 0

/-- The largest rank stored. -/
def maxRank (st : LocationCluster) : Int := st.rank.foldl (fun m p => max m p.2) 0

/-- The recursion depth granted to `find`: ranks grow strictly along parent links, so the
largest rank bounds the length of every chain. -/
def findFuel (st : LocationCluster) : Nat := (maxRank st).toNat + 2

/-- The recursive `find` with path compression, with the recursion depth bounded by the first
argument. Returns the root and the state after the call. -/
def findAux : Nat → LocationCluster → String → Option (String × LocationCluster)
  | 0, _, _ => none
  | fuel + 1, st, loc =>
    let lower := toLower loc
    let st1 : LocationCluster :=
      if (st.parent.lookup lower).isNone then
        { st with parent := mapSet st.parent lower lower, rank := mapSet st.rank lower 0 }
      else st
    if parentOf st1 lower ≠ lower then
      match findAux fuel st1 (parentOf st1 lower) with
      | none => none
      | some (root, st2) =>
        let st3 : LocationCluster := { st2 with parent := mapSet st2.parent lower root }
        some (parentOf st3 lower, st3)
    else some (parentOf st1 lower, st1)

def find (st : LocationCluster) (loc : String) : Option (String × LocationCluster) :=
  findAux (findFuel st) st loc

/-- Union by rank. -/
def unite (st : LocationCluster) (loc1 loc2 : String) : Option LocationCluster :=
  match find st loc1 with
  | none => none
  | some (root1, st1) =>
    match find st1 loc2 with
    | none => none
    | some (root2, st2) =>
      if root1 ≠ root2 then
        let st3 : LocationCluster :=
          { st2 with rank := mapTouch (mapTouch st2.rank root1) root2 }
        if rankOf st3 root1 < rankOf st3 root2 then
          some { st3 with parent := mapSet st3.parent root1 root2 }
        else if rankOf st3 root1 > rankOf st3 root2 then
          some { st3 with parent := mapSet st3.parent root2 root1 }
        else
          some { st3 with parent := mapSet st3.parent root2 root1,
                          rank := mapSet st3.rank root1 (rankOf st3 root1 + 1) }
      else some st2

/-- The inner loop of `buildClusters`: `li` is `locations[i]`, the list holds
`locations[i+1..]`. -/
def buildInner (g : LocationGraph) (li : String) :
    List String → LocationCluster → Option LocationCluster
  | [], st => some st
  | lj :: rest, st =>
    if g.getDistance li lj ≤ st.clusterRadius then
      match unite st li lj with
      | none => none
      | some st1 => buildInner g li rest st1
    else buildInner g li rest st

/-- The outer loop of `buildClusters` over `locations[i..]`. -/
def buildOuter (g : LocationGraph) : List String → LocationCluster → Option LocationCluster
  | [], st => some st
  | li :: rest, st =>
    match buildInner g li rest st with
    | none => none
    | some st1 => buildOuter g rest st1

def buildClusters (st : LocationCluster) : Option LocationCluster :=
  match st.graph with
  | none => some st
  | some g => buildOuter g g.getLocations st

/-- The query `find(loc1) == find(loc2)`, with the state after both calls (the left call is
made first). -/
def inSameCluster (st : LocationCluster) (loc1 loc2 : String) :
    Option (Bool × LocationCluster) :=
  match find st loc1 with
  | none => none
  | some (root1, st1) =>
    match find st1 loc2 with
    | none => none
    | some (root2, st2) => some (root1 == root2, st2)

/-- A sequence of `inSameCluster` calls, each on the state left by the one before; returns
the answers in order. -/
def runQueries : LocationCluster → List (String × String) →
    Option (List Bool × LocationCluster)
  | st, [] => some ([], st)
  | st, (a, b) :: rest =>
    match inSameCluster st a b with
    | none => none
    | some (ans, st1) =>
      match runQueries st1 rest with
      | none => none
      | some (answers, st2) => some (ans :: answers, st2)

/-- The state is well formed: every parent is a lower-cased name that has an entry itself,
the rank grows strictly along every link, and a name without a parent entry has rank 0. -/
def Inv (st : LocationCluster) : Prop :=
  (∀ k v, st.parent.lookup k = some v →
    toLower v = v ∧ (st.parent.lookup v).isSome = true ∧ (v ≠ k → rankOf st k < rankOf st v)) ∧
  (∀ k, st.parent.lookup k = none → rankOf st k = 0)

/-- The function `ρ` names the root of every name: it is constant along links, fixes the
roots and fixes the names without an entry. -/
def Rep (st : LocationCluster) (ρ : String → String) : Prop :=
  (∀ k v, st.parent.lookup k = some v → ρ v = ρ k) ∧
  (∀ k, st.parent.lookup k = some k → ρ k = k) ∧
  (∀ k, st.parent.lookup k = none → ρ k = k)

end LocationCluster

namespace LocationCluster

/-- What a call of `find` that returns the root `r` on the state `st` leaves behind in the
state `st'`: a well-formed state with the same roots function, the same ranks, graph and
radius, in which `r` is a root, the roots of `st` are still roots and no entry is lost. -/
structure FindPost (st : LocationCluster) (ρ : String → String) (r : String)
    (st' : LocationCluster) : Prop where
  inv : Inv st'
  rep : Rep st' ρ
  rank_eq : ∀ k, rankOf st' k = rankOf st k
  root : st'.parent.lookup r = some r
  roots : ∀ k, st.parent.lookup k = some k → st'.parent.lookup k = some k
  keys : ∀ k, (st.parent.lookup k).isSome = true → (st'.parent.lookup k).isSome = true
  graph_eq : st'.graph = st.graph
  radius_eq : st'.clusterRadius = st.clusterRadius

/-- A state that `find`, `unite` and the queries keep: well formed, with ranks that are not
negative and with a roots function. -/
def Good (st : LocationCluster) : Prop := Inv st ∧ (∀ k, 0 ≤ rankOf st k) ∧ ∃ ρ, Rep st ρ

end LocationCluster

namespace LocationCluster

/-- The loop of `getClusterMembers` over the entries of `parent` (the names present when the
loop starts; `find` on a stored name adds no entry): a name whose root is `root` is pushed
to `members`. -/
def membersLoop (root : String) :
    List String → LocationCluster → List String → Option (List String × LocationCluster)
  | [], st, members => some (members, st)
  | key :: rest, st, members =>
    match find st key with
    | none => none
    | some (r, st1) => membersLoop root rest st1 (if r = root then members ++ [key] else members)

/-- All names in the same cluster as `location`, with the state after the call. -/
def getClusterMembers (st : LocationCluster) (location : String) :
    Option (List String × LocationCluster) :=
  match find st location with
  | none => none
  | some (root, st1) => membersLoop root (st1.parent.map (fun p => p.1)) st1 []

/-- The names with an entry in `parent`. -/
def keys (st : LocationCluster) : List String := st.parent.map (fun p => p.1)

/-- The entries of `parent` have distinct lower-cased names, as in every map filled by
`find`. -/
def KeysOK (st : LocationCluster) : Prop := (keys st).Nodup ∧ ∀ k ∈ keys st, toLower k = k

/-- The pairs of names that the two loops of `buildClusters` pass to `unite`, for the list
`locations`: an earlier location with a later one within the radius, both lower-cased as
`find` does. -/
def UnitedPairs (g : LocationGraph) (radius : Int) : List String → String → String → Prop
  | [], _, _ => False
  | li :: rest, u, v =>
    (u = toLower li ∧ ∃ lj ∈ rest, v = toLower lj ∧ g.getDistance li lj ≤ radius) ∨
      UnitedPairs g radius rest u v

/-- The relation of the specification: two known locations within the radius of each
other. -/
def WithinRadius (g : LocationGraph) (radius : Int) (x y : String) : Prop :=
  x ∈ g.getLocations ∧ y ∈ g.getLocations ∧ g.getDistance x y ≤ radius

/-- The roots function `ρ` describes the clusters generated by the pairs `R`: related names
have the same root and every name is linked to its root. -/
def Sem (ρ : String → String) (R : String → String → Prop) : Prop :=
  (∀ u v, R u v → ρ u = ρ v) ∧ ∀ x, Relation.EqvGen R x (ρ x)

end LocationCluster

namespace LocationCluster

/-- The state is well formed with distinct lower-cased names and non-negative ranks, `ρ` is
its roots function, and the clusters are those generated by the pairs `R`. -/
def Sound (st : LocationCluster) (ρ : String → String) (R : String → String → Prop) : Prop :=
  Inv st ∧ (∀ k, 0 ≤ rankOf st k) ∧ Rep st ρ ∧ KeysOK st ∧ Sem ρ R

end LocationCluster

namespace LocationGraph

/-- The graph of `overflowStar` with its edges added in the other order, so that the
location c is visited first. -/
def overflowStarRev : LocationGraph :=
  empty.addEdges [("c", "a", 1073741824), ("b", "a", 1)]

/-- A small graph with the clusters {a, b} and {c} for the radius 100. -/
def twoClusters : LocationGraph :=
  empty.addEdges [("a", "b", 50), ("b", "c", 500)]

end LocationGraph

namespace ItemBST

/-- The tree after `insert` has been called for each item of the list, in order. -/
def insertAll (root : BSTNode) (items : List Item) : BSTNode := items.foldl insert root

/-- The items of a tree from left to right. -/
def toList : BSTNode → List Item
  | .nil => []
  | .node x left right => toList left ++ x :: toList right

/-- The search-tree order kept by `insert`: smaller time stamps on the left, the others
(equal ones included) on the right. -/
def IsBST : BSTNode → Prop
  | .nil => True
  | .node x left right =>
    (∀ y ∈ toList left, y.timestamp < x.timestamp) ∧
    (∀ y ∈ toList right, x.timestamp ≤ y.timestamp) ∧ IsBST left ∧ IsBST right

end ItemBST

namespace LostFoundSystem

/-- `getHistory(ascending)`. -/
def getHistory (s : LostFoundSystem) (ascending : Bool) : List Item :=
  ItemBST.getSortedHistory s.historyBST ascending

end LostFoundSystem

namespace ItemHashMap

/-- A write through the pointer returned by `get(id)`: the item stored under `id` (keys are
unique in the map) is replaced by `f item`. -/
def modify (m : ItemHashMap) (id : String) (f : Item → Item) : ItemHashMap :=
  ⟨m.items.map (fun p => if p.1 = id then (p.1, f p.2) else p)⟩

/-- The keys of the map. -/
def keys (m : ItemHashMap) : List String := m.items.map (fun p => p.1)

end ItemHashMap

/-- The write `item->archived = true`. -/
def Item.markArchived (item : Item) : Item := { item with archived := true }

/-- `Item::isExpired` at clock time `now`. -/
def Item.isExpired (item : Item) (now : Int) : Bool := decide (now > item.expiresAt)

namespace LostFoundSystem

/-- `getItemById`, with `none` for `nullptr`. -/
def getItemById (s : LostFoundSystem) (id : String) : Option Item := s.itemMap.get id

/-- `deleteItem`: the new state and the returned flag. -/
def deleteItem (s : LostFoundSystem) (id : String) : LostFoundSystem × Bool :=
  match s.itemMap.get id with
  | none => (s, false)
  | some item =>
    ({ s with invertedIndex := s.invertedIndex.removeItem item,
              itemMap := (s.itemMap.remove id).1 }, (s.itemMap.remove id).2)

/-- `claimItem` at clock time `now`: the new state and the returned flag. -/
def claimItem (s : LostFoundSystem) (now : Int) (id claimedBy : String) :
    LostFoundSystem × Bool :=
  match s.itemMap.get id with
  | none => (s, false)
  | some _ =>
    ({ s with itemMap := s.itemMap.modify id (fun item =>
        { item with claimed := true, claimedBy := claimedBy, claimedAt := now,
                    archived := true }) }, true)

/-- `archiveItem`: the new state and the returned flag. -/
def archiveItem (s : LostFoundSystem) (id : String) : LostFoundSystem × Bool :=
  match s.itemMap.get id with
  | none => (s, false)
  | some _ =>
    ({ s with itemMap := s.itemMap.modify id Item.markArchived }, true)

/-- The loop of `archiveExpiredItems` over the copies `allItems`, at clock time `now`; the
count stays far below INT_MAX (one step per stored item) and is kept as a plain integer. -/
def archiveLoop (now : Int) : List Item → ItemHashMap → Int → ItemHashMap × Int
  | [], m, archivedCount => (m, archivedCount)
  | item :: rest, m, archivedCount =>
    if !item.archived && item.isExpired now then
      match m.get item.id with
      | some _ =>
        archiveLoop now rest (m.modify item.id Item.markArchived) (archivedCount + 1)
      | none => archiveLoop now rest m archivedCount
    else archiveLoop now rest m archivedCount

/-- `archiveExpiredItems` at clock time `now`: the new state and the returned count. -/
def archiveExpiredItems (s : LostFoundSystem) (now : Int) : LostFoundSystem × Int :=
  ({ s with itemMap := (archiveLoop now s.itemMap.getAllItems s.itemMap 0).1 },
    (archiveLoop now s.itemMap.getAllItems s.itemMap 0).2)

/-- The filters of `advancedSearch` applied to one matching id: the item pushed to the
results, if any. -/
def searchFilter (s : LostFoundSystem) (type : String) (dateFrom dateTo : Int)
    (includeArchived : Bool) (id : String) : Option Item :=
  match s.itemMap.get id with
  | none => none
  | some item =>
    if !includeArchived && item.archived then none
    else if type ≠ "" ∧ item.type ≠ type then none
    else if dateFrom > 0 ∧ item.timestamp < dateFrom then none
    else if dateTo > 0 ∧ item.timestamp > dateTo then none
    else some item

/-- `advancedSearch`. -/
def advancedSearch (s : LostFoundSystem) (name color location category type : String)
    (dateFrom dateTo : Int) (includeArchived : Bool) : List Item :=
  let matchingIds := s.invertedIndex.search name color location category
  let matchingIds :=
    if name = "" ∧ color = "" ∧ location = "" ∧ category = "" then
      (s.itemMap.getAllItems.map (fun item => item.id)).foldl IndexMap.setInsert matchingIds
    else matchingIds
  matchingIds.filterMap (searchFilter s type dateFrom dateTo includeArchived)

end LostFoundSystem

/-- The calls of the public interface that change the registry, with the clock time of the
call where the call reads the clock. -/
inductive SystemOp where
  | reportLostItem (now : Int) (name color location owner description categoryStr email : String)
  | reportFoundItem (now : Int)
      (name color location finder description categoryStr email : String)
  | claimItem (now : Int) (id claimedBy : String)
  | archiveItem (id : String)
  | deleteItem (id : String)
  | archiveExpiredItems (now : Int)

namespace SystemOp

/-- The call is one of the two reports. -/
def IsReport : SystemOp → Prop
  | .reportLostItem .. => True
  | .reportFoundItem .. => True
  | _ => False

end SystemOp

namespace LostFoundSystem

/-- The state after one call. -/
def applyOp (s : LostFoundSystem) : SystemOp → LostFoundSystem
  | .reportLostItem now name color location owner description categoryStr email =>
    (s.reportLostItem now name color location owner description categoryStr email).1
  | .reportFoundItem now name color location finder description categoryStr email =>
    (s.reportFoundItem now name color location finder description categoryStr email).1
  | .claimItem now id claimedBy => (s.claimItem now id claimedBy).1
  | .archiveItem id => (s.archiveItem id).1
  | .deleteItem id => (s.deleteItem id).1
  | .archiveExpiredItems now => (s.archiveExpiredItems now).1

/-- The state after a sequence of calls. -/
def runOps (s : LostFoundSystem) (ops : List SystemOp) : LostFoundSystem :=
  ops.foldl applyOp s

/-- The id under which the report number `k` is stored. -/
def reportId (k : Nat) : String := "ITEM-" ++ padSix (k : Int)

end LostFoundSystem

/-- The number written by a list of decimal digits. -/
def digitsValue (digits : List Char) : Nat :=
  digits.foldl (fun acc c => acc * 10 + (c.toNat - 48)) 0

/-- The invariant of the registry: every claimed item is archived. -/
def ClaimedArchived (registry : ItemHashMap) : Prop :=
  ∀ p ∈ registry.items, p.2.claimed = true → p.2.archived = true

/-- A run that reports a lost blue backpack at time 100 and claims it at time 200. -/
def sampleClaimOps : List SystemOp :=
  [SystemOp.reportLostItem 100 "blue backpack" "blue" "cafeteria" "owner" "" "bags" "",
   SystemOp.claimItem 200 "ITEM-000001" "alice"]

/-- The registry record of the backpack after `sampleClaimOps`. -/
def sampleClaimedItem : Item :=
  { Item.create "ITEM-000001" "blue backpack" "blue" "cafeteria" "owner" "lost" 100 ""
      Category.BAGS "" with
    claimed := true, claimedBy := "alice", claimedAt := 200, archived := true }

/-- The registry record of the backpack reported in `sampleSystem`. -/
def sampleLostItem : Item :=
  Item.create "ITEM-000001" "blue backpack" "blue" "cafeteria" "owner" "lost" 100 ""
    Category.BAGS ""

namespace LostFoundSystem

/-- The test of the loop of `archiveExpiredItems`: not archived and expired at `now`. -/
def dueForArchive (now : Int) (item : Item) : Bool := !item.archived && item.isExpired now

end LostFoundSystem

/-- The arguments of one `reportLostItem` or `reportFoundItem` call, with the clock time of
the call. -/
structure Report where
  found : Bool
  now : Int
  name : String
  color : String
  location : String
  reporter : String
  description : String
  categoryStr : String
  email : String

namespace Report

/-- The call made for the report. -/
def toOp (r : Report) : SystemOp :=
  if r.found then
    .reportFoundItem r.now r.name r.color r.location r.reporter r.description r.categoryStr
      r.email
  else
    .reportLostItem r.now r.name r.color r.location r.reporter r.description r.categoryStr
      r.email

/-- The item that the report stores when it is given the id `id`. -/
def item (r : Report) (id : String) : Item :=
  Item.create id r.name r.color r.location r.reporter (if r.found then "found" else "lost")
    r.now r.description (stringToCategory r.categoryStr) r.email

end Report

/-- A report of a lost pen, used to run long sequences of reports. -/
def sampleReport : Report :=
  { found := false, now := 0, name := "pen", color := "", location := "", reporter := "",
    description := "", categoryStr := "", email := "" }

/-- The record as it was when its report stored it: not archived and without a claim. -/
def Item.reported (item : Item) : Item :=
  { item with archived := false, claimed := false, claimedBy := "", claimedAt := 0 }

namespace SystemOp

/-- The call is not `deleteItem`, so it removes no record. -/
def KeepsRecords : SystemOp → Prop
  | .deleteItem _ => False
  | _ => True

end SystemOp

namespace LostFoundSystem

/-- Every history entry is the registry record of its id as it was at report time. -/
def HistoryOfRegistry (s : LostFoundSystem) : Prop :=
  ∀ h ∈ ItemBST.toList s.historyBST, ∃ r, s.itemMap.get h.id = some r ∧ h = r.reported

/-- The counter is `k` and every key of the registry is the id of a report up to `k`. -/
def IdsUpTo (s : LostFoundSystem) (k : Nat) : Prop :=
  s.itemCounter = (k : Int) ∧ ∀ key ∈ s.itemMap.keys, ∃ j, j ≤ k ∧ key = reportId j

end LostFoundSystem

namespace LostFoundSystem

/-- The tests that `advancedSearch` applies to a record besides the index filters: archived
records only on request, the type when one is given, the date range when a bound is
positive. -/
def passesFilters (type : String) (dateFrom dateTo : Int) (includeArchived : Bool)
    (item : Item) : Bool :=
  (includeArchived || !item.archived) && (decide (type = "") || decide (item.type = type)) &&
    (decide (dateFrom ≤ 0) || decide (dateFrom ≤ item.timestamp)) &&
    (decide (dateTo ≤ 0) || decide (item.timestamp ≤ dateTo))

end LostFoundSystem

/-- The calls that change a `MatchHeap`. -/
inductive HeapOp where
  | insert (candidate : MatchCandidate)
  | extractMax

namespace MatchHeap

/-- The heap after one call. -/
def applyOp (heap : List MatchCandidate) : HeapOp → List MatchCandidate
  | .insert candidate => insert heap candidate
  | .extractMax => (extractMax heap).2

/-- The heap after a sequence of calls. -/
def runOps (heap : List MatchCandidate) (ops : List HeapOp) : List MatchCandidate :=
  ops.foldl applyOp heap

end MatchHeap

/-- The calls that change a `LocationCluster` (each may compress paths or add names). -/
inductive ClusterOp where
  | find (loc : String)
  | unite (loc1 loc2 : String)
  | buildClusters
  | getClusterMembers (location : String)
  | inSameCluster (loc1 loc2 : String)

namespace LocationCluster

/-- The state after one call, `none` if the recursion depth granted to `find` ran out. -/
def applyOp (st : LocationCluster) : ClusterOp → Option LocationCluster
  | .find loc => (find st loc).map (fun r => r.2)
  | .unite loc1 loc2 => unite st loc1 loc2
  | .buildClusters => buildClusters st
  | .getClusterMembers location => (getClusterMembers st location).map (fun r => r.2)
  | .inSameCluster loc1 loc2 => (inSameCluster st loc1 loc2).map (fun r => r.2)

/-- The state after a sequence of calls. -/
def runOps : LocationCluster → List ClusterOp → Option LocationCluster
  | st, [] => some st
  | st, op :: rest =>
    match applyOp st op with
    | none => none
    | some st1 => runOps st1 rest

/-- The name reached from `key` after `n` parent links. -/
def follow (st : LocationCluster) : Nat → String → String
  | 0, key => key
  | n + 1, key => follow st n (parentOf st key)

end LocationCluster

namespace LocationCluster

/-- `setGraph(g)`. -/
def setGraph (st : LocationCluster) (g : LocationGraph) : LocationCluster :=
  { st with graph := some g }

end LocationCluster

namespace LostFoundSystem

/-- The member `locationCluster` as the constructor `LostFoundSystem()` leaves it: built
with the default arguments (no graph, radius 100), then `setGraph(&campusGraph)` and
`buildClusters()`. -/
def freshLocationCluster : Option LocationCluster :=
  ((LocationCluster.create none 100).setGraph campusGraph).buildClusters

/-- `getNearbyLocations(location)` on the member `locationCluster`: the members and the
state of the cluster after the call. -/
def getNearbyLocations (cluster : LocationCluster) (location : String) :
    Option (List String × LocationCluster) :=
  cluster.getClusterMembers location

end LostFoundSystem

namespace LostFoundSystem

/-- The cluster state that `buildClusters` computes on the campus graph with radius 100:
every location hangs below "fmc-hostel". -/
def campusClusterState : LocationCluster :=
  { parent :=
      [("fmc-hostel", "fmc-hostel"), ("basketball", "fmc-hostel"), ("prayer-area", "fmc-hostel"),
       ("pre-fab", "fmc-hostel"), ("mini-office", "fmc-hostel"), ("a-block", "fmc-hostel"),
       ("ausom", "fmc-hostel"), ("b-block", "fmc-hostel"), ("fmc-building", "fmc-hostel"),
       ("fmc-lawn", "fmc-hostel"), ("green-area", "fmc-hostel"), ("admin", "fmc-hostel"),
       ("iaa", "fmc-hostel"), ("green-area-north", "fmc-hostel"), ("c-block", "fmc-hostel"),
       ("cafeteria", "fmc-hostel"), ("main-office-lawn", "fmc-hostel"),
       ("ausom-lawn", "fmc-hostel"), ("iaa-lawn-2", "fmc-hostel"), ("sports", "fmc-hostel"),
       ("parking", "fmc-hostel"), ("auditorium", "fmc-hostel"), ("iaa-lawn-1", "fmc-hostel"),
       ("main-gate", "fmc-hostel")],
    rank :=
      [("fmc-hostel", 1), ("basketball", 0), ("prayer-area", 0), ("pre-fab", 0),
       ("mini-office", 0), ("a-block", 0), ("ausom", 0), ("b-block", 0), ("fmc-building", 0),
       ("fmc-lawn", 0), ("green-area", 0), ("admin", 0), ("iaa", 0), ("green-area-north", 0),
       ("c-block", 0), ("cafeteria", 0), ("main-office-lawn", 0), ("ausom-lawn", 0),
       ("iaa-lawn-2", 0), ("sports", 0), ("parking", 0), ("auditorium", 0), ("iaa-lawn-1", 0),
       ("main-gate", 0)],
    graph := some campusGraph,
    clusterRadius := 100 }

end LostFoundSystem

/-! ## Persistence (System.cpp) -/

/-- Two's complement reduction of an integer to the range of `long long`. -/
def wrapLong (x : Int) : Int :=
  (x + 9223372036854775808) % 18446744073709551616 - 9223372036854775808

/-- The double quote character. -/
def quoteChar : Char := Char.ofNat 34

/-- The characters of a left and a right brace, a line feed and a tab. -/
def openBrace : Char := Char.ofNat 123

def closeBrace : Char := Char.ofNat 125

def lineFeed : Char := Char.ofNat 10

def tabChar : Char := Char.ofNat 9

/-- `hay.find(needle, pos)`, with `none` for `npos`. -/
def findAt (hay needle : List Char) (pos : Nat) : Option Nat :=
  if pos ≤ hay.length then findFrom needle (hay.drop pos) pos else none

/-- The search text `"\"" + key + "\""`. -/
def quotedKey (key : String) : List Char := quoteChar :: (key.data ++ [quoteChar])

/-- `extractJsonString(line, key)`. -/
def extractJsonString (line : List Char) (key : String) : String :=
  match findAt line (quotedKey key) 0 with
  | none => ""
  | some keyPos =>
    match findAt line [':'] keyPos with
    | none => ""
    | some colonPos =>
      match findAt line [quoteChar] colonPos with
      | none => ""
      | some startQuote =>
        match findAt line [quoteChar] (startQuote + 1) with
        | none => ""
        | some endQuote =>
          String.mk ((line.drop (startQuote + 1)).take (endQuote - startQuote - 1))

/-- The loop of `extractJsonLong` over the characters after the colon: digits and minus
signs are collected into `numStr`, the first other character after a collected one ends the
loop. -/
def collectNumber : List Char → List Char → List Char
  | [], numStr => numStr
  | c :: rest, numStr =>
    if c.isDigit || c = '-' then collectNumber rest (numStr ++ [c])
    else if numStr ≠ [] then numStr
    else collectNumber rest numStr

/-- `std::stoll` on a text made of digits and minus signs (all that `extractJsonLong` passes
to it): an optional sign and the digits that follow; `none` when it throws, for want of a
digit or for a value outside `long long`. -/
def stoll (numStr : List Char) : Option Int :=
  match numStr with
  | '-' :: rest =>
    if rest.takeWhile Char.isDigit = [] then none
    else if (digitsValue (rest.takeWhile Char.isDigit) : Int) ≤ 9223372036854775808 then
      some (-(digitsValue (rest.takeWhile Char.isDigit) : Int))
    else none
  | _ =>
    if numStr.takeWhile Char.isDigit = [] then none
    else if (digitsValue (numStr.takeWhile Char.isDigit) : Int) ≤ 9223372036854775807 then
      some (digitsValue (numStr.takeWhile Char.isDigit) : Int)
    else none

/-- `extractJsonLong(line, key)`, `none` when `std::stoll` throws. -/
def extractJsonLong (line : List Char) (key : String) : Option Int :=
  match findAt line (quotedKey key) 0 with
  | none => some 0
  | some keyPos =>
    match findAt line [':'] keyPos with
    | none => some 0
    | some colonPos =>
      if collectNumber (line.drop (colonPos + 1)) [] = [] then some 0
      else stoll (collectNumber (line.drop (colonPos + 1)) [])

/-- `extractJsonInt(line, key)`: the `long long` cast to `int`. -/
def extractJsonInt (line : List Char) (key : String) : Option Int :=
  (extractJsonLong line key).map wrapInt

/-- `extractJsonBool(line, key)`. -/
def extractJsonBool (line : List Char) (key : String) : Bool :=
  match findAt line (quotedKey key) 0 with
  | none => false
  | some keyPos =>
    match findAt line [':'] keyPos with
    | none => false
    | some colonPos =>
      "true".data.isPrefixOf
        ((line.drop (colonPos + 1)).dropWhile (fun c => c = ' ' || c = tabChar))

/-- The item that `loadFromFile` reads from one block of the text, `none` when a number
makes `std::stoll` throw. A missing expiry (read as 0) of a record with a positive time
stamp is derived from the time stamp. -/
def parseItem (itemBlock : List Char) : Option Item :=
  match extractJsonLong itemBlock "timestamp", extractJsonLong itemBlock "expiresAt",
    extractJsonLong itemBlock "claimedAt" with
  | some timestamp, some expiresAt, some claimedAt =>
    some
      { id := extractJsonString itemBlock "id",
        name := extractJsonString itemBlock "name",
        color := extractJsonString itemBlock "color",
        location := extractJsonString itemBlock "location",
        owner := extractJsonString itemBlock "owner",
        email := extractJsonString itemBlock "email",
        type := extractJsonString itemBlock "type",
        timestamp := timestamp,
        description := extractJsonString itemBlock "description",
        category :=
          if extractJsonString itemBlock "category" = "" then Category.OTHER
          else stringToCategory (extractJsonString itemBlock "category"),
        archived := extractJsonBool itemBlock "archived",
        expiresAt :=
          if expiresAt = 0 ∧ timestamp > 0 then wrapLong (timestamp + 30 * 24 * 60 * 60)
          else expiresAt,
        claimed := extractJsonBool itemBlock "claimed",
        claimedBy := extractJsonString itemBlock "claimedBy",
        claimedAt := claimedAt }
  | _, _, _ => none

/-- The loop of `loadFromFile` that cuts the text into item blocks, from the position `pos`
of a left brace to the next right brace; `none` when the iteration budget is used up. -/
def itemBlocks (content : List Char) : Nat → Option Nat → Option (List (List Char))
  | 0, _ => none
  | _ + 1, none => some []
  | fuel + 1, some pos =>
    if pos < content.length then
      match findAt content [closeBrace] pos with
      | none => some []
      | some itemEnd =>
        match itemBlocks content fuel (findAt content [openBrace] itemEnd) with
        | none => none
        | some blocks => some ((content.drop pos).take (itemEnd - pos + 1) :: blocks)
    else some []

namespace LostFoundSystem

/-- The insertion of a loaded item into all data structures, skipped for an empty id. -/
def loadItem (s : LostFoundSystem) (item : Item) : LostFoundSystem :=
  if item.id ≠ "" then s.store item else s

/-- The items parsed from the blocks in order, `none` when one of them throws. -/
def parseBlocks : List (List Char) → Option (List Item)
  | [] => some []
  | block :: rest =>
    match parseItem block, parseBlocks rest with
    | some item, some items => some (item :: items)
    | _, _ => none

/-- `loadFromFile` on the text `content` of an opened file. The outer `none` stands for a
used-up iteration budget, the inner one for an exception of `std::stoll`; otherwise the
loaded state (the call returns true). -/
def loadFromFile (s : LostFoundSystem) (content : String) : Option (Option LostFoundSystem) :=
  match extractJsonInt content.data "itemCounter" with
  | none => some none
  | some counter =>
    let s1 : LostFoundSystem :=
      { s with itemCounter := counter,
               webhookUrl := extractJsonString content.data "webhookUrl",
               claimWebhookUrl := extractJsonString content.data "claimWebhookUrl" }
    match findAt content.data (quotedKey "items") 0 with
    | none => some (some s1)
    | some itemsStart =>
      match itemBlocks content.data (content.data.length + 1)
          (findAt content.data [openBrace] itemsStart) with
      | none => none
      | some blocks =>
        match parseBlocks blocks with
        | none => some none
        | some items => some (some (items.foldl loadItem s1))

/-- The text written for one item by `saveToFile`, without the comma and line feed that
follow the closing brace. -/
def itemText (item : Item) : List Char :=
  "    ".data ++ [openBrace, lineFeed] ++
  "      ".data ++ quotedKey "id" ++ ": ".data ++ [quoteChar] ++ item.id.data ++
    [quoteChar, ',', lineFeed] ++
  "      ".data ++ quotedKey "name" ++ ": ".data ++ [quoteChar] ++ item.name.data ++
    [quoteChar, ',', lineFeed] ++
  "      ".data ++ quotedKey "color" ++ ": ".data ++ [quoteChar] ++ item.color.data ++
    [quoteChar, ',', lineFeed] ++
  "      ".data ++ quotedKey "location" ++ ": ".data ++ [quoteChar] ++ item.location.data ++
    [quoteChar, ',', lineFeed] ++
  "      ".data ++ quotedKey "owner" ++ ": ".data ++ [quoteChar] ++ item.owner.data ++
    [quoteChar, ',', lineFeed] ++
  "      ".data ++ quotedKey "email" ++ ": ".data ++ [quoteChar] ++ item.email.data ++
    [quoteChar, ',', lineFeed] ++
  "      ".data ++ quotedKey "type" ++ ": ".data ++ [quoteChar] ++ item.type.data ++
    [quoteChar, ',', lineFeed] ++
  "      ".data ++ quotedKey "timestamp" ++ ": ".data ++ (toString item.timestamp).data ++
    [',', lineFeed] ++
  "      ".data ++ quotedKey "description" ++ ": ".data ++ [quoteChar] ++
    item.description.data ++ [quoteChar, ',', lineFeed] ++
  "      ".data ++ quotedKey "category" ++ ": ".data ++ [quoteChar] ++
    (categoryToString item.category).data ++ [quoteChar, ',', lineFeed] ++
  "      ".data ++ quotedKey "archived" ++ ": ".data ++
    (if item.archived then "true" else "false").data ++ [',', lineFeed] ++
  "      ".data ++ quotedKey "expiresAt" ++ ": ".data ++ (toString item.expiresAt).data ++
    [',', lineFeed] ++
  "      ".data ++ quotedKey "claimed" ++ ": ".data ++
    (if item.claimed then "true" else "false").data ++ [',', lineFeed] ++
  "      ".data ++ quotedKey "claimedBy" ++ ": ".data ++ [quoteChar] ++ item.claimedBy.data ++
    [quoteChar, ',', lineFeed] ++
  "      ".data ++ quotedKey "claimedAt" ++ ": ".data ++ (toString item.claimedAt).data ++
    [lineFeed] ++
  "    ".data ++ [closeBrace]

/-- The text written by the loop of `saveToFile` over the items: a comma after every item
but the last. -/
def itemsText : List Item → List Char
  | [] => []
  | [item] => itemText item ++ [lineFeed]
  | item :: rest => itemText item ++ [',', lineFeed] ++ itemsText rest

/-- The text written by `saveToFile` to an opened file. `items` is the vector returned by
`getAllItems()`: the records of the registry in the iteration order of the `unordered_map`,
which is not specified; the theorems take it to be any arrangement of the records. -/
def saveToFile (s : LostFoundSystem) (items : List Item) : String :=
  String.mk (
    [openBrace, lineFeed] ++
    "  ".data ++ quotedKey "itemCounter" ++ ": ".data ++ (toString s.itemCounter).data ++
      [',', lineFeed] ++
    "  ".data ++ quotedKey "webhookUrl" ++ ": ".data ++ [quoteChar] ++ s.webhookUrl.data ++
      [quoteChar, ',', lineFeed] ++
    "  ".data ++ quotedKey "claimWebhookUrl" ++ ": ".data ++ [quoteChar] ++
      s.claimWebhookUrl.data ++ [quoteChar, ',', lineFeed] ++
    "  ".data ++ quotedKey "items" ++ ": [".data ++ [lineFeed] ++
    itemsText items ++
    "  ]".data ++ [lineFeed, closeBrace, lineFeed])

end LostFoundSystem

/-- A value as `saveToFile` writes it: a text between two quotes, or a number or truth value
written as it is. -/
inductive JsonValue where
  | text (v : List Char)
  | plain (cs : List Char)

/-- The characters written for a value. -/
def JsonValue.chars : JsonValue → List Char
  | .text v => quoteChar :: (v ++ [quoteChar])
  | .plain cs => cs

/-- One line of an item record: the key, the value and the characters that end the line. -/
structure JsonField where
  key : String
  value : JsonValue
  close : List Char

/-- The characters written for a line of an item record, after six blanks. -/
def JsonField.chars (f : JsonField) : List Char :=
  "      ".data ++ (quotedKey f.key ++ (": ".data ++ (f.value.chars ++ f.close)))

/-- The characters written for a list of lines. -/
def fieldsText : List JsonField → List Char
  | [] => []
  | f :: fs => f.chars ++ fieldsText fs

/-- A line that a search for the key `key` passes over: another key, a value that is not the
key between quotes, and no quote elsewhere. -/
def JsonField.PassedBy (key : List Char) (f : JsonField) : Prop :=
  f.key.data ≠ key ∧ quoteChar ∉ f.key.data ∧
  (match f.value with
    | .text v => quoteChar ∉ v ∧ v ≠ key
    | .plain cs => quoteChar ∉ cs) ∧
  quoteChar ∉ f.close ∧ ∃ c rest, f.close = c :: rest ∧ key.head? ≠ some c
/-- The keys of an item record in the file. -/
def itemKeys : List String :=
  ["id", "name", "color", "location", "owner", "email", "type", "timestamp", "description",
    "category", "archived", "expiresAt", "claimed", "claimedBy", "claimedAt"]

/-- A text that `loadFromFile` reads back as `saveToFile` wrote it: it holds no double quote
and no right brace, and it is not the name of a key. -/
def cleanText (v : String) : Bool :=
  !v.data.contains quoteChar && !v.data.contains closeBrace && !itemKeys.contains v

/-- The number is a value of `long long`. -/
def inLongRange (n : Int) : Bool :=
  decide (-9223372036854775808 ≤ n) && decide (n ≤ 9223372036854775807)

/-- An item that `loadFromFile` reads back as `saveToFile` wrote it: its texts are clean, its
id is not empty, its numbers are values of `long long`, and its expiry is not a 0 that the
reader would replace. -/
def Item.Clean (item : Item) : Prop :=
  item.id ≠ "" ∧ cleanText item.id = true ∧ cleanText item.name = true ∧
  cleanText item.color = true ∧ cleanText item.location = true ∧
  cleanText item.owner = true ∧ cleanText item.email = true ∧ cleanText item.type = true ∧
  cleanText item.description = true ∧ cleanText item.claimedBy = true ∧
  inLongRange item.timestamp = true ∧ inLongRange item.expiresAt = true ∧
  inLongRange item.claimedAt = true ∧ ¬ (item.expiresAt = 0 ∧ item.timestamp > 0)

/-- The lines of the record that `saveToFile` writes for an item. -/
def itemFields (item : Item) : List JsonField :=
  [⟨"id", .text item.id.data, [',', lineFeed]⟩,
   ⟨"name", .text item.name.data, [',', lineFeed]⟩,
   ⟨"color", .text item.color.data, [',', lineFeed]⟩,
   ⟨"location", .text item.location.data, [',', lineFeed]⟩,
   ⟨"owner", .text item.owner.data, [',', lineFeed]⟩,
   ⟨"email", .text item.email.data, [',', lineFeed]⟩,
   ⟨"type", .text item.type.data, [',', lineFeed]⟩,
   ⟨"timestamp", .plain (toString item.timestamp).data, [',', lineFeed]⟩,
   ⟨"description", .text item.description.data, [',', lineFeed]⟩,
   ⟨"category", .text (categoryToString item.category).data, [',', lineFeed]⟩,
   ⟨"archived", .plain (if item.archived then "true" else "false").data, [',', lineFeed]⟩,
   ⟨"expiresAt", .plain (toString item.expiresAt).data, [',', lineFeed]⟩,
   ⟨"claimed", .plain (if item.claimed then "true" else "false").data, [',', lineFeed]⟩,
   ⟨"claimedBy", .text item.claimedBy.data, [',', lineFeed]⟩,
   ⟨"claimedAt", .plain (toString item.claimedAt).data, [lineFeed]⟩]

/-- The record of an item as `loadFromFile` cuts it out of the text, from the left brace to
the right brace. -/
def blockText (item : Item) : List Char :=
  [openBrace, lineFeed] ++ (fieldsText (itemFields item) ++ ("    ".data ++ [closeBrace]))

/-- A line of a written record: a known key, a value without a double quote that is not a
key name between quotes, and the end of the line. -/
def JsonField.Clean (g : JsonField) : Prop :=
  g.key ∈ itemKeys ∧
  (match g.value with
    | .text v => quoteChar ∉ v ∧ closeBrace ∉ v ∧ String.mk v ∉ itemKeys
    | .plain cs => quoteChar ∉ cs ∧ closeBrace ∉ cs) ∧
  (g.close = [',', lineFeed] ∨ g.close = [lineFeed])

/-- The clock value of a report and the expiry derived from it are values of `long long`. -/
def inClockRange (now : Int) : Bool :=
  decide (-9223372036854775808 ≤ now) && decide (now + 2592000 ≤ 9223372036854775807)

namespace SystemOp

/-- The call passes texts that the file keeps (the category text is not stored) and a clock
value in the range of `long long`. -/
def Clean : SystemOp → Prop
  | .reportLostItem now name color location owner description _ email =>
    inClockRange now = true ∧ cleanText name = true ∧ cleanText color = true ∧
    cleanText location = true ∧ cleanText owner = true ∧ cleanText description = true ∧
    cleanText email = true
  | .reportFoundItem now name color location finder description _ email =>
    inClockRange now = true ∧ cleanText name = true ∧ cleanText color = true ∧
    cleanText location = true ∧ cleanText finder = true ∧ cleanText description = true ∧
    cleanText email = true
  | .claimItem now _ claimedBy => inLongRange now = true ∧ cleanText claimedBy = true
  | _ => True

end SystemOp

/-- The tree with `f` applied to every stored item. -/
def ItemBST.mapItems (f : Item → Item) : BSTNode → BSTNode
  | .nil => .nil
  | .node x left right => .node (f x) (mapItems f left) (mapItems f right)

namespace LostFoundSystem

/-- The state can be rebuilt from its registry: the records are clean, and the tries and the
history hold what the reports of the records put there, in the order of the reports (the
order in which the list of the registry keeps the records). -/
def Rebuildable (s : LostFoundSystem) : Prop :=
  (∀ it ∈ s.itemMap.getAllItems, it.Clean) ∧
  s.searchTrie = Trie.insertAll TrieNode.empty (s.itemMap.getAllItems.map Item.name) ∧
  s.categoryTries = CategoryTrieManager.insertAll CategoryTrieManager.empty
    (s.itemMap.getAllItems.map (fun it => (it.name, it.category))) ∧
  s.historyBST = ItemBST.insertAll .nil (s.itemMap.getAllItems.map Item.reported) ∧
  s.webhookUrl = "" ∧ s.claimWebhookUrl = ""

end LostFoundSystem

/-- The calls of the scenario in which a reported backpack is deleted. -/
def sampleDeleteOps : List SystemOp :=
  [SystemOp.reportLostItem 100 "blue backpack" "blue" "cafeteria" "owner" "" "bags" "",
   SystemOp.deleteItem "ITEM-000001"]

/-- A report of an item whose name holds a double quote: the five characters `a"b c`. -/
def sampleQuoteOps : List SystemOp :=
  [SystemOp.reportLostItem 100 "a\x22b c" "blue" "cafeteria" "owner" "" "bags" ""]

namespace LostFoundSystem

/-- No two records of the registry have names that differ only in the case of letters. -/
def CaseConsistentNames (s : LostFoundSystem) : Prop :=
  ∀ a ∈ s.itemMap.getAllItems, ∀ b ∈ s.itemMap.getAllItems,
    toLower a.name = toLower b.name → a.name = b.name

/-- No two records of the registry have the same time stamp. -/
def DistinctTimestamps (s : LostFoundSystem) : Prop :=
  ∀ a ∈ s.itemMap.getAllItems, ∀ b ∈ s.itemMap.getAllItems,
    a.timestamp = b.timestamp → a = b

end LostFoundSystem

/-- The calls of a scenario in which two items whose names differ only in the case of a
letter are reported within the same second. -/
def sampleOrderOps : List SystemOp :=
  [SystemOp.reportLostItem 100 "Apple" "red" "cafeteria" "sara" "" "other" "",
   SystemOp.reportLostItem 100 "apple" "green" "cafeteria" "sara" "" "other" ""]

/-- The calls of a scenario with clean texts, different names and different time stamps: a
backpack and a bottle are reported lost, and the backpack is claimed by alice. -/
def sampleTwoOps : List SystemOp :=
  [SystemOp.reportLostItem 100 "blue backpack" "blue" "cafeteria" "sara" "" "bags" "",
   SystemOp.reportLostItem 200 "red bottle" "red" "library" "omar" "" "other" "",
   SystemOp.claimItem 300 "ITEM-000001" "alice"]

/-- The calls of a scenario in which eleven items with names from "aa" to "ak" are reported,
one per second. -/
def sampleElevenOps : List SystemOp :=
  [SystemOp.reportLostItem 101 "aa" "" "" "sara" "" "other" "",
   SystemOp.reportLostItem 102 "ab" "" "" "sara" "" "other" "",
   SystemOp.reportLostItem 103 "ac" "" "" "sara" "" "other" "",
   SystemOp.reportLostItem 104 "ad" "" "" "sara" "" "other" "",
   SystemOp.reportLostItem 105 "ae" "" "" "sara" "" "other" "",
   SystemOp.reportLostItem 106 "af" "" "" "sara" "" "other" "",
   SystemOp.reportLostItem 107 "ag" "" "" "sara" "" "other" "",
   SystemOp.reportLostItem 108 "ah" "" "" "sara" "" "other" "",
   SystemOp.reportLostItem 109 "ai" "" "" "sara" "" "other" "",
   SystemOp.reportLostItem 110 "aj" "" "" "sara" "" "other" "",
   SystemOp.reportLostItem 111 "ak" "" "" "sara" "" "other" ""]

/-! ## Theorems -/

theorem findFrom_isSome_iff (needle : List Char) :
    ∀ (hay : List Char) (pos : Nat),
      (findFrom needle hay pos).isSome = true ↔ ∃ s t, hay = s ++ needle ++ t := by
  intro hay
  induction hay with
  | nil =>
    intro pos
    simp only [findFrom]
    constructor
    · intro h
      split at h
      · rename_i hp
        have : needle = [] := by
          cases needle with
          | nil => rfl
          | cons c cs => simp [List.isPrefixOf] at hp
        exact ⟨[], [], by simp [this]⟩
      · simp at h
    · rintro ⟨s, t, h⟩
      have hn : needle = [] := by
        have := congrArg List.length h
        simp at this
        exact List.length_eq_zero.mp (by omega)
      simp [hn]
  | cons c hay ih =>
    intro pos
    simp only [findFrom]
    by_cases hp : needle.isPrefixOf (c :: hay) = true
    · simp only [hp, if_true, Option.isSome_some, true_iff]
      obtain ⟨t, ht⟩ := List.isPrefixOf_iff_prefix.mp hp
      exact ⟨[], t, by simp [ht]⟩
    · simp only [hp, if_false, Bool.false_eq_true]
      rw [ih (pos + 1)]
      constructor
      · rintro ⟨s, t, h⟩
        exact ⟨c :: s, t, by simp [h]⟩
      · rintro ⟨s, t, h⟩
        cases s with
        | nil =>
          exfalso
          apply hp
          apply List.isPrefixOf_iff_prefix.mpr
          exact ⟨t, by simpa using h.symm⟩
        | cons x s =>
          simp only [List.cons_append, List.cons.injEq] at h
          exact ⟨s, t, h.2⟩

theorem stringFind_isSome_iff (hay needle : String) :
    (stringFind hay needle).isSome = true ↔ ∃ s t, hay.data = s ++ needle.data ++ t :=
  findFrom_isSome_iff needle.data hay.data 0

/-- C5. `calculateNameScore a b` is 10 when the lower-cased names are equal, otherwise 7 when one
lower-cased name occurs as a contiguous substring of the other, and otherwise 0. -/
theorem calculateNameScore_cases (a b : String) :
    (toLower a = toLower b → calculateNameScore a b = 10) ∧
    (toLower a ≠ toLower b →
      ((∃ s t, (toLower a).data = s ++ (toLower b).data ++ t) ∨
        (∃ s t, (toLower b).data = s ++ (toLower a).data ++ t)) →
      calculateNameScore a b = 7) ∧
    (toLower a ≠ toLower b →
      ¬ ((∃ s t, (toLower a).data = s ++ (toLower b).data ++ t) ∨
        (∃ s t, (toLower b).data = s ++ (toLower a).data ++ t)) →
      calculateNameScore a b = 0) := by
  refine ⟨fun h => by simp [calculateNameScore, h], fun h hs => ?_, fun h hs => ?_⟩
  · have : ((stringFind (toLower a) (toLower b)).isSome || (stringFind (toLower b) (toLower a)).isSome)
        = true := by
      rw [Bool.or_eq_true, stringFind_isSome_iff, stringFind_isSome_iff]
      exact hs
    simp only [calculateNameScore, h, if_false, this, if_true]
  · have : ¬ ((stringFind (toLower a) (toLower b)).isSome || (stringFind (toLower b) (toLower a)).isSome)
        = true := by
      rw [Bool.or_eq_true, stringFind_isSome_iff, stringFind_isSome_iff]
      exact hs
    simp [calculateNameScore, h, this]

theorem getDistance_same (g : LocationGraph) (a : String) (h : g.contains a = true) :
    g.getDistance a a = 0 := by
  simp [LocationGraph.getDistance, h, LocationGraph.runDijkstra, LocationGraph.fuelBound,
    LocationGraph.dijkstraLoop, LocationGraph.pqTop]

/-- C10. For every graph and every known location `a`, `getDistance a a = 0`: the first entry
popped from the queue is `(0, a)` and the early exit returns its distance. -/
theorem getDistance_self (g : LocationGraph) (a : String) (h : g.contains a = true) :
    g.getDistance a a = 0 :=
  getDistance_same g a h

theorem getDistance_self_witness :
    campusGraph.contains "cafeteria" = true ∧ campusGraph.getDistance "cafeteria" "cafeteria" = 0 :=
  ⟨by decide!, getDistance_self campusGraph "cafeteria" (by decide!)⟩

/-! ### Heap: swapping and the heap order -/

namespace MatchHeap

theorem elemAt_eq_getElem (heap : List MatchCandidate) (i : Nat) (h : i < heap.length) :
    elemAt heap i = heap[i] := by
  simp [elemAt, List.getD_eq_getElem?_getD, List.getElem?_eq_getElem h]

theorem length_swap (heap : List MatchCandidate) (i j : Nat) :
    (swap heap i j).length = heap.length := by
  simp [swap]

theorem elemAt_swap (heap : List MatchCandidate) (i j k : Nat)
    (hi : i < heap.length) (hj : j < heap.length) :
    elemAt (swap heap i j) k =
      if k = j then elemAt heap i else if k = i then elemAt heap j else elemAt heap k := by
  unfold swap elemAt
  simp only [List.getD_eq_getElem?_getD, List.getElem?_set, List.length_set]
  by_cases h1 : j = k
  · subst h1
    simp [hj]
  · have h1' : ¬ k = j := fun h => h1 h.symm
    simp only [h1, h1', if_false]
    by_cases h2 : i = k
    · subst h2
      simp [hi]
    · have h2' : ¬ k = i := fun h => h2 h.symm
      simp [h2, h2']

theorem cons_set_perm (x : MatchCandidate) :
    ∀ (t : List MatchCandidate) (j : Nat) (h : j < t.length),
      (t[j] :: t.set j x).Perm (x :: t) := by
  intro t
  induction t with
  | nil => intro j h; simp at h
  | cons y t ih =>
    intro j h
    cases j with
    | zero => simpa using List.Perm.swap x y t
    | succ j =>
      have hj : j < t.length := by simpa using h
      have h1 : (t[j] :: y :: t.set j x).Perm (y :: t[j] :: t.set j x) := List.Perm.swap _ _ _
      have h2 : (y :: t[j] :: t.set j x).Perm (y :: x :: t) := (ih j hj).cons y
      have h3 : (y :: x :: t).Perm (x :: y :: t) := List.Perm.swap _ _ _
      simpa using (h1.trans h2).trans h3

theorem set_set_perm :
    ∀ (l : List MatchCandidate) (i j : Nat) (hi : i < l.length) (hj : j < l.length),
      ((l.set i l[j]).set j l[i]).Perm l := by
  intro l
  induction l with
  | nil => intro i j hi; simp at hi
  | cons x t ih =>
    intro i j hi hj
    cases i with
    | zero =>
      cases j with
      | zero => simp
      | succ j =>
        have hj' : j < t.length := by simpa using hj
        simpa using cons_set_perm x t j hj'
    | succ i =>
      have hi' : i < t.length := by simpa using hi
      cases j with
      | zero => simpa using cons_set_perm x t i hi'
      | succ j =>
        have hj' : j < t.length := by simpa using hj
        simpa using (ih i j hi' hj').cons x

theorem swap_perm (heap : List MatchCandidate) (i j : Nat)
    (hi : i < heap.length) (hj : j < heap.length) : (swap heap i j).Perm heap := by
  unfold swap
  rw [elemAt_eq_getElem heap j hj, elemAt_eq_getElem heap i hi]
  exact set_set_perm heap i j hi hj

theorem scoreAt_swap (heap : List MatchCandidate) (i j k : Nat)
    (hi : i < heap.length) (hj : j < heap.length) :
    scoreAt (swap heap i j) k =
      if k = j then scoreAt heap i else if k = i then scoreAt heap j else scoreAt heap k := by
  unfold scoreAt
  rw [elemAt_swap heap i j k hi hj]
  split_ifs <;> rfl

end MatchHeap

namespace MatchHeap

theorem heapifyUp_spec (n : Nat) :
    ∀ (index : Nat), index ≤ n → ∀ (heap : List MatchCandidate), index < heap.length →
      (∀ j, 0 < j → j < heap.length → j ≠ index → scoreAt heap j ≤ scoreAt heap ((j - 1) / 2)) →
      (∀ j, 0 < j → j < heap.length → (j - 1) / 2 = index → 0 < index →
        scoreAt heap j ≤ scoreAt heap ((index - 1) / 2)) →
      IsHeap (heapifyUp heap index) ∧ (heapifyUp heap index).Perm heap := by
  induction n with
  | zero =>
    intro index hle heap hi h1 h2
    have h0 : index = 0 := by omega
    subst h0
    rw [heapifyUp]
    simp only [Nat.lt_irrefl, if_false]
    refine ⟨?_, List.Perm.refl _⟩
    intro j hj hlen
    exact h1 j hj hlen (by omega)
  | succ n ih =>
    intro index hle heap hi h1 h2
    rw [heapifyUp]
    by_cases hpos : 0 < index
    · simp only [hpos, if_true]
      have hp : (index - 1) / 2 < index := by omega
      have hplen : (index - 1) / 2 < heap.length := by omega
      by_cases hgt : (elemAt heap index).score > (elemAt heap ((index - 1) / 2)).score
      · simp only [hgt, if_true]
        have hgt' : scoreAt heap ((index - 1) / 2) < scoreAt heap index := hgt
        have hrec := ih ((index - 1) / 2) (by omega) (swap heap index ((index - 1) / 2))
          (by rw [length_swap]; exact hplen) ?_ ?_
        · exact ⟨hrec.1, hrec.2.trans (swap_perm heap index _ hi hplen)⟩
        · intro j hj hlen hne
          rw [length_swap] at hlen
          rw [scoreAt_swap heap index _ j hi hplen, scoreAt_swap heap index _ ((j - 1) / 2) hi hplen]
          simp only [hne, if_false]
          by_cases hji : j = index
          · subst hji
            simp only [if_true]
            exact le_of_lt hgt'
          · simp only [hji, if_false]
            by_cases hpj : (j - 1) / 2 = (index - 1) / 2
            · simp only [hpj, if_true]
              have := h1 j hj hlen hji
              rw [hpj] at this
              exact le_trans this (le_of_lt hgt')
            · simp only [hpj, if_false]
              by_cases hpi : (j - 1) / 2 = index
              · simp only [hpi, if_true]
                exact h2 j hj hlen hpi hpos
              · simp only [hpi, if_false]
                exact h1 j hj hlen hji
        · intro j hj hlen hpar hppos
          rw [length_swap] at hlen
          rw [scoreAt_swap heap index _ j hi hplen,
            scoreAt_swap heap index _ (((index - 1) / 2 - 1) / 2) hi hplen]
          have hne1 : ¬ ((index - 1) / 2 - 1) / 2 = (index - 1) / 2 := by omega
          have hne2 : ¬ ((index - 1) / 2 - 1) / 2 = index := by omega
          have hne3 : ¬ j = (index - 1) / 2 := by omega
          simp only [hne1, hne2, hne3, if_false]
          have hpp := h1 ((index - 1) / 2) hppos hplen (by omega)
          by_cases hji : j = index
          · subst hji
            simp only [if_true]
            exact hpp
          · simp only [hji, if_false]
            have := h1 j hj hlen hji
            rw [hpar] at this
            exact le_trans this hpp
      · simp only [hgt, if_false]
        refine ⟨?_, List.Perm.refl _⟩
        intro j hj hlen
        by_cases hji : j = index
        · subst hji
          exact not_lt.mp hgt
        · exact h1 j hj hlen hji
    · simp only [hpos, if_false]
      refine ⟨?_, List.Perm.refl _⟩
      intro j hj hlen
      exact h1 j hj hlen (by omega)

theorem isHeap_nil : IsHeap [] := by
  intro j _ hlen
  simp at hlen

theorem scoreAt_append_left (heap : List MatchCandidate) (c : MatchCandidate) (j : Nat)
    (h : j < heap.length) : scoreAt (heap ++ [c]) j = scoreAt heap j := by
  simp [scoreAt, elemAt, List.getD_eq_getElem?_getD, List.getElem?_append_left h]

theorem insert_spec (heap : List MatchCandidate) (c : MatchCandidate) (h : IsHeap heap) :
    IsHeap (insert heap c) ∧ (insert heap c).Perm (c :: heap) := by
  unfold insert
  have hlen : (heap ++ [c]).length - 1 = heap.length := by simp
  rw [hlen]
  have := heapifyUp_spec heap.length heap.length (le_refl _) (heap ++ [c]) (by simp) ?_ ?_
  · refine ⟨this.1, this.2.trans ?_⟩
    exact List.perm_append_comm
  · intro j hj hjl hne
    have hjl' : j < heap.length := by
      simp only [List.length_append, List.length_singleton] at hjl
      omega
    rw [scoreAt_append_left heap c j hjl', scoreAt_append_left heap c _ (by omega)]
    exact h j hj hjl'
  · intro j hj hjl hpar _
    simp only [List.length_append, List.length_singleton] at hjl
    omega

end MatchHeap

namespace MatchHeap

theorem largestOf_cases (heap : List MatchCandidate) (index : Nat) :
    largestOf heap index = index ∨
      (largestOf heap index = 2 * index + 1 ∧ 2 * index + 1 < heap.length) ∨
      (largestOf heap index = 2 * index + 2 ∧ 2 * index + 2 < heap.length) := by
  unfold largestOf
  simp only
  split_ifs <;> simp_all

theorem largestOf_max (heap : List MatchCandidate) (index c : Nat)
    (hc : c = index ∨ c = 2 * index + 1 ∨ c = 2 * index + 2) (hlen : c < heap.length) :
    scoreAt heap c ≤ scoreAt heap (largestOf heap index) := by
  unfold largestOf scoreAt
  simp only
  rcases hc with h | h | h
  · subst h
    split_ifs with a b b
    · exact le_of_lt (lt_trans a.2 b.2)
    · exact le_of_lt a.2
    · exact le_of_lt b.2
    · exact le_refl _
  · subst h
    split_ifs with a b b
    · exact le_of_lt b.2
    · exact le_refl _
    · have := not_lt.mp (fun h => a ⟨hlen, h⟩)
      exact le_trans this (le_of_lt b.2)
    · exact not_lt.mp (fun h => a ⟨hlen, h⟩)
  · subst h
    split_ifs with a b b
    · exact le_refl _
    · exact not_lt.mp (fun h => b ⟨hlen, h⟩)
    · exact le_refl _
    · exact not_lt.mp (fun h => b ⟨hlen, h⟩)

theorem heapifyDown_spec (n : Nat) :
    ∀ (heap : List MatchCandidate) (index : Nat), heap.length - index ≤ n →
      index < heap.length →
      (∀ j, 0 < j → j < heap.length → (j - 1) / 2 ≠ index →
        scoreAt heap j ≤ scoreAt heap ((j - 1) / 2)) →
      (∀ j, 0 < j → j < heap.length → (j - 1) / 2 = index → 0 < index →
        scoreAt heap j ≤ scoreAt heap ((index - 1) / 2)) →
      IsHeap (heapifyDown heap index) ∧ (heapifyDown heap index).Perm heap := by
  induction n with
  | zero =>
    intro heap index hle hi
    omega
  | succ n ih =>
    intro heap index hle hi h1 h2
    rw [heapifyDown]
    by_cases hL : largestOf heap index = index
    · simp only [hL, ne_eq, not_true_eq_false, if_false]
      refine ⟨?_, List.Perm.refl _⟩
      intro j hj hlen
      by_cases hp : (j - 1) / 2 = index
      · have := largestOf_max heap index j (by omega) hlen
        rw [hL] at this
        rw [hp]
        exact this
      · exact h1 j hj hlen hp
    · simp only [ne_eq, hL, not_false_eq_true, if_true]
      have hLlen : largestOf heap index < heap.length := by
        rcases largestOf_cases heap index with h | h | h
        · exact absurd h hL
        · omega
        · omega
      have hLpar : (largestOf heap index - 1) / 2 = index := by
        rcases largestOf_cases heap index with h | h | h
        · exact absurd h hL
        · omega
        · omega
      have hLgt : index < largestOf heap index := by
        rcases largestOf_cases heap index with h | h | h
        · exact absurd h hL
        · omega
        · omega
      generalize hLdef : largestOf heap index = L at *
      have hmax : ∀ c, (c = index ∨ c = 2 * index + 1 ∨ c = 2 * index + 2) → c < heap.length →
          scoreAt heap c ≤ scoreAt heap L := by
        intro c hc hcl
        have := largestOf_max heap index c hc hcl
        rw [hLdef] at this
        exact this
      have hrec := ih (swap heap index L) L (by rw [length_swap]; omega)
        (by rw [length_swap]; exact hLlen) ?_ ?_
      · exact ⟨hrec.1, hrec.2.trans (swap_perm heap index L hi hLlen)⟩
      · intro j hj hlen hne
        rw [length_swap] at hlen
        rw [scoreAt_swap heap index L j hi hLlen, scoreAt_swap heap index L ((j - 1) / 2) hi hLlen]
        simp only [hne, if_false]
        by_cases hjL : j = L
        · subst hjL
          simp only [if_true, hLpar]
          exact hmax index (Or.inl rfl) hi
        · simp only [hjL, if_false]
          by_cases hji : j = index
          · subst hji
            simp only [if_true]
            have hpne : ¬ (j - 1) / 2 = j := by omega
            simp only [hpne, if_false]
            have := h2 L (by omega) hLlen hLpar hj
            exact this
          · simp only [hji, if_false]
            by_cases hpi : (j - 1) / 2 = index
            · simp only [hpi, if_true]
              exact hmax j (by omega) hlen
            · simp only [hpi, if_false]
              exact h1 j hj hlen hpi
      · intro j hj hlen hpar hLpos
        rw [length_swap] at hlen
        rw [scoreAt_swap heap index L j hi hLlen,
          scoreAt_swap heap index L ((L - 1) / 2) hi hLlen]
        have hne1 : ¬ j = L := by omega
        have hne2 : ¬ j = index := by omega
        have hne3 : ¬ index = L := by omega
        simp only [hne1, hne2, hne3, if_false, hLpar, if_true]
        have := h1 j hj hlen (by omega)
        rw [hpar] at this
        exact this

end MatchHeap

namespace MatchHeap

theorem isHeap_root_max (heap : List MatchCandidate) (h : IsHeap heap) :
    ∀ (n i : Nat), i ≤ n → i < heap.length → scoreAt heap i ≤ scoreAt heap 0 := by
  intro n
  induction n with
  | zero =>
    intro i hi _
    have : i = 0 := by omega
    subst this
    exact le_refl _
  | succ n ih =>
    intro i hi hlen
    by_cases h0 : i = 0
    · subst h0
      exact le_refl _
    · have h1 := h i (by omega) hlen
      have h2 := ih ((i - 1) / 2) (by omega) (by omega)
      exact le_trans h1 h2

theorem isHeap_mem_le_root (heap : List MatchCandidate) (h : IsHeap heap)
    (y : MatchCandidate) (hy : y ∈ heap) : y.score ≤ scoreAt heap 0 := by
  obtain ⟨i, hi, rfl⟩ := List.getElem_of_mem hy
  have := isHeap_root_max heap h i i (le_refl _) hi
  rw [scoreAt, elemAt_eq_getElem heap i hi] at this
  exact this

theorem extractMax_spec (heap : List MatchCandidate) (hne : heap ≠ []) (h : IsHeap heap) :
    IsHeap (extractMax heap).2 ∧ ((extractMax heap).1 :: (extractMax heap).2).Perm heap ∧
      ∀ y ∈ (extractMax heap).2, y.score ≤ (extractMax heap).1.score := by
  cases heap with
  | nil => exact absurd rfl hne
  | cons m rest =>
    have hroot : ∀ y ∈ m :: rest, y.score ≤ m.score := by
      intro y hy
      have := isHeap_mem_le_root (m :: rest) h y hy
      simpa [scoreAt, elemAt] using this
    cases hrest : rest with
    | nil =>
      subst hrest
      simp [extractMax, isHeap_nil]
    | cons r rest2 =>
      have hrne : rest ≠ [] := by simp [hrest]
      have hlast : (m :: rest).getLast (by simp) = rest.getLast hrne := by
        simp [List.getLast_cons hrne]
      have hheap1 : ((m :: rest).set 0 ((m :: rest).getLast (by simp))).dropLast
          = rest.getLast hrne :: rest.dropLast := by
        rw [hlast]
        simp only [List.set_cons_zero]
        rw [List.dropLast_cons_of_ne_nil hrne]
      have hperm : (m :: rest.getLast hrne :: rest.dropLast).Perm (m :: rest) := by
        apply List.Perm.cons
        have h1 : (rest.getLast hrne :: rest.dropLast).Perm (rest.dropLast ++ [rest.getLast hrne]) := by
          simpa using (@List.perm_append_comm _ [rest.getLast hrne] rest.dropLast)
        rw [List.dropLast_append_getLast hrne] at h1
        exact h1
      have hlen1 : (rest.getLast hrne :: rest.dropLast).length = rest.length := by
        simp only [List.length_cons, List.length_dropLast]
        have : 0 < rest.length := List.length_pos.mpr hrne
        omega
      have hsc : ∀ j, 0 < j → j < rest.length →
          scoreAt (rest.getLast hrne :: rest.dropLast) j = scoreAt (m :: rest) j := by
        intro j hj hjl
        obtain ⟨k, rfl⟩ : ∃ k, j = k + 1 := ⟨j - 1, by omega⟩
        have hk : k < rest.dropLast.length := by
          simp only [List.length_dropLast]
          omega
        simp only [scoreAt, elemAt, List.getD_eq_getElem?_getD, List.getElem?_cons_succ]
        rw [List.getElem?_eq_getElem hk, List.getElem?_eq_getElem (by omega : k < rest.length)]
        simp [List.getElem_dropLast]
      have hdown := heapifyDown_spec (rest.getLast hrne :: rest.dropLast).length
        (rest.getLast hrne :: rest.dropLast) 0 (by omega) (by simp) ?_ ?_
      · have hex : extractMax (m :: rest) =
            (m, heapifyDown (rest.getLast hrne :: rest.dropLast) 0) := by
          simp only [extractMax]
          rw [hheap1]
          simp
        rw [← hrest, hex]
        refine ⟨hdown.1, (hdown.2.cons m).trans hperm, ?_⟩
        intro y hy
        have hy1 : y ∈ rest.getLast hrne :: rest.dropLast := hdown.2.subset hy
        have hy2 : y ∈ m :: rest := hperm.subset (List.mem_cons_of_mem m hy1)
        exact hroot y hy2
      · intro j hj hjl hpar
        rw [hlen1] at hjl
        rw [hsc j hj hjl, hsc ((j - 1) / 2) (by omega) (by omega)]
        exact h j hj (by simp only [List.length_cons]; omega)
      · intro j _ _ _ h0
        exact absurd h0 (lt_irrefl 0)

end MatchHeap

namespace MatchHeap

theorem getTopKLoop_spec :
    ∀ (k : Nat) (heap acc : List MatchCandidate), IsHeap heap →
      ∃ taken rest, getTopKLoop k heap acc = acc ++ taken ∧ (taken ++ rest).Perm heap ∧
        taken.length = min k heap.length ∧
        (taken.map (fun c => c.score)).Sorted (fun a b => a ≥ b) ∧
        ∀ x ∈ taken, ∀ y ∈ rest, y.score ≤ x.score := by
  intro k
  induction k with
  | zero =>
    intro heap acc _
    exact ⟨[], heap, by simp [getTopKLoop], by simp, by simp, by simp, by simp⟩
  | succ k ih =>
    intro heap acc h
    by_cases hne : heap = []
    · subst hne
      exact ⟨[], [], by simp [getTopKLoop], by simp, by simp, by simp, by simp⟩
    · obtain ⟨hheap, hperm, hmax⟩ := extractMax_spec heap hne h
      obtain ⟨taken, rest, hrun, hp, hlen, hsorted, hle⟩ :=
        ih (extractMax heap).2 (acc ++ [(extractMax heap).1]) hheap
      have hsub : ∀ y, y ∈ taken ++ rest → y.score ≤ (extractMax heap).1.score := by
        intro y hy
        exact hmax y (hp.subset hy)
      refine ⟨(extractMax heap).1 :: taken, rest, ?_, ?_, ?_, ?_, ?_⟩
      · rw [getTopKLoop]
        simp only [hne, if_false]
        rw [hrun]
        simp
      · exact ((hp.cons _).trans hperm)
      · have hl : heap.length = (extractMax heap).2.length + 1 := by
          have := hperm.length_eq
          simp only [List.length_cons] at this
          omega
        simp only [List.length_cons, hlen, hl]
        omega
      · simp only [List.map_cons, List.sorted_cons]
        refine ⟨?_, hsorted⟩
        intro b hb
        obtain ⟨y, hy, rfl⟩ := List.mem_map.mp hb
        exact hsub y (List.mem_append_left _ hy)
      · intro x hx y hy
        rcases List.mem_cons.mp hx with hx | hx
        · subst hx
          exact hsub y (List.mem_append_right _ hy)
        · exact hle x hx y hy

theorem getTopK_spec (heap : List MatchCandidate) (k : Nat) (h : IsHeap heap) :
    ∃ rest, (getTopK heap k ++ rest).Perm heap ∧
      (getTopK heap k).length = min k heap.length ∧
      ((getTopK heap k).map (fun c => c.score)).Sorted (fun a b => a ≥ b) ∧
      ∀ x ∈ getTopK heap k, ∀ y ∈ rest, y.score ≤ x.score := by
  obtain ⟨taken, rest, hrun, hp, hlen, hsorted, hle⟩ := getTopKLoop_spec k heap [] h
  have : getTopK heap k = taken := by simpa [getTopK] using hrun
  rw [this]
  exact ⟨rest, hp, hlen, hsorted, hle⟩

theorem sorted_take_unique (taken rest l : List MatchCandidate)
    (hperm : (taken ++ rest).Perm l)
    (hs : (taken.map (fun c => c.score)).Sorted (fun a b => a ≥ b))
    (hle : ∀ x ∈ taken, ∀ y ∈ rest, y.score ≤ x.score) :
    taken.map (fun c => c.score) =
      ((l.map (fun c => c.score)).insertionSort (fun a b => a ≥ b)).take taken.length := by
  have hS := List.sorted_insertionSort (fun a b : Int => a ≥ b) (rest.map (fun c => c.score))
  have hP := List.perm_insertionSort (fun a b : Int => a ≥ b) (rest.map (fun c => c.score))
  have hA : (taken.map (fun c => c.score) ++
      (rest.map (fun c => c.score)).insertionSort (fun a b => a ≥ b)).Sorted
        (fun a b => a ≥ b) := by
    unfold List.Sorted
    rw [List.pairwise_append]
    refine ⟨hs, hS, ?_⟩
    intro a ha b hb
    obtain ⟨x, hx, rfl⟩ := List.mem_map.mp ha
    obtain ⟨y, hy, rfl⟩ := List.mem_map.mp (hP.subset hb)
    exact hle x hx y hy
  have hperm2 : (taken.map (fun c => c.score) ++
      (rest.map (fun c => c.score)).insertionSort (fun a b => a ≥ b)).Perm
        ((l.map (fun c => c.score)).insertionSort (fun a b => a ≥ b)) := by
    have h1 : (taken.map (fun c => c.score) ++ rest.map (fun c => c.score)).Perm
        (l.map (fun c => c.score)) := by
      rw [← List.map_append]
      exact hperm.map _
    exact ((List.Perm.append_left _ hP).trans h1).trans
      (List.perm_insertionSort (fun a b : Int => a ≥ b) _).symm
  have heq := List.eq_of_perm_of_sorted hperm2 hA
    (List.sorted_insertionSort (fun a b : Int => a ≥ b) _)
  rw [← heq]
  rw [List.take_left' (by simp)]

end MatchHeap

/-! ### Matching -/

namespace LostFoundSystem

theorem calculateProximityScore_nonneg (loc1 loc2 : String) :
    0 ≤ calculateProximityScore loc1 loc2 := by
  unfold calculateProximityScore
  simp only
  split_ifs
  · exact le_refl _
  · decide
  · exact le_max_left _ _

theorem calculateColorScore_nonneg (c1 c2 : String) : 0 ≤ calculateColorScore c1 c2 := by
  unfold calculateColorScore
  split_ifs <;> decide

theorem calculateCategoryScore_nonneg (c1 c2 : Category) : 0 ≤ calculateCategoryScore c1 c2 := by
  unfold calculateCategoryScore
  split_ifs <;> decide

theorem makeCandidate_score_pos (name color location : String) (category : Category)
    (it : Item) (h : 0 < (makeCandidate name color location category it).nameScore) :
    0 < (makeCandidate name color location category it).score := by
  simp only [makeCandidate] at h ⊢
  have h1 := calculateColorScore_nonneg color it.color
  have h2 := calculateProximityScore_nonneg location it.location
  have h3 := calculateCategoryScore_nonneg category it.category
  omega

theorem fillHeap_spec (name color location : String) (category : Category) :
    ∀ (items : List Item) (heap : List MatchCandidate), MatchHeap.IsHeap heap →
      MatchHeap.IsHeap (fillHeap name color location category items heap) ∧
      (fillHeap name color location category items heap).Perm
        ((items.filter (fun it => !it.archived && decide (0 < calculateNameScore name it.name))).map
          (makeCandidate name color location category) ++ heap) := by
  intro items
  induction items with
  | nil =>
    intro heap h
    exact ⟨h, by simp [fillHeap]⟩
  | cons it rest ih =>
    intro heap h
    rw [fillHeap]
    by_cases harch : it.archived = true
    · simp only [harch, if_true]
      have := ih heap h
      refine ⟨this.1, ?_⟩
      simpa [List.filter_cons, harch] using this.2
    · have harch' : it.archived = false := by simpa using harch
      simp only [harch', Bool.false_eq_true, if_false]
      by_cases hn : 0 < calculateNameScore name it.name
      · have hn' : (makeCandidate name color location category it).nameScore > 0 := hn
        have hs := makeCandidate_score_pos name color location category it hn
        simp only [hn', hs, gt_iff_lt, and_self, if_true]
        have hins := MatchHeap.insert_spec heap (makeCandidate name color location category it) h
        have := ih _ hins.1
        refine ⟨this.1, this.2.trans ?_⟩
        simp only [List.filter_cons, harch', hn, Bool.not_false, Bool.true_and, decide_True,
          if_true, List.map_cons, List.cons_append]
        exact (List.Perm.append_left _ hins.2).trans List.perm_middle
      · have hn' : ¬ ((makeCandidate name color location category it).nameScore > 0 ∧
            (makeCandidate name color location category it).score > 0) := fun hh => hn hh.1
        simp only [hn', if_false]
        have := ih heap h
        refine ⟨this.1, ?_⟩
        simpa [List.filter_cons, harch', hn] using this.2

theorem eligible_eq_filter (m : ItemHashMap) (name : String) :
    (m.getItemsByType "lost").filter
        (fun it => !it.archived && decide (0 < calculateNameScore name it.name)) =
      eligibleLostItems m name := by
  unfold ItemHashMap.getItemsByType eligibleLostItems ItemHashMap.getAllItems
  induction m.items with
  | nil => rfl
  | cons p rest ih =>
    by_cases ht : (p.2.type == "lost") = true
    · by_cases hq : (!p.2.archived && decide (0 < calculateNameScore name p.2.name)) = true
      · simp [List.filter_cons, ht, hq, ih, Bool.and_assoc]
      · simp [List.filter_cons, ht, hq, ih, Bool.and_assoc]
    · simp [List.filter_cons, ht, ih, Bool.and_assoc]

theorem reportFoundItem_fst (s : LostFoundSystem) (now : Int)
    (name color location finder description categoryStr email : String) :
    (s.reportFoundItem now name color location finder description categoryStr email).1 =
      s.generateId.1.store (Item.create s.generateId.2 name color location finder "found" now
        description (stringToCategory categoryStr) email) := rfl

theorem reportFoundItem_snd (s : LostFoundSystem) (now : Int)
    (name color location finder description categoryStr email : String) :
    (s.reportFoundItem now name color location finder description categoryStr email).2 =
      MatchHeap.getTopK (fillHeap name color location (stringToCategory categoryStr)
        ((s.reportFoundItem now name color location finder description categoryStr
          email).1.itemMap.getItemsByType "lost") []) 10 := rfl

theorem reportFoundItem_matches (s : LostFoundSystem) (now : Int)
    (name color location finder description categoryStr email : String) :
    ∃ leftOut,
      ((s.reportFoundItem now name color location finder description categoryStr email).2
          ++ leftOut).Perm
        (eligibleCandidates
          (s.reportFoundItem now name color location finder description categoryStr email).1.itemMap
          name color location (stringToCategory categoryStr)) ∧
      (s.reportFoundItem now name color location finder description categoryStr email).2.length =
        min 10 (eligibleCandidates
          (s.reportFoundItem now name color location finder description categoryStr email).1.itemMap
          name color location (stringToCategory categoryStr)).length ∧
      ((s.reportFoundItem now name color location finder description categoryStr email).2.map
        (fun c => c.score)).Sorted (fun a b => a ≥ b) ∧
      ∀ x ∈ (s.reportFoundItem now name color location finder description categoryStr email).2,
        ∀ y ∈ leftOut, y.score ≤ x.score := by
  rw [reportFoundItem_snd]
  generalize (s.reportFoundItem now name color location finder description categoryStr
    email).1.itemMap = registry
  have hfill := fillHeap_spec name color location (stringToCategory categoryStr)
    (registry.getItemsByType "lost") [] MatchHeap.isHeap_nil
  obtain ⟨rest, hp, hlen, hsorted, hle⟩ := MatchHeap.getTopK_spec _ 10 hfill.1
  have hperm := hfill.2
  rw [List.append_nil, eligible_eq_filter] at hperm
  refine ⟨rest, hp.trans hperm, ?_, hsorted, hle⟩
  rw [hlen]
  exact congrArg _ hperm.length_eq

end LostFoundSystem

namespace ItemHashMap

theorem mem_insert (m : ItemHashMap) (id : String) (item : Item) (p : String × Item)
    (hp : p ∈ (m.insert id item).items) :
    (p ∈ m.items ∧ p.1 ≠ id) ∨ p = (id, item) := by
  unfold insert at hp
  split_ifs at hp with h
  · simp only [List.mem_map] at hp
    obtain ⟨q, hq, rfl⟩ := hp
    by_cases hk : q.1 = id
    · right
      simp [hk]
    · left
      simp [hk, hq]
  · rcases List.mem_append.mp hp with h1 | h1
    · left
      refine ⟨h1, ?_⟩
      intro hk
      apply h
      simp only [«exists», List.any_eq_true, beq_iff_eq]
      exact ⟨p, h1, hk⟩
    · right
      simpa using h1

end ItemHashMap

namespace LostFoundSystem

theorem mem_reportFoundItem (s : LostFoundSystem) (now : Int)
    (name color location finder description categoryStr email : String) (c : MatchCandidate)
    (hc : c ∈ (s.reportFoundItem now name color location finder description categoryStr email).2) :
    ∃ p ∈ (s.reportFoundItem now name color location finder description categoryStr
        email).1.itemMap.items,
      c = makeCandidate name color location (stringToCategory categoryStr) p.2 ∧
      p.2.type = "lost" ∧ p.2.archived = false ∧ 0 < calculateNameScore name p.2.name := by
  obtain ⟨rest, hperm, -, -, -⟩ :=
    reportFoundItem_matches s now name color location finder description categoryStr email
  have hmem := hperm.subset (List.mem_append_left rest hc)
  unfold eligibleCandidates eligibleLostItems ItemHashMap.getAllItems at hmem
  simp only [List.mem_map, List.mem_filter, Bool.and_eq_true, beq_iff_eq, Bool.not_eq_true',
    decide_eq_true_eq] at hmem
  obtain ⟨it, ⟨⟨p, hp, rfl⟩, ⟨ht, ha⟩, hn⟩, rfl⟩ := hmem
  exact ⟨p, hp, rfl, ht, ha, hn⟩

/-- C1. The scores returned by `reportFoundItem` are the first `min 10 n` entries of the
non-increasingly sorted scores of the `n` eligible lost items: at most ten entries, sorted by
score descending, and no eligible candidate left out scores above a returned one. -/
theorem reportFoundItem_topK (s : LostFoundSystem) (now : Int)
    (name color location finder description categoryStr email : String) :
    (s.reportFoundItem now name color location finder description categoryStr email).2.map
        (fun c => c.score) =
      (((eligibleCandidates
          (s.reportFoundItem now name color location finder description categoryStr email).1.itemMap
          name color location (stringToCategory categoryStr)).map (fun c => c.score)).insertionSort
        (fun a b => a ≥ b)).take
        (min 10 (eligibleCandidates
          (s.reportFoundItem now name color location finder description categoryStr email).1.itemMap
          name color location (stringToCategory categoryStr)).length) ∧
    (s.reportFoundItem now name color location finder description categoryStr email).2.length ≤ 10 ∧
    ((s.reportFoundItem now name color location finder description categoryStr email).2.map
        (fun c => c.score)).Sorted (fun a b => a ≥ b) ∧
    ∃ leftOut,
      ((s.reportFoundItem now name color location finder description categoryStr email).2
          ++ leftOut).Perm
        (eligibleCandidates
          (s.reportFoundItem now name color location finder description categoryStr email).1.itemMap
          name color location (stringToCategory categoryStr)) ∧
      ∀ x ∈ (s.reportFoundItem now name color location finder description categoryStr email).2,
        ∀ y ∈ leftOut, y.score ≤ x.score := by
  obtain ⟨rest, hperm, hlen, hsorted, hle⟩ :=
    reportFoundItem_matches s now name color location finder description categoryStr email
  refine ⟨?_, ?_, hsorted, rest, hperm, hle⟩
  · rw [← hlen]
    exact MatchHeap.sorted_take_unique _ rest _ hperm hsorted hle
  · rw [hlen]
    exact min_le_left _ _

theorem keysMatch_insert (m : ItemHashMap) (item : Item) (h : KeysMatch m) :
    KeysMatch (m.insert item.id item) := by
  intro p hp
  rcases ItemHashMap.mem_insert m item.id item p hp with h1 | h1
  · exact h p h1.1
  · rw [h1]

theorem keysMatch_fresh : KeysMatch fresh.itemMap := by
  intro p hp
  simp [fresh, ItemHashMap.empty] at hp

theorem keysMatch_reportLostItem (s : LostFoundSystem) (now : Int)
    (name color location owner description categoryStr email : String)
    (h : KeysMatch s.itemMap) :
    KeysMatch (s.reportLostItem now name color location owner description categoryStr
      email).1.itemMap :=
  keysMatch_insert s.itemMap _ h

theorem keysMatch_reportFoundItem (s : LostFoundSystem) (now : Int)
    (name color location finder description categoryStr email : String)
    (h : KeysMatch s.itemMap) :
    KeysMatch (s.reportFoundItem now name color location finder description categoryStr
      email).1.itemMap :=
  keysMatch_insert s.itemMap _ h

/-- C2. Every candidate returned by `reportFoundItem` is built from a registry entry that was
in the registry before the report, is not the entry of the new found item, and whose item has
type "lost", is not archived and has a positive name score; in a registry that stores every
item under its own id no candidate carries the id of the new found item. -/
theorem reportFoundItem_candidates_eligible (s : LostFoundSystem) (now : Int)
    (name color location finder description categoryStr email : String) :
    ∀ c ∈ (s.reportFoundItem now name color location finder description categoryStr email).2,
      (∃ p ∈ (s.reportFoundItem now name color location finder description categoryStr
          email).1.itemMap.items,
        p ∈ s.itemMap.items ∧ p.1 ≠ s.generateId.2 ∧ p.2.id = c.itemId ∧ p.2.type = "lost" ∧
        p.2.archived = false ∧ 0 < calculateNameScore name p.2.name ∧
        c.nameScore = calculateNameScore name p.2.name) ∧
      (KeysMatch s.itemMap → c.itemId ≠ s.generateId.2) := by
  intro c hc
  obtain ⟨p, hp, rfl, ht, ha, hn⟩ :=
    mem_reportFoundItem s now name color location finder description categoryStr email c hc
  rw [reportFoundItem_fst] at hp
  have hp' := ItemHashMap.mem_insert _ _ _ p hp
  have hnot : p ≠ ((Item.create s.generateId.2 name color location finder "found" now
      description (stringToCategory categoryStr) email).id,
      Item.create s.generateId.2 name color location finder "found" now
      description (stringToCategory categoryStr) email) := by
    intro h
    rw [h] at ht
    simp [Item.create] at ht
  rcases hp' with ⟨hmem, hkey⟩ | hfound
  · refine ⟨⟨p, ?_, hmem, hkey, rfl, ht, ha, hn, rfl⟩, ?_⟩
    · rw [reportFoundItem_fst]
      exact hp
    · intro hk
      have := hk p hmem
      show p.2.id ≠ s.generateId.2
      rw [← this]
      exact hkey
  · exact absurd hfound hnot

/-- C4. Every returned candidate's score is the sum of its name, colour and proximity scores
and the category score, where the colour score is 5 for equal lower-cased colours and 0
otherwise and the category score is 8 for equal categories and 0 otherwise. -/
theorem reportFoundItem_score_sum (s : LostFoundSystem) (now : Int)
    (name color location finder description categoryStr email : String) :
    ∀ c ∈ (s.reportFoundItem now name color location finder description categoryStr email).2,
      ∃ it ∈ (s.reportFoundItem now name color location finder description categoryStr
          email).1.itemMap.getAllItems,
        it.id = c.itemId ∧ it.type = "lost" ∧
        c.score = c.nameScore + c.colorScore + c.proximityScore +
          (if stringToCategory categoryStr = it.category then 8 else 0) ∧
        c.nameScore = calculateNameScore name it.name ∧
        c.colorScore = (if toLower color = toLower it.color then 5 else 0) ∧
        c.proximityScore = calculateProximityScore location it.location := by
  intro c hc
  obtain ⟨p, hp, rfl, ht, -, -⟩ :=
    mem_reportFoundItem s now name color location finder description categoryStr email c hc
  refine ⟨p.2, List.mem_map.mpr ⟨p, hp, rfl⟩, ?_, ht, ?_, ?_, ?_, ?_⟩
  · simp only [makeCandidate]
  · simp only [makeCandidate, calculateCategoryScore]
  · simp only [makeCandidate]
  · simp only [makeCandidate, calculateColorScore]
  · simp only [makeCandidate]

end LostFoundSystem

namespace LostFoundSystem

theorem getTopK_singleton (c : MatchCandidate) : MatchHeap.getTopK [c] 10 = [c] := by
  simp [MatchHeap.getTopK, MatchHeap.getTopKLoop, MatchHeap.extractMax]

theorem insert_nil (c : MatchCandidate) : MatchHeap.insert [] c = [c] := by
  unfold MatchHeap.insert
  rw [MatchHeap.heapifyUp]
  simp

theorem calculateNameScore_self (name : String) : calculateNameScore name name = 10 := by
  simp [calculateNameScore]

theorem calculateColorScore_self (color : String) : calculateColorScore color color = 5 := by
  simp [calculateColorScore]

theorem calculateProximityScore_unknown (loc : String)
    (h : campusGraph.contains (toLower loc) = false) : calculateProximityScore loc loc = 0 := by
  simp [calculateProximityScore, LocationGraph.getDistance, h]

theorem calculateProximityScore_known (loc : String)
    (h : campusGraph.contains (toLower loc) = true) : calculateProximityScore loc loc = 15 := by
  have := getDistance_same campusGraph (toLower loc) h
  simp only [calculateProximityScore, this]
  decide

theorem scenario_matches (t1 t2 : Int) (loc c owner finder d1 d2 e1 e2 : String) :
    (reportFoundItem (reportLostItem fresh t1 "blue backpack" c loc owner d1 "bags" e1).1 t2
      "blue backpack" c loc finder d2 "bags" e2).2 =
      [makeCandidate "blue backpack" c loc Category.BAGS
        (Item.create "ITEM-000001" "blue backpack" c loc owner "lost" t1 d1 Category.BAGS e1)] := by
  have hcat : stringToCategory "bags" = Category.BAGS := by decide
  have hid1 : fresh.generateId.2 = "ITEM-000001" := by decide
  have hid2 : "ITEM-" ++ padSix (wrapInt (wrapInt (0 + 1) + 1)) = "ITEM-000002" := by decide
  have hne : ("ITEM-000001" == "ITEM-000002") = false := by decide
  rw [reportFoundItem_snd, reportFoundItem_fst]
  simp only [reportLostItem, hcat, hid1]
  simp only [store, generateId, hid2, fresh, ItemHashMap.empty, ItemHashMap.insert,
    ItemHashMap.exists, Item.create, List.any_nil, Bool.false_eq_true, if_false, List.nil_append,
    List.any_cons, hne, Bool.or_false, List.cons_append, ItemHashMap.getItemsByType,
    List.filter_cons, List.filter_nil, List.map_cons, List.map_nil]
  simp only [show ("lost" == "lost") = true by decide, show ("found" == "lost") = false by decide,
    if_true, Bool.false_eq_true, if_false, List.map_cons, List.map_nil]
  rw [fillHeap]
  simp only [Bool.false_eq_true, if_false]
  have hn : (makeCandidate "blue backpack" c loc Category.BAGS
      { id := "ITEM-000001", name := "blue backpack", color := c, location := loc, owner := owner,
        email := e1, type := "lost", timestamp := t1, description := d1,
        category := Category.BAGS, archived := false, expiresAt := t1 + 30 * 24 * 60 * 60,
        claimed := false, claimedBy := "", claimedAt := 0 }).nameScore > 0 := by
    simp only [makeCandidate, calculateNameScore_self]
    decide
  have hs := makeCandidate_score_pos _ _ _ _ _ hn
  simp only [hn, hs, and_self, if_true, gt_iff_lt, fillHeap, insert_nil, getTopK_singleton]

end LostFoundSystem

namespace LostFoundSystem

theorem reportFoundItem_candidates_eligible_witness :
    sampleCandidate ∈ (sampleSystem.reportFoundItem 200 "blue backpack" "blue" "cafeteria"
        "finder" "" "bags" "").2 ∧
      KeysMatch sampleSystem.itemMap ∧
      ((∃ p ∈ (sampleSystem.reportFoundItem 200 "blue backpack" "blue" "cafeteria" "finder" ""
          "bags" "").1.itemMap.items,
        p ∈ sampleSystem.itemMap.items ∧ p.1 ≠ sampleSystem.generateId.2 ∧
        p.2.id = sampleCandidate.itemId ∧ p.2.type = "lost" ∧
        p.2.archived = false ∧ 0 < calculateNameScore "blue backpack" p.2.name ∧
        sampleCandidate.nameScore = calculateNameScore "blue backpack" p.2.name) ∧
      (KeysMatch sampleSystem.itemMap → sampleCandidate.itemId ≠ sampleSystem.generateId.2)) :=
  ⟨by decide!, keysMatch_reportLostItem fresh 100 "blue backpack" "blue" "cafeteria" "owner" ""
      "bags" "" keysMatch_fresh,
    reportFoundItem_candidates_eligible sampleSystem 200 "blue backpack" "blue"
      "cafeteria" "finder" "" "bags" "" sampleCandidate (by decide!)⟩

theorem reportFoundItem_score_sum_witness :
    sampleCandidate ∈ (sampleSystem.reportFoundItem 200 "blue backpack" "blue" "cafeteria"
        "finder" "" "bags" "").2 ∧
      ∃ it ∈ (sampleSystem.reportFoundItem 200 "blue backpack" "blue" "cafeteria" "finder" ""
          "bags" "").1.itemMap.getAllItems,
        it.id = sampleCandidate.itemId ∧ it.type = "lost" ∧
        sampleCandidate.score = sampleCandidate.nameScore + sampleCandidate.colorScore +
          sampleCandidate.proximityScore +
          (if stringToCategory "bags" = it.category then 8 else 0) ∧
        sampleCandidate.nameScore = calculateNameScore "blue backpack" it.name ∧
        sampleCandidate.colorScore = (if toLower "blue" = toLower it.color then 5 else 0) ∧
        sampleCandidate.proximityScore = calculateProximityScore "cafeteria" it.location :=
  ⟨by decide!, reportFoundItem_score_sum sampleSystem 200 "blue backpack" "blue" "cafeteria"
    "finder" "" "bags" "" sampleCandidate (by decide!)⟩

/-- C3, as stated, fails: with both reports at "library" no returned candidate scores 38. -/
theorem scenario_library_counterexample :
    ¬ ∃ c ∈ (reportFoundItem (reportLostItem fresh 100 "blue backpack" "blue" "library" "owner" ""
        "bags" "").1 200 "blue backpack" "blue" "library" "finder" "" "bags" "").2,
      c.score = 38 := by
  decide!

/-- C3, amended. In a fresh system, after a lost "blue backpack" of colour `c` and category
"bags" is reported at "library", reporting it found with the same colour, location and category
returns that lost item with total score 23: name 10, colour 5, proximity 0 because "library" is
not a location of the campus graph, category 8. The total is 38, with proximity 15, when the
common location is one of the campus graph. -/
theorem scenario_library_score (t1 t2 : Int) (c owner finder d1 d2 e1 e2 : String) :
    (∃ m ∈ (reportFoundItem (reportLostItem fresh t1 "blue backpack" c "library" owner d1
          "bags" e1).1 t2 "blue backpack" c "library" finder d2 "bags" e2).2,
        m.itemId = (reportLostItem fresh t1 "blue backpack" c "library" owner d1 "bags" e1).2 ∧
        m.score = 23 ∧ m.nameScore = 10 ∧ m.colorScore = 5 ∧ m.proximityScore = 0 ∧
        calculateCategoryScore (stringToCategory "bags") (stringToCategory "bags") = 8) ∧
    (∀ loc, campusGraph.contains (toLower loc) = true →
      ∃ m ∈ (reportFoundItem (reportLostItem fresh t1 "blue backpack" c loc owner d1
          "bags" e1).1 t2 "blue backpack" c loc finder d2 "bags" e2).2,
        m.itemId = (reportLostItem fresh t1 "blue backpack" c loc owner d1 "bags" e1).2 ∧
        m.score = 38 ∧ m.nameScore = 10 ∧ m.colorScore = 5 ∧ m.proximityScore = 15) := by
  have hid : ∀ loc, (reportLostItem fresh t1 "blue backpack" c loc owner d1 "bags" e1).2
      = "ITEM-000001" := by
    intro loc
    simp only [reportLostItem]
    decide
  have hcat : calculateCategoryScore Category.BAGS Category.BAGS = 8 := by decide
  have hlib : campusGraph.contains (toLower "library") = false := by decide!
  constructor
  · rw [scenario_matches]
    refine ⟨_, List.mem_singleton.mpr rfl, ?_⟩
    simp only [makeCandidate, Item.create, calculateNameScore_self, calculateColorScore_self,
      calculateProximityScore_unknown "library" hlib, hcat, hid]
    decide
  · intro loc hloc
    rw [scenario_matches]
    refine ⟨_, List.mem_singleton.mpr rfl, ?_⟩
    simp only [makeCandidate, Item.create, calculateNameScore_self, calculateColorScore_self,
      calculateProximityScore_known loc hloc, hcat, hid]
    decide

end LostFoundSystem

/-! ### Shortest distances -/

namespace LocationGraph

theorem wrapInt_of_range (x : Int) (h1 : -2147483648 ≤ x) (h2 : x ≤ 2147483647) :
    wrapInt x = x := by
  unfold wrapInt
  omega

theorem wrapInt_range (x : Int) : INT_MIN ≤ wrapInt x ∧ wrapInt x ≤ INT_MAX := by
  unfold wrapInt INT_MIN INT_MAX
  omega

theorem contains_iff (g : LocationGraph) (v : String) :
    g.contains v = true ↔ ∃ p ∈ g.adjacencyList, p.1 = v := by
  simp [contains, List.any_eq_true]

theorem neighbors_mem (g : LocationGraph) (v x : String) (w : Int)
    (h : (x, w) ∈ g.neighbors v) : ∃ p ∈ g.adjacencyList, p.1 = v ∧ (x, w) ∈ p.2 := by
  unfold neighbors at h
  split at h
  · rename_i p hp
    have h1 := List.find?_some hp
    have h2 := List.mem_of_find?_eq_some hp
    exact ⟨p, h2, by simpa using h1, h⟩
  · simp at h

theorem neighbors_contains (g : LocationGraph) (v x : String) (w : Int)
    (h : (x, w) ∈ g.neighbors v) : g.contains v = true := by
  obtain ⟨p, hp, hk, -⟩ := neighbors_mem g v x w h
  exact (contains_iff g v).mpr ⟨p, hp, hk⟩

theorem neighbors_mem_entries (g : LocationGraph) (v x : String) (w : Int)
    (h : (x, w) ∈ g.neighbors v) : (v, x, w) ∈ g.entries := by
  obtain ⟨p, hp, hk, hm⟩ := neighbors_mem g v x w h
  unfold entries
  rw [List.mem_flatMap]
  refine ⟨p, hp, ?_⟩
  rw [List.mem_map]
  exact ⟨(x, w), hm, by simp [hk]⟩

theorem pqTop_none (pq : List (Int × String)) : pqTop pq = none ↔ pq = [] := by
  cases pq with
  | nil => simp [pqTop]
  | cons a rest =>
    simp only [pqTop]
    split <;> [simp; (split <;> simp)]

theorem pqTop_mem :
    ∀ (pq : List (Int × String)) (m : Int × String), pqTop pq = some m → m ∈ pq := by
  intro pq
  induction pq with
  | nil => intro m h; simp [pqTop] at h
  | cons a rest ih =>
    intro m h
    simp only [pqTop] at h
    split at h
    · simp only [Option.some.injEq] at h
      simp [h]
    · rename_i b hb
      split at h
      · simp only [Option.some.injEq] at h
        subst h
        exact List.mem_cons_of_mem _ (ih b hb)
      · simp only [Option.some.injEq] at h
        simp [h]

theorem pqTop_le :
    ∀ (pq : List (Int × String)) (m : Int × String), pqTop pq = some m →
      ∀ q ∈ pq, m.1 ≤ q.1 := by
  intro pq
  induction pq with
  | nil => intro m h; simp [pqTop] at h
  | cons a rest ih =>
    intro m h q hq
    simp only [pqTop] at h
    split at h
    · rename_i hnone
      have hr : rest = [] := (pqTop_none rest).mp hnone
      subst hr
      simp only [Option.some.injEq] at h
      subst h
      simp only [List.mem_singleton] at hq
      subst hq
      exact le_refl _
    · rename_i b hb
      have hbmin := ih b hb
      by_cases hlt : pairLt b a = true
      · simp only [hlt, if_true, Option.some.injEq] at h
        subst h
        rcases List.mem_cons.mp hq with hq | hq
        · subst hq
          simp only [pairLt, Bool.or_eq_true, decide_eq_true_eq, Bool.and_eq_true] at hlt
          rcases hlt with h1 | h1
          · exact le_of_lt h1
          · exact le_of_eq h1.1
        · exact hbmin q hq
      · simp only [hlt, if_false, Option.some.injEq, Bool.false_eq_true] at h
        subst h
        have hab : a.1 ≤ b.1 := by
          simp only [pairLt, Bool.or_eq_true, decide_eq_true_eq, Bool.and_eq_true, not_or,
            not_and, not_lt] at hlt
          exact hlt.1
        rcases List.mem_cons.mp hq with hq | hq
        · subst hq
          exact le_refl _
        · exact le_trans hab (hbmin q hq)

end LocationGraph

namespace LocationGraph

theorem walk_contains (g : LocationGraph) (hc : g.Closed) (s : String)
    (hs : g.contains s = true) (v : String) (W : Int) (h : Walk g s v W) :
    g.contains v = true := by
  induction h with
  | nil => exact hs
  | snoc _ he _ => exact hc _ _ _ he

theorem walk_nonneg (g : LocationGraph) (hp : g.PositiveWeights) (s v : String) (W : Int)
    (h : Walk g s v W) : 0 ≤ W := by
  induction h with
  | nil => exact le_refl _
  | snoc _ he ih =>
    have := hp _ _ _ he
    omega

theorem walk_trans (g : LocationGraph) (a b c : String) (W1 W2 : Int)
    (h1 : Walk g a b W1) (h2 : Walk g b c W2) : Walk g a c (W1 + W2) := by
  induction h2 with
  | nil => simpa using h1
  | snoc _ he ih =>
    rw [← add_assoc]
    exact Walk.snoc ih he

namespace GoodPath

variable {g : LocationGraph} {s : String} {D : String → Int}

theorem walk {v : String} {W : Int} {steps : List (String × String × Int)}
    (h : GoodPath g s D v W steps) : Walk g s v W := by
  induction h with
  | nil _ => exact Walk.nil
  | snoc _ _ he _ ih => exact Walk.snoc ih he

theorem mono {D1 : String → Int} (hle : ∀ v, D1 v ≤ D v) {v : String} {W : Int}
    {steps : List (String × String × Int)} (h : GoodPath g s D v W steps) :
    GoodPath g s D1 v W steps := by
  induction h with
  | nil h0 => exact GoodPath.nil (le_trans (hle s) h0)
  | snoc _ hn he hd ih => exact GoodPath.snoc ih hn he (le_trans (hle _) hd)

theorem weight_eq {v : String} {W : Int} {steps : List (String × String × Int)}
    (h : GoodPath g s D v W steps) : W = (steps.map (fun t => t.2.2)).sum := by
  induction h with
  | nil _ => simp
  | snoc _ _ _ _ ih =>
    simp only [List.map_cons, List.sum_cons]
    omega

theorem nodup {v : String} {W : Int} {steps : List (String × String × Int)}
    (h : GoodPath g s D v W steps) : (steps.map (fun t => t.1)).Nodup := by
  induction h with
  | nil _ => simp
  | snoc _ hn _ _ ih =>
    simp only [List.map_cons, List.nodup_cons]
    exact ⟨hn, ih⟩

theorem subset_entries {v : String} {W : Int} {steps : List (String × String × Int)}
    (h : GoodPath g s D v W steps) : ∀ t ∈ steps, t ∈ g.entries := by
  induction h with
  | nil _ => simp
  | snoc _ _ he _ ih =>
    intro t ht
    rcases List.mem_cons.mp ht with ht | ht
    · subst ht
      exact neighbors_mem_entries g _ _ _ he
    · exact ih t ht

theorem end_le {v : String} {W : Int} {steps : List (String × String × Int)}
    (h : GoodPath g s D v W steps) : D v ≤ W := by
  cases h with
  | nil h0 => exact h0
  | snoc _ _ _ hd => exact hd

theorem nonneg (hp : g.PositiveWeights) {v : String} {W : Int}
    {steps : List (String × String × Int)} (h : GoodPath g s D v W steps) : 0 ≤ W :=
  walk_nonneg g hp s v W h.walk

theorem source_lt (hp : g.PositiveWeights) {v : String} {W : Int}
    {steps : List (String × String × Int)} (h : GoodPath g s D v W steps) :
    ∀ y ∈ steps.map (fun t => t.1), D y < W := by
  induction h with
  | nil _ => simp
  | snoc hprev _ he _ ih =>
    intro y hy
    have hw := hp _ _ _ he
    simp only [List.map_cons, List.mem_cons] at hy
    rcases hy with hy | hy
    · subst hy
      have := hprev.end_le
      omega
    · have := ih y hy
      omega

end GoodPath

theorem sum_le_totalWeight (g : LocationGraph)
    (steps : List (String × String × Int)) (hnd : (steps.map (fun t => t.1)).Nodup)
    (hsub : ∀ t ∈ steps, t ∈ g.entries)
    (hval : ∀ t ∈ g.entries, 0 ≤ t.2.2) :
    (steps.map (fun t => t.2.2)).sum ≤ g.totalWeight := by
  have hnd2 : steps.Nodup := List.Nodup.of_map _ hnd
  have hsp : List.Subperm steps g.entries := List.subperm_of_subset hnd2 hsub
  obtain ⟨l, hl, hsl⟩ := hsp
  have h1 : (steps.map (fun t => t.2.2)).sum = (l.map (fun t => t.2.2)).sum :=
    (hl.map _).sum_eq.symm
  rw [h1]
  unfold totalWeight
  apply List.Sublist.sum_le_sum (hsl.map _)
  intro a ha
  obtain ⟨t, ht, rfl⟩ := List.mem_map.mp ha
  exact hval t ht

theorem find_of_nodup_keys {β : Type} :
    ∀ (l : List (String × β)), (l.map (fun p => p.1)).Nodup → ∀ p ∈ l,
      l.find? (fun q => q.1 == p.1) = some p := by
  intro l
  induction l with
  | nil => intro _ p hp; simp at hp
  | cons q rest ih =>
    intro hk p hp
    simp only [List.map_cons, List.nodup_cons] at hk
    rcases List.mem_cons.mp hp with h | h
    · subst h
      simp
    · have hne : q.1 ≠ p.1 := by
        intro heq
        apply hk.1
        rw [heq]
        exact List.mem_map.mpr ⟨p, h, rfl⟩
      have hb : (q.1 == p.1) = false := by simpa using hne
      rw [List.find?_cons, hb]
      exact ih hk.2 p h

theorem neighbors_of_mem (g : LocationGraph) (hk : (g.adjacencyList.map (fun p => p.1)).Nodup)
    (p : String × List (String × Int)) (hp : p ∈ g.adjacencyList) : g.neighbors p.1 = p.2 := by
  unfold neighbors
  rw [find_of_nodup_keys g.adjacencyList hk p hp]

theorem entries_nonneg (g : LocationGraph) (hk : (g.adjacencyList.map (fun p => p.1)).Nodup)
    (hp : g.PositiveWeights) : ∀ t ∈ g.entries, 0 ≤ t.2.2 := by
  intro t ht
  unfold entries at ht
  rw [List.mem_flatMap] at ht
  obtain ⟨p, hp1, hp2⟩ := ht
  rw [List.mem_map] at hp2
  obtain ⟨e, he, rfl⟩ := hp2
  have hn := neighbors_of_mem g hk p hp1
  have := hp p.1 e.1 e.2 (by rw [hn]; exact he)
  exact le_of_lt this

end LocationGraph

namespace LocationGraph

theorem setDistance_apply (D : String → Int) (x : String) (a : Int) (v : String) :
    setDistance D x a v = if v = x then a else D v := rfl

theorem setDistance_le (D : String → Int) (x : String) (a : Int) (h : a ≤ D x) (v : String) :
    setDistance D x a v ≤ D v := by
  rw [setDistance_apply]
  split_ifs with hv
  · rw [hv]; exact h
  · exact le_refl _

/-- One relaxation keeps the invariant of the relaxation loop. -/
theorem relaxInv_step (g : LocationGraph) (s e u : String) (d : Int)
    (hp : g.PositiveWeights) (hc : g.Closed) (hval : ∀ t ∈ g.entries, 0 ≤ t.2.2)
    (htot : g.totalWeight < INT_MAX) (hu : g.contains u = true) (hd : d < INT_MAX)
    (x : String) (w : Int) (hxw : (x, w) ∈ g.neighbors u)
    (D : String → Int) (Q : List (Int × String)) (inv : RelaxInv g s e u d D Q) :
    RelaxInv g s e u d (relax d [(x, w)] (D, Q)).1 (relax d [(x, w)] (D, Q)).2 ∧
      (relax d [(x, w)] (D, Q)).1 x ≤ d + w ∧
      ∀ v, (relax d [(x, w)] (D, Q)).1 v ≤ D v := by
  obtain ⟨steps, hgood⟩ := inv.good u hu (by rw [inv.cur]; exact hd)
  rw [inv.cur] at hgood
  have hd0 : 0 ≤ d := hgood.nonneg hp
  have hw : 0 < w := hp _ _ _ hxw
  have hnot : u ∉ steps.map (fun t => t.1) := by
    intro hmem
    have := hgood.source_lt hp u hmem
    rw [inv.cur] at this
    exact lt_irrefl _ this
  have hbound : d + w ≤ g.totalWeight := by
    have h1 := sum_le_totalWeight g ((u, x, w) :: steps)
      (by simp only [List.map_cons, List.nodup_cons]; exact ⟨hnot, hgood.nodup⟩)
      (by
        intro t ht
        rcases List.mem_cons.mp ht with ht | ht
        · subst ht
          exact neighbors_mem_entries g _ _ _ hxw
        · exact hgood.subset_entries t ht)
      hval
    simp only [List.map_cons, List.sum_cons] at h1
    have := hgood.weight_eq
    omega
  have hwrap : wrapInt (d + w) = d + w := by
    apply wrapInt_of_range
    · omega
    · unfold INT_MAX at htot
      omega
  simp only [relax, hwrap]
  by_cases hlt : d + w < D x
  · simp only [hlt, if_true]
    have hle : ∀ v, setDistance D x (d + w) v ≤ D v := setDistance_le D x (d + w) (le_of_lt hlt)
    have hxu : x ≠ u := by
      intro h
      rw [h, inv.cur] at hlt
      omega
    have hux : u ≠ x := fun h => hxu h.symm
    refine ⟨⟨?_, ?_, ?_, ?_, ?_, ?_⟩, ?_, hle⟩
    · exact le_trans (hle s) inv.start_le
    · intro v hv hvlt
      by_cases hvx : v = x
      · subst hvx
        refine ⟨(u, v, w) :: steps, ?_⟩
        have hval2 : setDistance D v (d + w) v = d + w := by simp [setDistance_apply]
        rw [hval2]
        exact GoodPath.snoc (hgood.mono hle) hnot hxw (le_of_eq hval2)
      · have hval2 : setDistance D x (d + w) v = D v := by simp [setDistance_apply, hvx]
        rw [hval2] at hvlt ⊢
        obtain ⟨st, hst⟩ := inv.good v hv hvlt
        exact ⟨st, hst.mono hle⟩
    · intro v hv
      exact le_trans (hle v) (inv.le_max v hv)
    · intro q hq
      rcases List.mem_cons.mp hq with hq | hq
      · subst hq
        refine ⟨hc _ _ _ hxw, ?_, ?_⟩
        · simp [setDistance_apply]
        · have := inv.le_max x (hc _ _ _ hxw)
          show d + w < INT_MAX
          omega
      · obtain ⟨h1, h2, h3⟩ := inv.queue q hq
        exact ⟨h1, le_trans (hle _) h2, h3⟩
    · simp [setDistance_apply, hux, inv.cur]
    · intro v hvu hv hvlt
      by_cases hvx : v = x
      · subst hvx
        left
        simp [setDistance_apply]
      · have hval2 : setDistance D x (d + w) v = D v := by simp [setDistance_apply, hvx]
        rw [hval2] at hvlt ⊢
        rcases inv.settled v hvu hv hvlt with h | h
        · left
          exact List.mem_cons_of_mem _ h
        · right
          refine ⟨h.1, ?_⟩
          intro y wy hy
          exact le_trans (hle y) (h.2 y wy hy)
    · simp [setDistance_apply]
  · simp only [hlt, if_false]
    exact ⟨inv, not_lt.mp hlt, fun v => le_refl _⟩

theorem relax_cons (d : Int) (x : String) (w : Int) (rest : List (String × Int))
    (st : (String → Int) × List (Int × String)) :
    relax d ((x, w) :: rest) st = relax d rest (relax d [(x, w)] st) := by
  obtain ⟨D, Q⟩ := st
  simp only [relax]
  split_ifs <;> rfl

/-- The relaxation loop keeps its invariant and relaxes every edge it visits. -/
theorem relaxInv_all (g : LocationGraph) (s e u : String) (d : Int)
    (hp : g.PositiveWeights) (hc : g.Closed) (hval : ∀ t ∈ g.entries, 0 ≤ t.2.2)
    (htot : g.totalWeight < INT_MAX) (hu : g.contains u = true) (hd : d < INT_MAX) :
    ∀ (es : List (String × Int)), (∀ x w, (x, w) ∈ es → (x, w) ∈ g.neighbors u) →
      ∀ (D : String → Int) (Q : List (Int × String)), RelaxInv g s e u d D Q →
        RelaxInv g s e u d (relax d es (D, Q)).1 (relax d es (D, Q)).2 ∧
        (∀ x w, (x, w) ∈ es → (relax d es (D, Q)).1 x ≤ d + w) ∧
        ∀ v, (relax d es (D, Q)).1 v ≤ D v := by
  intro es
  induction es with
  | nil =>
    intro _ D Q inv
    exact ⟨inv, by simp, fun v => le_refl _⟩
  | cons a rest ih =>
    intro hsub D Q inv
    obtain ⟨x, w⟩ := a
    have hxw := hsub x w (List.mem_cons_self _ _)
    obtain ⟨h1, h2, h3⟩ := relaxInv_step g s e u d hp hc hval htot hu hd x w hxw D Q inv
    rw [relax_cons]
    obtain ⟨k1, k2, k3⟩ := ih (fun y wy hy => hsub y wy (List.mem_cons_of_mem _ hy))
      (relax d [(x, w)] (D, Q)).1 (relax d [(x, w)] (D, Q)).2 h1
    refine ⟨k1, ?_, fun v => le_trans (k3 v) (h3 v)⟩
    intro y wy hy
    rcases List.mem_cons.mp hy with hy | hy
    · simp only [Prod.mk.injEq] at hy
      rw [hy.1, hy.2]
      exact le_trans (k3 x) h2
    · exact k2 y wy hy

end LocationGraph

namespace LocationGraph

theorem goodPath_edge_bound (g : LocationGraph) (s : String) (D : String → Int)
    (hp : g.PositiveWeights) (hval : ∀ t ∈ g.entries, 0 ≤ t.2.2)
    (v : String) (steps : List (String × String × Int))
    (hgood : GoodPath g s D v (D v) steps) (x : String) (w : Int)
    (hxw : (x, w) ∈ g.neighbors v) : D v + w ≤ g.totalWeight := by
  have hnot : v ∉ steps.map (fun t => t.1) := by
    intro hmem
    exact lt_irrefl _ (hgood.source_lt hp v hmem)
  have h1 := sum_le_totalWeight g ((v, x, w) :: steps)
    (by simp only [List.map_cons, List.nodup_cons]; exact ⟨hnot, hgood.nodup⟩)
    (by
      intro t ht
      rcases List.mem_cons.mp ht with ht | ht
      · subst ht
        exact neighbors_mem_entries g _ _ _ hxw
      · exact hgood.subset_entries t ht)
    hval
  simp only [List.map_cons, List.sum_cons] at h1
  have := hgood.weight_eq
  omega

/-- Every path weight is bounded below by a tentative distance or by a queue entry. -/
theorem DijkstraInv.walk_lower {g : LocationGraph} {s e : String} {D : String → Int}
    {Q : List (Int × String)} (inv : DijkstraInv g s e D Q) (hp : g.PositiveWeights)
    (hc : g.Closed) (hs : g.contains s = true) (v : String) (W : Int) (h : Walk g s v W) :
    D v ≤ W ∨ ∃ q ∈ Q, q.1 ≤ W := by
  induction h with
  | nil => exact Or.inl inv.start_le
  | @snoc v x W w hwalk he ih =>
    have hw := hp _ _ _ he
    have hv := walk_contains g hc s hs v W hwalk
    have hx := hc _ _ _ he
    rcases ih with h1 | ⟨q, hq, hle⟩
    · by_cases hlt : D v < INT_MAX
      · rcases inv.settled v hv hlt with h2 | h2
        · exact Or.inr ⟨(D v, v), h2, by simp only; omega⟩
        · left
          have := h2.2 x w he
          omega
      · left
        have := inv.le_max x hx
        omega
    · exact Or.inr ⟨q, hq, by omega⟩

/-- With an empty queue every reachable location has a finite tentative distance. -/
theorem DijkstraInv.reach_lt {g : LocationGraph} {s e : String} {D : String → Int}
    (inv : DijkstraInv g s e D []) (hp : g.PositiveWeights) (hc : g.Closed)
    (hval : ∀ t ∈ g.entries, 0 ≤ t.2.2) (htot : g.totalWeight < INT_MAX)
    (hs : g.contains s = true) (v : String) (W : Int) (h : Walk g s v W) : D v < INT_MAX := by
  induction h with
  | nil =>
    have := inv.start_le
    unfold INT_MAX
    omega
  | @snoc v x W w hwalk he ih =>
    have hv := walk_contains g hc s hs v W hwalk
    rcases inv.settled v hv ih with h2 | h2
    · simp at h2
    · obtain ⟨steps, hgood⟩ := inv.good v hv ih
      have hb := goodPath_edge_bound g s D hp hval v steps hgood x w he
      have := h2.2 x w he
      omega

theorem dijkstraInv_of_relax {g : LocationGraph} {s e u : String} {d : Int}
    {D : String → Int} {Q : List (Int × String)} (inv : RelaxInv g s e u d D Q) (hue : u ≠ e)
    (hdone : ∀ x w, (x, w) ∈ g.neighbors u → D x ≤ d + w) : DijkstraInv g s e D Q := by
  refine ⟨inv.start_le, inv.good, inv.le_max, inv.queue, ?_⟩
  intro v hv hlt
  by_cases hvu : v = u
  · subst hvu
    right
    refine ⟨hue, ?_⟩
    intro x w hxw
    rw [inv.cur]
    exact hdone x w hxw
  · exact inv.settled v hvu hv hlt

/-- The loop of `getDistance` returns the minimum path weight, or `INT_MAX` without a path. -/
theorem dijkstraLoop_correct (g : LocationGraph) (s e : String)
    (hp : g.PositiveWeights) (hc : g.Closed) (hval : ∀ t ∈ g.entries, 0 ≤ t.2.2)
    (htot : g.totalWeight < INT_MAX) (hs : g.contains s = true) (he : g.contains e = true) :
    ∀ (fuel : Nat) (D : String → Int) (Q : List (Int × String)) (r : Int),
      DijkstraInv g s e D Q → dijkstraLoop g e fuel D Q = some r →
      ((∃ W, Walk g s e W) → IsMinPathWeight g s e r) ∧
      ((¬ ∃ W, Walk g s e W) → r = INT_MAX) := by
  intro fuel
  induction fuel with
  | zero =>
    intro D Q r _ hrun
    simp [dijkstraLoop] at hrun
  | succ fuel ih =>
    intro D Q r inv hrun
    rw [dijkstraLoop] at hrun
    cases htop : pqTop Q with
    | none =>
      rw [htop] at hrun
      simp only [Option.some.injEq] at hrun
      have hQ : Q = [] := (pqTop_none Q).mp htop
      subst hQ
      subst hrun
      constructor
      · rintro ⟨W, hW⟩
        have hlt := inv.reach_lt hp hc hval htot hs e W hW
        obtain ⟨steps, hgood⟩ := inv.good e he hlt
        refine ⟨hgood.walk, ?_⟩
        intro W2 hW2
        rcases inv.walk_lower hp hc hs e W2 hW2 with h | ⟨q, hq, -⟩
        · exact h
        · simp at hq
      · intro hno
        by_contra hne
        have hlt : D e < INT_MAX := lt_of_le_of_ne (inv.le_max e he) hne
        obtain ⟨steps, hgood⟩ := inv.good e he hlt
        exact hno ⟨_, hgood.walk⟩
    | some m =>
      obtain ⟨d, u⟩ := m
      rw [htop] at hrun
      simp only at hrun
      have hmem := pqTop_mem Q (d, u) htop
      have hmin := pqTop_le Q (d, u) htop
      obtain ⟨hu, hDu, hdlt⟩ := inv.queue (d, u) hmem
      simp only at hu hDu hdlt
      by_cases hue : u = e
      · simp only [hue, if_true, Option.some.injEq] at hrun
        subst hrun
        subst hue
        have hlt : D u < INT_MAX := lt_of_le_of_lt hDu hdlt
        have hd : d = D u := by
          rcases inv.settled u hu hlt with h | h
          · have := hmin _ h
            simp only at this
            omega
          · exact absurd rfl h.1
        obtain ⟨steps, hgood⟩ := inv.good u hu hlt
        have hwalk : Walk g s u d := by
          rw [hd]
          exact hgood.walk
        constructor
        · intro _
          refine ⟨hwalk, ?_⟩
          intro W2 hW2
          rcases inv.walk_lower hp hc hs u W2 hW2 with h | ⟨q, hq, hle⟩
          · omega
          · have := hmin q hq
            simp only at this
            omega
        · intro hno
          exact absurd ⟨d, hwalk⟩ hno
      · simp only [hue, if_false] at hrun
        by_cases hstale : d > D u
        · simp only [hstale, if_true] at hrun
          apply ih D (Q.erase (d, u)) r ?_ hrun
          refine ⟨inv.start_le, inv.good, inv.le_max, ?_, ?_⟩
          · intro q hq
            exact inv.queue q (List.mem_of_mem_erase hq)
          · intro v hv hvlt
            rcases inv.settled v hv hvlt with h | h
            · left
              apply (List.mem_erase_of_ne ?_).mpr h
              intro heq
              simp only [Prod.mk.injEq] at heq
              rw [heq.2] at heq
              omega
            · exact Or.inr h
        · simp only [hstale, if_false] at hrun
          have hd : D u = d := by omega
          have rinv : RelaxInv g s e u d D (Q.erase (d, u)) := by
            refine ⟨inv.start_le, inv.good, inv.le_max, ?_, hd, ?_⟩
            · intro q hq
              exact inv.queue q (List.mem_of_mem_erase hq)
            · intro v hvu hv hvlt
              rcases inv.settled v hv hvlt with h | h
              · left
                apply (List.mem_erase_of_ne ?_).mpr h
                intro heq
                simp only [Prod.mk.injEq] at heq
                exact hvu heq.2
              · exact Or.inr h
          obtain ⟨k1, k2, -⟩ := relaxInv_all g s e u d hp hc hval htot hu hdlt (g.neighbors u)
            (fun _ _ h => h) D (Q.erase (d, u)) rinv
          exact ih _ _ r (dijkstraInv_of_relax k1 hue k2) hrun

end LocationGraph

namespace LocationGraph

theorem sum_setDistance (D : String → Int) (x : String) (a : Int) :
    ∀ (N : List String), N.Nodup → x ∈ N →
      (N.map (fun v => setDistance D x a v - INT_MIN)).sum =
        (N.map (fun v => D v - INT_MIN)).sum - D x + a := by
  intro N
  induction N with
  | nil => intro _ h; simp at h
  | cons y rest ih =>
    intro hnd hx
    simp only [List.nodup_cons] at hnd
    simp only [List.map_cons, List.sum_cons]
    rcases List.mem_cons.mp hx with h | h
    · subst h
      have hrest : (rest.map (fun v => setDistance D x a v - INT_MIN)) =
          (rest.map (fun v => D v - INT_MIN)) := by
        apply List.map_congr_left
        intro v hv
        have : v ≠ x := fun h => hnd.1 (h ▸ hv)
        simp [setDistance_apply, this]
      rw [hrest]
      simp only [setDistance_apply, if_true]
      omega
    · have hyx : y ≠ x := fun h' => hnd.1 (h' ▸ h)
      rw [ih hnd.2 h]
      simp only [setDistance_apply, hyx, if_false]
      omega

theorem mem_targets (g : LocationGraph) (v x : String) (w : Int)
    (h : (x, w) ∈ g.neighbors v) : x ∈ g.targets := by
  unfold targets
  rw [List.mem_dedup, List.mem_map]
  exact ⟨(v, x, w), neighbors_mem_entries g v x w h, rfl⟩

theorem potential_relax (g : LocationGraph) (d : Int) :
    ∀ (es : List (String × Int)), (∀ x w, (x, w) ∈ es → x ∈ g.targets) →
      ∀ (D : String → Int) (Q : List (Int × String)),
        (∀ v, INT_MIN ≤ D v ∧ D v ≤ INT_MAX) →
        (∀ v, INT_MIN ≤ (relax d es (D, Q)).1 v ∧ (relax d es (D, Q)).1 v ≤ INT_MAX) ∧
        g.potential (relax d es (D, Q)).1 (relax d es (D, Q)).2 ≤ g.potential D Q := by
  intro es
  induction es with
  | nil =>
    intro _ D Q hr
    exact ⟨hr, le_refl _⟩
  | cons a rest ih =>
    intro hsub D Q hr
    obtain ⟨x, w⟩ := a
    have hx := hsub x w (List.mem_cons_self _ _)
    have hrest : ∀ y wy, (y, wy) ∈ rest → y ∈ g.targets :=
      fun y wy hy => hsub y wy (List.mem_cons_of_mem _ hy)
    simp only [relax]
    by_cases hlt : wrapInt (d + w) < D x
    · simp only [hlt, if_true]
      have hr2 : ∀ v, INT_MIN ≤ setDistance D x (wrapInt (d + w)) v ∧
          setDistance D x (wrapInt (d + w)) v ≤ INT_MAX := by
        intro v
        rw [setDistance_apply]
        split_ifs
        · exact wrapInt_range _
        · exact hr v
      obtain ⟨k1, k2⟩ := ih hrest _ ((wrapInt (d + w), x) :: Q) hr2
      refine ⟨k1, le_trans k2 ?_⟩
      unfold potential
      rw [sum_setDistance D x _ g.targets (List.nodup_dedup _) hx]
      simp only [List.length_cons, Nat.cast_add, Nat.cast_one]
      omega
    · simp only [hlt, if_false]
      exact ih hrest D Q hr

theorem potential_nonneg (g : LocationGraph) (D : String → Int) (Q : List (Int × String))
    (hr : ∀ v, INT_MIN ≤ D v ∧ D v ≤ INT_MAX) : 0 ≤ g.potential D Q := by
  unfold potential
  have : 0 ≤ (g.targets.map (fun v => D v - INT_MIN)).sum := by
    apply List.sum_nonneg
    intro a ha
    obtain ⟨v, _, rfl⟩ := List.mem_map.mp ha
    have := (hr v).1
    omega
  omega

/-- The loop of `getDistance` returns whenever the budget exceeds the potential. -/
theorem dijkstraLoop_isSome (g : LocationGraph) (e : String) :
    ∀ (fuel : Nat) (D : String → Int) (Q : List (Int × String)),
      (∀ v, INT_MIN ≤ D v ∧ D v ≤ INT_MAX) → g.potential D Q < (fuel : Int) →
      ∃ r, dijkstraLoop g e fuel D Q = some r := by
  intro fuel
  induction fuel with
  | zero =>
    intro D Q hr hpot
    have := potential_nonneg g D Q hr
    simp only [Nat.cast_zero] at hpot
    omega
  | succ fuel ih =>
    intro D Q hr hpot
    rw [dijkstraLoop]
    cases htop : pqTop Q with
    | none => exact ⟨_, rfl⟩
    | some m =>
      obtain ⟨d, u⟩ := m
      simp only
      have hmem := pqTop_mem Q (d, u) htop
      have hlen : ((Q.erase (d, u)).length : Int) = (Q.length : Int) - 1 := by
        rw [List.length_erase_of_mem hmem]
        have : 0 < Q.length := List.length_pos_of_mem hmem
        omega
      have hpot1 : g.potential D (Q.erase (d, u)) < (fuel : Int) := by
        unfold potential at hpot ⊢
        rw [hlen]
        simp only [Nat.cast_add, Nat.cast_one] at hpot
        omega
      by_cases hue : u = e
      · simp only [hue, if_true]
        exact ⟨_, rfl⟩
      · simp only [hue, if_false]
        by_cases hstale : d > D u
        · simp only [hstale, if_true]
          exact ih D _ hr hpot1
        · simp only [hstale, if_false]
          obtain ⟨k1, k2⟩ := potential_relax g d (g.neighbors u)
            (fun x w h => mem_targets g u x w h) D (Q.erase (d, u)) hr
          exact ih _ _ k1 (lt_of_le_of_lt k2 hpot1)

theorem length_entries (g : LocationGraph) :
    g.entries.length = (g.adjacencyList.map (fun p => p.2.length)).sum := by
  unfold entries
  induction g.adjacencyList with
  | nil => rfl
  | cons p rest ih => simp [List.flatMap_cons, ih]

theorem sum_le_length_mul (D : String → Int) (hr : ∀ v, INT_MIN ≤ D v ∧ D v ≤ INT_MAX) :
    ∀ (N : List String), (N.map (fun v => D v - INT_MIN)).sum ≤ (N.length : Int) * 4294967295 := by
  intro N
  induction N with
  | nil => simp
  | cons y rest ih =>
    simp only [List.map_cons, List.sum_cons, List.length_cons, Nat.cast_add, Nat.cast_one]
    have := (hr y).2
    unfold INT_MAX INT_MIN at *
    omega

theorem initDistances_range (g : LocationGraph) (s : String) :
    ∀ v, INT_MIN ≤ initDistances g s v ∧ initDistances g s v ≤ INT_MAX := by
  intro v
  unfold initDistances
  rw [setDistance_apply]
  unfold INT_MIN INT_MAX
  split_ifs <;> omega

/-- The loop of `getDistance` always returns within the budget `fuelBound`. -/
theorem runDijkstra_isSome (g : LocationGraph) (s e : String) :
    ∃ r, runDijkstra g s e = some r := by
  unfold runDijkstra
  apply dijkstraLoop_isSome g e _ _ _ (initDistances_range g s)
  unfold potential fuelBound
  have h1 := sum_le_length_mul (initDistances g s) (initDistances_range g s) g.targets
  have h2 : g.targets.length ≤ g.entries.length := by
    unfold targets
    exact le_trans (List.Sublist.length_le (List.dedup_sublist _)) (by simp)
  rw [length_entries] at h2
  have h3 : (g.targets.length : Int) ≤
      ((g.adjacencyList.map (fun p => p.2.length)).sum : Nat) := by exact_mod_cast h2
  simp only [List.length_singleton, Nat.cast_one, Nat.cast_add, Nat.cast_mul, Nat.cast_ofNat]
  nlinarith [h1, h3, Int.natCast_nonneg g.adjacencyList.length]

end LocationGraph

namespace LocationGraph

theorem initial_inv (g : LocationGraph) (s e : String) (hs : g.contains s = true) :
    DijkstraInv g s e (initDistances g s) [(0, s)] := by
  have h0 : initDistances g s s = 0 := by simp [initDistances, setDistance_apply]
  have hother : ∀ v, v ≠ s → g.contains v = true → initDistances g s v = INT_MAX := by
    intro v hv hc
    simp [initDistances, setDistance_apply, hv, hc]
  refine ⟨le_of_eq h0, ?_, ?_, ?_, ?_⟩
  · intro v hv hlt
    by_cases hvs : v = s
    · subst hvs
      rw [h0]
      exact ⟨[], GoodPath.nil (le_of_eq h0)⟩
    · rw [hother v hvs hv] at hlt
      exact absurd hlt (lt_irrefl _)
  · intro v hv
    by_cases hvs : v = s
    · subst hvs
      rw [h0]
      decide
    · rw [hother v hvs hv]
  · intro q hq
    simp only [List.mem_singleton] at hq
    subst hq
    exact ⟨hs, le_of_eq h0, show (0 : Int) < INT_MAX by decide⟩
  · intro v hv hlt
    by_cases hvs : v = s
    · subst hvs
      left
      rw [h0]
      exact List.mem_singleton.mpr rfl
    · rw [hother v hvs hv] at hlt
      exact absurd hlt (lt_irrefl _)

/-- On a closed graph with unique keys and positive weights whose total stays below `INT_MAX`,
`getDistance` is the minimum path weight, and `INT_MAX` when there is no path or an end point
is unknown. -/
theorem getDistance_spec (g : LocationGraph)
    (hk : (g.adjacencyList.map (fun p => p.1)).Nodup) (hp : g.PositiveWeights) (hc : g.Closed)
    (htot : g.totalWeight < INT_MAX) (a b : String) :
    (g.contains a = true → g.contains b = true → (∃ W, Walk g a b W) →
      IsMinPathWeight g a b (g.getDistance a b)) ∧
    ((g.contains a = false ∨ g.contains b = false ∨ ¬ ∃ W, Walk g a b W) →
      g.getDistance a b = INT_MAX) := by
  have hval := entries_nonneg g hk hp
  have hrun : ∀ (ha : g.contains a = true) (hb : g.contains b = true),
      ∃ r, runDijkstra g a b = some r ∧ g.getDistance a b = r ∧
        ((∃ W, Walk g a b W) → IsMinPathWeight g a b r) ∧
        ((¬ ∃ W, Walk g a b W) → r = INT_MAX) := by
    intro ha hb
    obtain ⟨r, hr⟩ := runDijkstra_isSome g a b
    have hcorr := dijkstraLoop_correct g a b hp hc hval htot ha hb _ _ _ r
      (initial_inv g a b ha) hr
    refine ⟨r, hr, ?_, hcorr⟩
    simp [getDistance, ha, hb, hr]
  constructor
  · intro ha hb hw
    obtain ⟨r, -, hget, h1, -⟩ := hrun ha hb
    rw [hget]
    exact h1 hw
  · intro h
    by_cases ha : g.contains a = true
    · by_cases hb : g.contains b = true
      · obtain ⟨r, -, hget, -, h2⟩ := hrun ha hb
        rw [hget]
        apply h2
        rcases h with h | h | h
        · rw [ha] at h; exact absurd h (by decide)
        · rw [hb] at h; exact absurd h (by decide)
        · exact h
      · simp [getDistance, hb]
    · simp [getDistance, ha]

end LocationGraph

namespace LocationGraph

theorem contains_addLocation (g : LocationGraph) (loc v : String) :
    (g.addLocation loc).contains v = (g.contains v || decide (v = loc)) := by
  unfold addLocation
  by_cases h : g.contains loc = true
  · simp only [h, if_true]
    by_cases hv : v = loc
    · subst hv
      simp [h]
    · simp [hv]
  · simp only [h, if_false, Bool.false_eq_true]
    simp only [contains, List.any_append, List.any_cons, List.any_nil, Bool.or_false]
    congr 1
    by_cases hv : v = loc
    · subst hv; simp
    · have : ¬ loc = v := fun h => hv h.symm
      simp [hv, this]

theorem neighbors_addLocation (g : LocationGraph) (loc v : String) :
    (g.addLocation loc).neighbors v = g.neighbors v := by
  unfold addLocation
  by_cases h : g.contains loc = true
  · simp only [h, if_true]
  · simp only [h, if_false, Bool.false_eq_true]
    unfold neighbors
    simp only [List.find?_append]
    cases hf : g.adjacencyList.find? (fun p => p.1 == v) with
    | some p => simp
    | none =>
      simp only [Option.none_or, List.find?_cons, List.find?_nil]
      cases hb : (loc == v) <;> rfl

theorem keys_addLocation (g : LocationGraph) (loc : String)
    (hk : (g.adjacencyList.map (fun p => p.1)).Nodup) :
    ((g.addLocation loc).adjacencyList.map (fun p => p.1)).Nodup := by
  unfold addLocation
  by_cases h : g.contains loc = true
  · simp only [h, if_true]
    exact hk
  · simp only [h, if_false, Bool.false_eq_true]
    rw [List.map_append, List.nodup_append]
    refine ⟨hk, by simp, ?_⟩
    intro x hx hx2
    simp only [List.map_cons, List.map_nil, List.mem_singleton] at hx2
    subst hx2
    apply h
    rw [contains_iff]
    obtain ⟨p, hp, hpx⟩ := List.mem_map.mp hx
    exact ⟨p, hp, hpx⟩

theorem entries_addLocation (g : LocationGraph) (loc : String) :
    (g.addLocation loc).entries = g.entries := by
  unfold addLocation
  by_cases h : g.contains loc = true
  · simp only [h, if_true]
  · simp only [h, if_false, Bool.false_eq_true]
    simp [entries, List.flatMap_append]

theorem contains_pushBack (g : LocationGraph) (key : String) (e : String × Int)
    (hkey : g.contains key = true) (v : String) :
    (g.pushBack key e).contains v = g.contains v := by
  unfold pushBack
  simp only [hkey, if_true]
  simp only [contains, List.any_map]
  congr 1
  funext p
  simp only [Function.comp]
  split_ifs <;> rfl

theorem keys_pushBack (g : LocationGraph) (key : String) (e : String × Int)
    (hkey : g.contains key = true) :
    (g.pushBack key e).adjacencyList.map (fun p => p.1) = g.adjacencyList.map (fun p => p.1) := by
  unfold pushBack
  simp only [hkey, if_true, List.map_map]
  apply List.map_congr_left
  intro p _
  simp only [Function.comp]
  split_ifs <;> rfl

theorem neighbors_pushBack (g : LocationGraph) (key : String) (e : String × Int)
    (hkey : g.contains key = true) (v : String) :
    (g.pushBack key e).neighbors v =
      if v = key then g.neighbors v ++ [e] else g.neighbors v := by
  unfold pushBack
  simp only [hkey, if_true]
  unfold neighbors
  simp only [List.find?_map]
  have hcomp : ((fun p : String × List (String × Int) => p.1 == v) ∘
      fun p => if p.1 = key then (p.1, p.2 ++ [e]) else p) = fun p => p.1 == v := by
    funext p
    simp only [Function.comp]
    split_ifs <;> rfl
  rw [hcomp]
  cases hf : g.adjacencyList.find? (fun p => p.1 == v) with
  | some p =>
    have hpv : p.1 = v := by simpa using List.find?_some hf
    simp only [Option.map_some']
    by_cases hvk : v = key
    · simp [hvk, hpv ▸ hvk]
    · have : ¬ p.1 = key := fun h => hvk (hpv ▸ h)
      simp [hvk, this]
  | none =>
    simp only [Option.map_none']
    by_cases hvk : v = key
    · exfalso
      subst hvk
      rw [contains_iff] at hkey
      obtain ⟨p, hp, hpk⟩ := hkey
      have := List.find?_eq_none.mp hf p hp
      simp [hpk] at this
    · simp [hvk]

theorem weights_map_push (key : String) (e : String × Int) :
    ∀ (l : List (String × List (String × Int))), (l.map (fun p => p.1)).Nodup →
      key ∈ l.map (fun p => p.1) →
      (((l.map (fun p => if p.1 = key then (p.1, p.2 ++ [e]) else p)).flatMap
          (fun p => p.2.map (fun e => (p.1, e.1, e.2)))).map (fun t => t.2.2)).sum =
        ((l.flatMap (fun p => p.2.map (fun e => (p.1, e.1, e.2)))).map (fun t => t.2.2)).sum
          + e.2 := by
  intro l
  induction l with
  | nil => intro _ h; simp at h
  | cons p rest ih =>
    intro hnd hmem
    simp only [List.map_cons, List.nodup_cons] at hnd
    simp only [List.map_cons, List.flatMap_cons, List.map_append, List.sum_append]
    by_cases hpk : p.1 = key
    · have hrest : rest.map (fun p => if p.1 = key then (p.1, p.2 ++ [e]) else p) = rest := by
        conv_rhs => rw [← List.map_id rest]
        apply List.map_congr_left
        intro q hq
        have : q.1 ≠ key := by
          intro h
          apply hnd.1
          rw [hpk, ← h]
          exact List.mem_map.mpr ⟨q, hq, rfl⟩
        simp [this]
      rw [hrest]
      simp only [hpk, if_true, List.map_append, List.map_map, List.sum_append, List.map_cons,
        List.map_nil, List.sum_cons, List.sum_nil]
      omega
    · simp only [hpk, if_false]
      have hmem2 : key ∈ rest.map (fun p => p.1) := by
        simp only [List.map_cons, List.mem_cons] at hmem
        rcases hmem with h | h
        · exact absurd h.symm hpk
        · exact h
      rw [ih hnd.2 hmem2]
      omega

theorem totalWeight_pushBack (g : LocationGraph) (key : String) (e : String × Int)
    (hk : (g.adjacencyList.map (fun p => p.1)).Nodup) (hkey : g.contains key = true) :
    (g.pushBack key e).totalWeight = g.totalWeight + e.2 := by
  have hmem : key ∈ g.adjacencyList.map (fun p => p.1) := by
    rw [contains_iff] at hkey
    obtain ⟨p, hp, hpk⟩ := hkey
    exact List.mem_map.mpr ⟨p, hp, hpk⟩
  unfold totalWeight entries pushBack
  simp only [hkey, if_true]
  exact weights_map_push key e g.adjacencyList hk hmem

end LocationGraph

namespace LocationGraph

theorem contains_addEdge (g : LocationGraph) (a b : String) (w : Int) (v : String) :
    (g.addEdge a b w).contains v = (g.contains v || decide (v = a) || decide (v = b)) := by
  have h1 : ((g.addLocation a).addLocation b).contains a = true := by
    simp [contains_addLocation]
  have h2 : (((g.addLocation a).addLocation b).pushBack a (b, w)).contains b = true := by
    rw [contains_pushBack _ _ _ h1]
    simp [contains_addLocation]
  unfold addEdge
  rw [contains_pushBack _ _ _ h2, contains_pushBack _ _ _ h1, contains_addLocation,
    contains_addLocation]

theorem neighbors_addEdge (g : LocationGraph) (a b : String) (w : Int) (v : String) :
    (g.addEdge a b w).neighbors v =
      (g.neighbors v ++ if v = a then [(b, w)] else []) ++ if v = b then [(a, w)] else [] := by
  have h1 : ((g.addLocation a).addLocation b).contains a = true := by
    simp [contains_addLocation]
  have h2 : (((g.addLocation a).addLocation b).pushBack a (b, w)).contains b = true := by
    rw [contains_pushBack _ _ _ h1]
    simp [contains_addLocation]
  unfold addEdge
  rw [neighbors_pushBack _ _ _ h2, neighbors_pushBack _ _ _ h1, neighbors_addLocation,
    neighbors_addLocation]
  by_cases hva : v = a
  · subst hva
    by_cases hvb : v = b
    · subst hvb
      simp
    · simp [hvb]
  · by_cases hvb : v = b
    · subst hvb
      simp [hva]
    · simp [hva, hvb]

theorem mem_neighbors_addEdge (g : LocationGraph) (a b : String) (w : Int) (v x : String)
    (wx : Int) :
    (x, wx) ∈ (g.addEdge a b w).neighbors v ↔
      (x, wx) ∈ g.neighbors v ∨ (v = a ∧ x = b ∧ wx = w) ∨ (v = b ∧ x = a ∧ wx = w) := by
  rw [neighbors_addEdge]
  by_cases hva : v = a
  · subst hva
    by_cases hvb : v = b
    · subst hvb
      simp [or_assoc]
    · simp [hvb, or_assoc]
  · by_cases hvb : v = b
    · subst hvb
      simp [hva]
    · simp [hva, hvb]

theorem keys_addEdge (g : LocationGraph) (a b : String) (w : Int)
    (hk : (g.adjacencyList.map (fun p => p.1)).Nodup) :
    ((g.addEdge a b w).adjacencyList.map (fun p => p.1)).Nodup := by
  have h1 : ((g.addLocation a).addLocation b).contains a = true := by
    simp [contains_addLocation]
  have h2 : (((g.addLocation a).addLocation b).pushBack a (b, w)).contains b = true := by
    rw [contains_pushBack _ _ _ h1]
    simp [contains_addLocation]
  unfold addEdge
  rw [keys_pushBack _ _ _ h2, keys_pushBack _ _ _ h1]
  exact keys_addLocation _ _ (keys_addLocation _ _ hk)

theorem totalWeight_addEdge (g : LocationGraph) (a b : String) (w : Int)
    (hk : (g.adjacencyList.map (fun p => p.1)).Nodup) :
    (g.addEdge a b w).totalWeight = g.totalWeight + 2 * w := by
  have h1 : ((g.addLocation a).addLocation b).contains a = true := by
    simp [contains_addLocation]
  have h2 : (((g.addLocation a).addLocation b).pushBack a (b, w)).contains b = true := by
    rw [contains_pushBack _ _ _ h1]
    simp [contains_addLocation]
  have hk1 := keys_addLocation _ b (keys_addLocation g a hk)
  have hk2 : ((((g.addLocation a).addLocation b).pushBack a (b, w)).adjacencyList.map
      (fun p => p.1)).Nodup := by
    rw [keys_pushBack _ _ _ h1]
    exact hk1
  unfold addEdge
  rw [totalWeight_pushBack _ _ _ hk2 h2, totalWeight_pushBack _ _ _ hk1 h1]
  have : ((g.addLocation a).addLocation b).totalWeight = g.totalWeight := by
    unfold totalWeight
    rw [entries_addLocation, entries_addLocation]
  rw [this]
  simp only
  omega

theorem wellFormed_empty : WellFormed empty := by
  refine ⟨by simp [empty], ?_, ?_⟩
  · intro v x w h
    simp [neighbors, empty] at h
  · intro v x w h
    simp [neighbors, empty] at h

theorem wellFormed_addEdge (g : LocationGraph) (a b : String) (w : Int) (h : g.WellFormed) :
    (g.addEdge a b w).WellFormed := by
  refine ⟨keys_addEdge g a b w h.keys, ?_, ?_⟩
  · intro v x wx hx
    rw [contains_addEdge]
    rcases (mem_neighbors_addEdge g a b w v x wx).mp hx with h1 | h1 | h1
    · simp [h.closed v x wx h1]
    · simp [h1.2.1]
    · simp [h1.2.1]
  · intro v x wx hx
    rw [mem_neighbors_addEdge] at hx ⊢
    rcases hx with h1 | h1 | h1
    · exact Or.inl (h.symm v x wx h1)
    · exact Or.inr (Or.inr ⟨h1.2.1, h1.1, h1.2.2⟩)
    · exact Or.inr (Or.inl ⟨h1.2.1, h1.1, h1.2.2⟩)

theorem positive_addEdge (g : LocationGraph) (a b : String) (w : Int) (hw : 0 < w)
    (h : g.PositiveWeights) : (g.addEdge a b w).PositiveWeights := by
  intro v x wx hx
  rcases (mem_neighbors_addEdge g a b w v x wx).mp hx with h1 | h1 | h1
  · exact h v x wx h1
  · rw [h1.2.2]; exact hw
  · rw [h1.2.2]; exact hw

theorem addEdges_cons (g : LocationGraph) (e : String × String × Int)
    (rest : List (String × String × Int)) :
    g.addEdges (e :: rest) = (g.addEdge e.1 e.2.1 e.2.2).addEdges rest := rfl

theorem wellFormed_addEdges (edges : List (String × String × Int)) :
    ∀ (g : LocationGraph), g.WellFormed → (g.addEdges edges).WellFormed := by
  induction edges with
  | nil => intro g h; exact h
  | cons e rest ih =>
    intro g h
    rw [addEdges_cons]
    exact ih _ (wellFormed_addEdge g _ _ _ h)

theorem positive_addEdges (edges : List (String × String × Int))
    (hw : ∀ e ∈ edges, 0 < e.2.2) :
    ∀ (g : LocationGraph), g.PositiveWeights → (g.addEdges edges).PositiveWeights := by
  induction edges with
  | nil => intro g h; exact h
  | cons e rest ih =>
    intro g h
    rw [addEdges_cons]
    exact ih (fun e he => hw e (List.mem_cons_of_mem _ he)) _
      (positive_addEdge g _ _ _ (hw e (List.mem_cons_self _ _)) h)

theorem totalWeight_addEdges (edges : List (String × String × Int)) :
    ∀ (g : LocationGraph), g.WellFormed →
      (g.addEdges edges).totalWeight = g.totalWeight + 2 * (edges.map (fun e => e.2.2)).sum := by
  induction edges with
  | nil => intro g _; simp [addEdges]
  | cons e rest ih =>
    intro g h
    rw [addEdges_cons, ih _ (wellFormed_addEdge g _ _ _ h), totalWeight_addEdge g _ _ _ h.keys]
    simp only [List.map_cons, List.sum_cons]
    omega

theorem positive_empty : PositiveWeights empty := by
  intro v x w h
  simp [neighbors, empty] at h

theorem totalWeight_empty : totalWeight empty = 0 := by
  simp [totalWeight, entries, empty]

end LocationGraph

namespace LocationGraph

theorem relax_range (d : Int) :
    ∀ (es : List (String × Int)) (D : String → Int) (Q : List (Int × String)),
      (∀ v, INT_MIN ≤ D v ∧ D v ≤ INT_MAX) → (∀ q ∈ Q, INT_MIN ≤ q.1 ∧ q.1 ≤ INT_MAX) →
      (∀ v, INT_MIN ≤ (relax d es (D, Q)).1 v ∧ (relax d es (D, Q)).1 v ≤ INT_MAX) ∧
      ∀ q ∈ (relax d es (D, Q)).2, INT_MIN ≤ q.1 ∧ q.1 ≤ INT_MAX := by
  intro es
  induction es with
  | nil =>
    intro D Q hD hQ
    exact ⟨hD, hQ⟩
  | cons a rest ih =>
    intro D Q hD hQ
    obtain ⟨x, w⟩ := a
    simp only [relax]
    split_ifs
    · apply ih
      · intro v
        rw [setDistance_apply]
        split_ifs
        · exact wrapInt_range _
        · exact hD v
      · intro q hq
        rcases List.mem_cons.mp hq with hq | hq
        · subst hq
          exact wrapInt_range _
        · exact hQ q hq
    · exact ih D Q hD hQ

theorem dijkstraLoop_range (g : LocationGraph) (e : String) :
    ∀ (fuel : Nat) (D : String → Int) (Q : List (Int × String)) (r : Int),
      (∀ v, INT_MIN ≤ D v ∧ D v ≤ INT_MAX) → (∀ q ∈ Q, INT_MIN ≤ q.1 ∧ q.1 ≤ INT_MAX) →
      dijkstraLoop g e fuel D Q = some r → INT_MIN ≤ r ∧ r ≤ INT_MAX := by
  intro fuel
  induction fuel with
  | zero =>
    intro D Q r _ _ hrun
    simp [dijkstraLoop] at hrun
  | succ fuel ih =>
    intro D Q r hD hQ hrun
    rw [dijkstraLoop] at hrun
    cases htop : pqTop Q with
    | none =>
      rw [htop] at hrun
      simp only [Option.some.injEq] at hrun
      rw [← hrun]
      exact hD e
    | some m =>
      obtain ⟨d, u⟩ := m
      rw [htop] at hrun
      simp only at hrun
      have hmem := pqTop_mem Q (d, u) htop
      have hQ1 : ∀ q ∈ Q.erase (d, u), INT_MIN ≤ q.1 ∧ q.1 ≤ INT_MAX :=
        fun q hq => hQ q (List.mem_of_mem_erase hq)
      split_ifs at hrun with h1 h2
      · simp only [Option.some.injEq] at hrun
        rw [← hrun]
        exact hQ (d, u) hmem
      · exact ih D _ r hD hQ1 hrun
      · obtain ⟨k1, k2⟩ := relax_range d (g.neighbors u) D _ hD hQ1
        exact ih _ _ r k1 k2 hrun

/-- The value returned by `getDistance` is always an `int`. -/
theorem getDistance_range (g : LocationGraph) (a b : String) :
    INT_MIN ≤ g.getDistance a b ∧ g.getDistance a b ≤ INT_MAX := by
  unfold getDistance
  split_ifs
  · decide
  · obtain ⟨r, hr⟩ := runDijkstra_isSome g a b
    rw [hr]
    simp only [Option.getD_some]
    apply dijkstraLoop_range g b _ _ _ r (initDistances_range g a) ?_ hr
    intro q hq
    simp only [List.mem_singleton] at hq
    subst hq
    exact ⟨show INT_MIN ≤ (0 : Int) by decide, show (0 : Int) ≤ INT_MAX by decide⟩

theorem walk_single (g : LocationGraph) (v u : String) (w : Int) (h : (u, w) ∈ g.neighbors v) :
    Walk g v u w := by
  have := Walk.snoc (@Walk.nil g v) h
  simpa using this

theorem walk_reverse (g : LocationGraph) (hs : ∀ v x w, (x, w) ∈ g.neighbors v →
    (v, w) ∈ g.neighbors x) (a b : String) (W : Int) (h : Walk g a b W) : Walk g b a W := by
  induction h with
  | nil => exact Walk.nil
  | @snoc v u W w _ he ih =>
    have h1 := walk_single g u v w (hs v u w he)
    have := walk_trans g u v a w W h1 ih
    rw [add_comm] at this
    exact this

/-- The hypotheses of `getDistance_spec` hold for graphs built by `addEdge` from positive
weights whose doubled sum fits in an `int`. -/
theorem addEdges_hyps (edges : List (String × String × Int)) (hw : ∀ e ∈ edges, 0 < e.2.2)
    (hsum : 2 * (edges.map (fun e => e.2.2)).sum ≤ INT_MAX) :
    (empty.addEdges edges).WellFormed ∧ (empty.addEdges edges).PositiveWeights ∧
      (empty.addEdges edges).totalWeight < INT_MAX := by
  refine ⟨wellFormed_addEdges edges empty wellFormed_empty,
    positive_addEdges edges hw empty positive_empty, ?_⟩
  rw [totalWeight_addEdges edges empty wellFormed_empty, totalWeight_empty]
  unfold INT_MAX at *
  omega

end LocationGraph

namespace LocationGraph

theorem getDistance_cases (edges : List (String × String × Int))
    (hw : ∀ e ∈ edges, 0 < e.2.2)
    (hsum : 2 * (edges.map (fun e => e.2.2)).sum ≤ INT_MAX) (a b : String) :
    IsMinPathWeight (empty.addEdges edges) a b ((empty.addEdges edges).getDistance a b) ∨
      ((empty.addEdges edges).getDistance a b = INT_MAX ∧
        ((empty.addEdges edges).contains a = false ∨ (empty.addEdges edges).contains b = false ∨
          ¬ ∃ W, Walk (empty.addEdges edges) a b W)) := by
  obtain ⟨hwf, hpos, htot⟩ := addEdges_hyps edges hw hsum
  have hspec := getDistance_spec _ hwf.keys hpos hwf.closed htot a b
  by_cases ha : (empty.addEdges edges).contains a = true
  · by_cases hb : (empty.addEdges edges).contains b = true
    · by_cases hwalk : ∃ W, Walk (empty.addEdges edges) a b W
      · exact Or.inl (hspec.1 ha hb hwalk)
      · exact Or.inr ⟨hspec.2 (Or.inr (Or.inr hwalk)), Or.inr (Or.inr hwalk)⟩
    · have hb' : (empty.addEdges edges).contains b = false := by simpa using hb
      exact Or.inr ⟨hspec.2 (Or.inr (Or.inl hb')), Or.inr (Or.inl hb')⟩
  · have ha' : (empty.addEdges edges).contains a = false := by simpa using ha
    exact Or.inr ⟨hspec.2 (Or.inl ha'), Or.inl ha'⟩

theorem getDistance_nonneg (edges : List (String × String × Int))
    (hw : ∀ e ∈ edges, 0 < e.2.2)
    (hsum : 2 * (edges.map (fun e => e.2.2)).sum ≤ INT_MAX) (a b : String) :
    0 ≤ (empty.addEdges edges).getDistance a b := by
  obtain ⟨-, hpos, -⟩ := addEdges_hyps edges hw hsum
  rcases getDistance_cases edges hw hsum a b with h | h
  · exact walk_nonneg _ hpos a b _ h.1
  · rw [h.1]
    decide

theorem getDistance_addEdges_spec (edges : List (String × String × Int))
    (hw : ∀ e ∈ edges, 0 < e.2.2)
    (hsum : 2 * (edges.map (fun e => e.2.2)).sum ≤ INT_MAX) (a b : String) :
    ((empty.addEdges edges).contains a = true → (empty.addEdges edges).contains b = true →
      (∃ W, Walk (empty.addEdges edges) a b W) →
      IsMinPathWeight (empty.addEdges edges) a b ((empty.addEdges edges).getDistance a b)) ∧
    (((empty.addEdges edges).contains a = false ∨ (empty.addEdges edges).contains b = false ∨
        ¬ ∃ W, Walk (empty.addEdges edges) a b W) →
      (empty.addEdges edges).getDistance a b = INT_MAX) := by
  obtain ⟨hwf, hpos, htot⟩ := addEdges_hyps edges hw hsum
  exact getDistance_spec _ hwf.keys hpos hwf.closed htot a b

/-- C7, amended. For every graph built by `addEdge` from positive weights whose doubled sum
does not exceed `INT_MAX`, `getDistance a b` is the minimum total weight over all paths from `a`
to `b` when both are known and some path exists, and `INT_MAX` when `a` or `b` is unknown or no
path connects them. -/
theorem getDistance_minPath (edges : List (String × String × Int))
    (hw : ∀ e ∈ edges, 0 < e.2.2)
    (hsum : 2 * (edges.map (fun e => e.2.2)).sum ≤ INT_MAX) (a b : String) :
    ((empty.addEdges edges).contains a = true → (empty.addEdges edges).contains b = true →
      (∃ W, Walk (empty.addEdges edges) a b W) →
      IsMinPathWeight (empty.addEdges edges) a b ((empty.addEdges edges).getDistance a b)) ∧
    (((empty.addEdges edges).contains a = false ∨ (empty.addEdges edges).contains b = false ∨
        ¬ ∃ W, Walk (empty.addEdges edges) a b W) →
      (empty.addEdges edges).getDistance a b = INT_MAX) :=
  getDistance_addEdges_spec edges hw hsum a b

theorem getDistance_minPath_witness :
    (∀ e ∈ campusEdges, 0 < e.2.2) ∧
    2 * (campusEdges.map (fun e => e.2.2)).sum ≤ INT_MAX ∧
    (((empty.addEdges campusEdges).contains "cafeteria" = true →
      (empty.addEdges campusEdges).contains "parking" = true →
      (∃ W, Walk (empty.addEdges campusEdges) "cafeteria" "parking" W) →
      IsMinPathWeight (empty.addEdges campusEdges) "cafeteria" "parking"
        ((empty.addEdges campusEdges).getDistance "cafeteria" "parking")) ∧
    (((empty.addEdges campusEdges).contains "cafeteria" = false ∨
        (empty.addEdges campusEdges).contains "parking" = false ∨
        ¬ ∃ W, Walk (empty.addEdges campusEdges) "cafeteria" "parking" W) →
      (empty.addEdges campusEdges).getDistance "cafeteria" "parking" = INT_MAX)) :=
  ⟨by decide, by decide,
    getDistance_minPath campusEdges (by decide) (by decide) "cafeteria" "parking"⟩

/-- C7, as stated, fails: on the chain a - b - c with two weights of 2^30 the locations are
known and connected, yet the value returned for (a, c) is not the minimum path weight. -/
theorem getDistance_minPath_counterexample :
    (∀ e ∈ [(("a" : String), ("b" : String), (1073741824 : Int)), ("b", "c", 1073741824)],
      0 < e.2.2) ∧
    overflowChain.contains "a" = true ∧ overflowChain.contains "c" = true ∧
    (∃ W, Walk overflowChain "a" "c" W) ∧
    ¬ IsMinPathWeight overflowChain "a" "c" (overflowChain.getDistance "a" "c") := by
  have hpos : overflowChain.PositiveWeights :=
    positive_addEdges _ (by decide) empty positive_empty
  have hval : overflowChain.getDistance "a" "c" = -2147483648 := by decide!
  refine ⟨by decide, by decide!, by decide!, ?_, ?_⟩
  · have h1 : Walk overflowChain "a" "b" 1073741824 :=
      walk_single _ _ _ _ (by decide!)
    have h2 : Walk overflowChain "b" "c" 1073741824 :=
      walk_single _ _ _ _ (by decide!)
    exact ⟨_, walk_trans _ _ _ _ _ _ h1 h2⟩
  · intro h
    have := walk_nonneg _ hpos _ _ _ h.1
    rw [hval] at this
    exact absurd this (by decide)

/-- C8, amended. For every graph built by `addEdge` from positive weights whose doubled sum
does not exceed `INT_MAX`, `getDistance a b = getDistance b a`. -/
theorem getDistance_symm (edges : List (String × String × Int))
    (hw : ∀ e ∈ edges, 0 < e.2.2)
    (hsum : 2 * (edges.map (fun e => e.2.2)).sum ≤ INT_MAX) (a b : String) :
    (empty.addEdges edges).getDistance a b = (empty.addEdges edges).getDistance b a := by
  obtain ⟨hwf, -, -⟩ := addEdges_hyps edges hw hsum
  have hrev : ∀ x y W, Walk (empty.addEdges edges) x y W → Walk (empty.addEdges edges) y x W :=
    fun x y W h => walk_reverse _ hwf.symm x y W h
  have hab := getDistance_addEdges_spec edges hw hsum a b
  have hba := getDistance_addEdges_spec edges hw hsum b a
  by_cases ha : (empty.addEdges edges).contains a = true
  · by_cases hb : (empty.addEdges edges).contains b = true
    · by_cases hwalk : ∃ W, Walk (empty.addEdges edges) a b W
      · obtain ⟨W, hW⟩ := hwalk
        have h1 := hab.1 ha hb ⟨W, hW⟩
        have h2 := hba.1 hb ha ⟨W, hrev _ _ _ hW⟩
        exact le_antisymm (h1.2 _ (hrev _ _ _ h2.1)) (h2.2 _ (hrev _ _ _ h1.1))
      · have hwalk2 : ¬ ∃ W, Walk (empty.addEdges edges) b a W := by
          rintro ⟨W, hW⟩
          exact hwalk ⟨W, hrev _ _ _ hW⟩
        rw [hab.2 (Or.inr (Or.inr hwalk)), hba.2 (Or.inr (Or.inr hwalk2))]
    · have hb' : (empty.addEdges edges).contains b = false := by simpa using hb
      rw [hab.2 (Or.inr (Or.inl hb')), hba.2 (Or.inl hb')]
  · have ha' : (empty.addEdges edges).contains a = false := by simpa using ha
    rw [hab.2 (Or.inl ha'), hba.2 (Or.inr (Or.inl ha'))]

theorem getDistance_symm_witness :
    (∀ e ∈ campusEdges, 0 < e.2.2) ∧
    2 * (campusEdges.map (fun e => e.2.2)).sum ≤ INT_MAX ∧
    (empty.addEdges campusEdges).getDistance "cafeteria" "parking" =
      (empty.addEdges campusEdges).getDistance "parking" "cafeteria" :=
  ⟨by decide, by decide, getDistance_symm campusEdges (by decide) (by decide) "cafeteria" "parking"⟩

/-- C8, as stated, fails: with edges a - b of weight 1 and a - c of weight 2^30 the distance
from b to c differs from the distance from c to b. -/
theorem getDistance_symm_counterexample :
    (∀ e ∈ [(("a" : String), ("b" : String), (1 : Int)), ("a", "c", 1073741824)], 0 < e.2.2) ∧
    overflowStar.getDistance "b" "c" ≠ overflowStar.getDistance "c" "b" := by
  decide!

/-- C9, amended. For every graph built by `addEdge` from positive weights whose doubled sum
does not exceed `INT_MAX` and all known locations `a`, `b`, `c`:
`getDistance a c ≤ getDistance a b + getDistance b c`, the sum taken in unbounded integers. -/
theorem getDistance_triangle (edges : List (String × String × Int))
    (hw : ∀ e ∈ edges, 0 < e.2.2)
    (hsum : 2 * (edges.map (fun e => e.2.2)).sum ≤ INT_MAX) (a b c : String)
    (ha : (empty.addEdges edges).contains a = true)
    (hb : (empty.addEdges edges).contains b = true)
    (hc : (empty.addEdges edges).contains c = true) :
    (empty.addEdges edges).getDistance a c ≤
      (empty.addEdges edges).getDistance a b + (empty.addEdges edges).getDistance b c := by
  have hab := getDistance_addEdges_spec edges hw hsum a b
  have hbc := getDistance_addEdges_spec edges hw hsum b c
  have hac := getDistance_addEdges_spec edges hw hsum a c
  have n1 := getDistance_nonneg edges hw hsum a b
  have n2 := getDistance_nonneg edges hw hsum b c
  have r := (getDistance_range (empty.addEdges edges) a c).2
  by_cases h1 : ∃ W, Walk (empty.addEdges edges) a b W
  · by_cases h2 : ∃ W, Walk (empty.addEdges edges) b c W
    · have m1 := hab.1 ha hb h1
      have m2 := hbc.1 hb hc h2
      have hwalk := walk_trans _ a b c _ _ m1.1 m2.1
      exact (hac.1 ha hc ⟨_, hwalk⟩).2 _ hwalk
    · rw [hbc.2 (Or.inr (Or.inr h2))]
      omega
  · rw [hab.2 (Or.inr (Or.inr h1))]
    omega

theorem getDistance_triangle_witness :
    (∀ e ∈ campusEdges, 0 < e.2.2) ∧
    2 * (campusEdges.map (fun e => e.2.2)).sum ≤ INT_MAX ∧
    (empty.addEdges campusEdges).contains "cafeteria" = true ∧
    (empty.addEdges campusEdges).contains "iaa" = true ∧
    (empty.addEdges campusEdges).contains "parking" = true ∧
    (empty.addEdges campusEdges).getDistance "cafeteria" "parking" ≤
      (empty.addEdges campusEdges).getDistance "cafeteria" "iaa" +
        (empty.addEdges campusEdges).getDistance "iaa" "parking" :=
  ⟨by decide, by decide, by decide!, by decide!, by decide!,
    getDistance_triangle campusEdges (by decide) (by decide) "cafeteria" "iaa" "parking"
      (by decide!) (by decide!) (by decide!)⟩

/-- C9, as stated, fails: with edges a - b of weight 2 and a - c of weight 2^30 the three
locations are known, yet the distance from c to a exceeds the sum of the distances from c to b
and from b to a. -/
theorem getDistance_triangle_counterexample :
    (∀ e ∈ [(("a" : String), ("b" : String), (2 : Int)), ("a", "c", 1073741824)], 0 < e.2.2) ∧
    overflowFork.contains "c" = true ∧ overflowFork.contains "b" = true ∧
    overflowFork.contains "a" = true ∧
    ¬ (overflowFork.getDistance "c" "a" ≤
      overflowFork.getDistance "c" "b" + overflowFork.getDistance "b" "a") := by
  decide!

end LocationGraph

namespace LostFoundSystem

theorem campusGraph_eq : campusGraph = LocationGraph.empty.addEdges LocationGraph.campusEdges :=
  rfl

theorem campus_distance_nonneg (a b : String) : 0 ≤ campusGraph.getDistance a b := by
  rw [campusGraph_eq]
  exact LocationGraph.getDistance_nonneg LocationGraph.campusEdges (by decide) (by decide) a b

/-- C6. With `d` the campus distance of the lower-cased locations, the proximity score is 0 if
`d` is the unreachable sentinel, 15 if `d = 0`, and otherwise `max 0 (15 - d / 10)` with
truncating division; `d` is never negative, so the score lies in 0..15 and is 0 once
`d ≥ 150`. -/
theorem calculateProximityScore_spec (l1 l2 : String) :
    (campusGraph.getDistance (toLower l1) (toLower l2) = INT_MAX →
      calculateProximityScore l1 l2 = 0) ∧
    (campusGraph.getDistance (toLower l1) (toLower l2) = 0 →
      calculateProximityScore l1 l2 = 15) ∧
    (campusGraph.getDistance (toLower l1) (toLower l2) ≠ INT_MAX →
      campusGraph.getDistance (toLower l1) (toLower l2) ≠ 0 →
      calculateProximityScore l1 l2 =
        max 0 (15 - Int.tdiv (campusGraph.getDistance (toLower l1) (toLower l2)) 10)) ∧
    0 ≤ campusGraph.getDistance (toLower l1) (toLower l2) ∧
    Int.tdiv (campusGraph.getDistance (toLower l1) (toLower l2)) 10 =
      campusGraph.getDistance (toLower l1) (toLower l2) / 10 ∧
    0 ≤ calculateProximityScore l1 l2 ∧ calculateProximityScore l1 l2 ≤ 15 ∧
    (150 ≤ campusGraph.getDistance (toLower l1) (toLower l2) →
      calculateProximityScore l1 l2 = 0) := by
  have hd := campus_distance_nonneg (toLower l1) (toLower l2)
  have htd : Int.tdiv (campusGraph.getDistance (toLower l1) (toLower l2)) 10 =
      campusGraph.getDistance (toLower l1) (toLower l2) / 10 :=
    Int.tdiv_eq_ediv hd (by decide)
  unfold calculateProximityScore
  simp only
  generalize campusGraph.getDistance (toLower l1) (toLower l2) = d at hd htd
  rw [htd]
  refine ⟨?_, ?_, ?_, hd, rfl, ?_, ?_, ?_⟩
  · intro h
    simp [h]
  · intro h
    subst h
    have : ¬ (0 : Int) = INT_MAX := by decide
    simp [this]
  · intro h1 h2
    simp [h1, h2]
  · split_ifs
    · exact le_refl _
    · decide
    · exact le_max_left _ _
  · split_ifs
    · decide
    · exact le_refl _
    · apply max_le
      · decide
      · omega
  · intro h
    split_ifs with h1 h2
    · rfl
    · omega
    · apply max_eq_left
      omega

end LostFoundSystem

namespace LostFoundSystem

theorem topK_scores_eq (name color location : String) (category : Category)
    (items : List Item) :
    (MatchHeap.getTopK (fillHeap name color location category items []) 10).map
        (fun c => c.score) =
      ((((items.filter (fun it => !it.archived &&
          decide (0 < calculateNameScore name it.name))).map
        (makeCandidate name color location category)).map (fun c => c.score)).insertionSort
        (fun a b => a ≥ b)).take
        (min 10 (items.filter (fun it => !it.archived &&
          decide (0 < calculateNameScore name it.name))).length) := by
  have hfill := fillHeap_spec name color location category items [] MatchHeap.isHeap_nil
  obtain ⟨rest, hp, hlen, hsorted, hle⟩ := MatchHeap.getTopK_spec _ 10 hfill.1
  have hperm := hfill.2
  rw [List.append_nil] at hperm
  have h1 := MatchHeap.sorted_take_unique _ rest _ (hp.trans hperm) hsorted hle
  rw [h1, hlen, hperm.length_eq, List.length_map]

/-- The scores returned for a found item do not depend on the order in which the registry
hands out the lost items. -/
theorem topK_scores_perm (name color location : String) (category : Category)
    (items1 items2 : List Item) (h : items1.Perm items2) :
    (MatchHeap.getTopK (fillHeap name color location category items1 []) 10).map
        (fun c => c.score) =
      (MatchHeap.getTopK (fillHeap name color location category items2 []) 10).map
        (fun c => c.score) := by
  rw [topK_scores_eq, topK_scores_eq]
  have hf := h.filter (fun it => !it.archived && decide (0 < calculateNameScore name it.name))
  have hm := (hf.map (makeCandidate name color location category)).map (fun c => c.score)
  have hs := @List.eq_of_perm_of_sorted Int (fun a b => a ≥ b) _ _ _
    (((List.perm_insertionSort _ _).trans hm).trans (List.perm_insertionSort _ _).symm)
    (List.sorted_insertionSort _ _) (List.sorted_insertionSort _ _)
  rw [hs, hf.length_eq]

end LostFoundSystem

/-! ### Autocomplete tries -/

namespace TrieNode

theorem take_append_step (results a b : List String) (L : Nat) :
    (results ++ a.take (L - results.length)) ++
        b.take (L - (results ++ a.take (L - results.length)).length) =
      results ++ (a ++ b).take (L - results.length) := by
  rw [List.take_append_eq_append_take, List.append_assoc]
  congr 2
  simp only [List.length_append, List.length_take]
  congr 1
  omega

mutual
theorem collectWords_eq : ∀ (node : TrieNode) (results : List String) (limit : Int),
    collectWords node results limit =
      results ++ (allWords node).take (sizeOfLimit limit - results.length)
  | .mk children isEndOfWord fullWord, results, limit => by
    rw [collectWords, allWords]
    by_cases h : results.length ≥ sizeOfLimit limit
    · simp only [h, if_true]
      have : sizeOfLimit limit - results.length = 0 := by omega
      simp [this]
    · simp only [h, if_false]
      rw [collectChildren_eq children]
      cases isEndOfWord with
      | false => simp
      | true =>
        simp only [if_true, List.length_append, List.length_singleton, List.append_assoc]
        congr 1
        have : sizeOfLimit limit - results.length =
            (sizeOfLimit limit - (results.length + 1)) + 1 := by omega
        rw [this]
        simp
theorem collectChildren_eq : ∀ (children : List (Char × TrieNode)) (results : List String)
    (limit : Int),
    collectChildren children results limit =
      results ++ (allChildWords children).take (sizeOfLimit limit - results.length)
  | [], results, limit => by
    simp [collectChildren, allChildWords]
  | (_, child) :: rest, results, limit => by
    rw [collectChildren, allChildWords, collectWords_eq child, collectChildren_eq rest]
    exact take_append_step results _ _ _
end

end TrieNode

namespace TrieNode

theorem find_child_of_nodup {β : Type} :
    ∀ (l : List (Char × β)), (l.map (fun p => p.1)).Nodup → ∀ p ∈ l,
      l.find? (fun q => q.1 == p.1) = some p := by
  intro l
  induction l with
  | nil => intro _ p hp; simp at hp
  | cons q rest ih =>
    intro hk p hp
    simp only [List.map_cons, List.nodup_cons] at hk
    rcases List.mem_cons.mp hp with h | h
    · subst h
      simp
    · have hne : q.1 ≠ p.1 := by
        intro heq
        apply hk.1
        rw [heq]
        exact List.mem_map.mpr ⟨p, h, rfl⟩
      have hb : (q.1 == p.1) = false := by simpa using hne
      rw [List.find?_cons, hb]
      exact ih hk.2 p h

theorem uniqueChildrenList_iff (children : List (Char × TrieNode)) :
    UniqueChildrenList children ↔ ∀ p ∈ children, UniqueChildren p.2 := by
  induction children with
  | nil => simp [UniqueChildrenList]
  | cons p rest ih =>
    obtain ⟨c, child⟩ := p
    simp only [UniqueChildrenList, ih, List.mem_cons, forall_eq_or_imp]

theorem uniqueChildren_empty : UniqueChildren empty := by
  simp [empty, UniqueChildren, UniqueChildrenList]

theorem uniqueChildren_insertChars (word : String) :
    ∀ (cs : List Char) (node : TrieNode), UniqueChildren node →
      UniqueChildren (insertChars word cs node) := by
  intro cs
  induction cs with
  | nil =>
    intro node h
    obtain ⟨children, e, w⟩ := node
    simpa [insertChars, UniqueChildren] using h
  | cons c cs ih =>
    intro node h
    obtain ⟨children, e, w⟩ := node
    simp only [UniqueChildren] at h
    rw [insertChars]
    cases hf : (children.find? (fun p => p.1 == c)).map (fun p => p.2) with
    | some next =>
      simp only
      obtain ⟨p, hp, hpn⟩ := Option.map_eq_some'.mp hf
      have hmem := List.mem_of_find?_eq_some hp
      have hnext : UniqueChildren next := by
        rw [← hpn]
        exact (uniqueChildrenList_iff children).mp h.2 p hmem
      simp only [UniqueChildren]
      constructor
      · have : (children.map (fun p => if p.1 = c then (p.1, insertChars word cs next) else p)).map
            (fun p => p.1) = children.map (fun p => p.1) := by
          rw [List.map_map]
          apply List.map_congr_left
          intro q _
          simp only [Function.comp]
          split_ifs <;> rfl
        rw [this]
        exact h.1
      · rw [uniqueChildrenList_iff]
        intro q hq
        obtain ⟨q0, hq0, rfl⟩ := List.mem_map.mp hq
        split_ifs
        · exact ih next hnext
        · exact (uniqueChildrenList_iff children).mp h.2 q0 hq0
    | none =>
      simp only
      have hnone : children.find? (fun p => p.1 == c) = none := by
        simpa using hf
      simp only [UniqueChildren]
      constructor
      · rw [List.map_append, List.nodup_append]
        refine ⟨h.1, by simp, ?_⟩
        intro x hx hx2
        simp only [List.map_cons, List.map_nil, List.mem_singleton] at hx2
        subst hx2
        obtain ⟨q, hq, hqc⟩ := List.mem_map.mp hx
        have := List.find?_eq_none.mp hnone q hq
        simp [hqc] at this
      · rw [uniqueChildrenList_iff]
        intro q hq
        rcases List.mem_append.mp hq with hq | hq
        · exact (uniqueChildrenList_iff children).mp h.2 q hq
        · simp only [List.mem_singleton] at hq
          subst hq
          exact ih empty uniqueChildren_empty

theorem lookup_nil (children : List (Char × TrieNode)) (e : Bool) (w : String) :
    lookup (.mk children e w) [] = if e then some w else none := by
  simp [lookup, descend, isEnd, word]

theorem lookup_cons (children : List (Char × TrieNode)) (e : Bool) (w : String) (c : Char)
    (k : List Char) :
    lookup (.mk children e w) (c :: k) =
      match (children.find? (fun p => p.1 == c)).map (fun p => p.2) with
      | some next => lookup next k
      | none => none := by
  simp only [lookup, descend]
  cases (children.find? (fun p => p.1 == c)).map (fun p => p.2) <;> rfl

theorem lookup_empty (key : List Char) : lookup empty key = none := by
  cases key with
  | nil => simp [empty, lookup_nil]
  | cons c k => simp [empty, lookup_cons]

/-- What `insert` stores: the new word under its own key, everything else as before. -/
theorem lookup_insertChars (word : String) :
    ∀ (cs : List Char) (node : TrieNode) (key : List Char),
      lookup (insertChars word cs node) key =
        if key = cs then some word else lookup node key := by
  intro cs
  induction cs with
  | nil =>
    intro node key
    obtain ⟨children, e, w⟩ := node
    rw [insertChars]
    cases key with
    | nil => simp [lookup_nil]
    | cons c k => simp [lookup_cons]
  | cons c cs ih =>
    intro node key
    obtain ⟨children, e, w⟩ := node
    rw [insertChars]
    cases hf : children.find? (fun p => p.1 == c) with
    | some p =>
      simp only [Option.map_some']
      cases key with
      | nil => simp [lookup_nil]
      | cons c2 k =>
        rw [lookup_cons, lookup_cons, List.find?_map]
        have hcomp : ((fun p : Char × TrieNode => p.1 == c2) ∘
            fun q => if q.1 = c then (q.1, insertChars word cs p.2) else q) =
            fun p => p.1 == c2 := by
          funext q
          simp only [Function.comp]
          split_ifs <;> rfl
        rw [hcomp]
        by_cases hc : c2 = c
        · subst hc
          rw [hf]
          have hp1 : p.1 = c2 := by simpa using List.find?_some hf
          simp only [Option.map_some', hp1, if_true, ih p.2 k, List.cons.injEq, true_and]
        · cases hf2 : children.find? (fun p => p.1 == c2) with
          | some q =>
            have hq1 : q.1 = c2 := by simpa using List.find?_some hf2
            have hqc : ¬ q.1 = c := by rw [hq1]; exact hc
            simp [hqc, hc]
          | none => simp [hc]
    | none =>
      simp only [Option.map_none']
      cases key with
      | nil => simp [lookup_nil]
      | cons c2 k =>
        rw [lookup_cons, lookup_cons, List.find?_append]
        by_cases hc : c2 = c
        · subst hc
          rw [hf]
          simp [ih empty k, lookup_empty]
        · have hcc : ¬ c = c2 := fun h => hc h.symm
          cases hf2 : children.find? (fun p => p.1 == c2) with
          | some q => simp [hc]
          | none => simp [hc, hcc]

end TrieNode

namespace TrieNode

mutual
theorem allWords_eq_entries : ∀ (node : TrieNode),
    allWords node = (allEntries node).map (fun e => e.2)
  | .mk children isEndOfWord fullWord => by
    rw [allWords, allEntries, allChildWords_eq_entries children]
    cases isEndOfWord <;> simp
theorem allChildWords_eq_entries : ∀ (children : List (Char × TrieNode)),
    allChildWords children = (allChildEntries children).map (fun e => e.2)
  | [] => by simp [allChildWords, allChildEntries]
  | (c, child) :: rest => by
    rw [allChildWords, allChildEntries, allWords_eq_entries child,
      allChildWords_eq_entries rest]
    simp [List.map_map, Function.comp]
end

theorem mem_allChildEntries (children : List (Char × TrieNode)) (key : List Char)
    (w : String) :
    (key, w) ∈ allChildEntries children ↔
      ∃ p ∈ children, ∃ k, key = p.1 :: k ∧ (k, w) ∈ allEntries p.2 := by
  induction children with
  | nil => simp [allChildEntries]
  | cons p rest ih =>
    obtain ⟨c, child⟩ := p
    simp only [allChildEntries, List.mem_append, List.mem_map, ih, List.mem_cons,
      exists_eq_or_imp]
    constructor
    · rintro (⟨e, he, heq⟩ | h)
      · left
        simp only [Prod.mk.injEq] at heq
        exact ⟨e.1, heq.1.symm, by rw [← heq.2]; exact he⟩
      · exact Or.inr h
    · rintro (⟨k, hk, he⟩ | h)
      · left
        exact ⟨(k, w), he, by simp [hk]⟩
      · exact Or.inr h

theorem mem_allEntries_nil (children : List (Char × TrieNode)) (e : Bool) (fw w : String) :
    ([], w) ∈ allEntries (.mk children e fw) ↔ e = true ∧ fw = w := by
  rw [allEntries, List.mem_append, mem_allChildEntries]
  cases e <;> simp [eq_comm]

theorem mem_allEntries_cons (children : List (Char × TrieNode)) (e : Bool) (fw w : String)
    (c : Char) (k : List Char) :
    (c :: k, w) ∈ allEntries (.mk children e fw) ↔
      ∃ p ∈ children, p.1 = c ∧ (k, w) ∈ allEntries p.2 := by
  rw [allEntries, List.mem_append, mem_allChildEntries]
  constructor
  · rintro (h | ⟨p, hp, k2, hk, he⟩)
    · cases e <;> simp at h
    · simp only [List.cons.injEq] at hk
      exact ⟨p, hp, hk.1.symm, by rw [hk.2]; exact he⟩
  · rintro ⟨p, hp, hc, he⟩
    exact Or.inr ⟨p, hp, k, by rw [hc], he⟩

/-- A stored word that `descend` reaches is met by the traversal. -/
theorem mem_allEntries_of_lookup :
    ∀ (key : List Char) (node : TrieNode) (w : String),
      lookup node key = some w → (key, w) ∈ allEntries node := by
  intro key
  induction key with
  | nil =>
    intro node w h
    obtain ⟨children, e, fw⟩ := node
    rw [lookup_nil] at h
    rw [mem_allEntries_nil]
    cases e <;> simp_all
  | cons c k ih =>
    intro node w h
    obtain ⟨children, e, fw⟩ := node
    rw [lookup_cons] at h
    rw [mem_allEntries_cons]
    cases hf : children.find? (fun p => p.1 == c) with
    | none => rw [hf] at h; simp at h
    | some p =>
      rw [hf] at h
      simp only [Option.map_some'] at h
      have hp1 : p.1 = c := by simpa using List.find?_some hf
      exact ⟨p, List.mem_of_find?_eq_some hf, hp1, ih p.2 w h⟩

/-- With unique children, every word met by the traversal is reached by `descend`. -/
theorem lookup_of_mem_allEntries :
    ∀ (key : List Char) (node : TrieNode) (w : String), UniqueChildren node →
      (key, w) ∈ allEntries node → lookup node key = some w := by
  intro key
  induction key with
  | nil =>
    intro node w _ h
    obtain ⟨children, e, fw⟩ := node
    rw [mem_allEntries_nil] at h
    rw [lookup_nil]
    simp [h.1, h.2]
  | cons c k ih =>
    intro node w hu h
    obtain ⟨children, e, fw⟩ := node
    rw [mem_allEntries_cons] at h
    obtain ⟨p, hp, hc, he⟩ := h
    simp only [UniqueChildren] at hu
    rw [lookup_cons]
    have hf := find_child_of_nodup children hu.1 p hp
    rw [hc] at hf
    rw [hf]
    simp only [Option.map_some']
    exact ih p.2 w ((uniqueChildrenList_iff children).mp hu.2 p hp) he

mutual
theorem nodup_allEntries : ∀ (node : TrieNode), UniqueChildren node →
    ((allEntries node).map (fun e => e.1)).Nodup
  | .mk children isEndOfWord fullWord, h => by
    simp only [UniqueChildren] at h
    rw [allEntries, List.map_append, List.nodup_append]
    refine ⟨?_, nodup_allChildEntries children h.1 h.2, ?_⟩
    · cases isEndOfWord <;> simp
    · intro key h1 h2
      have hnil : key = [] := by
        cases isEndOfWord <;> simp at h1
        exact h1
      subst hnil
      obtain ⟨e, he, hk⟩ := List.mem_map.mp h2
      have hmem : (([] : List Char), e.2) ∈ allChildEntries children := by
        rw [← hk]
        exact he
      rw [mem_allChildEntries] at hmem
      obtain ⟨_, _, _, hk2, _⟩ := hmem
      simp at hk2
theorem nodup_allChildEntries : ∀ (children : List (Char × TrieNode)),
    (children.map (fun p => p.1)).Nodup → UniqueChildrenList children →
    ((allChildEntries children).map (fun e => e.1)).Nodup
  | [], _, _ => by simp [allChildEntries]
  | (c, child) :: rest, hk, hu => by
    simp only [UniqueChildrenList] at hu
    simp only [List.map_cons, List.nodup_cons] at hk
    rw [allChildEntries, List.map_append, List.nodup_append]
    refine ⟨?_, nodup_allChildEntries rest hk.2 hu.2, ?_⟩
    · rw [List.map_map]
      have : ((fun e : List Char × String => e.1) ∘
          fun e : List Char × String => (c :: e.1, e.2)) =
          (fun k : List Char => c :: k) ∘ fun e : List Char × String => e.1 := by
        funext e
        rfl
      rw [this, ← List.map_map]
      exact (nodup_allEntries child hu.1).map (fun a b hab => by simpa using hab)
    · intro key h1 h2
      obtain ⟨e1, he1, hk1⟩ := List.mem_map.mp h1
      obtain ⟨e0, _, he0⟩ := List.mem_map.mp he1
      obtain ⟨e2, he2, hk2⟩ := List.mem_map.mp h2
      have hmem : (key, e2.2) ∈ allChildEntries rest := by
        rw [← hk2]
        exact he2
      rw [mem_allChildEntries] at hmem
      obtain ⟨p, hp, k, hkey, _⟩ := hmem
      apply hk.1
      have hc : c = p.1 := by
        rw [← hk1, ← he0] at hkey
        simp only [List.cons.injEq] at hkey
        exact hkey.1
      rw [hc]
      exact List.mem_map.mpr ⟨p, hp, rfl⟩
end

theorem descend_append :
    ∀ (a : List Char) (node : TrieNode) (b : List Char),
      descend node (a ++ b) = (descend node a).bind (fun n => descend n b) := by
  intro a
  induction a with
  | nil => intro node b; simp [descend]
  | cons c a ih =>
    intro node b
    obtain ⟨children, e, w⟩ := node
    simp only [List.cons_append, descend]
    cases (children.find? (fun p => p.1 == c)).map (fun p => p.2) with
    | none => simp
    | some next => simp [ih next b]

theorem lookup_append (a : List Char) (node sub : TrieNode) (b : List Char)
    (h : descend node a = some sub) : lookup node (a ++ b) = lookup sub b := by
  simp [lookup, descend_append, h]

theorem uniqueChildren_descend :
    ∀ (a : List Char) (node sub : TrieNode), UniqueChildren node →
      descend node a = some sub → UniqueChildren sub := by
  intro a
  induction a with
  | nil =>
    intro node sub hu h
    simp only [descend, Option.some.injEq] at h
    rw [← h]
    exact hu
  | cons c a ih =>
    intro node sub hu h
    obtain ⟨children, e, w⟩ := node
    simp only [descend] at h
    simp only [UniqueChildren] at hu
    cases hf : children.find? (fun p => p.1 == c) with
    | none => rw [hf] at h; simp at h
    | some p =>
      rw [hf] at h
      simp only [Option.map_some'] at h
      exact ih p.2 sub ((uniqueChildrenList_iff children).mp hu.2 p
        (List.mem_of_find?_eq_some hf)) h

end TrieNode

namespace Trie

theorem insertAll_cons (root : TrieNode) (w : String) (ws : List String) :
    insertAll root (w :: ws) = insertAll (insert root w) ws := rfl

theorem uniqueChildren_insertAll (ws : List String) :
    ∀ (root : TrieNode), TrieNode.UniqueChildren root →
      TrieNode.UniqueChildren (insertAll root ws) := by
  induction ws with
  | nil => intro root h; exact h
  | cons w ws ih =>
    intro root h
    rw [insertAll_cons]
    exact ih _ (TrieNode.uniqueChildren_insertChars w _ root h)

theorem lastInserted_cons (w : String) (ws : List String) (key : List Char) :
    lastInserted (w :: ws) key =
      match lastInserted ws key with
      | some v => some v
      | none => if (toLower w).data = key then some w else none := by
  unfold lastInserted
  rw [List.reverse_cons, List.find?_append]
  cases ws.reverse.find? (fun w => (toLower w).data == key) with
  | some v => simp
  | none =>
    simp only [Option.none_or, List.find?_cons, List.find?_nil]
    by_cases h : (toLower w).data = key
    · simp [h]
    · have hb : ((toLower w).data == key) = false := by simpa using h
      simp [h, hb]

/-- What a run of inserts stores under a key: the last word inserted with that key. -/
theorem lookup_insertAll (ws : List String) :
    ∀ (root : TrieNode) (key : List Char),
      TrieNode.lookup (insertAll root ws) key =
        match lastInserted ws key with
        | some v => some v
        | none => TrieNode.lookup root key := by
  induction ws with
  | nil =>
    intro root key
    simp [insertAll, lastInserted]
  | cons w ws ih =>
    intro root key
    rw [insertAll_cons, ih, lastInserted_cons]
    cases lastInserted ws key with
    | some v => rfl
    | none =>
      simp only [insert, TrieNode.lookup_insertChars]
      by_cases h : key = (toLower w).data
      · simp [h]
      · have h2 : ¬ (toLower w).data = key := fun h' => h h'.symm
        simp [h, h2]

theorem lastInserted_some (ws : List String) (key : List Char) (v : String)
    (h : lastInserted ws key = some v) : v ∈ ws ∧ (toLower v).data = key := by
  unfold lastInserted at h
  have h1 := List.mem_of_find?_eq_some h
  have h2 := List.find?_some h
  exact ⟨by simpa using h1, by simpa using h2⟩

theorem lastInserted_of_mem (ws : List String) (w : String) (hw : w ∈ ws) :
    ∃ v, lastInserted ws (toLower w).data = some v := by
  unfold lastInserted
  cases hf : ws.reverse.find? (fun u => (toLower u).data == (toLower w).data) with
  | some v => exact ⟨v, rfl⟩
  | none =>
    have := List.find?_eq_none.mp hf w (by simpa using hw)
    simp at this

theorem lookup_built (ws : List String) (key : List Char) :
    TrieNode.lookup (insertAll TrieNode.empty ws) key = lastInserted ws key := by
  rw [lookup_insertAll, TrieNode.lookup_empty]
  cases lastInserted ws key <;> rfl

/-- Every word that `autocomplete` returns is stored under a key that extends the prefix. -/
theorem mem_autocomplete (root : TrieNode) (hu : TrieNode.UniqueChildren root) (p : String)
    (limit : Int) (v : String) (hv : v ∈ autocomplete root p limit) :
    ∃ q, TrieNode.lookup root ((toLower p).data ++ q) = some v := by
  unfold autocomplete at hv
  cases hd : TrieNode.descend root (toLower p).data with
  | none => rw [hd] at hv; simp at hv
  | some sub =>
    rw [hd] at hv
    simp only [TrieNode.collectWords_eq, List.nil_append] at hv
    have hv2 : v ∈ TrieNode.allWords sub := List.mem_of_mem_take hv
    rw [TrieNode.allWords_eq_entries] at hv2
    obtain ⟨e, he, rfl⟩ := List.mem_map.mp hv2
    refine ⟨e.1, ?_⟩
    rw [TrieNode.lookup_append _ root sub _ hd]
    exact TrieNode.lookup_of_mem_allEntries e.1 sub e.2
      (TrieNode.uniqueChildren_descend _ root sub hu hd) he

theorem length_autocomplete_le (root : TrieNode) (p : String) (limit : Int) :
    (autocomplete root p limit).length ≤ sizeOfLimit limit := by
  unfold autocomplete
  cases TrieNode.descend root (toLower p).data with
  | none => simp
  | some sub =>
    simp only [TrieNode.collectWords_eq, List.nil_append, List.length_take]
    omega

theorem sizeOfLimit_le (limit : Int) (h : 0 ≤ limit) : (sizeOfLimit limit : Int) ≤ limit := by
  unfold sizeOfLimit
  have h1 : 0 ≤ limit % 18446744073709551616 := Int.emod_nonneg _ (by decide)
  rw [Int.toNat_of_nonneg h1]
  omega

end Trie

namespace Trie

theorem sizeOfLimit_eq (limit : Int) (h0 : 0 ≤ limit) (h1 : limit ≤ INT_MAX) :
    sizeOfLimit limit = limit.toNat := by
  unfold sizeOfLimit
  unfold INT_MAX at h1
  congr 1
  omega

theorem autocomplete_sound_aux (ws : List String) (p : String) (limit : Int) (v : String)
    (hv : v ∈ autocomplete (insertAll TrieNode.empty ws) p limit) :
    v ∈ ws ∧ ∃ t, (toLower v).data = (toLower p).data ++ t := by
  have hu := uniqueChildren_insertAll ws TrieNode.empty TrieNode.uniqueChildren_empty
  obtain ⟨q, hq⟩ := mem_autocomplete _ hu p limit v hv
  rw [lookup_built] at hq
  obtain ⟨h1, h2⟩ := lastInserted_some ws _ v hq
  exact ⟨h1, q, h2⟩

/-- With a limit that covers the stored words below the prefix, `autocomplete` returns each
of them once: the result holds, exactly once, the last word inserted with the key of `w`. -/
theorem autocomplete_complete_aux (ws : List String) (w : String) (hw : w ∈ ws) (p : String)
    (hp : ∃ t, (toLower w).data = (toLower p).data ++ t) (limit : Int)
    (hl1 : (storedUnder (insertAll TrieNode.empty ws) p : Int) ≤ limit)
    (hl2 : limit ≤ INT_MAX) :
    ∃ v, lastInserted ws (toLower w).data = some v ∧ toLower v = toLower w ∧
      (autocomplete (insertAll TrieNode.empty ws) p limit).count v = 1 := by
  have hu := uniqueChildren_insertAll ws TrieNode.empty TrieNode.uniqueChildren_empty
  obtain ⟨v, hv⟩ := lastInserted_of_mem ws w hw
  obtain ⟨hvmem, hvkey⟩ := lastInserted_some ws _ v hv
  obtain ⟨t, ht⟩ := hp
  have hlook : TrieNode.lookup (insertAll TrieNode.empty ws) ((toLower p).data ++ t) = some v := by
    rw [lookup_built, ← ht]
    exact hv
  cases hd : TrieNode.descend (insertAll TrieNode.empty ws) (toLower p).data with
  | none =>
    simp [TrieNode.lookup, TrieNode.descend_append, hd] at hlook
  | some sub =>
    have hsub : TrieNode.lookup sub t = some v := by
      rw [← TrieNode.lookup_append _ _ sub _ hd]
      exact hlook
    have husub := TrieNode.uniqueChildren_descend _ _ sub hu hd
    have hlen : (TrieNode.allWords sub).length ≤ sizeOfLimit limit := by
      unfold storedUnder at hl1
      rw [hd] at hl1
      simp only at hl1
      have h0 : 0 ≤ limit := le_trans (Int.natCast_nonneg _) hl1
      rw [sizeOfLimit_eq limit h0 hl2]
      omega
    have hres : autocomplete (insertAll TrieNode.empty ws) p limit = TrieNode.allWords sub := by
      unfold autocomplete
      rw [hd]
      simp only [TrieNode.collectWords_eq, List.nil_append, Nat.sub_zero]
      exact List.take_of_length_le hlen
    have hmem : v ∈ TrieNode.allWords sub := by
      rw [TrieNode.allWords_eq_entries]
      exact List.mem_map.mpr ⟨(t, v), TrieNode.mem_allEntries_of_lookup t sub v hsub, rfl⟩
    have hkey : ∀ e ∈ TrieNode.allEntries sub, (toLower e.2).data = (toLower p).data ++ e.1 := by
      intro e he
      have h1 := TrieNode.lookup_of_mem_allEntries e.1 sub e.2 husub he
      rw [← TrieNode.lookup_append _ _ sub _ hd, lookup_built] at h1
      exact (lastInserted_some ws _ e.2 h1).2
    have hnd : (TrieNode.allWords sub).Nodup := by
      rw [TrieNode.allWords_eq_entries]
      apply List.Nodup.map_on
      · intro e1 he1 e2 he2 h12
        have k1 := hkey e1 he1
        have k2 := hkey e2 he2
        rw [h12] at k1
        have : e1.1 = e2.1 := List.append_cancel_left (k1.symm.trans k2)
        exact Prod.ext this h12
      · exact List.Nodup.of_map _ (TrieNode.nodup_allEntries sub husub)
    refine ⟨v, hv, String.ext hvkey, ?_⟩
    rw [hres]
    exact List.count_eq_one_of_mem hnd hmem

/-- C12, amended. After any run of inserts, for every inserted word `w`, every prefix `p`
whose lower-cased form is a prefix of the lower-cased `w`, and every limit at least as large as
the number of words stored below `p`, `autocomplete p limit` contains exactly once the word
most recently inserted with the lower-cased form of `w`; this is `w` itself unless another
spelling of it was inserted. -/
theorem autocomplete_complete (ws : List String) (w : String) (hw : w ∈ ws) (p : String)
    (hp : ∃ t, (toLower w).data = (toLower p).data ++ t) (limit : Int)
    (hl1 : (storedUnder (insertAll TrieNode.empty ws) p : Int) ≤ limit)
    (hl2 : limit ≤ INT_MAX) :
    (∃ v, lastInserted ws (toLower w).data = some v ∧ toLower v = toLower w ∧
      (autocomplete (insertAll TrieNode.empty ws) p limit).count v = 1) ∧
    ((∀ u ∈ ws, toLower u = toLower w → u = w) →
      (autocomplete (insertAll TrieNode.empty ws) p limit).count w = 1) := by
  obtain ⟨v, h1, h2, h3⟩ := autocomplete_complete_aux ws w hw p hp limit hl1 hl2
  refine ⟨⟨v, h1, h2, h3⟩, ?_⟩
  intro hall
  have hv := (lastInserted_some ws _ v h1).1
  rw [← hall v hv h2]
  exact h3

theorem autocomplete_complete_witness :
    "Apple" ∈ ["Apple", "apricot"] ∧
    (∃ t, (toLower "Apple").data = (toLower "ap").data ++ t) ∧
    (storedUnder (insertAll TrieNode.empty ["Apple", "apricot"]) "ap" : Int) ≤ 10 ∧
    (10 : Int) ≤ INT_MAX ∧
    ((∃ v, lastInserted ["Apple", "apricot"] (toLower "Apple").data = some v ∧
        toLower v = toLower "Apple" ∧
        (autocomplete (insertAll TrieNode.empty ["Apple", "apricot"]) "ap" 10).count v = 1) ∧
      ((∀ u ∈ ["Apple", "apricot"], toLower u = toLower "Apple" → u = "Apple") →
        (autocomplete (insertAll TrieNode.empty ["Apple", "apricot"]) "ap" 10).count "Apple"
          = 1)) :=
  ⟨by decide, ⟨"ple".data, by decide⟩, by decide!, by decide,
    autocomplete_complete ["Apple", "apricot"] "Apple" (by decide) "ap"
      ⟨"ple".data, by decide⟩ 10 (by decide!) (by decide)⟩

/-- C12, as stated, fails: after inserting "Apple" and then "apple", the word "Apple" is an
inserted word with prefix "a", the limit 10 covers the one stored word, and `autocomplete`
does not contain "Apple". -/
theorem autocomplete_complete_counterexample :
    "Apple" ∈ ["Apple", "apple"] ∧
    (∃ t, (toLower "Apple").data = (toLower "a").data ++ t) ∧
    (storedUnder (insertAll TrieNode.empty ["Apple", "apple"]) "a" : Int) ≤ 10 ∧
    ¬ (autocomplete (insertAll TrieNode.empty ["Apple", "apple"]) "a" 10).count "Apple" = 1 :=
  ⟨by decide, ⟨"pple".data, by decide⟩, by decide!, by decide!⟩

/-- C13. After any run of inserts, `autocomplete p limit` with `limit ≥ 0` returns at most
`limit` words, each of them an inserted word whose lower-cased form starts with the lower-cased
prefix; so `searchAutocomplete` returns at most 10 words. -/
theorem autocomplete_sound (ws : List String) (p : String) (limit : Int) (hl : 0 ≤ limit) :
    ((autocomplete (insertAll TrieNode.empty ws) p limit).length : Int) ≤ limit ∧
    (∀ v ∈ autocomplete (insertAll TrieNode.empty ws) p limit,
      v ∈ ws ∧ ∃ t, (toLower v).data = (toLower p).data ++ t) ∧
    ∀ s : LostFoundSystem, (s.searchAutocomplete p).length ≤ 10 := by
  refine ⟨?_, fun v hv => autocomplete_sound_aux ws p limit v hv, ?_⟩
  · have h1 := length_autocomplete_le (insertAll TrieNode.empty ws) p limit
    have h2 := sizeOfLimit_le limit hl
    omega
  · intro s
    have := length_autocomplete_le s.searchTrie p 10
    have h10 : sizeOfLimit 10 = 10 := by decide
    rw [h10] at this
    exact this

theorem autocomplete_sound_witness :
    (0 : Int) ≤ 1 ∧
    (((autocomplete (insertAll TrieNode.empty ["Apple", "apricot", "banana"]) "ap" 1).length
        : Int) ≤ 1 ∧
    (∀ v ∈ autocomplete (insertAll TrieNode.empty ["Apple", "apricot", "banana"]) "ap" 1,
      v ∈ ["Apple", "apricot", "banana"] ∧ ∃ t, (toLower v).data = (toLower "ap").data ++ t) ∧
    ∀ s : LostFoundSystem, (s.searchAutocomplete "ap").length ≤ 10) :=
  ⟨by decide, autocomplete_sound ["Apple", "apricot", "banana"] "ap" 1 (by decide)⟩

end Trie

namespace Trie

theorem autocomplete_from_root (root : TrieNode) (limit : Int) :
    autocomplete root "" limit = (TrieNode.allWords root).take (sizeOfLimit limit) := by
  have h : (toLower "").data = [] := by decide
  unfold autocomplete
  rw [h]
  simp [TrieNode.descend, TrieNode.collectWords_eq]

theorem mem_allWords_built (ws : List String) (v : String) :
    v ∈ TrieNode.allWords (insertAll TrieNode.empty ws) ↔
      ∃ key, lastInserted ws key = some v := by
  have hu := uniqueChildren_insertAll ws TrieNode.empty TrieNode.uniqueChildren_empty
  rw [TrieNode.allWords_eq_entries]
  constructor
  · intro h
    obtain ⟨e, he, rfl⟩ := List.mem_map.mp h
    have := TrieNode.lookup_of_mem_allEntries e.1 _ e.2 hu he
    rw [lookup_built] at this
    exact ⟨e.1, this⟩
  · rintro ⟨key, hk⟩
    rw [← lookup_built] at hk
    exact List.mem_map.mpr ⟨(key, v), TrieNode.mem_allEntries_of_lookup key _ v hk, rfl⟩

/-- C14, as stated, fails: in a system holding one reported item the empty prefix returns
that item's name, from `searchAutocomplete` and from `Trie::autocomplete` alike. -/
theorem autocomplete_empty_prefix_counterexample :
    sampleSystem.searchAutocomplete "" = ["blue backpack"] ∧
    autocomplete sampleSystem.searchTrie "" 10 ≠ [] := by
  decide!

/-- C14, amended. With the empty prefix `autocomplete` starts at the root: it returns the
first `limit` words of the whole trie in traversal order, which after a run of inserts are
the stored words (the last spelling inserted for each lower-cased form); `searchAutocomplete`
returns the first 10 of them, and the result is empty in a fresh system. -/
theorem autocomplete_empty_prefix_all (root : TrieNode) (limit : Int) (s : LostFoundSystem)
    (ws : List String) :
    autocomplete root "" limit = (TrieNode.allWords root).take (sizeOfLimit limit) ∧
    s.searchAutocomplete "" = (TrieNode.allWords s.searchTrie).take 10 ∧
    (∀ v, v ∈ TrieNode.allWords (insertAll TrieNode.empty ws) ↔
      ∃ key, lastInserted ws key = some v) ∧
    LostFoundSystem.fresh.searchAutocomplete "" = [] := by
  refine ⟨autocomplete_from_root root limit, ?_, mem_allWords_built ws, by decide⟩
  unfold LostFoundSystem.searchAutocomplete
  rw [autocomplete_from_root]
  rfl

end Trie

namespace CategoryTrieManager

theorem manager_insertAll_cons (m : CategoryTrieManager) (e : String × Category)
    (calls : List (String × Category)) :
    insertAll m (e :: calls) = insertAll (m.insert e.1 e.2) calls := rfl

theorem categoryTries_insertAll (calls : List (String × Category)) (c : Category) :
    ∀ (m : CategoryTrieManager),
      (insertAll m calls).categoryTries c =
        Trie.insertAll (m.categoryTries c)
          ((calls.filter (fun e => decide (e.2 = c))).map (fun e => e.1)) := by
  induction calls with
  | nil => intro m; rfl
  | cons e calls ih =>
    intro m
    rw [manager_insertAll_cons, ih]
    by_cases h : e.2 = c
    · simp [List.filter_cons, h, insert, Trie.insertAll]
    · have h2 : ¬ c = e.2 := fun h' => h h'.symm
      simp [List.filter_cons, h, h2, insert]

theorem autocompleteByCategory_aux (calls : List (String × Category)) (p : String)
    (c : Category) (limit : Int) (v : String)
    (hv : v ∈ (insertAll empty calls).autocompleteByCategory p c limit) :
    (v, c) ∈ calls ∧ ∃ t, (toLower v).data = (toLower p).data ++ t := by
  unfold autocompleteByCategory at hv
  rw [categoryTries_insertAll] at hv
  have h := Trie.autocomplete_sound_aux _ p limit v hv
  refine ⟨?_, h.2⟩
  obtain ⟨e, he, rfl⟩ := List.mem_map.mp h.1
  simp only [List.mem_filter, decide_eq_true_eq] at he
  have : e = (e.1, c) := Prod.ext rfl he.2
  rw [← this]
  exact he.1

/-- C15. After any run of `insert(word, category)` calls, every word returned by
`autocompleteByCategory p c limit` was inserted with category `c` (and starts with the prefix):
a word inserted only under other categories never appears. -/
theorem autocompleteByCategory_sound (calls : List (String × Category)) (p : String)
    (c : Category) (limit : Int) :
    ∀ v ∈ (insertAll empty calls).autocompleteByCategory p c limit,
      (v, c) ∈ calls ∧ ∃ t, (toLower v).data = (toLower p).data ++ t :=
  fun v hv => autocompleteByCategory_aux calls p c limit v hv

theorem autocompleteByCategory_sound_witness :
    "backpack" ∈ (insertAll empty [("backpack", Category.BAGS), ("badge", Category.DOCUMENTS)]
        ).autocompleteByCategory "ba" Category.BAGS 10 ∧
    (("backpack", Category.BAGS) ∈ [("backpack", Category.BAGS), ("badge", Category.DOCUMENTS)] ∧
      ∃ t, (toLower "backpack").data = (toLower "ba").data ++ t) :=
  ⟨by decide!, autocompleteByCategory_sound
    [("backpack", Category.BAGS), ("badge", Category.DOCUMENTS)] "ba" Category.BAGS 10
    "backpack" (by decide!)⟩

end CategoryTrieManager

/-! ### Inverted index -/

namespace IndexMap

theorem mem_setInsert (ids : List String) (id x : String) :
    x ∈ setInsert ids id ↔ x = id ∨ x ∈ ids := by
  unfold setInsert
  split_ifs with h
  · constructor
    · exact Or.inr
    · rintro (h1 | h1)
      · rw [h1]; exact h
      · exact h1
  · exact List.mem_orderedInsert _

theorem mem_foldl_setInsert (ids : List String) (x : String) :
    ∀ (acc : List String), x ∈ ids.foldl setInsert acc ↔ x ∈ ids ∨ x ∈ acc := by
  induction ids with
  | nil => intro acc; simp
  | cons a rest ih =>
    intro acc
    rw [List.foldl_cons, ih, mem_setInsert]
    simp only [List.mem_cons]
    tauto

theorem lookup_map (index : IndexMap) (f : String × List String → String × List String)
    (hf : ∀ p, (f p).1 = p.1) (k : String) :
    lookup (index.map f) k = (index.find? (fun p => p.1 == k)).map (fun p => (f p).2) := by
  unfold lookup
  rw [List.find?_map]
  have : ((fun p : String × List String => p.1 == k) ∘ f) = fun p => p.1 == k := by
    funext p
    simp only [Function.comp, hf]
  rw [this]
  cases index.find? (fun p => p.1 == k) <;> rfl

theorem any_iff_lookup (index : IndexMap) (key : String) :
    index.any (fun p => p.1 == key) = true ↔ ∃ ids, lookup index key = some ids := by
  unfold lookup
  constructor
  · intro h
    rw [List.any_eq_true] at h
    obtain ⟨p, hp, hk⟩ := h
    cases hf : index.find? (fun p => p.1 == key) with
    | some q => exact ⟨q.2, rfl⟩
    | none =>
      have := List.find?_eq_none.mp hf p hp
      simp [hk] at this
  · rintro ⟨ids, h⟩
    cases hf : index.find? (fun p => p.1 == key) with
    | some q =>
      rw [List.any_eq_true]
      exact ⟨q, List.mem_of_find?_eq_some hf, by simpa using List.find?_some hf⟩
    | none => rw [hf] at h; simp at h

theorem lookup_add_self (index : IndexMap) (key id : String) :
    ∃ ids, lookup (add index key id) key = some ids ∧ id ∈ ids := by
  unfold add
  by_cases h : index.any (fun p => p.1 == key) = true
  · simp only [h, if_true]
    rw [lookup_map _ _ (by intro p; split_ifs <;> rfl)]
    obtain ⟨ids, hl⟩ := (any_iff_lookup index key).mp h
    unfold lookup at hl
    cases hf : index.find? (fun p => p.1 == key) with
    | none => rw [hf] at hl; simp at hl
    | some q =>
      have hq : q.1 = key := by simpa using List.find?_some hf
      simp only [Option.map_some', hq, if_true]
      exact ⟨_, rfl, (mem_setInsert _ _ _).mpr (Or.inl rfl)⟩
  · simp only [h, if_false, Bool.false_eq_true]
    have hnone : index.find? (fun p => p.1 == key) = none := by
      cases hf : index.find? (fun p => p.1 == key) with
      | none => rfl
      | some q =>
        exfalso
        apply h
        rw [List.any_eq_true]
        exact ⟨q, List.mem_of_find?_eq_some hf, by simpa using List.find?_some hf⟩
    unfold lookup
    rw [List.find?_append, hnone]
    simp

theorem lookup_add_mono (index : IndexMap) (key id k x : String) (ids : List String)
    (hl : lookup index k = some ids) (hx : x ∈ ids) :
    ∃ ids2, lookup (add index key id) k = some ids2 ∧ x ∈ ids2 := by
  unfold add
  unfold lookup at hl
  cases hf : index.find? (fun p => p.1 == k) with
  | none => rw [hf] at hl; simp at hl
  | some q =>
    rw [hf] at hl
    simp only [Option.map_some', Option.some.injEq] at hl
    by_cases h : index.any (fun p => p.1 == key) = true
    · simp only [h, if_true]
      rw [lookup_map _ _ (by intro p; split_ifs <;> rfl), hf]
      simp only [Option.map_some']
      split_ifs
      · exact ⟨_, rfl, (mem_setInsert _ _ _).mpr (Or.inr (hl ▸ hx))⟩
      · exact ⟨_, rfl, hl ▸ hx⟩
    · simp only [h, if_false, Bool.false_eq_true]
      unfold lookup
      rw [List.find?_append, hf]
      exact ⟨q.2, rfl, hl ▸ hx⟩

theorem lookup_erase_mono (index : IndexMap) (key id k x : String) (ids : List String)
    (hl : lookup index k = some ids) (hx : x ∈ ids) (hne : x ≠ id) :
    ∃ ids2, lookup (erase index key id) k = some ids2 ∧ x ∈ ids2 := by
  unfold erase
  unfold lookup at hl
  cases hf : index.find? (fun p => p.1 == k) with
  | none => rw [hf] at hl; simp at hl
  | some q =>
    rw [hf] at hl
    simp only [Option.map_some', Option.some.injEq] at hl
    by_cases h : index.any (fun p => p.1 == key) = true
    · simp only [h, if_true]
      rw [lookup_map _ _ (by intro p; split_ifs <;> rfl), hf]
      simp only [Option.map_some']
      split_ifs
      · refine ⟨_, rfl, ?_⟩
        simp only [List.mem_filter, bne_iff_ne, ne_eq]
        exact ⟨hl ▸ hx, hne⟩
      · exact ⟨_, rfl, hl ▸ hx⟩
    · simp only [h, if_false, Bool.false_eq_true]
      unfold lookup
      rw [List.find?_append, hf]
      exact ⟨q.2, rfl, hl ▸ hx⟩

/-- After `erase` an entry that still holds `id` is an old entry under another key. -/
theorem mem_erase (index : IndexMap) (key id : String) (p : String × List String)
    (hp : p ∈ erase index key id) (hid : id ∈ p.2) : p ∈ index ∧ p.1 ≠ key := by
  unfold erase at hp
  by_cases h : index.any (fun p => p.1 == key) = true
  · simp only [h, if_true, List.mem_map] at hp
    obtain ⟨q, hq, rfl⟩ := hp
    by_cases hk : q.1 = key
    · simp only [hk, if_true, List.mem_filter, bne_iff_ne, ne_eq, not_true_eq_false,
        and_false] at hid
    · simp only [hk, if_false] at hid ⊢
      exact ⟨hq, hk⟩
  · simp only [h, if_false, Bool.false_eq_true] at hp
    rcases List.mem_append.mp hp with h1 | h1
    · refine ⟨h1, ?_⟩
      intro hk
      apply h
      rw [List.any_eq_true]
      exact ⟨p, h1, by simpa using hk⟩
    · simp only [List.mem_singleton] at h1
      rw [h1] at hid
      simp at hid

theorem mem_of_lookup (index : IndexMap) (k : String) (ids : List String)
    (h : lookup index k = some ids) : (k, ids) ∈ index := by
  unfold lookup at h
  cases hf : index.find? (fun p => p.1 == k) with
  | none => rw [hf] at h; simp at h
  | some q =>
    rw [hf] at h
    simp only [Option.map_some', Option.some.injEq] at h
    have hq : q.1 = k := by simpa using List.find?_some hf
    have := List.mem_of_find?_eq_some hf
    rw [← hq, ← h]
    exact this

end IndexMap

namespace InvertedIndex

theorem has_foldl_add (id : String) :
    ∀ (toks : List String) (index : IndexMap),
      (∀ t ∈ toks, IndexMap.Has (toks.foldl (fun acc token => IndexMap.add acc token id) index)
        t id) ∧
      ∀ k x, IndexMap.Has index k x →
        IndexMap.Has (toks.foldl (fun acc token => IndexMap.add acc token id) index) k x := by
  intro toks
  induction toks with
  | nil =>
    intro index
    exact ⟨by simp, fun _ _ h => h⟩
  | cons t rest ih =>
    intro index
    obtain ⟨h1, h2⟩ := ih (IndexMap.add index t id)
    simp only [List.foldl_cons]
    constructor
    · intro t2 ht2
      rcases List.mem_cons.mp ht2 with h | h
      · subst h
        exact h2 _ _ (IndexMap.lookup_add_self index t2 id)
      · exact h1 t2 h
    · intro k x hx
      obtain ⟨ids, hl, hm⟩ := hx
      exact h2 k x (IndexMap.lookup_add_mono index t id k x ids hl hm)

theorem has_foldl_erase (id x : String) (hne : x ≠ id) :
    ∀ (toks : List String) (index : IndexMap) (k : String), IndexMap.Has index k x →
      IndexMap.Has (toks.foldl (fun acc token => IndexMap.erase acc token id) index) k x := by
  intro toks
  induction toks with
  | nil => intro index k h; exact h
  | cons t rest ih =>
    intro index k h
    obtain ⟨ids, hl, hm⟩ := h
    simp only [List.foldl_cons]
    exact ih _ k (IndexMap.lookup_erase_mono index t id k x ids hl hm hne)

theorem holds_indexItem_self (ix : InvertedIndex) (i : Item) : Holds (ix.indexItem i) i := by
  refine ⟨?_, ?_, ?_, ?_⟩
  · exact (has_foldl_add i.id (tokenize i.name) ix.nameIndex).1
  · exact IndexMap.lookup_add_self _ _ _
  · exact IndexMap.lookup_add_self _ _ _
  · exact IndexMap.lookup_add_self _ _ _

theorem has_add (index : IndexMap) (key id k x : String) (h : IndexMap.Has index k x) :
    IndexMap.Has (IndexMap.add index key id) k x := by
  obtain ⟨ids, hl, hm⟩ := h
  exact IndexMap.lookup_add_mono index key id k x ids hl hm

theorem has_erase (index : IndexMap) (key id k x : String) (h : IndexMap.Has index k x)
    (hne : x ≠ id) : IndexMap.Has (IndexMap.erase index key id) k x := by
  obtain ⟨ids, hl, hm⟩ := h
  exact IndexMap.lookup_erase_mono index key id k x ids hl hm hne

theorem holds_indexItem (ix : InvertedIndex) (i j : Item) (h : Holds ix i) :
    Holds (ix.indexItem j) i := by
  obtain ⟨h1, h2, h3, h4⟩ := h
  refine ⟨?_, has_add _ _ _ _ _ h2, has_add _ _ _ _ _ h3, has_add _ _ _ _ _ h4⟩
  intro t ht
  exact (has_foldl_add j.id (tokenize j.name) ix.nameIndex).2 t i.id (h1 t ht)

theorem holds_removeItem (ix : InvertedIndex) (i j : Item) (h : Holds ix i)
    (hne : j.id ≠ i.id) : Holds (ix.removeItem j) i := by
  obtain ⟨h1, h2, h3, h4⟩ := h
  have hne2 : i.id ≠ j.id := fun h => hne h.symm
  refine ⟨?_, has_erase _ _ _ _ _ h2 hne2, has_erase _ _ _ _ _ h3 hne2,
    has_erase _ _ _ _ _ h4 hne2⟩
  intro t ht
  exact has_foldl_erase j.id i.id hne2 (tokenize j.name) ix.nameIndex t (h1 t ht)

theorem holds_run (i : Item) :
    ∀ (ops : List IndexOp) (ix : InvertedIndex), Holds ix i →
      (∀ j, IndexOp.remove j ∈ ops → j.id ≠ i.id) → Holds (run ix ops) i := by
  intro ops
  induction ops with
  | nil => intro ix h _; exact h
  | cons op rest ih =>
    intro ix h hrem
    have hrest : ∀ j, IndexOp.remove j ∈ rest → j.id ≠ i.id :=
      fun j hj => hrem j (List.mem_cons_of_mem _ hj)
    show Holds (run (applyOp ix op) rest) i
    cases op with
    | index j => exact ih _ (holds_indexItem ix i j h) hrest
    | remove j =>
      exact ih _ (holds_removeItem ix i j h (hrem j (List.mem_cons_self _ _))) hrest

theorem run_append (ix : InvertedIndex) (ops1 ops2 : List IndexOp) :
    run ix (ops1 ++ ops2) = run (run ix ops1) ops2 := by
  simp [run, List.foldl_append]

theorem mem_nameMatches_fold (index : IndexMap) (x : String) :
    ∀ (toks : List String) (acc : List String),
      x ∈ toks.foldl
          (fun acc token =>
            match IndexMap.lookup index token with
            | some ids => ids.foldl IndexMap.setInsert acc
            | none => acc) acc ↔
        x ∈ acc ∨ ∃ t ∈ toks, IndexMap.Has index t x := by
  intro toks
  induction toks with
  | nil => intro acc; simp
  | cons t rest ih =>
    intro acc
    rw [List.foldl_cons, ih]
    cases hl : IndexMap.lookup index t with
    | none =>
      simp only [List.mem_cons, exists_eq_or_imp, IndexMap.Has, hl]
      constructor
      · rintro (h | h)
        · exact Or.inl h
        · exact Or.inr (Or.inr h)
      · rintro (h | ⟨_, h, _⟩ | h)
        · exact Or.inl h
        · simp at h
        · exact Or.inr h
    | some ids =>
      simp only [IndexMap.mem_foldl_setInsert, List.mem_cons, exists_eq_or_imp]
      constructor
      · rintro ((h | h) | h)
        · exact Or.inr (Or.inl ⟨ids, hl, h⟩)
        · exact Or.inl h
        · exact Or.inr (Or.inr h)
      · rintro (h | ⟨ids2, hl2, h⟩ | h)
        · exact Or.inl (Or.inr h)
        · rw [hl] at hl2
          simp only [Option.some.injEq] at hl2
          exact Or.inl (Or.inl (hl2 ▸ h))
        · exact Or.inr h

theorem mem_nameMatches (ix : InvertedIndex) (name x : String) :
    x ∈ nameMatches ix name ↔ ∃ t ∈ tokenize name, IndexMap.Has ix.nameIndex t x := by
  unfold nameMatches
  rw [mem_nameMatches_fold]
  simp

end InvertedIndex

namespace InvertedIndex

theorem filterStep_keeps (index : IndexMap) (value x : String) (st : List String × Bool)
    (hgood : st.2 = true ∨ x ∈ st.1)
    (hmatch : value = "" ∨ IndexMap.Has index (toLower value) x) :
    ((filterStep index value st).2 = true ∨ x ∈ (filterStep index value st).1) ∧
    (st.2 = false → (filterStep index value st).2 = false) ∧
    (value ≠ "" → (filterStep index value st).2 = false) := by
  unfold filterStep
  by_cases hv : value = ""
  · simp only [hv, if_true]
    exact ⟨hgood, fun h => h, fun h => absurd rfl h⟩
  · simp only [hv, if_false]
    rcases hmatch with h | ⟨ids, hl, hm⟩
    · exact absurd h hv
    · rw [hl]
      simp only [intersectOrInit]
      by_cases hf : st.2 = true
      · simp only [hf, if_true]
        exact ⟨Or.inr hm, by simp, by simp⟩
      · simp only [hf, if_false, Bool.false_eq_true]
        refine ⟨Or.inr ?_, by simp, by simp⟩
        rcases hgood with h | h
        · exact absurd h hf
        · simp only [List.mem_filter, decide_eq_true_eq]
          exact ⟨h, hm⟩

theorem search_complete (ix : InvertedIndex) (i : Item) (h : Holds ix i)
    (name color location category : String)
    (hne : name ≠ "" ∨ color ≠ "" ∨ location ≠ "" ∨ category ≠ "")
    (hname : name = "" ∨ ∃ t ∈ tokenize name, t ∈ tokenize i.name)
    (hcolor : color = "" ∨ toLower color = toLower i.color)
    (hloc : location = "" ∨ toLower location = toLower i.location)
    (hcat : category = "" ∨ toLower category = categoryToString i.category) :
    i.id ∈ search ix name color location category := by
  obtain ⟨h1, h2, h3, h4⟩ := h
  have s1 : ((if name = "" then (([] : List String), true)
        else intersectOrInit ([], true) (nameMatches ix name)).2 = true ∨
      i.id ∈ (if name = "" then (([] : List String), true)
        else intersectOrInit ([], true) (nameMatches ix name)).1) ∧
      (name ≠ "" → (if name = "" then (([] : List String), true)
        else intersectOrInit ([], true) (nameMatches ix name)).2 = false) := by
    by_cases hn : name = ""
    · simp only [hn, if_true]
      exact ⟨Or.inl (by simp), fun h => absurd (by simp) h⟩
    · simp only [hn, if_false, intersectOrInit, if_true]
      refine ⟨Or.inr ?_, by simp⟩
      rcases hname with h | ⟨t, ht, hti⟩
      · exact absurd h hn
      · exact (mem_nameMatches ix name i.id).mpr ⟨t, ht, h1 t hti⟩
  have m2 : color = "" ∨ IndexMap.Has ix.colorIndex (toLower color) i.id := by
    rcases hcolor with h | h
    · exact Or.inl h
    · exact Or.inr (h ▸ h2)
  have m3 : location = "" ∨ IndexMap.Has ix.locationIndex (toLower location) i.id := by
    rcases hloc with h | h
    · exact Or.inl h
    · exact Or.inr (h ▸ h3)
  have m4 : category = "" ∨ IndexMap.Has ix.categoryIndex (toLower category) i.id := by
    rcases hcat with h | h
    · exact Or.inl h
    · exact Or.inr (h ▸ h4)
  have s2 := filterStep_keeps ix.colorIndex color i.id _ s1.1 m2
  have s3 := filterStep_keeps ix.locationIndex location i.id _ s2.1 m3
  have s4 := filterStep_keeps ix.categoryIndex category i.id _ s3.1 m4
  have hfalse : (filterStep ix.categoryIndex category (filterStep ix.locationIndex location
      (filterStep ix.colorIndex color (if name = "" then (([] : List String), true)
        else intersectOrInit ([], true) (nameMatches ix name))))).2 = false := by
    rcases hne with h | h | h | h
    · exact s4.2.1 (s3.2.1 (s2.2.1 (s1.2 h)))
    · exact s4.2.1 (s3.2.1 (s2.2.2 h))
    · exact s4.2.1 (s3.2.2 h)
    · exact s4.2.2 h
  rcases s4.1 with h | h
  · rw [hfalse] at h
    exact absurd h (by decide)
  · exact h

theorem filterStep_subset (index : IndexMap) (value : String) (st : List String × Bool)
    (P : String → Prop) (hP : ∀ p ∈ index, ∀ x ∈ p.2, P x) (hst : ∀ x ∈ st.1, P x) :
    ∀ x ∈ (filterStep index value st).1, P x := by
  unfold filterStep
  by_cases hv : value = ""
  · simp only [hv, if_true]
    exact hst
  · simp only [hv, if_false]
    cases hl : IndexMap.lookup index (toLower value) with
    | none =>
      simp only
      split_ifs
      · simp
      · exact hst
    | some ids =>
      simp only [intersectOrInit]
      split_ifs
      · intro x hx
        exact hP _ (IndexMap.mem_of_lookup index _ ids hl) x hx
      · intro x hx
        exact hst x (List.mem_of_mem_filter hx)

/-- Every id that `search` returns occurs in some set of the index. -/
theorem search_subset (ix : InvertedIndex) (name color location category x : String)
    (hx : x ∈ search ix name color location category) : Present ix x := by
  have s1 : ∀ y ∈ (if name = "" then (([] : List String), true)
      else intersectOrInit ([], true) (nameMatches ix name)).1, Present ix y := by
    by_cases hn : name = ""
    · simp [hn]
    · simp only [hn, if_false, intersectOrInit, if_true]
      intro y hy
      obtain ⟨t, _, ids, hl, hm⟩ := (mem_nameMatches ix name y).mp hy
      exact Or.inl ⟨(t, ids), IndexMap.mem_of_lookup _ _ _ hl, hm⟩
  have s2 := filterStep_subset ix.colorIndex color _ (Present ix)
    (fun p hp y hy => Or.inr (Or.inl ⟨p, hp, hy⟩)) s1
  have s3 := filterStep_subset ix.locationIndex location _ (Present ix)
    (fun p hp y hy => Or.inr (Or.inr (Or.inl ⟨p, hp, hy⟩))) s2
  have s4 := filterStep_subset ix.categoryIndex category _ (Present ix)
    (fun p hp y hy => Or.inr (Or.inr (Or.inr ⟨p, hp, hy⟩))) s3
  exact s4 x hx

theorem foldl_erase_clean (id : String) :
    ∀ (toks : List String) (index : IndexMap),
      (∀ p ∈ index, id ∈ p.2 → p.1 ∈ toks) →
      ∀ p ∈ toks.foldl (fun acc token => IndexMap.erase acc token id) index, id ∉ p.2 := by
  intro toks
  induction toks with
  | nil =>
    intro index h p hp hid
    have := h p hp hid
    simp at this
  | cons t rest ih =>
    intro index h
    simp only [List.foldl_cons]
    apply ih
    intro p hp hid
    obtain ⟨h1, h2⟩ := IndexMap.mem_erase index t id p hp hid
    rcases List.mem_cons.mp (h p h1 hid) with h3 | h3
    · exact absurd h3 h2
    · exact h3

theorem erase_clean (index : IndexMap) (key id : String)
    (h : ∀ p ∈ index, id ∈ p.2 → p.1 = key) : ∀ p ∈ IndexMap.erase index key id, id ∉ p.2 := by
  intro p hp hid
  obtain ⟨h1, h2⟩ := IndexMap.mem_erase index key id p hp hid
  exact h2 (h p h1 hid)

theorem not_present_removeItem (ix : InvertedIndex) (item : Item)
    (h : OnlyIndexedAs ix item) : ¬ Present (ix.removeItem item) item.id := by
  obtain ⟨h1, h2, h3, h4⟩ := h
  rintro (⟨p, hp, hid⟩ | ⟨p, hp, hid⟩ | ⟨p, hp, hid⟩ | ⟨p, hp, hid⟩)
  · exact foldl_erase_clean item.id _ ix.nameIndex h1 p hp hid
  · exact erase_clean _ _ _ h2 p hp hid
  · exact erase_clean _ _ _ h3 p hp hid
  · exact erase_clean _ _ _ h4 p hp hid

/-- C17. In an index built by `indexItem` and `removeItem` calls, an item `i` that was indexed
and whose id was not removed since is returned by `search` whenever at least one filter is
non-empty and `i` matches every non-empty filter: a shared lower-cased token for the name,
case-insensitive equality for color, location and category. -/
theorem search_finds_indexed (ops1 ops2 : List IndexOp) (i : Item)
    (hrem : ∀ j, IndexOp.remove j ∈ ops2 → j.id ≠ i.id)
    (name color location category : String)
    (hne : name ≠ "" ∨ color ≠ "" ∨ location ≠ "" ∨ category ≠ "")
    (hname : name = "" ∨ ∃ t ∈ tokenize name, t ∈ tokenize i.name)
    (hcolor : color = "" ∨ toLower color = toLower i.color)
    (hloc : location = "" ∨ toLower location = toLower i.location)
    (hcat : category = "" ∨ toLower category = categoryToString i.category) :
    i.id ∈ search (run empty (ops1 ++ IndexOp.index i :: ops2)) name color location category := by
  apply search_complete _ i _ name color location category hne hname hcolor hloc hcat
  rw [run_append]
  show Holds (run ((run empty ops1).indexItem i) ops2) i
  exact holds_run i ops2 _ (holds_indexItem_self _ i) hrem

theorem search_finds_indexed_witness :
    (∀ j, IndexOp.remove j ∈ [IndexOp.remove sampleItem2] → j.id ≠ sampleItem.id) ∧
    (("backpack" : String) ≠ "" ∨ ("RED" : String) ≠ "" ∨ ("" : String) ≠ "" ∨
      ("Bags" : String) ≠ "") ∧
    (("backpack" : String) = "" ∨ ∃ t ∈ tokenize "backpack", t ∈ tokenize sampleItem.name) ∧
    (("RED" : String) = "" ∨ toLower "RED" = toLower sampleItem.color) ∧
    (("" : String) = "" ∨ toLower "" = toLower sampleItem.location) ∧
    (("Bags" : String) = "" ∨ toLower "Bags" = categoryToString sampleItem.category) ∧
    sampleItem.id ∈ search (run empty ([IndexOp.index sampleItem2] ++
      IndexOp.index sampleItem :: [IndexOp.remove sampleItem2])) "backpack" "RED" "" "Bags" :=
  have h1 : ∀ j, IndexOp.remove j ∈ [IndexOp.remove sampleItem2] → j.id ≠ sampleItem.id := by
    intro j hj
    simp only [List.mem_singleton, IndexOp.remove.injEq] at hj
    rw [hj]
    decide
  ⟨h1, Or.inl (by decide), Or.inr ⟨"backpack", by decide, by decide⟩, Or.inr (by decide),
    Or.inl rfl, Or.inr (by decide),
    search_finds_indexed [IndexOp.index sampleItem2] [IndexOp.remove sampleItem2] sampleItem h1
      "backpack" "RED" "" "Bags" (Or.inl (by decide))
      (Or.inr ⟨"backpack", by decide, by decide⟩) (Or.inr (by decide)) (Or.inl rfl)
      (Or.inr (by decide))⟩

/-- C18. With all four filters empty `search` returns the empty set, whatever is indexed. -/
theorem search_no_filter (ix : InvertedIndex) : search ix "" "" "" "" = [] := by
  simp [search, filterStep]

/-- C19. If the id of `item` occurs in the index only under the keys of `item`, then after
`removeItem item` no call of `search` returns `item.id`. -/
theorem search_after_removeItem (ix : InvertedIndex) (item : Item)
    (h : OnlyIndexedAs ix item) (name color location category : String) :
    item.id ∉ search (ix.removeItem item) name color location category :=
  fun hx => not_present_removeItem ix item h
    (search_subset _ name color location category item.id hx)

/-- C16 fails on the code: with one red backpack from the cafeteria indexed, a search for the
unknown color "purple" and the location "cafeteria" returns that item, although it does not
match the color filter; an unknown value of the first applied filter is skipped. -/
theorem search_unknown_first_filter :
    search (empty.indexItem sampleItem) "" "purple" "cafeteria" "" = ["ITEM-000001"] ∧
    toLower "purple" ≠ toLower sampleItem.color ∧
    IndexMap.lookup (empty.indexItem sampleItem).colorIndex (toLower "purple") = none := by
  decide!

end InvertedIndex

namespace IndexMap

/-- After `add` an id found in an entry is the added id under the added key, or was there. -/
theorem mem_add (index : IndexMap) (key id x : String) (p : String × List String)
    (hp : p ∈ add index key id) (hx : x ∈ p.2) :
    (x = id ∧ p.1 = key) ∨ ∃ q ∈ index, q.1 = p.1 ∧ x ∈ q.2 := by
  unfold add at hp
  by_cases h : index.any (fun p => p.1 == key) = true
  · simp only [h, if_true, List.mem_map] at hp
    obtain ⟨q, hq, rfl⟩ := hp
    by_cases hk : q.1 = key
    · simp only [hk, if_true] at hx ⊢
      rcases (mem_setInsert _ _ _).mp hx with h1 | h1
      · exact Or.inl ⟨h1, trivial⟩
      · exact Or.inr ⟨q, hq, hk, h1⟩
    · simp only [hk, if_false] at hx ⊢
      exact Or.inr ⟨q, hq, rfl, hx⟩
  · simp only [h, if_false, Bool.false_eq_true] at hp
    rcases List.mem_append.mp hp with h1 | h1
    · exact Or.inr ⟨p, h1, rfl, hx⟩
    · simp only [List.mem_singleton] at h1
      rw [h1] at hx ⊢
      simp only [List.mem_singleton] at hx
      exact Or.inl ⟨hx, rfl⟩

/-- After `erase` an id found in an entry was there before, under the same key. -/
theorem mem_erase_old (index : IndexMap) (key id x : String) (p : String × List String)
    (hp : p ∈ erase index key id) (hx : x ∈ p.2) : ∃ q ∈ index, q.1 = p.1 ∧ x ∈ q.2 := by
  unfold erase at hp
  by_cases h : index.any (fun p => p.1 == key) = true
  · simp only [h, if_true, List.mem_map] at hp
    obtain ⟨q, hq, rfl⟩ := hp
    by_cases hk : q.1 = key
    · simp only [hk, if_true] at hx ⊢
      exact ⟨q, hq, hk, List.mem_of_mem_filter hx⟩
    · simp only [hk, if_false] at hx ⊢
      exact ⟨q, hq, rfl, hx⟩
  · simp only [h, if_false, Bool.false_eq_true] at hp
    rcases List.mem_append.mp hp with h1 | h1
    · exact ⟨p, h1, rfl, hx⟩
    · simp only [List.mem_singleton] at h1
      rw [h1] at hx
      simp at hx

end IndexMap

namespace InvertedIndex

theorem foldl_add_keys (id x : String) (K : String → Prop) :
    ∀ (toks : List String) (index : IndexMap),
      (∀ p ∈ index, x ∈ p.2 → K p.1) → (x = id → ∀ t ∈ toks, K t) →
      ∀ p ∈ toks.foldl (fun acc token => IndexMap.add acc token id) index, x ∈ p.2 → K p.1 := by
  intro toks
  induction toks with
  | nil => intro index h _; exact h
  | cons t rest ih =>
    intro index h hk
    simp only [List.foldl_cons]
    apply ih
    · intro p hp hx
      rcases IndexMap.mem_add index t id x p hp hx with ⟨h1, h2⟩ | ⟨q, hq, hq1, hq2⟩
      · rw [h2]
        exact hk h1 t (List.mem_cons_self _ _)
      · rw [← hq1]
        exact h q hq hq2
    · intro hx t2 ht2
      exact hk hx t2 (List.mem_cons_of_mem _ ht2)

theorem foldl_erase_keys (id x : String) (K : String → Prop) :
    ∀ (toks : List String) (index : IndexMap),
      (∀ p ∈ index, x ∈ p.2 → K p.1) →
      ∀ p ∈ toks.foldl (fun acc token => IndexMap.erase acc token id) index, x ∈ p.2 → K p.1 := by
  intro toks
  induction toks with
  | nil => intro index h; exact h
  | cons t rest ih =>
    intro index h
    simp only [List.foldl_cons]
    apply ih
    intro p hp hx
    obtain ⟨q, hq, hq1, hq2⟩ := IndexMap.mem_erase_old index t id x p hp hx
    rw [← hq1]
    exact h q hq hq2

theorem add_keys (index : IndexMap) (key id x : String) (K : String → Prop)
    (h : ∀ p ∈ index, x ∈ p.2 → K p.1) (hk : x = id → K key) :
    ∀ p ∈ IndexMap.add index key id, x ∈ p.2 → K p.1 := by
  intro p hp hx
  rcases IndexMap.mem_add index key id x p hp hx with ⟨h1, h2⟩ | ⟨q, hq, hq1, hq2⟩
  · rw [h2]
    exact hk h1
  · rw [← hq1]
    exact h q hq hq2

theorem erase_keys (index : IndexMap) (key id x : String) (K : String → Prop)
    (h : ∀ p ∈ index, x ∈ p.2 → K p.1) :
    ∀ p ∈ IndexMap.erase index key id, x ∈ p.2 → K p.1 := by
  intro p hp hx
  obtain ⟨q, hq, hq1, hq2⟩ := IndexMap.mem_erase_old index key id x p hp hx
  rw [← hq1]
  exact h q hq hq2

/-- An id that was only ever indexed with the fields of `item` occurs only under the keys
of `item`. -/
theorem onlyIndexedAs_run (item : Item) :
    ∀ (ops : List IndexOp) (ix : InvertedIndex), OnlyIndexedAs ix item →
      (∀ j, IndexOp.index j ∈ ops → j.id = item.id →
        tokenize j.name = tokenize item.name ∧ toLower j.color = toLower item.color ∧
        toLower j.location = toLower item.location ∧ j.category = item.category) →
      OnlyIndexedAs (run ix ops) item := by
  intro ops
  induction ops with
  | nil => intro ix h _; exact h
  | cons op rest ih =>
    intro ix h hops
    have hrest := fun j hj => hops j (List.mem_cons_of_mem _ hj)
    show OnlyIndexedAs (run (applyOp ix op) rest) item
    apply ih _ _ hrest
    obtain ⟨h1, h2, h3, h4⟩ := h
    cases op with
    | index j =>
      have hj := hops j (List.mem_cons_self _ _)
      refine ⟨?_, ?_, ?_, ?_⟩
      · exact foldl_add_keys j.id item.id (fun k => k ∈ tokenize item.name) _ _ h1
          (fun hid t ht => by rw [← (hj hid.symm).1]; exact ht)
      · exact add_keys _ _ j.id item.id (fun k => k = toLower item.color) h2
          (fun hid => (hj hid.symm).2.1)
      · exact add_keys _ _ j.id item.id (fun k => k = toLower item.location) h3
          (fun hid => (hj hid.symm).2.2.1)
      · exact add_keys _ _ j.id item.id (fun k => k = categoryToString item.category) h4
          (fun hid => by rw [(hj hid.symm).2.2.2])
    | remove j =>
      refine ⟨?_, ?_, ?_, ?_⟩
      · exact foldl_erase_keys j.id item.id (fun k => k ∈ tokenize item.name) _ _ h1
      · exact erase_keys _ _ j.id item.id (fun k => k = toLower item.color) h2
      · exact erase_keys _ _ j.id item.id (fun k => k = toLower item.location) h3
      · exact erase_keys _ _ j.id item.id (fun k => k = categoryToString item.category) h4

theorem onlyIndexedAs_empty (item : Item) : OnlyIndexedAs empty item := by
  simp [OnlyIndexedAs, empty]

theorem search_after_removeItem_witness :
    OnlyIndexedAs (run empty [IndexOp.index sampleItem, IndexOp.index sampleItem2]) sampleItem ∧
    sampleItem.id ∉ search ((run empty [IndexOp.index sampleItem,
      IndexOp.index sampleItem2]).removeItem sampleItem) "backpack" "" "cafeteria" "" :=
  have h : OnlyIndexedAs (run empty [IndexOp.index sampleItem, IndexOp.index sampleItem2])
      sampleItem := by
    apply onlyIndexedAs_run sampleItem _ empty (onlyIndexedAs_empty sampleItem)
    intro j hj hid
    simp only [List.mem_cons, IndexOp.index.injEq, List.mem_singleton, List.not_mem_nil,
      or_false] at hj
    rcases hj with hj | hj
    · rw [hj]
      exact ⟨rfl, rfl, rfl, rfl⟩
    · rw [hj] at hid
      exact absurd hid (by decide)
  ⟨h, search_after_removeItem _ sampleItem h "backpack" "" "cafeteria" ""⟩

end InvertedIndex

namespace LocationGraph

/-- C11 as written fails: `addEdge` has no check of the weight. On the graph with the single
edge a-b of weight 10, adding the edge a-b with weight -5 is accepted, stores the negative
weight in both directions, and changes the distance from a to b from 10 to -5. -/
theorem addEdge_negative_counterexample :
    ((empty.addEdges [("a", "b", 10)]).addEdge "a" "b" (-5)).neighbors "a"
        = [("b", 10), ("b", -5)] ∧
    ((empty.addEdges [("a", "b", 10)]).addEdge "a" "b" (-5)).neighbors "b"
        = [("a", 10), ("a", -5)] ∧
    (empty.addEdges [("a", "b", 10)]).getDistance "a" "b" = 10 ∧
    ((empty.addEdges [("a", "b", 10)]).addEdge "a" "b" (-5)).getDistance "a" "b" = -5 := by
  decide!

/-- C11, amended: `addEdge` accepts every weight, negative or not. After
`addEdge src dst distance` the edges leaving a location are those stored before, followed by
the new edge to `dst` at `src` and the new edge to `src` at `dst`, both with the given
weight, and the known locations are the old ones together with `src` and `dst`. -/
theorem addEdge_stores_any_weight (g : LocationGraph) (src dst : String) (distance : Int)
    (v : String) :
    (g.addEdge src dst distance).neighbors v =
      (g.neighbors v ++ if v = src then [(dst, distance)] else []) ++
        (if v = dst then [(src, distance)] else []) ∧
    (g.addEdge src dst distance).contains v =
      (g.contains v || decide (v = src) || decide (v = dst)) :=
  ⟨neighbors_addEdge g src dst distance v, contains_addEdge g src dst distance v⟩

end LocationGraph

theorem toLowerChar_idem (c : Char) : c.toLower.toLower = c.toLower := by
  by_cases h : c.toNat ≥ 65 ∧ c.toNat ≤ 90
  · have h1 : c.toLower = Char.ofNat (c.toNat + 32) := by
      unfold Char.toLower
      simp only [h, and_self, if_true]
    rw [h1]
    obtain ⟨hlo, hhi⟩ := h
    generalize c.toNat = n at hlo hhi
    interval_cases n <;> decide
  · have h1 : c.toLower = c := by
      unfold Char.toLower
      simp only [h, if_false]
    rw [h1, h1]

theorem toLower_idem (s : String) : toLower (toLower s) = toLower s := by
  unfold toLower
  simp only [List.map_map]
  congr 1
  apply List.map_congr_left
  intro c _
  exact toLowerChar_idem c

theorem lookup_append_single {α : Type} (m : List (String × α)) (k k2 : String) (v : α) :
    (m ++ [(k, v)]).lookup k2 =
      match m.lookup k2 with
      | some x => some x
      | none => if k2 = k then some v else none := by
  induction m with
  | nil =>
    by_cases h : k2 = k
    · simp [List.lookup, h]
    · have hb : (k2 == k) = false := by simpa using h
      simp [List.lookup, h, hb]
  | cons p rest ih =>
    obtain ⟨pk, pv⟩ := p
    by_cases h : k2 = pk
    · subst h
      simp [List.lookup]
    · have hb : (k2 == pk) = false := by simpa using h
      simp only [List.cons_append, List.lookup, hb]
      exact ih

theorem lookup_map_set {α : Type} (m : List (String × α)) (k k2 : String) (v : α) :
    (m.map (fun p => if p.1 = k then (p.1, v) else p)).lookup k2 =
      if k2 = k then (m.lookup k2).map (fun _ => v) else m.lookup k2 := by
  induction m with
  | nil => simp
  | cons p rest ih =>
    obtain ⟨pk, pv⟩ := p
    by_cases h : k2 = pk
    · subst h
      by_cases hk : k2 = k
      · have e : (if (k2, pv).1 = k then ((k2, pv).1, v) else (k2, pv)) = (k2, v) := if_pos hk
        rw [List.map_cons, e]
        simp [List.lookup, hk]
      · have e : (if (k2, pv).1 = k then ((k2, pv).1, v) else (k2, pv)) = (k2, pv) :=
          if_neg hk
        rw [List.map_cons, e]
        simp [List.lookup, hk]
    · have hb : (k2 == pk) = false := by simpa using h
      by_cases hk : pk = k
      · have e : (if (pk, pv).1 = k then ((pk, pv).1, v) else (pk, pv)) = (pk, v) := if_pos hk
        rw [List.map_cons, e]
        simp only [List.lookup, hb]
        exact ih
      · have e : (if (pk, pv).1 = k then ((pk, pv).1, v) else (pk, pv)) = (pk, pv) :=
          if_neg hk
        rw [List.map_cons, e]
        simp only [List.lookup, hb]
        exact ih

theorem lookup_mapSet {α : Type} (m : List (String × α)) (k k2 : String) (v : α) :
    (mapSet m k v).lookup k2 = if k2 = k then some v else m.lookup k2 := by
  unfold mapSet
  by_cases h : (m.lookup k).isSome = true
  · simp only [h, if_true]
    rw [lookup_map_set]
    by_cases hk : k2 = k
    · subst hk
      obtain ⟨x, hx⟩ := Option.isSome_iff_exists.mp h
      simp [hx]
    · simp [hk]
  · simp only [h, if_false, Bool.false_eq_true]
    rw [lookup_append_single]
    by_cases hk : k2 = k
    · subst hk
      have hn : m.lookup k2 = none := by
        cases hl : m.lookup k2 with
        | none => rfl
        | some x => rw [hl] at h; exact absurd rfl h
      simp [hn]
    · simp only [hk, if_false]
      cases m.lookup k2 <;> rfl

theorem lookup_mapTouch (m : List (String × Int)) (k k2 : String) :
    ((mapTouch m k).lookup k2).getD 0 = (m.lookup k2).getD 0 := by
  unfold mapTouch
  by_cases h : (m.lookup k).isSome = true
  · simp only [h, if_true]
  · simp only [h, if_false, Bool.false_eq_true]
    rw [lookup_append_single]
    by_cases hk : k2 = k
    · subst hk
      have hn : m.lookup k2 = none := by
        cases hl : m.lookup k2 with
        | none => rfl
        | some x => rw [hl] at h; exact absurd rfl h
      simp [hn]
    · simp only [hk, if_false]
      cases m.lookup k2 <;> rfl

namespace LocationCluster

theorem findAux_new (n : Nat) (st : LocationCluster) (loc : String)
    (h : st.parent.lookup (toLower loc) = none) :
    findAux (n + 1) st loc = some (toLower loc,
      { st with parent := mapSet st.parent (toLower loc) (toLower loc),
                rank := mapSet st.rank (toLower loc) 0 }) := by
  simp [findAux, h, parentOf, lookup_mapSet]

theorem findAux_root (n : Nat) (st : LocationCluster) (loc : String)
    (h : st.parent.lookup (toLower loc) = some (toLower loc)) :
    findAux (n + 1) st loc = some (toLower loc, st) := by
  simp [findAux, h, parentOf]

theorem findAux_link (n : Nat) (st : LocationCluster) (loc p : String)
    (h : st.parent.lookup (toLower loc) = some p) (hp : p ≠ toLower loc) :
    findAux (n + 1) st loc =
      match findAux n st p with
      | none => none
      | some (root, st2) =>
        some (root, { st2 with parent := mapSet st2.parent (toLower loc) root }) := by
  simp only [findAux, h, parentOf, Option.isNone_some, Bool.false_eq_true, if_false,
    Option.getD_some, ne_eq, hp, not_false_eq_true, if_true]
  cases findAux n st p with
  | none => rfl
  | some r =>
    obtain ⟨root, st2⟩ := r
    simp [lookup_mapSet]

theorem foldl_max_le (l : List (String × Int)) :
    ∀ m0 : Int, m0 ≤ l.foldl (fun m p => max m p.2) m0 ∧
      ∀ p ∈ l, p.2 ≤ l.foldl (fun m p => max m p.2) m0 := by
  induction l with
  | nil => intro m0; simp
  | cons q rest ih =>
    intro m0
    simp only [List.foldl_cons, List.mem_cons]
    obtain ⟨h1, h2⟩ := ih (max m0 q.2)
    refine ⟨le_trans (le_max_left _ _) h1, ?_⟩
    rintro p (rfl | hp)
    · exact le_trans (le_max_right _ _) h1
    · exact h2 p hp

theorem mem_of_lookup_eq {α : Type} (m : List (String × α)) (k : String) (v : α)
    (h : m.lookup k = some v) : (k, v) ∈ m := by
  induction m with
  | nil => simp at h
  | cons p rest ih =>
    obtain ⟨pk, pv⟩ := p
    by_cases hk : k = pk
    · subst hk
      simp [List.lookup] at h
      simp [h]
    · have hb : (k == pk) = false := by simpa using hk
      simp only [List.lookup, hb] at h
      exact List.mem_cons_of_mem _ (ih h)

theorem rankOf_le_maxRank (st : LocationCluster) (k : String) : rankOf st k ≤ maxRank st := by
  unfold rankOf maxRank
  cases h : st.rank.lookup k with
  | none => exact (foldl_max_le st.rank 0).1
  | some r => exact (foldl_max_le st.rank 0).2 (k, r) (mem_of_lookup_eq _ _ _ h)

end LocationCluster

namespace LocationCluster

theorem findPost_new (st : LocationCluster) (ρ : String → String) (lower : String)
    (hlow : toLower lower = lower) (hinv : Inv st) (hrep : Rep st ρ)
    (h : st.parent.lookup lower = none) (st' : LocationCluster)
    (hst : st' = { st with parent := mapSet st.parent lower lower,
                           rank := mapSet st.rank lower 0 }) :
    FindPost st ρ lower st' := by
  subst hst
  have hr : ∀ k, rankOf (LocationCluster.mk (mapSet st.parent lower lower)
      (mapSet st.rank lower 0) st.graph st.clusterRadius) k = rankOf st k := by
    intro k
    unfold rankOf
    simp only [lookup_mapSet]
    by_cases hk : k = lower
    · subst hk
      have := hinv.2 k h
      unfold rankOf at this
      simp [this]
    · simp [hk]
  refine ⟨⟨?_, ?_⟩, ⟨?_, ?_, ?_⟩, hr, ?_, ?_, ?_, rfl, rfl⟩
  · intro k v hkv
    simp only [lookup_mapSet] at hkv
    by_cases hk : k = lower
    · simp only [hk, if_true, Option.some.injEq] at hkv
      subst hkv
      refine ⟨hlow, by simp [lookup_mapSet], fun hne => absurd hk.symm hne⟩
    · simp only [hk, if_false] at hkv
      obtain ⟨h1, h2, h3⟩ := hinv.1 k v hkv
      refine ⟨h1, ?_, ?_⟩
      · simp only [lookup_mapSet]
        by_cases hv : v = lower
        · simp [hv]
        · simpa [hv] using h2
      · intro hne
        rw [hr, hr]
        exact h3 hne
  · intro k hk
    simp only [lookup_mapSet] at hk
    by_cases hkl : k = lower
    · simp [hkl] at hk
    · simp only [hkl, if_false] at hk
      rw [hr]
      exact hinv.2 k hk
  · intro k v hkv
    simp only [lookup_mapSet] at hkv
    by_cases hk : k = lower
    · simp only [hk, if_true, Option.some.injEq] at hkv
      rw [hk, ← hkv]
    · simp only [hk, if_false] at hkv
      exact hrep.1 k v hkv
  · intro k hk
    simp only [lookup_mapSet] at hk
    by_cases hkl : k = lower
    · rw [hkl]
      exact hrep.2.2 lower h
    · simp only [hkl, if_false] at hk
      exact hrep.2.1 k hk
  · intro k hk
    simp only [lookup_mapSet] at hk
    by_cases hkl : k = lower
    · simp [hkl] at hk
    · simp only [hkl, if_false] at hk
      exact hrep.2.2 k hk
  · simp [lookup_mapSet]
  · intro k hk
    simp only [lookup_mapSet]
    by_cases hkl : k = lower
    · simp [hkl]
    · simpa [hkl] using hk
  · intro k hk
    simp only [lookup_mapSet]
    by_cases hkl : k = lower
    · simp [hkl]
    · simpa [hkl] using hk

theorem findPost_refl (st : LocationCluster) (ρ : String → String) (r : String)
    (hinv : Inv st) (hrep : Rep st ρ) (h : st.parent.lookup r = some r) :
    FindPost st ρ r st :=
  ⟨hinv, hrep, fun _ => rfl, h, fun _ hk => hk, fun _ hk => hk, rfl, rfl⟩

end LocationCluster

namespace LocationCluster

theorem findPost_compress (st st2 : LocationCluster) (ρ : String → String) (lower r : String)
    (hpost : FindPost st ρ r st2) (hρ : ρ lower = r)
    (hrank : r = lower ∨ rankOf st lower < rankOf st r) (st3 : LocationCluster)
    (hst : st3 = { st2 with parent := mapSet st2.parent lower r }) :
    FindPost st ρ r st3 := by
  subst hst
  obtain ⟨hinv, hrep, hrk, hroot, hroots, hkeys, hg, hc⟩ := hpost
  have hr : ∀ k, rankOf (LocationCluster.mk (mapSet st2.parent lower r) st2.rank st2.graph
      st2.clusterRadius) k = rankOf st2 k := fun _ => rfl
  have hrlow : toLower r = r := (hinv.1 r r hroot).1
  have hsome : ∀ v, (st2.parent.lookup v).isSome = true →
      ((mapSet st2.parent lower r).lookup v).isSome = true := by
    intro v hv
    simp only [lookup_mapSet]
    by_cases hvl : v = lower
    · simp [hvl]
    · simpa [hvl] using hv
  refine ⟨⟨?_, ?_⟩, ⟨?_, ?_, ?_⟩, ?_, ?_, ?_, ?_, hg, hc⟩
  · intro k v hkv
    simp only [lookup_mapSet] at hkv
    by_cases hk : k = lower
    · simp only [hk, if_true, Option.some.injEq] at hkv
      subst hkv
      refine ⟨hrlow, hsome _ (by simp [hroot]), ?_⟩
      intro hne
      rw [hr, hr, hrk, hrk, hk]
      rcases hrank with h1 | h1
      · exact absurd (h1.trans hk.symm) hne
      · exact h1
    · simp only [hk, if_false] at hkv
      obtain ⟨h1, h2, h3⟩ := hinv.1 k v hkv
      exact ⟨h1, hsome v h2, fun hne => by rw [hr, hr]; exact h3 hne⟩
  · intro k hk
    simp only [lookup_mapSet] at hk
    by_cases hkl : k = lower
    · simp [hkl] at hk
    · simp only [hkl, if_false] at hk
      rw [hr]
      exact hinv.2 k hk
  · intro k v hkv
    simp only [lookup_mapSet] at hkv
    by_cases hk : k = lower
    · simp only [hk, if_true, Option.some.injEq] at hkv
      rw [hk, ← hkv, hρ]
      exact hρ ▸ hrep.2.1 r hroot
    · simp only [hk, if_false] at hkv
      exact hrep.1 k v hkv
  · intro k hk
    simp only [lookup_mapSet] at hk
    by_cases hkl : k = lower
    · simp only [hkl, if_true, Option.some.injEq] at hk
      rw [hkl, hρ, hk]
    · simp only [hkl, if_false] at hk
      exact hrep.2.1 k hk
  · intro k hk
    simp only [lookup_mapSet] at hk
    by_cases hkl : k = lower
    · simp [hkl] at hk
    · simp only [hkl, if_false] at hk
      exact hrep.2.2 k hk
  · intro k
    rw [hr]
    exact hrk k
  · simp only [lookup_mapSet]
    by_cases hrl : r = lower
    · simp [hrl]
    · simpa [hrl] using hroot
  · intro k hk
    have h2 := hroots k hk
    simp only [lookup_mapSet]
    by_cases hkl : k = lower
    · simp only [hkl, if_true, Option.some.injEq]
      rw [← hρ, ← hkl]
      exact hrep.2.1 k h2
    · simpa [hkl] using h2
  · intro k hk
    exact hsome k (hkeys k hk)

end LocationCluster

namespace LocationCluster

/-- With enough depth `find` returns the root named by `ρ` and leaves a good state. -/
theorem findAux_spec (M : Int) : ∀ (n : Nat) (st : LocationCluster) (loc : String)
    (ρ : String → String), Inv st → Rep st ρ → (∀ k, rankOf st k ≤ M) →
    M - rankOf st (toLower loc) + 1 ≤ (n : Int) →
    ∃ st', findAux n st loc = some (ρ (toLower loc), st') ∧
      FindPost st ρ (ρ (toLower loc)) st' ∧
      (ρ (toLower loc) = toLower loc ∨
        rankOf st (toLower loc) < rankOf st (ρ (toLower loc))) := by
  intro n
  induction n with
  | zero =>
    intro st loc ρ _ _ hM hn
    have := hM (toLower loc)
    simp only [Nat.cast_zero] at hn
    omega
  | succ n ih =>
    intro st loc ρ hinv hrep hM hn
    cases hl : st.parent.lookup (toLower loc) with
    | none =>
      have hρ : ρ (toLower loc) = toLower loc := hrep.2.2 _ hl
      rw [hρ]
      exact ⟨_, findAux_new n st loc hl,
        findPost_new st ρ (toLower loc) (toLower_idem loc) hinv hrep hl _ rfl, Or.inl rfl⟩
    | some p =>
      by_cases hp : p = toLower loc
      · rw [hp] at hl
        have hρ : ρ (toLower loc) = toLower loc := hrep.2.1 _ hl
        rw [hρ]
        exact ⟨st, findAux_root n st loc hl, findPost_refl st ρ _ hinv hrep hl, Or.inl rfl⟩
      · obtain ⟨hplow, _, hprank⟩ := hinv.1 _ p hl
        have hlt := hprank hp
        have hMp := hM p
        have hn2 : M - rankOf st (toLower p) + 1 ≤ (n : Int) := by
          rw [hplow]
          push_cast at hn
          omega
        obtain ⟨st2, hfind, hpost, hrel⟩ := ih st p ρ hinv hrep hM hn2
        rw [hplow] at hfind hpost hrel
        have hρp : ρ p = ρ (toLower loc) := hrep.1 _ p hl
        rw [hρp] at hfind hpost hrel
        refine ⟨_, ?_, findPost_compress st st2 ρ (toLower loc) _ hpost rfl ?_ _ rfl, ?_⟩
        · rw [findAux_link n st loc p hl hp, hfind]
        · rcases hrel with h1 | h1
          · right
            rw [h1]
            exact hlt
          · right
            exact lt_trans hlt h1
        · rcases hrel with h1 | h1
          · right
            rw [h1]
            exact hlt
          · right
            exact lt_trans hlt h1

theorem find_spec (st : LocationCluster) (loc : String) (ρ : String → String)
    (hinv : Inv st) (hrep : Rep st ρ) (hnn : ∀ k, 0 ≤ rankOf st k) :
    ∃ st', find st loc = some (ρ (toLower loc), st') ∧ FindPost st ρ (ρ (toLower loc)) st' := by
  have hM := rankOf_le_maxRank st
  have h0 : 0 ≤ maxRank st := (foldl_max_le st.rank 0).1
  have hn : maxRank st - rankOf st (toLower loc) + 1 ≤ ((findFuel st : Nat) : Int) := by
    unfold findFuel
    have hr := hnn (toLower loc)
    push_cast
    rw [Int.toNat_of_nonneg h0]
    omega
  obtain ⟨st', h1, h2, _⟩ := findAux_spec (maxRank st) (findFuel st) st loc ρ hinv hrep hM hn
  exact ⟨st', h1, h2⟩

end LocationCluster

namespace LocationCluster

/-- Hanging the root `a` below the root `b` keeps the state well formed; the names that had
the root `a` now have the root `b`. -/
theorem link_rep (st2 st' : LocationCluster) (ρ : String → String) (a b : String)
    (hinv : Inv st2) (hnn : ∀ k, 0 ≤ rankOf st2 k) (hrep : Rep st2 ρ)
    (ha : st2.parent.lookup a = some a) (hb : st2.parent.lookup b = some b) (hne : a ≠ b)
    (hpar : st'.parent = mapSet st2.parent a b)
    (hrk : ∀ k, k ≠ b → rankOf st' k = rankOf st2 k)
    (hrb : rankOf st2 b ≤ rankOf st' b) (hab : rankOf st' a < rankOf st' b) :
    Inv st' ∧ (∀ k, 0 ≤ rankOf st' k) ∧ Rep st' (fun x => if ρ x = a then b else ρ x) := by
  have hge : ∀ k, rankOf st2 k ≤ rankOf st' k := by
    intro k
    by_cases hk : k = b
    · rw [hk]; exact hrb
    · rw [hrk k hk]
  have hsome : ∀ v, (st2.parent.lookup v).isSome = true →
      (st'.parent.lookup v).isSome = true := by
    intro v hv
    rw [hpar]
    simp only [lookup_mapSet]
    by_cases hvl : v = a
    · simp [hvl]
    · simpa [hvl] using hv
  refine ⟨⟨?_, ?_⟩, fun k => le_trans (hnn k) (hge k), ?_, ?_, ?_⟩
  · intro k v hkv
    rw [hpar] at hkv
    simp only [lookup_mapSet] at hkv
    by_cases hk : k = a
    · simp only [hk, if_true, Option.some.injEq] at hkv
      subst hkv
      refine ⟨(hinv.1 b b hb).1, hsome _ (by simp [hb]), fun _ => ?_⟩
      rw [hk]
      exact hab
    · simp only [hk, if_false] at hkv
      obtain ⟨h1, h2, h3⟩ := hinv.1 k v hkv
      refine ⟨h1, hsome v h2, fun hvk => ?_⟩
      have hkb : k ≠ b := by
        intro hkb
        rw [hkb, hb] at hkv
        exact hvk ((Option.some.inj hkv).symm.trans hkb.symm)
      rw [hrk k hkb]
      exact lt_of_lt_of_le (h3 hvk) (hge v)
  · intro k hk
    rw [hpar] at hk
    simp only [lookup_mapSet] at hk
    by_cases hka : k = a
    · simp [hka] at hk
    · simp only [hka, if_false] at hk
      have hkb : k ≠ b := by
        intro hkb
        rw [hkb, hb] at hk
        exact absurd hk (by simp)
      rw [hrk k hkb]
      exact hinv.2 k hk
  · intro k v hkv
    rw [hpar] at hkv
    simp only [lookup_mapSet] at hkv
    by_cases hk : k = a
    · simp only [hk, if_true, Option.some.injEq] at hkv
      subst hkv
      have h1 : ρ b = b := hrep.2.1 b hb
      have h2 : ρ a = a := hrep.2.1 a ha
      simp [hk, h1, h2, Ne.symm hne]
    · simp only [hk, if_false] at hkv
      simp only [hrep.1 k v hkv]
  · intro k hk
    rw [hpar] at hk
    simp only [lookup_mapSet] at hk
    by_cases hka : k = a
    · simp only [hka, if_true, Option.some.injEq] at hk
      exact absurd hk.symm hne
    · simp only [hka, if_false] at hk
      have := hrep.2.1 k hk
      simp [this, hka]
  · intro k hk
    rw [hpar] at hk
    simp only [lookup_mapSet] at hk
    by_cases hka : k = a
    · simp [hka] at hk
    · simp only [hka, if_false] at hk
      have := hrep.2.2 k hk
      simp [this, hka]

/-- Hanging the root `a` below the root `b` keeps the state good. -/
theorem good_link (st2 st' : LocationCluster) (ρ : String → String) (a b : String)
    (hinv : Inv st2) (hnn : ∀ k, 0 ≤ rankOf st2 k) (hrep : Rep st2 ρ)
    (ha : st2.parent.lookup a = some a) (hb : st2.parent.lookup b = some b) (hne : a ≠ b)
    (hpar : st'.parent = mapSet st2.parent a b)
    (hrk : ∀ k, k ≠ b → rankOf st' k = rankOf st2 k)
    (hrb : rankOf st2 b ≤ rankOf st' b) (hab : rankOf st' a < rankOf st' b) :
    Good st' := by
  obtain ⟨h1, h2, h3⟩ := link_rep st2 st' ρ a b hinv hnn hrep ha hb hne hpar hrk hrb hab
  exact ⟨h1, h2, _, h3⟩

theorem rankOf_touch (st2 st3 : LocationCluster) (r1 r2 : String)
    (h : st3.rank = mapTouch (mapTouch st2.rank r1) r2) (k : String) :
    rankOf st3 k = rankOf st2 k := by
  unfold rankOf
  rw [h, lookup_mapTouch, lookup_mapTouch]

end LocationCluster

namespace LocationCluster

/-- The call `unite` returns and keeps the state good. -/
theorem unite_spec (st : LocationCluster) (loc1 loc2 : String) (h : Good st) :
    ∃ st', unite st loc1 loc2 = some st' ∧ Good st' ∧ st'.graph = st.graph ∧
      st'.clusterRadius = st.clusterRadius := by
  obtain ⟨hinv, hnn, ρ, hrep⟩ := h
  obtain ⟨st1, h1, p1⟩ := find_spec st loc1 ρ hinv hrep hnn
  have hnn1 : ∀ k, 0 ≤ rankOf st1 k := fun k => by rw [p1.rank_eq]; exact hnn k
  obtain ⟨st2, h2, p2⟩ := find_spec st1 loc2 ρ p1.inv p1.rep hnn1
  have hnn2 : ∀ k, 0 ≤ rankOf st2 k := fun k => by rw [p2.rank_eq]; exact hnn1 k
  have hr1 := p2.roots _ p1.root
  have hr2 := p2.root
  have hg : st2.graph = st.graph := p2.graph_eq.trans p1.graph_eq
  have hc : st2.clusterRadius = st.clusterRadius := p2.radius_eq.trans p1.radius_eq
  generalize ρ (toLower loc1) = r1 at h1 hr1
  generalize ρ (toLower loc2) = r2 at h2 hr2
  have ht : ∀ par k, rankOf (LocationCluster.mk par (mapTouch (mapTouch st2.rank r1) r2)
      st2.graph st2.clusterRadius) k = rankOf st2 k :=
    fun _ k => rankOf_touch st2 _ r1 r2 rfl k
  simp only [unite, h1, h2]
  by_cases hne : r1 = r2
  · simp only [hne, ne_eq, not_true_eq_false, if_false]
    exact ⟨st2, rfl, ⟨p2.inv, hnn2, ρ, p2.rep⟩, hg, hc⟩
  · simp only [ne_eq, hne, not_false_eq_true, if_true, ht]
    by_cases hlt : rankOf st2 r1 < rankOf st2 r2
    · simp only [hlt, if_true]
      refine ⟨_, rfl, ?_, hg, hc⟩
      refine good_link st2 _ ρ r1 r2 p2.inv hnn2 p2.rep hr1 hr2 hne rfl ?_ ?_ ?_
      · intro k _
        exact ht _ k
      · rw [ht]
      · rw [ht, ht]
        exact hlt
    · simp only [hlt, if_false]
      by_cases hgt : rankOf st2 r1 > rankOf st2 r2
      · simp only [hgt, if_true]
        refine ⟨_, rfl, ?_, hg, hc⟩
        refine good_link st2 _ ρ r2 r1 p2.inv hnn2 p2.rep hr2 hr1 (Ne.symm hne) rfl ?_ ?_ ?_
        · intro k _
          exact ht _ k
        · rw [ht]
        · rw [ht, ht]
          exact hgt
      · simp only [hgt, if_false]
        have heq : rankOf st2 r1 = rankOf st2 r2 := by omega
        have hnew : ∀ k, rankOf (LocationCluster.mk (mapSet st2.parent r2 r1)
            (mapSet (mapTouch (mapTouch st2.rank r1) r2) r1 (rankOf st2 r1 + 1))
            st2.graph st2.clusterRadius) k =
            if k = r1 then rankOf st2 r1 + 1 else rankOf st2 k := by
          intro k
          unfold rankOf
          simp only [lookup_mapSet]
          by_cases hk : k = r1
          · simp [hk]
          · simp only [hk, if_false, lookup_mapTouch]
        refine ⟨_, rfl, ?_, hg, hc⟩
        refine good_link st2 _ ρ r2 r1 p2.inv hnn2 p2.rep hr2 hr1 (Ne.symm hne) rfl ?_ ?_ ?_
        · intro k hk
          rw [hnew]
          simp [hk]
        · rw [hnew]
          simp
        · rw [hnew, hnew]
          simp only [Ne.symm hne, if_false, if_true]
          omega

/-- The query returns, answers whether the two names have the same root, and keeps the state
good with the same roots function. -/
theorem inSameCluster_spec (st : LocationCluster) (loc1 loc2 : String) (ρ : String → String)
    (hinv : Inv st) (hnn : ∀ k, 0 ≤ rankOf st k) (hrep : Rep st ρ) :
    ∃ st', inSameCluster st loc1 loc2 =
        some (decide (ρ (toLower loc1) = ρ (toLower loc2)), st') ∧
      Inv st' ∧ (∀ k, 0 ≤ rankOf st' k) ∧ Rep st' ρ := by
  obtain ⟨st1, h1, p1⟩ := find_spec st loc1 ρ hinv hrep hnn
  have hnn1 : ∀ k, 0 ≤ rankOf st1 k := fun k => by rw [p1.rank_eq]; exact hnn k
  obtain ⟨st2, h2, p2⟩ := find_spec st1 loc2 ρ p1.inv p1.rep hnn1
  have hnn2 : ∀ k, 0 ≤ rankOf st2 k := fun k => by rw [p2.rank_eq]; exact hnn1 k
  refine ⟨st2, ?_, p2.inv, hnn2, p2.rep⟩
  simp only [inSameCluster, h1, h2]
  congr 2

end LocationCluster

namespace LocationCluster

theorem good_create (g : Option LocationGraph) (radius : Int) : Good (create g radius) := by
  refine ⟨⟨?_, ?_⟩, ?_, fun x => x, ?_, ?_, ?_⟩
  · intro k v h
    simp [create] at h
  · intro k _
    simp [create, rankOf]
  · intro k
    simp [create, rankOf]
  · intro k v h
    simp [create] at h
  · intro k _
    rfl
  · intro k _
    rfl

theorem buildInner_spec (g : LocationGraph) (li : String) :
    ∀ (rest : List String) (st : LocationCluster), Good st →
      ∃ st', buildInner g li rest st = some st' ∧ Good st' := by
  intro rest
  induction rest with
  | nil => intro st h; exact ⟨st, rfl, h⟩
  | cons lj rest ih =>
    intro st h
    by_cases hd : g.getDistance li lj ≤ st.clusterRadius
    · obtain ⟨st1, h1, hg1, _, _⟩ := unite_spec st li lj h
      obtain ⟨st2, h2, hg2⟩ := ih st1 hg1
      refine ⟨st2, ?_, hg2⟩
      simp only [buildInner, hd, if_true, h1]
      exact h2
    · obtain ⟨st2, h2, hg2⟩ := ih st h
      refine ⟨st2, ?_, hg2⟩
      simp only [buildInner, hd, if_false]
      exact h2

theorem buildOuter_spec (g : LocationGraph) :
    ∀ (locations : List String) (st : LocationCluster), Good st →
      ∃ st', buildOuter g locations st = some st' ∧ Good st' := by
  intro locations
  induction locations with
  | nil => intro st h; exact ⟨st, rfl, h⟩
  | cons li rest ih =>
    intro st h
    obtain ⟨st1, h1, hg1⟩ := buildInner_spec g li rest st h
    obtain ⟨st2, h2, hg2⟩ := ih st1 hg1
    refine ⟨st2, ?_, hg2⟩
    simp only [buildOuter, h1]
    exact h2

/-- The call `buildClusters` returns on every graph and leaves a good state. -/
theorem buildClusters_spec (st : LocationCluster) (h : Good st) :
    ∃ st', buildClusters st = some st' ∧ Good st' := by
  unfold buildClusters
  cases hg : st.graph with
  | none => exact ⟨st, rfl, h⟩
  | some g => exact buildOuter_spec g g.getLocations st h

/-- Every run of queries returns, and its answers are those of the roots function. -/
theorem runQueries_spec (ρ : String → String) :
    ∀ (qs : List (String × String)) (st : LocationCluster), Inv st →
      (∀ k, 0 ≤ rankOf st k) → Rep st ρ →
      ∃ st', runQueries st qs =
        some (qs.map (fun q => decide (ρ (toLower q.1) = ρ (toLower q.2))), st') := by
  intro qs
  induction qs with
  | nil => intro st _ _ _; exact ⟨st, rfl⟩
  | cons q rest ih =>
    intro st hinv hnn hrep
    obtain ⟨a, b⟩ := q
    obtain ⟨st1, h1, hinv1, hnn1, hrep1⟩ := inSameCluster_spec st a b ρ hinv hnn hrep
    obtain ⟨st2, h2⟩ := ih st1 hinv1 hnn1 hrep1
    refine ⟨st2, ?_⟩
    simp only [runQueries, h1, h2, List.map_cons]

/-- C20. After `buildClusters` on any graph (or on none), every later run of
`inSameCluster` queries returns, and its answers are those of one equivalence relation on
location names, although each query compresses paths and may add names: a query (a, a) is
answered true; if (a, b) is answered true at some point of the run, so is (b, a) at any
other point; and if (a, b) and (b, c) are answered true, so is (a, c). -/
theorem inSameCluster_equivalence (graph : Option LocationGraph) (radius : Int) :
    ∃ st, (create graph radius).buildClusters = some st ∧
      ∀ qs : List (String × String), ∃ answers st', runQueries st qs = some (answers, st') ∧
        answers.length = qs.length ∧
        (∀ (i : Nat) (a : String), qs[i]? = some (a, a) → answers[i]? = some true) ∧
        (∀ (i j : Nat) (a b : String), qs[i]? = some (a, b) → qs[j]? = some (b, a) →
          answers[i]? = some true → answers[j]? = some true) ∧
        (∀ (i j k : Nat) (a b c : String), qs[i]? = some (a, b) → qs[j]? = some (b, c) → qs[k]? = some (a, c) →
          answers[i]? = some true → answers[j]? = some true → answers[k]? = some true) := by
  obtain ⟨st, hb, hinv, hnn, ρ, hrep⟩ := buildClusters_spec _ (good_create graph radius)
  refine ⟨st, hb, fun qs => ?_⟩
  obtain ⟨st', hq⟩ := runQueries_spec ρ qs st hinv hnn hrep
  refine ⟨_, st', hq, by simp, ?_, ?_, ?_⟩
  · intro i a hi
    simp [List.getElem?_map, hi]
  · intro i j a b hi hj
    simp only [List.getElem?_map, hi, hj, Option.map_some', Option.some.injEq,
      decide_eq_true_eq]
    exact Eq.symm
  · intro i j k a b c hi hj hk
    simp only [List.getElem?_map, hi, hj, hk, Option.map_some', Option.some.injEq,
      decide_eq_true_eq]
    exact Eq.trans

/-- A run on a small graph: with the edges a-b of 50 and b-c of 500 and the radius 100, the
names a and b share a cluster (also when spelled in capitals), a and c do not. -/
theorem inSameCluster_example :
    ((create (some (LocationGraph.empty.addEdges [("a", "b", 50), ("b", "c", 500)]))
        100).buildClusters.bind
      (fun st => runQueries st [("a", "b"), ("B", "A"), ("a", "c"), ("c", "c"), ("x", "a")])).map
        (fun r => r.1) = some [true, true, false, true, false] := by
  decide!

end LocationCluster

namespace LocationCluster

theorem keys_mapSet (m : List (String × String)) (k v : String) :
    (mapSet m k v).map (fun p => p.1) =
      if (m.lookup k).isSome then m.map (fun p => p.1) else m.map (fun p => p.1) ++ [k] := by
  unfold mapSet
  by_cases h : (m.lookup k).isSome = true
  · simp only [h, if_true, List.map_map]
    apply List.map_congr_left
    intro p _
    by_cases hp : p.1 = k
    · simp [hp]
    · simp [hp]
  · simp only [h, if_false, Bool.false_eq_true, List.map_append, List.map_cons, List.map_nil]

theorem lookup_isSome_iff (m : List (String × String)) (k : String) :
    (m.lookup k).isSome = true ↔ k ∈ m.map (fun p => p.1) := by
  induction m with
  | nil => simp
  | cons p rest ih =>
    obtain ⟨pk, pv⟩ := p
    by_cases h : k = pk
    · subst h
      simp [List.lookup]
    · have hb : (k == pk) = false := by simpa using h
      simp only [List.lookup, hb, List.map_cons, List.mem_cons, h, false_or]
      exact ih

theorem keysOK_mapSet (st st' : LocationCluster) (k v : String) (hk : toLower k = k)
    (h : KeysOK st) (hp : st'.parent = mapSet st.parent k v) : KeysOK st' := by
  unfold KeysOK keys at *
  rw [hp, keys_mapSet]
  by_cases hs : (st.parent.lookup k).isSome = true
  · simp only [hs, if_true]
    exact h
  · simp only [hs, if_false, Bool.false_eq_true]
    have hnot : k ∉ st.parent.map (fun p => p.1) := fun hm =>
      hs ((lookup_isSome_iff _ _).mpr hm)
    refine ⟨?_, ?_⟩
    · rw [List.nodup_append]
      refine ⟨h.1, List.nodup_singleton _, ?_⟩
      intro x hx hx2
      simp only [List.mem_singleton] at hx2
      exact hnot (hx2 ▸ hx)
    · intro x hx
      rcases List.mem_append.mp hx with h1 | h1
      · exact h.2 x h1
      · simp only [List.mem_singleton] at h1
        rw [h1]
        exact hk

theorem keys_subset_mapSet (m : List (String × String)) (k v x : String)
    (h : x ∈ m.map (fun p => p.1)) : x ∈ (mapSet m k v).map (fun p => p.1) := by
  rw [keys_mapSet]
  by_cases hs : (m.lookup k).isSome = true
  · simpa [hs] using h
  · simp only [hs, if_false, Bool.false_eq_true]
    exact List.mem_append_left _ h

/-- A call of `find` keeps the names distinct and lower-cased, and leaves an entry for the
lower-cased argument. -/
theorem findAux_keys : ∀ (n : Nat) (st : LocationCluster) (loc r : String)
    (st' : LocationCluster), KeysOK st → findAux n st loc = some (r, st') →
    KeysOK st' ∧ toLower loc ∈ keys st' ∧ (∀ k ∈ keys st, k ∈ keys st') := by
  intro n
  induction n with
  | zero => intro st loc r st' _ h; simp [findAux] at h
  | succ n ih =>
    intro st loc r st' hk h
    cases hl : st.parent.lookup (toLower loc) with
    | none =>
      rw [findAux_new n st loc hl] at h
      simp only [Option.some.injEq, Prod.mk.injEq] at h
      obtain ⟨_, rfl⟩ := h
      refine ⟨keysOK_mapSet st _ _ _ (toLower_idem loc) hk rfl, ?_, ?_⟩
      · show toLower loc ∈ (mapSet st.parent _ _).map (fun p => p.1)
        rw [keys_mapSet]
        simp [hl]
      · intro k hkk
        exact keys_subset_mapSet _ _ _ _ hkk
    | some p =>
      have hmem : toLower loc ∈ keys st := (lookup_isSome_iff _ _).mp (by simp [hl])
      by_cases hp : p = toLower loc
      · rw [hp] at hl
        rw [findAux_root n st loc hl] at h
        simp only [Option.some.injEq, Prod.mk.injEq] at h
        obtain ⟨_, rfl⟩ := h
        exact ⟨hk, hmem, fun _ hkk => hkk⟩
      · rw [findAux_link n st loc p hl hp] at h
        cases hf : findAux n st p with
        | none => simp [hf] at h
        | some res =>
          obtain ⟨root, st2⟩ := res
          simp only [hf, Option.some.injEq, Prod.mk.injEq] at h
          obtain ⟨_, rfl⟩ := h
          obtain ⟨hk2, _, hsub⟩ := ih st p root st2 hk hf
          refine ⟨keysOK_mapSet st2 _ _ _ (toLower_idem loc) hk2 rfl, ?_, ?_⟩
          · show toLower loc ∈ (mapSet st2.parent _ _).map (fun p => p.1)
            exact keys_subset_mapSet _ _ _ _ (hsub _ hmem)
          · intro k hkk
            exact keys_subset_mapSet _ _ _ _ (hsub k hkk)

end LocationCluster

namespace LocationCluster

theorem sem_same (ρ : String → String) (R : String → String → Prop) (a b : String)
    (hs : Sem ρ R) (h : ρ a = ρ b) : Sem ρ (fun u v => R u v ∨ (u = a ∧ v = b)) := by
  refine ⟨?_, fun x => Relation.EqvGen.mono (fun _ _ hr => Or.inl hr) (hs.2 x)⟩
  rintro u v (hr | ⟨rfl, rfl⟩)
  · exact hs.1 u v hr
  · exact h

theorem sem_merge (ρ : String → String) (R : String → String → Prop) (a b : String)
    (hs : Sem ρ R) (hr1 : ρ (ρ a) = ρ a) (hr2 : ρ (ρ b) = ρ b) (hne : ρ a ≠ ρ b) :
    Sem (fun x => if ρ x = ρ a then ρ b else ρ x) (fun u v => R u v ∨ (u = a ∧ v = b)) ∧
    Sem (fun x => if ρ x = ρ b then ρ a else ρ x) (fun u v => R u v ∨ (u = a ∧ v = b)) := by
  have hmono : ∀ x y, Relation.EqvGen R x y →
      Relation.EqvGen (fun u v => R u v ∨ (u = a ∧ v = b)) x y :=
    fun x y h => Relation.EqvGen.mono (fun _ _ hr => Or.inl hr) h
  have hab : Relation.EqvGen (fun u v => R u v ∨ (u = a ∧ v = b)) (ρ a) (ρ b) :=
    Relation.EqvGen.trans _ _ _ (Relation.EqvGen.symm _ _ (hmono _ _ (hs.2 a)))
      (Relation.EqvGen.trans _ _ _ (Relation.EqvGen.rel _ _ (Or.inr ⟨rfl, rfl⟩))
        (hmono _ _ (hs.2 b)))
  refine ⟨⟨?_, ?_⟩, ⟨?_, ?_⟩⟩
  · rintro u v (hr | ⟨rfl, rfl⟩)
    · simp only [hs.1 u v hr]
    · simp [Ne.symm hne]
  · intro x
    by_cases hx : ρ x = ρ a
    · simp only [hx, if_true]
      exact Relation.EqvGen.trans _ _ _ (hx ▸ hmono _ _ (hs.2 x)) hab
    · simp only [hx, if_false]
      exact hmono _ _ (hs.2 x)
  · rintro u v (hr | ⟨rfl, rfl⟩)
    · simp only [hs.1 u v hr]
    · simp [hne]
  · intro x
    by_cases hx : ρ x = ρ b
    · simp only [hx, if_true]
      exact Relation.EqvGen.trans _ _ _ (hx ▸ hmono _ _ (hs.2 x))
        (Relation.EqvGen.symm _ _ hab)
    · simp only [hx, if_false]
      exact hmono _ _ (hs.2 x)

/-- With the state sound, `find` returns the root and keeps the state sound. -/
theorem find_sound (st : LocationCluster) (loc : String) (ρ : String → String)
    (R : String → String → Prop) (h : Sound st ρ R) :
    ∃ st', find st loc = some (ρ (toLower loc), st') ∧ Sound st' ρ R ∧
      st'.parent.lookup (ρ (toLower loc)) = some (ρ (toLower loc)) ∧
      toLower loc ∈ keys st' ∧ (∀ k ∈ keys st, k ∈ keys st') ∧
      (∀ k, st.parent.lookup k = some k → st'.parent.lookup k = some k) ∧
      (∀ k, rankOf st' k = rankOf st k) ∧
      st'.graph = st.graph ∧ st'.clusterRadius = st.clusterRadius := by
  obtain ⟨hinv, hnn, hrep, hk, hs⟩ := h
  obtain ⟨st', h1, p⟩ := find_spec st loc ρ hinv hrep hnn
  obtain ⟨hk', hmem, hsub⟩ := findAux_keys _ st loc _ st' hk h1
  exact ⟨st', h1, ⟨p.inv, fun k => by rw [p.rank_eq]; exact hnn k, p.rep, hk', hs⟩, p.root,
    hmem, hsub, p.roots, p.rank_eq, p.graph_eq, p.radius_eq⟩

end LocationCluster

namespace LocationCluster

/-- The call `unite` returns, keeps the state sound and adds the pair of its lower-cased
arguments to the pairs that generate the clusters. -/
theorem unite_sem (st : LocationCluster) (loc1 loc2 : String) (ρ : String → String)
    (R : String → String → Prop) (h : Sound st ρ R) :
    ∃ st' ρ', unite st loc1 loc2 = some st' ∧
      Sound st' ρ' (fun u v => R u v ∨ (u = toLower loc1 ∧ v = toLower loc2)) ∧
      st'.graph = st.graph ∧ st'.clusterRadius = st.clusterRadius := by
  obtain ⟨st1, h1, s1, hroot1, _, _, _, _, hg1, hc1⟩ := find_sound st loc1 ρ R h
  obtain ⟨st2, h2, s2, hr2, _, _, hroots2, _, hg2, hc2⟩ := find_sound st1 loc2 ρ R s1
  obtain ⟨hinv2, hnn2, hrep2, hk2, hs2⟩ := s2
  have hr1 := hroots2 _ hroot1
  have hg : st2.graph = st.graph := hg2.trans hg1
  have hc : st2.clusterRadius = st.clusterRadius := hc2.trans hc1
  have hρ1 : ρ (ρ (toLower loc1)) = ρ (toLower loc1) := hrep2.2.1 _ hr1
  have hρ2 : ρ (ρ (toLower loc2)) = ρ (toLower loc2) := hrep2.2.1 _ hr2
  have hl1 : toLower (ρ (toLower loc1)) = ρ (toLower loc1) := (hinv2.1 _ _ hr1).1
  have hl2 : toLower (ρ (toLower loc2)) = ρ (toLower loc2) := (hinv2.1 _ _ hr2).1
  have ht : ∀ par k, rankOf (LocationCluster.mk par
      (mapTouch (mapTouch st2.rank (ρ (toLower loc1))) (ρ (toLower loc2)))
      st2.graph st2.clusterRadius) k = rankOf st2 k :=
    fun _ k => rankOf_touch st2 _ _ _ rfl k
  simp only [unite, h1, h2]
  by_cases hne : ρ (toLower loc1) = ρ (toLower loc2)
  · simp only [hne, ne_eq, not_true_eq_false, if_false]
    exact ⟨st2, ρ, rfl, ⟨hinv2, hnn2, hrep2, hk2, sem_same ρ R _ _ hs2 hne⟩, hg, hc⟩
  · obtain ⟨hsem1, hsem2⟩ := sem_merge ρ R (toLower loc1) (toLower loc2) hs2 hρ1 hρ2 hne
    simp only [ne_eq, hne, not_false_eq_true, if_true, ht]
    by_cases hlt : rankOf st2 (ρ (toLower loc1)) < rankOf st2 (ρ (toLower loc2))
    · simp only [hlt, if_true]
      obtain ⟨i1, i2, i3⟩ := link_rep st2 (LocationCluster.mk
        (mapSet st2.parent (ρ (toLower loc1)) (ρ (toLower loc2)))
        (mapTouch (mapTouch st2.rank (ρ (toLower loc1))) (ρ (toLower loc2)))
        st2.graph st2.clusterRadius) ρ _ _ hinv2 hnn2 hrep2 hr1 hr2 hne rfl
        (fun k _ => ht _ k) (by rw [ht]) (by rw [ht, ht]; exact hlt)
      exact ⟨_, _, rfl, ⟨i1, i2, i3, keysOK_mapSet st2 _ _ _ hl1 hk2 rfl, hsem1⟩, hg, hc⟩
    · simp only [hlt, if_false]
      by_cases hgt : rankOf st2 (ρ (toLower loc1)) > rankOf st2 (ρ (toLower loc2))
      · simp only [hgt, if_true]
        obtain ⟨i1, i2, i3⟩ := link_rep st2 (LocationCluster.mk
          (mapSet st2.parent (ρ (toLower loc2)) (ρ (toLower loc1)))
          (mapTouch (mapTouch st2.rank (ρ (toLower loc1))) (ρ (toLower loc2)))
          st2.graph st2.clusterRadius) ρ _ _ hinv2 hnn2 hrep2 hr2 hr1 (Ne.symm hne) rfl
          (fun k _ => ht _ k) (by rw [ht]) (by rw [ht, ht]; exact hgt)
        exact ⟨_, _, rfl, ⟨i1, i2, i3, keysOK_mapSet st2 _ _ _ hl2 hk2 rfl, hsem2⟩, hg, hc⟩
      · simp only [hgt, if_false]
        have hnew : ∀ k, rankOf (LocationCluster.mk
            (mapSet st2.parent (ρ (toLower loc2)) (ρ (toLower loc1)))
            (mapSet (mapTouch (mapTouch st2.rank (ρ (toLower loc1))) (ρ (toLower loc2)))
              (ρ (toLower loc1)) (rankOf st2 (ρ (toLower loc1)) + 1))
            st2.graph st2.clusterRadius) k =
            if k = ρ (toLower loc1) then rankOf st2 (ρ (toLower loc1)) + 1
            else rankOf st2 k := by
          intro k
          unfold rankOf
          simp only [lookup_mapSet]
          by_cases hk : k = ρ (toLower loc1)
          · simp [hk]
          · simp only [hk, if_false, lookup_mapTouch]
        obtain ⟨i1, i2, i3⟩ := link_rep st2 (LocationCluster.mk
          (mapSet st2.parent (ρ (toLower loc2)) (ρ (toLower loc1)))
          (mapSet (mapTouch (mapTouch st2.rank (ρ (toLower loc1))) (ρ (toLower loc2)))
            (ρ (toLower loc1)) (rankOf st2 (ρ (toLower loc1)) + 1))
          st2.graph st2.clusterRadius) ρ _ _ hinv2 hnn2 hrep2 hr2 hr1 (Ne.symm hne) rfl
          (fun k hk => by rw [hnew]; simp [hk]) (by rw [hnew]; simp)
          (by rw [hnew, hnew]; simp only [Ne.symm hne, if_false, if_true]; omega)
        exact ⟨_, _, rfl, ⟨i1, i2, i3, keysOK_mapSet st2 _ _ _ hl2 hk2 rfl, hsem2⟩, hg, hc⟩

end LocationCluster

namespace LocationCluster

theorem sound_congr (st : LocationCluster) (ρ : String → String)
    (R R2 : String → String → Prop) (h : Sound st ρ R) (hR : ∀ u v, R u v ↔ R2 u v) :
    Sound st ρ R2 := by
  obtain ⟨h1, h2, h3, h4, h5, h6⟩ := h
  exact ⟨h1, h2, h3, h4, fun u v huv => h5 u v ((hR u v).mpr huv),
    fun x => Relation.EqvGen.mono (fun a b hab => (hR a b).mp hab) (h6 x)⟩

theorem buildInner_sem (g : LocationGraph) (li : String) :
    ∀ (rest : List String) (st : LocationCluster) (ρ : String → String)
      (R : String → String → Prop), Sound st ρ R →
      ∃ st' ρ', buildInner g li rest st = some st' ∧
        Sound st' ρ' (fun u v => R u v ∨
          (u = toLower li ∧ ∃ lj ∈ rest, v = toLower lj ∧
            g.getDistance li lj ≤ st.clusterRadius)) ∧
        st'.clusterRadius = st.clusterRadius := by
  intro rest
  induction rest with
  | nil =>
    intro st ρ R h
    exact ⟨st, ρ, rfl, sound_congr st ρ R _ h (fun u v => by simp), rfl⟩
  | cons lj rest ih =>
    intro st ρ R h
    by_cases hd : g.getDistance li lj ≤ st.clusterRadius
    · obtain ⟨st1, ρ1, h1, hs1, _, hc1⟩ := unite_sem st li lj ρ R h
      obtain ⟨st2, ρ2, h2, hs2, hc2⟩ := ih st1 ρ1 _ hs1
      refine ⟨st2, ρ2, ?_, sound_congr st2 ρ2 _ _ hs2 ?_, hc2.trans hc1⟩
      · simp only [buildInner, hd, if_true, h1]
        exact h2
      · intro u v
        rw [hc1]
        constructor
        · rintro ((hr | ⟨hu, hv⟩) | ⟨hu, l2, hl2, hv, hdist⟩)
          · exact Or.inl hr
          · exact Or.inr ⟨hu, lj, List.mem_cons_self _ _, hv, hd⟩
          · exact Or.inr ⟨hu, l2, List.mem_cons_of_mem _ hl2, hv, hdist⟩
        · rintro (hr | ⟨hu, l2, hl2, hv, hdist⟩)
          · exact Or.inl (Or.inl hr)
          · rcases List.mem_cons.mp hl2 with rfl | hl2
            · exact Or.inl (Or.inr ⟨hu, hv⟩)
            · exact Or.inr ⟨hu, l2, hl2, hv, hdist⟩
    · obtain ⟨st2, ρ2, h2, hs2, hc2⟩ := ih st ρ R h
      refine ⟨st2, ρ2, ?_, sound_congr st2 ρ2 _ _ hs2 ?_, hc2⟩
      · simp only [buildInner, hd, if_false]
        exact h2
      · intro u v
        constructor
        · rintro (hr | ⟨hu, l2, hl2, hv, hdist⟩)
          · exact Or.inl hr
          · exact Or.inr ⟨hu, l2, List.mem_cons_of_mem _ hl2, hv, hdist⟩
        · rintro (hr | ⟨hu, l2, hl2, hv, hdist⟩)
          · exact Or.inl hr
          · rcases List.mem_cons.mp hl2 with rfl | hl2
            · exact absurd hdist hd
            · exact Or.inr ⟨hu, l2, hl2, hv, hdist⟩

theorem buildOuter_sem (g : LocationGraph) :
    ∀ (locations : List String) (st : LocationCluster) (ρ : String → String)
      (R : String → String → Prop), Sound st ρ R →
      ∃ st' ρ', buildOuter g locations st = some st' ∧
        Sound st' ρ' (fun u v => R u v ∨ UnitedPairs g st.clusterRadius locations u v) := by
  intro locations
  induction locations with
  | nil =>
    intro st ρ R h
    exact ⟨st, ρ, rfl, sound_congr st ρ R _ h (fun u v => by simp [UnitedPairs])⟩
  | cons li rest ih =>
    intro st ρ R h
    obtain ⟨st1, ρ1, h1, hs1, hc1⟩ := buildInner_sem g li rest st ρ R h
    obtain ⟨st2, ρ2, h2, hs2⟩ := ih st1 ρ1 _ hs1
    refine ⟨st2, ρ2, ?_, sound_congr st2 ρ2 _ _ hs2 ?_⟩
    · simp only [buildOuter, h1]
      exact h2
    · intro u v
      rw [hc1]
      show _ ↔ R u v ∨ ((u = toLower li ∧ ∃ lj ∈ rest, v = toLower lj ∧
        g.getDistance li lj ≤ st.clusterRadius) ∨ UnitedPairs g st.clusterRadius rest u v)
      constructor
      · rintro ((hr | hp) | hq)
        · exact Or.inl hr
        · exact Or.inr (Or.inl hp)
        · exact Or.inr (Or.inr hq)
      · rintro (hr | hp | hq)
        · exact Or.inl (Or.inl hr)
        · exact Or.inl (Or.inr hp)
        · exact Or.inr hq

theorem sound_create (g : Option LocationGraph) (radius : Int) :
    Sound (create g radius) (fun x => x) (fun _ _ => False) := by
  obtain ⟨h1, h2, _⟩ := good_create g radius
  refine ⟨h1, h2, ⟨?_, ?_, ?_⟩, ⟨?_, ?_⟩, ⟨?_, ?_⟩⟩
  · intro k v h
    simp [create] at h
  · intro k _
    rfl
  · intro k _
    rfl
  · simp [keys, create]
  · intro k hk
    simp [keys, create] at hk
  · intro u v h
    exact absurd h id
  · intro x
    exact Relation.EqvGen.refl x

/-- The call `buildClusters` on a graph returns a sound state whose clusters are generated
by the pairs of locations that the loops unite. -/
theorem buildClusters_sem (g : LocationGraph) (radius : Int) :
    ∃ st ρ, (create (some g) radius).buildClusters = some st ∧
      Sound st ρ (UnitedPairs g radius g.getLocations) := by
  obtain ⟨st, ρ, h1, h2⟩ := buildOuter_sem g g.getLocations (create (some g) radius) _ _
    (sound_create (some g) radius)
  refine ⟨st, ρ, h1, sound_congr st ρ _ _ h2 ?_⟩
  intro u v
  simp [create]

end LocationCluster

namespace LocationCluster

theorem sem_iff (ρ : String → String) (R : String → String → Prop) (h : Sem ρ R)
    (x y : String) : ρ x = ρ y ↔ Relation.EqvGen R x y := by
  constructor
  · intro hxy
    exact Relation.EqvGen.trans _ _ _ (h.2 x) (hxy ▸ Relation.EqvGen.symm _ _ (h.2 y))
  · intro hxy
    induction hxy with
    | rel u v huv => exact h.1 u v huv
    | refl u => rfl
    | symm u v _ ih => exact ih.symm
    | trans u v w _ _ ih1 ih2 => exact ih1.trans ih2

theorem unitedPairs_within (g : LocationGraph) (radius : Int) (u v : String) :
    ∀ (locations : List String), (∀ l ∈ locations, toLower l = l) →
      UnitedPairs g radius locations u v →
      u ∈ locations ∧ v ∈ locations ∧ g.getDistance u v ≤ radius := by
  intro locations
  induction locations with
  | nil => intro _ h; exact absurd h id
  | cons li rest ih =>
    intro hlow h
    rcases h with ⟨hu, lj, hlj, hv, hd⟩ | h
    · rw [hlow li (List.mem_cons_self _ _)] at hu
      rw [hlow lj (List.mem_cons_of_mem _ hlj)] at hv
      subst hu
      subst hv
      exact ⟨List.mem_cons_self _ _, List.mem_cons_of_mem _ hlj, hd⟩
    · obtain ⟨h1, h2, h3⟩ := ih (fun l hl => hlow l (List.mem_cons_of_mem _ hl)) h
      exact ⟨List.mem_cons_of_mem _ h1, List.mem_cons_of_mem _ h2, h3⟩

theorem within_unitedPairs (g : LocationGraph) (radius : Int) (x y : String)
    (hxy : g.getDistance x y ≤ radius) (hyx : g.getDistance y x ≤ radius) :
    ∀ (locations : List String), (∀ l ∈ locations, toLower l = l) →
      x ∈ locations → y ∈ locations →
      x = y ∨ UnitedPairs g radius locations x y ∨ UnitedPairs g radius locations y x := by
  intro locations
  induction locations with
  | nil => intro _ hx; simp at hx
  | cons li rest ih =>
    intro hlow hx hy
    have hlow2 : ∀ l ∈ rest, toLower l = l := fun l hl => hlow l (List.mem_cons_of_mem _ hl)
    rcases List.mem_cons.mp hx with hx1 | hx1
    · rcases List.mem_cons.mp hy with hy1 | hy1
      · exact Or.inl (hx1.trans hy1.symm)
      · refine Or.inr (Or.inl (Or.inl ⟨?_, y, hy1, (hlow2 y hy1).symm, ?_⟩))
        · rw [hlow li (List.mem_cons_self _ _)]
          exact hx1
        · rw [← hx1]
          exact hxy
    · rcases List.mem_cons.mp hy with hy1 | hy1
      · refine Or.inr (Or.inr (Or.inl ⟨?_, x, hx1, (hlow2 x hx1).symm, ?_⟩))
        · rw [hlow li (List.mem_cons_self _ _)]
          exact hy1
        · rw [← hy1]
          exact hyx
      · rcases ih hlow2 hx1 hy1 with h | h | h
        · exact Or.inl h
        · exact Or.inr (Or.inl (Or.inr h))
        · exact Or.inr (Or.inr (Or.inr h))

/-- With lower-cased locations and a symmetric test, the clusters generated by the united
pairs are the chains of locations within the radius. -/
theorem eqvGen_iff_chain (g : LocationGraph) (radius : Int)
    (hlow : ∀ l ∈ g.getLocations, toLower l = l)
    (hsym : ∀ x ∈ g.getLocations, ∀ y ∈ g.getLocations,
      g.getDistance x y ≤ radius → g.getDistance y x ≤ radius) (a b : String) :
    Relation.EqvGen (UnitedPairs g radius g.getLocations) a b ↔
      Relation.ReflTransGen (WithinRadius g radius) a b := by
  have hsymm : ∀ x y, WithinRadius g radius x y → WithinRadius g radius y x :=
    fun x y h => ⟨h.2.1, h.1, hsym x h.1 y h.2.1 h.2.2⟩
  constructor
  · intro h
    induction h with
    | rel u v huv =>
      exact Relation.ReflTransGen.single (unitedPairs_within g radius u v _ hlow huv)
    | refl u => exact Relation.ReflTransGen.refl
    | symm u v _ ih => exact Relation.ReflTransGen.symmetric hsymm ih
    | trans u v w _ _ ih1 ih2 => exact ih1.trans ih2
  · intro h
    induction h with
    | refl => exact Relation.EqvGen.refl a
    | tail _ hstep ih =>
      refine Relation.EqvGen.trans _ _ _ ih ?_
      obtain ⟨hx, hy, hd⟩ := hstep
      rcases within_unitedPairs g radius _ _ hd (hsym _ hx _ hy hd) _ hlow hx hy with h | h | h
      · rw [h]
        exact Relation.EqvGen.refl _
      · exact Relation.EqvGen.rel _ _ h
      · exact Relation.EqvGen.symm _ _ (Relation.EqvGen.rel _ _ h)

theorem inSameCluster_chain_aux (g : LocationGraph) (radius : Int)
    (hlow : ∀ l ∈ g.getLocations, toLower l = l)
    (hsym : ∀ x ∈ g.getLocations, ∀ y ∈ g.getLocations,
      g.getDistance x y ≤ radius → g.getDistance y x ≤ radius) :
    ∃ st, (create (some g) radius).buildClusters = some st ∧
      ∀ a ∈ g.getLocations, ∀ b ∈ g.getLocations,
        ∃ ans st', inSameCluster st a b = some (ans, st') ∧
          (ans = true ↔ Relation.ReflTransGen (WithinRadius g radius) a b) ∧
          (g.getDistance a b ≤ radius → ans = true) := by
  obtain ⟨st, ρ, hb, hinv, hnn, hrep, _, hsem⟩ := buildClusters_sem g radius
  refine ⟨st, hb, fun a ha b hb2 => ?_⟩
  obtain ⟨st', hq, _⟩ := inSameCluster_spec st a b ρ hinv hnn hrep
  rw [hlow a ha, hlow b hb2] at hq
  have hiff : decide (ρ a = ρ b) = true ↔
      Relation.ReflTransGen (WithinRadius g radius) a b := by
    rw [decide_eq_true_eq, sem_iff ρ _ hsem, eqvGen_iff_chain g radius hlow hsym]
  exact ⟨_, st', hq, hiff,
    fun hd => hiff.mpr (Relation.ReflTransGen.single ⟨ha, hb2, hd⟩)⟩

end LocationCluster

namespace LocationCluster

theorem no_chain_overflowStarRev :
    ¬ Relation.ReflTransGen (WithinRadius LocationGraph.overflowStarRev 100) "b" "c" := by
  have key : ∀ y, Relation.ReflTransGen (WithinRadius LocationGraph.overflowStarRev 100) "b" y →
      y = "a" ∨ y = "b" := by
    intro y h
    induction h with
    | refl => exact Or.inr rfl
    | tail _ hstep ih =>
      obtain ⟨_, hz, hd⟩ := hstep
      have hz2 : _ ∈ ["c", "a", "b"] := hz
      simp only [List.mem_cons, List.mem_singleton, List.not_mem_nil, or_false] at hz2
      rcases hz2 with hz2 | hz2 | hz2
      · subst hz2
        rcases ih with ih | ih
        · subst ih
          exact absurd hd (by decide!)
        · subst ih
          exact absurd hd (by decide!)
      · exact Or.inl hz2
      · exact Or.inr hz2
  intro h
  rcases key "c" h with h1 | h1
  · exact absurd h1 (by decide)
  · exact absurd h1 (by decide)

/-- C21, as stated, fails, because `getDistance` is not symmetric when a sum of weights
overflows. On the graph with the edges a-b of 1 and a-c of 2^30 and the radius 100, the known
locations c and b have `getDistance c b ≤ 100`, yet `inSameCluster c b` is false after
`buildClusters`: the loop only tests `getDistance b c`. When the locations are visited in
the other order the pair is united, and then `inSameCluster b c` is true although no chain
of steps within the radius leads from b to c. -/
theorem inSameCluster_chain_counterexample :
    (∀ l ∈ LocationGraph.overflowStar.getLocations, toLower l = l) ∧
    WithinRadius LocationGraph.overflowStar 100 "c" "b" ∧
    ((create (some LocationGraph.overflowStar) 100).buildClusters.bind
      (fun st => inSameCluster st "c" "b")).map (fun r => r.1) = some false ∧
    (∀ l ∈ LocationGraph.overflowStarRev.getLocations, toLower l = l) ∧
    ((create (some LocationGraph.overflowStarRev) 100).buildClusters.bind
      (fun st => inSameCluster st "b" "c")).map (fun r => r.1) = some true ∧
    ¬ Relation.ReflTransGen (WithinRadius LocationGraph.overflowStarRev 100) "b" "c" :=
  ⟨by decide!, ⟨by decide!, by decide!, by decide!⟩, by decide!, by decide!, by decide!,
    no_chain_overflowStarRev⟩

/-- C21, amended. For every graph whose location names are lower-case and every radius for
which the test `getDistance x y ≤ radius` is symmetric on the known locations (it is when all
weights are positive and twice their sum is at most INT_MAX), `buildClusters` returns, and
afterwards two known locations a, b satisfy `inSameCluster a b` if and only if they are
linked by a chain of known locations in which each consecutive pair has
`getDistance ≤ radius`; in particular every pair with `getDistance a b ≤ radius` is in the
same cluster. -/
theorem inSameCluster_iff_chain (g : LocationGraph) (radius : Int)
    (hlow : ∀ l ∈ g.getLocations, toLower l = l)
    (hsym : ∀ x ∈ g.getLocations, ∀ y ∈ g.getLocations,
      g.getDistance x y ≤ radius → g.getDistance y x ≤ radius) :
    ∃ st, (create (some g) radius).buildClusters = some st ∧
      ∀ a ∈ g.getLocations, ∀ b ∈ g.getLocations,
        ∃ ans st', inSameCluster st a b = some (ans, st') ∧
          (ans = true ↔ Relation.ReflTransGen (WithinRadius g radius) a b) ∧
          (g.getDistance a b ≤ radius → ans = true) :=
  inSameCluster_chain_aux g radius hlow hsym

theorem inSameCluster_iff_chain_witness :
    (∀ l ∈ LocationGraph.twoClusters.getLocations, toLower l = l) ∧
    (∀ x ∈ LocationGraph.twoClusters.getLocations,
      ∀ y ∈ LocationGraph.twoClusters.getLocations,
        LocationGraph.twoClusters.getDistance x y ≤ 100 →
          LocationGraph.twoClusters.getDistance y x ≤ 100) ∧
    ∃ st, (create (some LocationGraph.twoClusters) 100).buildClusters = some st ∧
      ∀ a ∈ LocationGraph.twoClusters.getLocations,
        ∀ b ∈ LocationGraph.twoClusters.getLocations,
        ∃ ans st', inSameCluster st a b = some (ans, st') ∧
          (ans = true ↔
            Relation.ReflTransGen (WithinRadius LocationGraph.twoClusters 100) a b) ∧
          (LocationGraph.twoClusters.getDistance a b ≤ 100 → ans = true) :=
  ⟨by decide!, by decide!,
    inSameCluster_iff_chain LocationGraph.twoClusters 100 (by decide!) (by decide!)⟩

end LocationCluster

namespace LocationCluster

theorem membersLoop_spec (root : String) (ρ : String → String) (R : String → String → Prop) :
    ∀ (ks : List String) (st : LocationCluster) (acc : List String), Sound st ρ R →
      (∀ k ∈ ks, toLower k = k) →
      ∃ st', membersLoop root ks st acc =
          some (acc ++ ks.filter (fun k => decide (ρ k = root)), st') ∧ Sound st' ρ R := by
  intro ks
  induction ks with
  | nil => intro st acc h _; exact ⟨st, by simp [membersLoop], h⟩
  | cons k rest ih =>
    intro st acc h hlow
    obtain ⟨st1, h1, hs1, _⟩ := find_sound st k ρ R h
    rw [hlow k (List.mem_cons_self _ _)] at h1
    obtain ⟨st2, h2, hs2⟩ := ih st1 (if ρ k = root then acc ++ [k] else acc) hs1
      (fun x hx => hlow x (List.mem_cons_of_mem _ hx))
    refine ⟨st2, ?_, hs2⟩
    simp only [membersLoop, h1, h2]
    by_cases hk : ρ k = root
    · simp [hk, List.filter_cons]
    · simp [hk, List.filter_cons]

/-- The call `getClusterMembers` returns the stored names whose root is the root of the
argument, each once, the lower-cased argument among them. -/
theorem getClusterMembers_sound (st : LocationCluster) (l : String) (ρ : String → String)
    (R : String → String → Prop) (h : Sound st ρ R) :
    ∃ members st', getClusterMembers st l = some (members, st') ∧ Sound st' ρ R ∧
      members.Nodup ∧ toLower l ∈ members ∧ ∀ m, m ∈ members ↔ ρ m = ρ (toLower l) := by
  obtain ⟨st1, h1, hs1, hroot, hmem, _⟩ := find_sound st l ρ R h
  have hk1 : KeysOK st1 := hs1.2.2.2.1
  obtain ⟨st2, h2, hs2⟩ := membersLoop_spec (ρ (toLower l)) ρ R (keys st1) st1 [] hs1 hk1.2
  have hiff : ∀ m, m ∈ (keys st1).filter (fun k => decide (ρ k = ρ (toLower l))) ↔
      ρ m = ρ (toLower l) := by
    intro m
    simp only [List.mem_filter, decide_eq_true_eq]
    constructor
    · exact fun hm => hm.2
    · intro hm
      refine ⟨?_, hm⟩
      by_contra hnot
      have hnone : st1.parent.lookup m = none := by
        cases hl : st1.parent.lookup m with
        | none => rfl
        | some v => exact absurd ((lookup_isSome_iff _ _).mp (by simp [hl])) hnot
      have hm2 : ρ m = m := hs1.2.2.1.2.2 m hnone
      rw [hm2] at hm
      rw [hm, hroot] at hnone
      exact absurd hnone (by simp)
  rw [List.nil_append] at h2
  refine ⟨(keys st1).filter (fun k => decide (ρ k = ρ (toLower l))), st2, ?_, hs2,
    List.Nodup.filter _ hk1.1, (hiff _).mpr rfl, hiff⟩
  simp only [getClusterMembers, h1]
  exact h2

theorem getClusterMembers_aux (g : LocationGraph) (radius : Int)
    (hlow : ∀ l ∈ g.getLocations, toLower l = l) (l : String) :
    ∃ st, (create (some g) radius).buildClusters = some st ∧
      ∃ members st', getClusterMembers st l = some (members, st') ∧ members.Nodup ∧
        toLower l ∈ members ∧
        ∀ m ∈ g.getLocations, (m ∈ members ↔ ∃ st2, inSameCluster st' m l = some (true, st2)) := by
  obtain ⟨st, ρ, hb, hs⟩ := buildClusters_sem g radius
  obtain ⟨members, st', hm, hs', hnd, hself, hiff⟩ := getClusterMembers_sound st l ρ _ hs
  refine ⟨st, hb, members, st', hm, hnd, hself, fun m hmem => ?_⟩
  obtain ⟨st2, hq, _⟩ := inSameCluster_spec st' m l ρ hs'.1 hs'.2.1 hs'.2.2.1
  rw [hlow m hmem] at hq
  rw [hiff, hq]
  constructor
  · intro h
    exact ⟨st2, by simp [h]⟩
  · rintro ⟨st3, h3⟩
    simp only [Option.some.injEq, Prod.mk.injEq, decide_eq_true_eq] at h3
    exact h3.1

end LocationCluster

namespace LocationCluster

/-- C22. For every graph with lower-case location names and every radius, `buildClusters`
returns, and afterwards for every name `l` the call `getClusterMembers l` returns a list
without duplicates that contains the lower-cased `l` and that contains a known location `m`
if and only if `inSameCluster m l` holds. -/
theorem getClusterMembers_spec (g : LocationGraph) (radius : Int)
    (hlow : ∀ l ∈ g.getLocations, toLower l = l) (l : String) :
    ∃ st, (create (some g) radius).buildClusters = some st ∧
      ∃ members st', getClusterMembers st l = some (members, st') ∧ members.Nodup ∧
        toLower l ∈ members ∧
        ∀ m ∈ g.getLocations, (m ∈ members ↔ ∃ st2, inSameCluster st' m l = some (true, st2)) :=
  getClusterMembers_aux g radius hlow l

theorem getClusterMembers_spec_witness :
    (∀ l ∈ LocationGraph.twoClusters.getLocations, toLower l = l) ∧
    ∃ st, (create (some LocationGraph.twoClusters) 100).buildClusters = some st ∧
      ∃ members st', getClusterMembers st "C" = some (members, st') ∧ members.Nodup ∧
        toLower "C" ∈ members ∧
        ∀ m ∈ LocationGraph.twoClusters.getLocations,
          (m ∈ members ↔ ∃ st2, inSameCluster st' m "C" = some (true, st2)) :=
  ⟨by decide!, getClusterMembers_spec LocationGraph.twoClusters 100 (by decide!) "C"⟩

/-- A run of `getClusterMembers` on the small graph: the cluster of a is {a, b}; the
location c, never united with another one, is its own cluster. -/
theorem getClusterMembers_example :
    ((create (some LocationGraph.twoClusters) 100).buildClusters.bind
      (fun st => getClusterMembers st "A")).map (fun r => r.1) = some ["a", "b"] ∧
    ((create (some LocationGraph.twoClusters) 100).buildClusters.bind
      (fun st => getClusterMembers st "c")).map (fun r => r.1) = some ["c"] := by
  decide!

end LocationCluster

namespace ItemBST

theorem inorderTraversal_eq (node : BSTNode) :
    ∀ result, inorderTraversal node result = result ++ toList node := by
  induction node with
  | nil => intro result; simp [inorderTraversal, toList]
  | node x left right ihl ihr =>
    intro result
    simp [inorderTraversal, toList, ihl, ihr]

theorem reverseInorderTraversal_eq (node : BSTNode) :
    ∀ result, reverseInorderTraversal node result = result ++ (toList node).reverse := by
  induction node with
  | nil => intro result; simp [reverseInorderTraversal, toList]
  | node x left right ihl ihr =>
    intro result
    simp [reverseInorderTraversal, toList, ihl, ihr]

theorem toList_insert_perm (node : BSTNode) (item : Item) :
    (toList (insert node item)).Perm (item :: toList node) := by
  induction node with
  | nil => simp [insert, toList]
  | node x left right ihl ihr =>
    unfold insert
    by_cases h : item.timestamp < x.timestamp
    · simp only [h, if_true, toList]
      exact (List.Perm.append_right _ ihl).trans (by simp)
    · simp only [h, if_false, toList]
      refine (List.Perm.append_left _ (List.Perm.cons x ihr)).trans ?_
      refine (List.Perm.append_left _ (List.Perm.swap item x _)).trans ?_
      exact List.perm_middle

theorem isBST_insert (node : BSTNode) (item : Item) (h : IsBST node) :
    IsBST (insert node item) := by
  induction node with
  | nil => simp [insert, IsBST, toList]
  | node x left right ihl ihr =>
    obtain ⟨h1, h2, h3, h4⟩ := h
    unfold insert
    by_cases hlt : item.timestamp < x.timestamp
    · simp only [hlt, if_true]
      refine ⟨?_, h2, ihl h3, h4⟩
      intro y hy
      rcases List.mem_cons.mp ((toList_insert_perm left item).subset hy) with rfl | hy
      · exact hlt
      · exact h1 y hy
    · simp only [hlt, if_false]
      refine ⟨h1, ?_, h3, ihr h4⟩
      intro y hy
      rcases List.mem_cons.mp ((toList_insert_perm right item).subset hy) with rfl | hy
      · exact not_lt.mp hlt
      · exact h2 y hy

theorem sorted_toList (node : BSTNode) (h : IsBST node) :
    (toList node).Sorted (fun a b => a.timestamp ≤ b.timestamp) := by
  induction node with
  | nil => simp [toList]
  | node x left right ihl ihr =>
    obtain ⟨h1, h2, h3, h4⟩ := h
    simp only [toList, List.Sorted, List.pairwise_append, List.pairwise_cons, List.mem_cons]
    refine ⟨ihl h3, ⟨h2, ihr h4⟩, ?_⟩
    rintro a ha b (rfl | hb)
    · exact le_of_lt (h1 a ha)
    · exact le_trans (le_of_lt (h1 a ha)) (h2 b hb)

/-- An inserted item comes after the items with its time stamp that are in the tree. -/
theorem filter_toList_insert (t : Int) (node : BSTNode) (item : Item) (h : IsBST node) :
    (toList (insert node item)).filter (fun y => decide (y.timestamp = t)) =
      (toList node).filter (fun y => decide (y.timestamp = t)) ++
        (if item.timestamp = t then [item] else []) := by
  induction node with
  | nil =>
    by_cases ht : item.timestamp = t
    · simp [insert, toList, ht]
    · simp [insert, toList, ht]
  | node x left right ihl ihr =>
    obtain ⟨h1, h2, h3, h4⟩ := h
    unfold insert
    by_cases hlt : item.timestamp < x.timestamp
    · simp only [hlt, if_true, toList, List.filter_append, ihl h3]
      by_cases ht : item.timestamp = t
      · have hx : ¬ x.timestamp = t := by omega
        have hr : (toList right).filter (fun y => decide (y.timestamp = t)) = [] := by
          rw [List.filter_eq_nil_iff]
          intro y hy
          have := h2 y hy
          simp only [decide_eq_true_eq]
          omega
        simp [ht, List.filter_cons, hx, hr]
      · simp [ht]
    · simp only [hlt, if_false, toList, List.filter_append, List.filter_cons, ihr h4]
      by_cases hx : x.timestamp = t
      · simp [hx]
      · simp [hx]

theorem insertAll_append (root : BSTNode) (items : List Item) (item : Item) :
    insertAll root (items ++ [item]) = insert (insertAll root items) item := by
  simp [insertAll, List.foldl_append]

theorem insertAll_spec (items : List Item) :
    IsBST (insertAll .nil items) ∧ (toList (insertAll .nil items)).Perm items ∧
      ∀ t, (toList (insertAll .nil items)).filter (fun y => decide (y.timestamp = t)) =
        items.filter (fun y => decide (y.timestamp = t)) := by
  induction items using List.reverseRecOn with
  | nil => simp [insertAll, IsBST, toList]
  | append_singleton items item ih =>
    obtain ⟨h1, h2, h3⟩ := ih
    rw [insertAll_append]
    refine ⟨isBST_insert _ item h1, ?_, ?_⟩
    · refine (toList_insert_perm _ item).trans ?_
      refine (List.Perm.cons item h2).trans ?_
      exact (List.perm_append_singleton item items).symm
    · intro t
      rw [filter_toList_insert t _ item h1, h3 t, List.filter_append]
      by_cases ht : item.timestamp = t
      · simp [ht]
      · simp [ht]

end ItemBST

namespace ItemBST

theorem getSortedHistory_true (root : BSTNode) : getSortedHistory root true = toList root := by
  simp [getSortedHistory, inorderTraversal_eq]

theorem getSortedHistory_false (root : BSTNode) :
    getSortedHistory root false = (toList root).reverse := by
  simp [getSortedHistory, reverseInorderTraversal_eq]

/-- C23. For every sequence of inserts into the empty tree, `getSortedHistory(true)` is the
insertion sequence stably sorted by time stamp: a permutation of the inserted items,
non-decreasing in time stamp, in which the items of each time stamp appear in the order of
their insertion. -/
theorem getSortedHistory_stable (items : List Item) :
    (getSortedHistory (insertAll .nil items) true).Perm items ∧
    (getSortedHistory (insertAll .nil items) true).Sorted
      (fun a b => a.timestamp ≤ b.timestamp) ∧
    ∀ t : Int, (getSortedHistory (insertAll .nil items) true).filter
        (fun y => decide (y.timestamp = t)) =
      items.filter (fun y => decide (y.timestamp = t)) := by
  obtain ⟨h1, h2, h3⟩ := insertAll_spec items
  rw [getSortedHistory_true]
  exact ⟨h2, sorted_toList _ h1, h3⟩

/-- C24. For every tree, `getSortedHistory(false)` is the reverse of
`getSortedHistory(true)` and has the same length, and so for `getHistory`; for a tree built
by inserts it is non-increasing in time stamp. -/
theorem getSortedHistory_reverse (root : BSTNode) (s : LostFoundSystem) (items : List Item) :
    getSortedHistory root false = (getSortedHistory root true).reverse ∧
    (getSortedHistory root false).length = (getSortedHistory root true).length ∧
    s.getHistory false = (s.getHistory true).reverse ∧
    (getSortedHistory (insertAll .nil items) false).Sorted
      (fun a b => a.timestamp ≥ b.timestamp) := by
  have h : ∀ r : BSTNode, getSortedHistory r false = (getSortedHistory r true).reverse :=
    fun r => by rw [getSortedHistory_false, getSortedHistory_true]
  refine ⟨h root, by rw [h root, List.length_reverse], h _, ?_⟩
  rw [getSortedHistory_false]
  have hs := sorted_toList _ (insertAll_spec items).1
  unfold List.Sorted at hs ⊢
  rw [List.pairwise_reverse]
  exact hs

end ItemBST

namespace ItemHashMap

theorem exists_iff (m : ItemHashMap) (id : String) : m.exists id = true ↔ id ∈ m.keys := by
  simp [ItemHashMap.exists, keys]

theorem get_eq_none_iff (m : ItemHashMap) (id : String) : m.get id = none ↔ id ∉ m.keys := by
  unfold get keys
  induction m.items with
  | nil => simp
  | cons p rest ih =>
    by_cases h : p.1 = id
    · simp [List.find?, h]
    · have hb : (p.1 == id) = false := by simpa using h
      simp only [List.find?, hb, List.map_cons, List.mem_cons, not_or]
      rw [ih]
      exact ⟨fun h2 => ⟨fun h3 => h h3.symm, h2⟩, fun h2 => h2.2⟩

theorem get_mem (m : ItemHashMap) (id : String) (item : Item) (h : m.get id = some item) :
    (id, item) ∈ m.items := by
  unfold get at h
  cases hf : m.items.find? (fun p => p.1 == id) with
  | none => simp [hf] at h
  | some p =>
    simp only [hf, Option.map_some', Option.some.injEq] at h
    have h1 := List.find?_some hf
    have h2 := List.mem_of_find?_eq_some hf
    simp only [beq_iff_eq] at h1
    rw [← h1, ← h]
    exact h2

theorem find_map_replace (id : String) (item : Item) :
    ∀ (l : List (String × Item)), l.any (fun p => p.1 == id) = true →
      ((l.map (fun p => if p.1 = id then (p.1, item) else p)).find?
        (fun p => p.1 == id)).map (fun p => p.2) = some item := by
  intro l
  induction l with
  | nil => intro h; simp at h
  | cons p rest ih =>
    intro h
    by_cases hp : p.1 = id
    · have e : (if p.1 = id then (p.1, item) else p) = (p.1, item) := if_pos hp
      rw [List.map_cons, e]
      simp [List.find?, hp]
    · have hb : (p.1 == id) = false := by simpa using hp
      have e : (if p.1 = id then (p.1, item) else p) = p := if_neg hp
      rw [List.any_cons, hb, Bool.false_or] at h
      rw [List.map_cons, e]
      simp only [List.find?, hb]
      exact ih h

theorem get_insert_self (m : ItemHashMap) (id : String) (item : Item) :
    (m.insert id item).get id = some item := by
  unfold insert get
  by_cases h : m.exists id = true
  · simp only [h, if_true]
    exact find_map_replace id item m.items h
  · simp only [h, if_false, Bool.false_eq_true]
    have hn : m.items.find? (fun p => p.1 == id) = none := by
      rw [List.find?_eq_none]
      intro p hp hpid
      apply h
      unfold ItemHashMap.exists
      exact List.any_eq_true.mpr ⟨p, hp, hpid⟩
    simp [List.find?_append, hn]

theorem get_modify (m : ItemHashMap) (id id2 : String) (f : Item → Item) :
    (m.modify id f).get id2 = if id2 = id then (m.get id2).map f else m.get id2 := by
  unfold modify get
  induction m.items with
  | nil => simp
  | cons p rest ih =>
    by_cases hp : p.1 = id2
    · by_cases hid : id2 = id
      · have e : (if p.1 = id then (p.1, f p.2) else p) = (p.1, f p.2) := if_pos (hp.trans hid)
        simp [List.find?, e, hp, hid]
      · have e : (if p.1 = id then (p.1, f p.2) else p) = p :=
          if_neg (fun h => hid (hp.symm.trans h))
        simp [List.find?, e, hp, hid]
    · have hb : (p.1 == id2) = false := by simpa using hp
      have hb2 : ((if p.1 = id then (p.1, f p.2) else p).1 == id2) = false := by
        by_cases h : p.1 = id
        · simpa [h] using (h ▸ hp)
        · simpa [h] using hp
      simp only [List.map_cons, List.find?, hb, hb2]
      exact ih

theorem keys_modify (m : ItemHashMap) (id : String) (f : Item → Item) :
    (m.modify id f).keys = m.keys := by
  unfold modify keys
  simp only [List.map_map]
  apply List.map_congr_left
  intro p _
  by_cases h : p.1 = id
  · simp [h]
  · simp [h]

end ItemHashMap

namespace LostFoundSystem

/-- C25. In every state, if `reportLostItem` called at clock time `now` returns `id`, then
`getItemById id` yields the record with that id, the given name, color, location, owner,
description and email, the type "lost", the category `stringToCategory categoryStr`, the
time stamp `now`, the expiry `now + 2592000`, not archived and not claimed. -/
theorem getItemById_reportLostItem (s : LostFoundSystem) (now : Int)
    (name color location owner description categoryStr email : String) :
    (s.reportLostItem now name color location owner description categoryStr email).1.getItemById
      (s.reportLostItem now name color location owner description categoryStr email).2 =
    some { id := (s.reportLostItem now name color location owner description categoryStr
                    email).2,
           name := name, color := color, location := location, owner := owner, email := email,
           type := "lost", timestamp := now, description := description,
           category := stringToCategory categoryStr, archived := false,
           expiresAt := now + 2592000, claimed := false, claimedBy := "", claimedAt := 0 } := by
  simp only [reportLostItem, getItemById, store, generateId]
  refine (ItemHashMap.get_insert_self _ _ _).trans ?_
  simp [Item.create]

end LostFoundSystem

namespace ItemHashMap

theorem get_of_not_exists (m : ItemHashMap) (id : String) (h : m.exists id = false) :
    m.get id = none := by
  rw [get_eq_none_iff, ← exists_iff]
  simp [h]

end ItemHashMap

namespace LostFoundSystem

/-- C29. For every state and every id that is not in the registry, `getItemById` returns the
not-found value, and `claimItem`, `archiveItem` and `deleteItem` return false and leave the
whole state (registry, inverted index, tries, history) unchanged. -/
theorem absent_id_unchanged (s : LostFoundSystem) (id : String)
    (h : s.itemMap.exists id = false) (now : Int) (claimedBy : String) :
    s.getItemById id = none ∧ s.claimItem now id claimedBy = (s, false) ∧
      s.archiveItem id = (s, false) ∧ s.deleteItem id = (s, false) := by
  have hg := ItemHashMap.get_of_not_exists s.itemMap id h
  simp [getItemById, claimItem, archiveItem, deleteItem, hg]

theorem absent_id_unchanged_witness :
    sampleSystem.itemMap.exists "ITEM-000002" = false ∧
    (sampleSystem.getItemById "ITEM-000002" = none ∧
      sampleSystem.claimItem 200 "ITEM-000002" "someone" = (sampleSystem, false) ∧
      sampleSystem.archiveItem "ITEM-000002" = (sampleSystem, false) ∧
      sampleSystem.deleteItem "ITEM-000002" = (sampleSystem, false)) :=
  ⟨by decide!, absent_id_unchanged sampleSystem "ITEM-000002" (by decide!) 200 "someone"⟩

end LostFoundSystem

namespace ItemHashMap

theorem mem_modify (m : ItemHashMap) (id : String) (f : Item → Item) (p : String × Item)
    (hp : p ∈ (m.modify id f).items) :
    ∃ q ∈ m.items, p = q ∨ (q.1 = id ∧ p = (q.1, f q.2)) := by
  unfold modify at hp
  simp only [List.mem_map] at hp
  obtain ⟨q, hq, rfl⟩ := hp
  refine ⟨q, hq, ?_⟩
  by_cases h : q.1 = id
  · right
    simp [h]
  · left
    simp [h]

end ItemHashMap

namespace LostFoundSystem

theorem claimedArchived_modify (m : ItemHashMap) (id : String) (f : Item → Item)
    (hf : ∀ x, (f x).archived = true) (h : ClaimedArchived m) :
    ClaimedArchived (m.modify id f) := by
  intro p hp hc
  obtain ⟨q, hq, h1 | ⟨_, h1⟩⟩ := ItemHashMap.mem_modify m id f p hp
  · rw [h1] at hc ⊢
    exact h q hq hc
  · rw [h1]
    exact hf q.2

theorem claimedArchived_insert (m : ItemHashMap) (id : String) (item : Item)
    (hi : item.claimed = false) (h : ClaimedArchived m) :
    ClaimedArchived (m.insert id item) := by
  intro p hp hc
  rcases ItemHashMap.mem_insert m id item p hp with h1 | h1
  · exact h p h1.1 hc
  · rw [h1] at hc
    simp [hi] at hc

theorem claimedArchived_archiveLoop (now : Int) :
    ∀ (todo : List Item) (m : ItemHashMap) (count : Int), ClaimedArchived m →
      ClaimedArchived (archiveLoop now todo m count).1 := by
  intro todo
  induction todo with
  | nil => intro m count h; exact h
  | cons item rest ih =>
    intro m count h
    unfold archiveLoop
    by_cases hc : (!item.archived && item.isExpired now) = true
    · simp only [hc, if_true]
      cases hg : m.get item.id with
      | none => exact ih m count h
      | some x => exact ih _ _ (claimedArchived_modify m _ _ (fun _ => rfl) h)
    · simp only [hc, if_false, Bool.false_eq_true]
      exact ih m count h

theorem claimedArchived_applyOp (s : LostFoundSystem) (op : SystemOp)
    (h : ClaimedArchived s.itemMap) : ClaimedArchived (s.applyOp op).itemMap := by
  cases op with
  | reportLostItem now name color location owner description categoryStr email =>
    exact claimedArchived_insert _ _ _ rfl h
  | reportFoundItem now name color location finder description categoryStr email =>
    exact claimedArchived_insert _ _ _ rfl h
  | claimItem now id claimedBy =>
    simp only [applyOp, claimItem]
    cases hg : s.itemMap.get id with
    | none => exact h
    | some x => exact claimedArchived_modify _ _ _ (fun _ => rfl) h
  | archiveItem id =>
    simp only [applyOp, archiveItem]
    cases hg : s.itemMap.get id with
    | none => exact h
    | some x => exact claimedArchived_modify _ _ _ (fun _ => rfl) h
  | deleteItem id =>
    simp only [applyOp, deleteItem]
    cases hg : s.itemMap.get id with
    | none => exact h
    | some x =>
      intro p hp hc
      exact h p (List.mem_of_mem_filter hp) hc
  | archiveExpiredItems now =>
    exact claimedArchived_archiveLoop now _ _ 0 h

theorem claimedArchived_runOps (ops : List SystemOp) :
    ∀ s : LostFoundSystem, ClaimedArchived s.itemMap → ClaimedArchived (s.runOps ops).itemMap := by
  induction ops with
  | nil => intro s h; exact h
  | cons op rest ih =>
    intro s h
    exact ih _ (claimedArchived_applyOp s op h)

/-- C28. In every state reached from a fresh system by calls of `reportLostItem`,
`reportFoundItem`, `claimItem`, `archiveItem`, `deleteItem` and `archiveExpiredItems`, every
item of the registry that is claimed is archived. -/
theorem claimed_items_archived (ops : List SystemOp) (item : Item) :
    item ∈ (fresh.runOps ops).itemMap.getAllItems → item.claimed = true →
      item.archived = true := by
  intro hmem hc
  have h := claimedArchived_runOps ops fresh (fun p hp => by simp [fresh, ItemHashMap.empty] at hp)
  simp only [ItemHashMap.getAllItems, List.mem_map] at hmem
  obtain ⟨p, hp, rfl⟩ := hmem
  exact h p hp hc

end LostFoundSystem

namespace LostFoundSystem

theorem claimed_items_archived_witness :
    sampleClaimedItem ∈ (fresh.runOps sampleClaimOps).itemMap.getAllItems ∧
    sampleClaimedItem.claimed = true ∧ sampleClaimedItem.archived = true :=
  ⟨by decide!, by decide,
    claimed_items_archived sampleClaimOps sampleClaimedItem (by decide!) (by decide)⟩

end LostFoundSystem

namespace LostFoundSystem

theorem keysMatch_modify (m : ItemHashMap) (id : String) (f : Item → Item)
    (hf : ∀ x, (f x).id = x.id) (h : KeysMatch m) : KeysMatch (m.modify id f) := by
  intro p hp
  obtain ⟨q, hq, h1 | ⟨_, h1⟩⟩ := ItemHashMap.mem_modify m id f p hp
  · rw [h1]
    exact h q hq
  · rw [h1]
    simp only [hf]
    exact h q hq

theorem searchFilter_some (s : LostFoundSystem) (type : String) (dateFrom dateTo : Int)
    (includeArchived : Bool) (id : String) (r : Item)
    (h : searchFilter s type dateFrom dateTo includeArchived id = some r) :
    s.itemMap.get id = some r ∧ (includeArchived = false → r.archived = false) := by
  unfold searchFilter at h
  cases hg : s.itemMap.get id with
  | none => simp [hg] at h
  | some item =>
    simp only [hg] at h
    split_ifs at h with h1 h2 h3 h4
    simp only [Option.some.injEq] at h
    subst h
    refine ⟨rfl, fun hi => ?_⟩
    cases ha : item.archived with
    | false => rfl
    | true => simp [hi, ha] at h1

theorem searchFilter_all (s : LostFoundSystem) (id : String) (r : Item)
    (h : s.itemMap.get id = some r) : searchFilter s "" 0 0 true id = some r := by
  simp [searchFilter, h]

theorem claimItem_aux (s : LostFoundSystem) (now : Int) (id claimedBy : String) (item : Item)
    (hk : KeysMatch s.itemMap) (hget : s.itemMap.get id = some item) :
    (s.claimItem now id claimedBy).2 = true ∧
    (s.claimItem now id claimedBy).1.getItemById id =
      some { item with claimed := true, claimedBy := claimedBy, claimedAt := now,
                       archived := true } ∧
    (∀ (name color location category type : String) (dateFrom dateTo : Int),
      ∀ r ∈ (s.claimItem now id claimedBy).1.advancedSearch name color location category type
        dateFrom dateTo false, r.id ≠ id) ∧
    ∃ r ∈ (s.claimItem now id claimedBy).1.advancedSearch "" "" "" "" "" 0 0 true,
      r.id = id := by
  have hst : s.claimItem now id claimedBy =
      ({ s with itemMap := s.itemMap.modify id (fun item =>
        { item with claimed := true, claimedBy := claimedBy, claimedAt := now,
                    archived := true }) }, true) := by
    simp [claimItem, hget]
  rw [hst]
  have hk2 : KeysMatch (s.itemMap.modify id (fun item =>
      { item with claimed := true, claimedBy := claimedBy, claimedAt := now,
                  archived := true })) := keysMatch_modify _ _ _ (fun _ => rfl) hk
  have hg2 : (s.itemMap.modify id (fun item =>
      { item with claimed := true, claimedBy := claimedBy, claimedAt := now,
                  archived := true })).get id =
      some { item with claimed := true, claimedBy := claimedBy, claimedAt := now,
                       archived := true } := by
    rw [ItemHashMap.get_modify]
    simp [hget]
  refine ⟨rfl, hg2, ?_, ?_⟩
  · intro name color location category type dateFrom dateTo r hr hid
    simp only [advancedSearch, List.mem_filterMap] at hr
    obtain ⟨id2, _, hf⟩ := hr
    obtain ⟨h1, h2⟩ := searchFilter_some _ _ _ _ _ _ _ hf
    have hmem := ItemHashMap.get_mem _ _ _ h1
    have hkey : id2 = r.id := hk2 _ hmem
    rw [hkey, hid] at h1
    rw [hg2] at h1
    have := h2 rfl
    rw [← Option.some.inj h1] at this
    simp at this
  · refine ⟨_, ?_, ((hk2 _ (ItemHashMap.get_mem _ _ _ hg2)).symm : _ = id)⟩
    simp only [advancedSearch, and_self, if_true, List.mem_filterMap]
    refine ⟨id, ?_, searchFilter_all _ _ _ hg2⟩
    rw [IndexMap.mem_foldl_setInsert]
    left
    simp only [List.mem_map, ItemHashMap.getAllItems]
    exact ⟨_, ⟨_, ItemHashMap.get_mem _ _ _ hg2, rfl⟩,
      (hk2 _ (ItemHashMap.get_mem _ _ _ hg2)).symm⟩

end LostFoundSystem

namespace LostFoundSystem

/-- C27. For every state whose registry keys are the ids of the stored items, and every id
present in the registry, `claimItem id claimedBy` returns true; afterwards the record of the
id is archived and claimed, with `claimedBy` as given (and the claim time set to the clock);
no result of `advancedSearch` with `includeArchived = false`, whatever the filters, has that
id; and `advancedSearch` with no filters and `includeArchived = true` returns the record. -/
theorem claimItem_spec (s : LostFoundSystem) (now : Int) (id claimedBy : String) (item : Item)
    (hk : KeysMatch s.itemMap) (hget : s.itemMap.get id = some item) :
    (s.claimItem now id claimedBy).2 = true ∧
    (s.claimItem now id claimedBy).1.getItemById id =
      some { item with claimed := true, claimedBy := claimedBy, claimedAt := now,
                       archived := true } ∧
    (∀ (name color location category type : String) (dateFrom dateTo : Int),
      ∀ r ∈ (s.claimItem now id claimedBy).1.advancedSearch name color location category type
        dateFrom dateTo false, r.id ≠ id) ∧
    ∃ r ∈ (s.claimItem now id claimedBy).1.advancedSearch "" "" "" "" "" 0 0 true,
      r.id = id :=
  claimItem_aux s now id claimedBy item hk hget

theorem claimItem_spec_witness :
    KeysMatch sampleSystem.itemMap ∧
    sampleSystem.itemMap.get "ITEM-000001" = some sampleLostItem ∧
    ((sampleSystem.claimItem 200 "ITEM-000001" "alice").2 = true ∧
    (sampleSystem.claimItem 200 "ITEM-000001" "alice").1.getItemById "ITEM-000001" =
      some { sampleLostItem with claimed := true, claimedBy := "alice", claimedAt := 200,
                                 archived := true } ∧
    (∀ (name color location category type : String) (dateFrom dateTo : Int),
      ∀ r ∈ (sampleSystem.claimItem 200 "ITEM-000001" "alice").1.advancedSearch name color
        location category type dateFrom dateTo false, r.id ≠ "ITEM-000001") ∧
    ∃ r ∈ (sampleSystem.claimItem 200 "ITEM-000001" "alice").1.advancedSearch "" "" "" "" ""
      0 0 true, r.id = "ITEM-000001") :=
  ⟨keysMatch_reportLostItem fresh 100 "blue backpack" "blue" "cafeteria" "owner" "" "bags" ""
      keysMatch_fresh, by decide!,
    claimItem_spec sampleSystem 200 "ITEM-000001" "alice" sampleLostItem
      (keysMatch_reportLostItem fresh 100 "blue backpack" "blue" "cafeteria" "owner" "" "bags"
        "" keysMatch_fresh) (by decide!)⟩

/-- The scenario of C27 evaluated: after the claim the backpack is not returned by a search
for its name, and it is returned when archived items are included. -/
theorem claimItem_example :
    (sampleSystem.claimItem 200 "ITEM-000001" "alice").1.advancedSearch "backpack" "" "" "" ""
      0 0 false = [] ∧
    (sampleSystem.claimItem 200 "ITEM-000001" "alice").1.advancedSearch "" "" "" "" ""
      0 0 true = [sampleClaimedItem] ∧
    sampleSystem.advancedSearch "backpack" "" "" "" "" 0 0 false = [sampleLostItem] := by
  decide!

end LostFoundSystem

namespace LostFoundSystem

theorem markArchived_idem (x : Item) : x.markArchived.markArchived = x.markArchived := rfl

theorem archiveLoop_spec (now : Int) :
    ∀ (todo : List Item) (m : ItemHashMap) (count : Int),
      (archiveLoop now todo m count).1.items =
        m.items.map (fun p =>
          if p.1 ∈ (todo.filter (dueForArchive now)).map (fun i => i.id) then
            (p.1, p.2.markArchived)
          else p) ∧
      (archiveLoop now todo m count).2 =
        count + ((todo.filter (fun i => dueForArchive now i && m.exists i.id)).length : Int) := by
  intro todo
  induction todo with
  | nil => intro m count; simp [archiveLoop]
  | cons item rest ih =>
    intro m count
    unfold archiveLoop
    by_cases hc : (!item.archived && item.isExpired now) = true
    · have hd : dueForArchive now item = true := hc
      have hS : ((item :: rest).filter (dueForArchive now)).map (fun i => i.id) =
          item.id :: (rest.filter (dueForArchive now)).map (fun i => i.id) := by
        simp [List.filter_cons, hd]
      simp only [hc, if_true]
      cases hg : m.get item.id with
      | none =>
        have hnk : item.id ∉ m.keys := (ItemHashMap.get_eq_none_iff _ _).mp hg
        have hex : m.exists item.id = false := by
          cases he : m.exists item.id with
          | false => rfl
          | true => exact absurd ((ItemHashMap.exists_iff _ _).mp he) hnk
        obtain ⟨h1, h2⟩ := ih m count
        refine ⟨?_, ?_⟩
        · rw [h1, hS]
          apply List.map_congr_left
          intro p hp
          have hne : p.1 ≠ item.id := fun h => hnk (h ▸ List.mem_map_of_mem _ hp)
          simp only [List.mem_cons, hne, false_or]
        · rw [h2]
          simp [List.filter_cons, hd, hex]
      | some x =>
        have hex : m.exists item.id = true := by
          rw [ItemHashMap.exists_iff]
          by_contra hnk
          rw [(ItemHashMap.get_eq_none_iff _ _).mpr hnk] at hg
          exact absurd hg (by simp)
        obtain ⟨h1, h2⟩ := ih (m.modify item.id Item.markArchived) (count + 1)
        refine ⟨?_, ?_⟩
        · rw [h1, hS]
          simp only [ItemHashMap.modify, List.map_map]
          apply List.map_congr_left
          intro p _
          by_cases hp : p.1 = item.id
          · simp only [Function.comp, hp, if_true, List.mem_cons, true_or, markArchived_idem]
            split_ifs <;> rfl
          · simp only [Function.comp, hp, if_false, List.mem_cons, false_or]
        · rw [h2]
          have hexm : ∀ i : Item, (m.modify item.id Item.markArchived).exists i.id =
              m.exists i.id := by
            intro i
            have h3 := ItemHashMap.exists_iff (m.modify item.id Item.markArchived) i.id
            have h4 := ItemHashMap.exists_iff m i.id
            rw [ItemHashMap.keys_modify] at h3
            cases ha : (m.modify item.id Item.markArchived).exists i.id
              <;> cases hb : m.exists i.id <;> simp_all
          simp only [hexm, List.filter_cons, hd, hex, Bool.and_self, if_true,
            List.length_cons]
          push_cast
          ring
    · have hd : dueForArchive now item = false := by
        cases h : dueForArchive now item with
        | false => rfl
        | true => exact absurd h hc
      simp only [hc, if_false, Bool.false_eq_true]
      have hS : (item :: rest).filter (dueForArchive now) = rest.filter (dueForArchive now) := by
        simp [List.filter_cons, hd]
      obtain ⟨h1, h2⟩ := ih m count
      refine ⟨?_, ?_⟩
      · rw [h1, hS]
      · rw [h2]
        simp [List.filter_cons, hd]

theorem entry_unique (m : ItemHashMap) (hn : m.keys.Nodup) (p q : String × Item)
    (hp : p ∈ m.items) (hq : q ∈ m.items) (h : p.1 = q.1) : p = q := by
  unfold ItemHashMap.keys at hn
  exact List.inj_on_of_nodup_map hn hp hq h

end LostFoundSystem

namespace LostFoundSystem

theorem get_of_mem_nodup (m : ItemHashMap) (hn : m.keys.Nodup) (k : String) (x : Item)
    (h : (k, x) ∈ m.items) : m.get k = some x := by
  cases hg : m.get k with
  | none =>
    have := (ItemHashMap.get_eq_none_iff _ _).mp hg
    exact absurd (List.mem_map_of_mem (fun p => p.1) h) this
  | some y =>
    have h2 := ItemHashMap.get_mem _ _ _ hg
    have := entry_unique m hn _ _ h2 h rfl
    simp only [Prod.mk.injEq, true_and] at this
    rw [this]

theorem archiveExpiredItems_aux (s : LostFoundSystem) (now : Int) (hk : KeysMatch s.itemMap)
    (hn : s.itemMap.keys.Nodup) :
    (s.archiveExpiredItems now).2 =
      ((s.itemMap.getAllItems.filter (dueForArchive now)).length : Int) ∧
    (s.archiveExpiredItems now).1 = { s with itemMap := ⟨s.itemMap.items.map (fun p =>
      if dueForArchive now p.2 = true then (p.1, p.2.markArchived) else p)⟩ } ∧
    (∀ item ∈ s.itemMap.getAllItems, item.archived = false → item.expiresAt < now →
      1 ≤ (s.archiveExpiredItems now).2 ∧
      (s.archiveExpiredItems now).1.getItemById item.id = some item.markArchived) := by
  obtain ⟨h1, h2⟩ := archiveLoop_spec now s.itemMap.getAllItems s.itemMap 0
  have hcount : (s.archiveExpiredItems now).2 =
      ((s.itemMap.getAllItems.filter (dueForArchive now)).length : Int) := by
    show (archiveLoop now s.itemMap.getAllItems s.itemMap 0).2 = _
    rw [h2, zero_add]
    congr 2
    apply List.filter_congr
    intro i hi
    simp only [ItemHashMap.getAllItems, List.mem_map] at hi
    obtain ⟨p, hp, rfl⟩ := hi
    have hex : s.itemMap.exists p.2.id = true := by
      rw [ItemHashMap.exists_iff, ← hk p hp]
      exact List.mem_map_of_mem (fun p => p.1) hp
    simp [hex]
  have hitems : (archiveLoop now s.itemMap.getAllItems s.itemMap 0).1 =
      ⟨s.itemMap.items.map (fun p =>
        if dueForArchive now p.2 = true then (p.1, p.2.markArchived) else p)⟩ := by
    have : ∀ a b : ItemHashMap, a.items = b.items → a = b := by
      intro a b hab
      cases a
      cases b
      simp only at hab
      rw [hab]
    apply this
    rw [h1]
    apply List.map_congr_left
    intro p hp
    have hiff : p.1 ∈ (s.itemMap.getAllItems.filter (dueForArchive now)).map (fun i => i.id) ↔
        dueForArchive now p.2 = true := by
      simp only [List.mem_map, List.mem_filter, ItemHashMap.getAllItems]
      constructor
      · rintro ⟨i, ⟨⟨q, hq, rfl⟩, hdue⟩, hid⟩
        have hqp : q = p := entry_unique s.itemMap hn q p hq hp ((hk q hq).trans hid)
        rw [← hqp]
        exact hdue
      · intro hdue
        exact ⟨p.2, ⟨⟨p, hp, rfl⟩, hdue⟩, (hk p hp).symm⟩
    by_cases hd : dueForArchive now p.2 = true
    · rw [if_pos (hiff.mpr hd), if_pos hd]
    · rw [if_neg (mt hiff.mp hd), if_neg hd]
  have hstate : (s.archiveExpiredItems now).1 = { s with itemMap := ⟨s.itemMap.items.map
      (fun p => if dueForArchive now p.2 = true then (p.1, p.2.markArchived) else p)⟩ } := by
    show ({ s with itemMap := (archiveLoop now s.itemMap.getAllItems s.itemMap 0).1 } :
      LostFoundSystem) = _
    rw [hitems]
  refine ⟨hcount, hstate, ?_⟩
  intro item hmem ha he
  have hdue : dueForArchive now item = true := by
    simp [dueForArchive, Item.isExpired, ha, he]
  refine ⟨?_, ?_⟩
  · rw [hcount]
    have : item ∈ s.itemMap.getAllItems.filter (dueForArchive now) :=
      List.mem_filter.mpr ⟨hmem, hdue⟩
    have hpos := List.length_pos_of_mem this
    omega
  · rw [hstate]
    simp only [ItemHashMap.getAllItems, List.mem_map] at hmem
    obtain ⟨p, hp, rfl⟩ := hmem
    apply get_of_mem_nodup
    · show (ItemHashMap.keys ⟨_⟩).Nodup
      have : ItemHashMap.keys ⟨s.itemMap.items.map (fun p =>
          if dueForArchive now p.2 = true then (p.1, p.2.markArchived) else p)⟩ =
          s.itemMap.keys := by
        simp only [ItemHashMap.keys, List.map_map]
        apply List.map_congr_left
        intro q _
        by_cases hq : dueForArchive now q.2 = true
        · simp [hq]
        · simp [hq]
      rw [this]
      exact hn
    · show (p.2.id, p.2.markArchived) ∈ s.itemMap.items.map _
      refine List.mem_map.mpr ⟨p, hp, ?_⟩
      simp only [hdue, if_true]
      rw [hk p hp]

end LostFoundSystem

namespace LostFoundSystem

/-- C30. For every state whose registry has distinct keys that are the ids of the stored
items, and every clock time `now` (read once for the whole sweep), `archiveExpiredItems`
returns the number of registry items that were not archived and had `now > expiresAt`
(the test `dueForArchive`); afterwards exactly those items are archived and every other item
and every other field of the state is unchanged. In particular, when some unarchived item
has `expiresAt < now` (as an item reported 31 days earlier has), the count is at least 1 and
that item is archived afterwards. -/
theorem archiveExpiredItems_spec (s : LostFoundSystem) (now : Int)
    (hk : KeysMatch s.itemMap) (hn : s.itemMap.keys.Nodup) :
    (s.archiveExpiredItems now).2 =
      ((s.itemMap.getAllItems.filter (dueForArchive now)).length : Int) ∧
    (s.archiveExpiredItems now).1 = { s with itemMap := ⟨s.itemMap.items.map (fun p =>
      if dueForArchive now p.2 = true then (p.1, p.2.markArchived) else p)⟩ } ∧
    (∀ item ∈ s.itemMap.getAllItems, item.archived = false → item.expiresAt < now →
      1 ≤ (s.archiveExpiredItems now).2 ∧
      (s.archiveExpiredItems now).1.getItemById item.id = some item.markArchived) :=
  archiveExpiredItems_aux s now hk hn

theorem archiveExpiredItems_spec_witness :
    KeysMatch sampleSystem.itemMap ∧ sampleSystem.itemMap.keys.Nodup ∧
    ((sampleSystem.archiveExpiredItems 2678500).2 =
      ((sampleSystem.itemMap.getAllItems.filter (dueForArchive 2678500)).length : Int) ∧
    (sampleSystem.archiveExpiredItems 2678500).1 =
      { sampleSystem with itemMap := ⟨sampleSystem.itemMap.items.map (fun p =>
        if dueForArchive 2678500 p.2 = true then (p.1, p.2.markArchived) else p)⟩ } ∧
    (∀ item ∈ sampleSystem.itemMap.getAllItems, item.archived = false →
      item.expiresAt < 2678500 →
      1 ≤ (sampleSystem.archiveExpiredItems 2678500).2 ∧
      (sampleSystem.archiveExpiredItems 2678500).1.getItemById item.id =
        some item.markArchived)) :=
  ⟨keysMatch_reportLostItem fresh 100 "blue backpack" "blue" "cafeteria" "owner" "" "bags" ""
      keysMatch_fresh, by decide!,
    archiveExpiredItems_spec sampleSystem 2678500
      (keysMatch_reportLostItem fresh 100 "blue backpack" "blue" "cafeteria" "owner" "" "bags"
        "" keysMatch_fresh) (by decide!)⟩

/-- The scenario of C30 evaluated: the backpack reported at time 100 is swept 31 days later
(the count is 1 and the record is archived) and is not swept 30 days later. -/
theorem archiveExpiredItems_example :
    (2678500 : Int) = 100 + 31 * 24 * 60 * 60 ∧
    (sampleSystem.archiveExpiredItems 2678500).2 = 1 ∧
    (sampleSystem.archiveExpiredItems 2678500).1.getItemById "ITEM-000001" =
      some sampleLostItem.markArchived ∧
    (sampleSystem.archiveExpiredItems (100 + 30 * 24 * 60 * 60)).2 = 0 ∧
    (sampleSystem.archiveExpiredItems (100 + 30 * 24 * 60 * 60)).1.itemMap =
      sampleSystem.itemMap := by
  decide!

end LostFoundSystem

theorem digitChar_value (k : Nat) (h : k < 10) : (Nat.digitChar k).toNat - 48 = k := by
  interval_cases k <;> rfl

theorem digitsValue_toDigitsCore : ∀ (fuel n : Nat) (ds : List Char), n < fuel →
    (Nat.toDigitsCore 10 fuel n ds).foldl (fun acc c => acc * 10 + (c.toNat - 48)) 0 =
      ds.foldl (fun acc c => acc * 10 + (c.toNat - 48)) n := by
  intro fuel
  induction fuel with
  | zero => intro n ds h; omega
  | succ fuel ih =>
    intro n ds h
    unfold Nat.toDigitsCore
    by_cases h0 : n / 10 = 0
    · simp only [h0, if_true, List.foldl_cons, zero_mul, zero_add]
      rw [digitChar_value _ (Nat.mod_lt _ (by decide))]
      have : n % 10 = n := Nat.mod_eq_of_lt (by omega)
      rw [this]
    · simp only [h0, if_false]
      rw [ih (n / 10) _ (by omega)]
      simp only [List.foldl_cons]
      rw [digitChar_value _ (Nat.mod_lt _ (by decide))]
      have : n / 10 * 10 + n % 10 = n := by omega
      rw [this]

theorem digitsValue_repr (n : Nat) : digitsValue (toString n).data = n := by
  show digitsValue (Nat.toDigits 10 n).asString.data = n
  unfold digitsValue Nat.toDigits
  simp only [List.asString]
  rw [digitsValue_toDigitsCore _ _ _ (Nat.lt_succ_self n)]
  rfl

theorem digitsValue_zeros (z : Nat) (l : List Char) :
    digitsValue (List.replicate z '0' ++ l) = digitsValue l := by
  unfold digitsValue
  rw [List.foldl_append]
  congr 1
  induction z with
  | zero => rfl
  | succ z ih =>
    simp only [List.replicate_succ, List.foldl_cons]
    exact ih

theorem digitsValue_padSix (n : Nat) : digitsValue (padSix (n : Int)).data = n := by
  unfold padSix
  have h : toString ((n : Nat) : Int) = toString n := rfl
  rw [h, String.data_append]
  simp only [digitsValue_zeros, digitsValue_repr]

namespace LostFoundSystem

/-- Different report numbers give different ids. -/
theorem reportId_injective (j k : Nat) (h : reportId j = reportId k) : j = k := by
  unfold reportId at h
  have h2 : ("ITEM-" ++ padSix (j : Int)).data = ("ITEM-" ++ padSix (k : Int)).data := by rw [h]
  simp only [String.data_append] at h2
  have h3 := List.append_cancel_left h2
  rw [← digitsValue_padSix j, ← digitsValue_padSix k, h3]

end LostFoundSystem

namespace LostFoundSystem

theorem applyOp_toOp (s : LostFoundSystem) (r : Report) :
    (s.applyOp r.toOp).itemMap =
      s.itemMap.insert ("ITEM-" ++ padSix (wrapInt (s.itemCounter + 1)))
        (r.item ("ITEM-" ++ padSix (wrapInt (s.itemCounter + 1)))) ∧
    (s.applyOp r.toOp).itemCounter = wrapInt (s.itemCounter + 1) := by
  unfold Report.toOp Report.item
  cases hf : r.found with
  | false => exact ⟨rfl, rfl⟩
  | true => exact ⟨rfl, rfl⟩

theorem items_insert_new (m : ItemHashMap) (id : String) (item : Item) (h : id ∉ m.keys) :
    (m.insert id item).items = m.items ++ [(id, item)] := by
  unfold ItemHashMap.insert
  have hex : m.exists id = false := by
    cases he : m.exists id with
    | false => rfl
    | true => exact absurd ((ItemHashMap.exists_iff _ _).mp he) h
  simp [hex]

theorem runOps_append (s : LostFoundSystem) (ops : List SystemOp) (op : SystemOp) :
    s.runOps (ops ++ [op]) = (s.runOps ops).applyOp op := by
  simp [runOps, List.foldl_append]

/-- The registry after a run of at most INT_MAX reports on a fresh system. -/
theorem runReports_spec (reports : List Report) :
    (reports.length : Int) ≤ INT_MAX →
    (fresh.runOps (reports.map Report.toOp)).itemMap.items =
      reports.enum.map (fun p => (reportId (p.1 + 1), p.2.item (reportId (p.1 + 1)))) ∧
    (fresh.runOps (reports.map Report.toOp)).itemCounter = reports.length := by
  induction reports using List.reverseRecOn with
  | nil => intro _; exact ⟨rfl, rfl⟩
  | append_singleton reports r ih =>
    intro hlen
    simp only [List.length_append, List.length_singleton, Nat.cast_add, Nat.cast_one] at hlen
    obtain ⟨h1, h2⟩ := ih (by omega)
    rw [List.map_append, List.map_singleton, runOps_append]
    obtain ⟨h3, h4⟩ := applyOp_toOp (fresh.runOps (reports.map Report.toOp)) r
    have hw : wrapInt ((fresh.runOps (reports.map Report.toOp)).itemCounter + 1) =
        ((reports.length + 1 : Nat) : Int) := by
      have hmax : INT_MAX = 2147483647 := rfl
      rw [hmax] at hlen
      rw [h2, LocationGraph.wrapInt_of_range _ (by omega) (by omega)]
      push_cast
      rfl
    have hid : "ITEM-" ++ padSix (wrapInt ((fresh.runOps (reports.map Report.toOp)).itemCounter
        + 1)) = reportId (reports.length + 1) := by
      rw [hw]
      rfl
    rw [hid] at h3
    have hnew : reportId (reports.length + 1) ∉
        (fresh.runOps (reports.map Report.toOp)).itemMap.keys := by
      unfold ItemHashMap.keys
      rw [h1]
      simp only [List.map_map, List.mem_map, Function.comp, not_exists, not_and]
      intro p hp heq
      have hlt := (List.mem_enum hp).1
      have := reportId_injective _ _ heq
      omega
    refine ⟨?_, ?_⟩
    · rw [h3, items_insert_new _ _ _ hnew, h1, List.enum_append]
      simp [List.enumFrom]
    · rw [h4, hw]
      simp

end LostFoundSystem

namespace LostFoundSystem

theorem nodup_reportIds (n : Nat) :
    ((List.range n).map (fun i => reportId (i + 1))).Nodup := by
  apply List.Nodup.map
  · intro a b hab
    have := reportId_injective _ _ hab
    omega
  · exact List.nodup_range n

theorem report_ids_aux (reports : List Report) (hlen : (reports.length : Int) ≤ INT_MAX) :
    (fresh.runOps (reports.map Report.toOp)).itemMap.items =
      reports.enum.map (fun p => (reportId (p.1 + 1), p.2.item (reportId (p.1 + 1)))) ∧
    (fresh.runOps (reports.map Report.toOp)).itemCounter = reports.length ∧
    (fresh.runOps (reports.map Report.toOp)).itemMap.keys =
      (List.range reports.length).map (fun i => reportId (i + 1)) ∧
    (fresh.runOps (reports.map Report.toOp)).itemMap.keys.Nodup ∧
    ∀ j k : Nat, reportId j = reportId k → j = k := by
  obtain ⟨h1, h2⟩ := runReports_spec reports hlen
  have hkeys : (fresh.runOps (reports.map Report.toOp)).itemMap.keys =
      (List.range reports.length).map (fun i => reportId (i + 1)) := by
    unfold ItemHashMap.keys
    rw [h1, List.map_map]
    have : (fun p : String × Item => p.1) ∘
        (fun p : Nat × Report => (reportId (p.1 + 1), p.2.item (reportId (p.1 + 1)))) =
        (fun i => reportId (i + 1)) ∘ Prod.fst := rfl
    rw [this, ← List.map_map, List.enum_map_fst]
  refine ⟨h1, h2, hkeys, ?_, reportId_injective⟩
  rw [hkeys]
  exact nodup_reportIds _

/-- C26, amended. Starting from a fresh system, for every sequence of at most INT_MAX
(2147483647) calls of `reportLostItem` and `reportFoundItem`, the registry holds, in report
order, the item of the k-th report under the id "ITEM-" followed by the decimal k padded with
zeros to six digits, and the counter is the number of reports; different k give different
ids, so the keys are pairwise distinct and no report overwrites a record. -/
theorem report_ids (reports : List Report) (hlen : (reports.length : Int) ≤ INT_MAX) :
    (fresh.runOps (reports.map Report.toOp)).itemMap.items =
      reports.enum.map (fun p => (reportId (p.1 + 1), p.2.item (reportId (p.1 + 1)))) ∧
    (fresh.runOps (reports.map Report.toOp)).itemCounter = reports.length ∧
    (fresh.runOps (reports.map Report.toOp)).itemMap.keys =
      (List.range reports.length).map (fun i => reportId (i + 1)) ∧
    (fresh.runOps (reports.map Report.toOp)).itemMap.keys.Nodup ∧
    ∀ j k : Nat, reportId j = reportId k → j = k :=
  report_ids_aux reports hlen

theorem report_ids_witness :
    (([sampleReport, sampleReport].length : Nat) : Int) ≤ INT_MAX ∧
    ((fresh.runOps ([sampleReport, sampleReport].map Report.toOp)).itemMap.items =
      [sampleReport, sampleReport].enum.map
        (fun p => (reportId (p.1 + 1), p.2.item (reportId (p.1 + 1)))) ∧
    (fresh.runOps ([sampleReport, sampleReport].map Report.toOp)).itemCounter =
      ([sampleReport, sampleReport].length : Nat) ∧
    (fresh.runOps ([sampleReport, sampleReport].map Report.toOp)).itemMap.keys =
      (List.range [sampleReport, sampleReport].length).map (fun i => reportId (i + 1)) ∧
    (fresh.runOps ([sampleReport, sampleReport].map Report.toOp)).itemMap.keys.Nodup ∧
    ∀ j k : Nat, reportId j = reportId k → j = k) :=
  ⟨by decide, report_ids [sampleReport, sampleReport] (by decide)⟩

/-- C26, as stated, fails for long runs: the counter is an `int`. After 2147483647 reports
the counter is INT_MAX, `++itemCounter` wraps, and the next report is stored under
"ITEM--2147483648" instead of "ITEM-2147483648". -/
theorem report_ids_counterexample :
    ((fresh.runOps ((List.replicate 2147483647 sampleReport).map Report.toOp)).reportLostItem 0
      "pen" "" "" "" "" "" "").2 = "ITEM--2147483648" ∧
    reportId 2147483648 = "ITEM-2147483648" := by
  have hc : (fresh.runOps ((List.replicate 2147483647 sampleReport).map
      Report.toOp)).itemCounter = 2147483647 := by
    have h := (runReports_spec (List.replicate 2147483647 sampleReport)
      (by rw [List.length_replicate]; decide)).2
    rw [List.length_replicate] at h
    exact h
  refine ⟨?_, by decide!⟩
  show "ITEM-" ++ padSix (wrapInt ((fresh.runOps ((List.replicate 2147483647 sampleReport).map
    Report.toOp)).itemCounter + 1)) = "ITEM--2147483648"
  rw [hc]
  decide!

/-- The first ids: the two reports of a short run are stored as ITEM-000001 and
ITEM-000002. -/
theorem report_ids_example :
    (fresh.runOps ([sampleReport, sampleReport].map Report.toOp)).itemMap.keys =
      ["ITEM-000001", "ITEM-000002"] ∧ reportId 1000000 = "ITEM-1000000" := by
  decide!

end LostFoundSystem

namespace LostFoundSystem

theorem keysMatch_archiveLoop (now : Int) :
    ∀ (todo : List Item) (m : ItemHashMap) (count : Int), KeysMatch m →
      KeysMatch (archiveLoop now todo m count).1 := by
  intro todo
  induction todo with
  | nil => intro m count h; exact h
  | cons item rest ih =>
    intro m count h
    unfold archiveLoop
    by_cases hc : (!item.archived && item.isExpired now) = true
    · simp only [hc, if_true]
      cases hg : m.get item.id with
      | none => exact ih m count h
      | some x => exact ih _ _ (keysMatch_modify m _ _ (fun _ => rfl) h)
    · simp only [hc, if_false, Bool.false_eq_true]
      exact ih m count h

theorem keysMatch_remove (m : ItemHashMap) (id : String) (h : KeysMatch m) :
    KeysMatch (m.remove id).1 :=
  fun p hp => h p (List.mem_of_mem_filter hp)

theorem keysMatch_applyOp (s : LostFoundSystem) (op : SystemOp) (h : KeysMatch s.itemMap) :
    KeysMatch (s.applyOp op).itemMap := by
  cases op with
  | reportLostItem now name color location owner description categoryStr email =>
    exact keysMatch_reportLostItem s now name color location owner description categoryStr
      email h
  | reportFoundItem now name color location finder description categoryStr email =>
    exact keysMatch_reportFoundItem s now name color location finder description categoryStr
      email h
  | claimItem now id claimedBy =>
    simp only [applyOp, claimItem]
    cases hg : s.itemMap.get id with
    | none => exact h
    | some x => exact keysMatch_modify _ _ _ (fun _ => rfl) h
  | archiveItem id =>
    simp only [applyOp, archiveItem]
    cases hg : s.itemMap.get id with
    | none => exact h
    | some x => exact keysMatch_modify _ _ _ (fun _ => rfl) h
  | deleteItem id =>
    simp only [applyOp, deleteItem]
    cases hg : s.itemMap.get id with
    | none => exact h
    | some x => exact keysMatch_remove _ _ h
  | archiveExpiredItems now => exact keysMatch_archiveLoop now _ _ 0 h

theorem keysMatch_runOps (ops : List SystemOp) :
    ∀ s : LostFoundSystem, KeysMatch s.itemMap → KeysMatch (s.runOps ops).itemMap := by
  induction ops with
  | nil => intro s h; exact h
  | cons op rest ih =>
    intro s h
    exact ih _ (keysMatch_applyOp s op h)

theorem deleteItem_aux (s : LostFoundSystem) (id : String) (hk : KeysMatch s.itemMap)
    (h : s.itemMap.exists id = true) :
    (s.deleteItem id).2 = true ∧ (s.deleteItem id).1.getItemById id = none ∧
    (∀ item ∈ (s.deleteItem id).1.itemMap.getAllItems, item.id ≠ id) ∧
    ∀ (name color location category type : String) (dateFrom dateTo : Int)
      (includeArchived : Bool),
      ∀ r ∈ (s.deleteItem id).1.advancedSearch name color location category type dateFrom
        dateTo includeArchived, r.id ≠ id := by
  have hget : ∃ item, s.itemMap.get id = some item := by
    cases hg : s.itemMap.get id with
    | none =>
      have := (ItemHashMap.get_eq_none_iff _ _).mp hg
      exact absurd ((ItemHashMap.exists_iff _ _).mp h) this
    | some item => exact ⟨item, rfl⟩
  obtain ⟨item, hg⟩ := hget
  have hmap : (s.deleteItem id).1.itemMap = (s.itemMap.remove id).1 := by
    simp [deleteItem, hg]
  have hret : (s.deleteItem id).2 = (s.itemMap.remove id).2 := by
    simp [deleteItem, hg]
  have hall : ∀ p ∈ (s.deleteItem id).1.itemMap.items, p.2.id ≠ id := by
    intro p hp
    rw [hmap] at hp
    have h1 := List.mem_filter.mp hp
    rw [← hk p h1.1]
    simpa using h1.2
  refine ⟨hret.trans h, ?_, ?_, ?_⟩
  · show (s.deleteItem id).1.itemMap.get id = none
    rw [ItemHashMap.get_eq_none_iff]
    intro hmem
    simp only [ItemHashMap.keys, List.mem_map] at hmem
    obtain ⟨p, hp, hpid⟩ := hmem
    rw [hmap] at hp
    have := (List.mem_filter.mp hp).2
    simp [hpid] at this
  · intro x hx
    simp only [ItemHashMap.getAllItems, List.mem_map] at hx
    obtain ⟨p, hp, rfl⟩ := hx
    exact hall p hp
  · intro name color location category type dateFrom dateTo includeArchived r hr
    simp only [advancedSearch, List.mem_filterMap] at hr
    obtain ⟨id2, _, hf⟩ := hr
    obtain ⟨h1, _⟩ := searchFilter_some _ _ _ _ _ _ _ hf
    exact hall _ (ItemHashMap.get_mem _ _ _ h1)

/-- C31. For every state reached from a fresh system by calls of the interface (reports
included) and every id present in the registry, `deleteItem id` returns true; afterwards
`getItemById id` finds nothing, `getAllItems` holds no item with that id, and no result of
`advancedSearch`, whatever the filters and `includeArchived`, has that id. -/
theorem deleteItem_spec (ops : List SystemOp) (id : String)
    (h : (fresh.runOps ops).itemMap.exists id = true) :
    ((fresh.runOps ops).deleteItem id).2 = true ∧
    ((fresh.runOps ops).deleteItem id).1.getItemById id = none ∧
    (∀ item ∈ ((fresh.runOps ops).deleteItem id).1.itemMap.getAllItems, item.id ≠ id) ∧
    ∀ (name color location category type : String) (dateFrom dateTo : Int)
      (includeArchived : Bool),
      ∀ r ∈ ((fresh.runOps ops).deleteItem id).1.advancedSearch name color location category
        type dateFrom dateTo includeArchived, r.id ≠ id :=
  deleteItem_aux _ id (keysMatch_runOps ops fresh keysMatch_fresh) h

end LostFoundSystem

namespace LostFoundSystem

theorem deleteItem_spec_witness :
    (fresh.runOps sampleClaimOps).itemMap.exists "ITEM-000001" = true ∧
    (((fresh.runOps sampleClaimOps).deleteItem "ITEM-000001").2 = true ∧
    ((fresh.runOps sampleClaimOps).deleteItem "ITEM-000001").1.getItemById "ITEM-000001" =
      none ∧
    (∀ item ∈ ((fresh.runOps sampleClaimOps).deleteItem "ITEM-000001").1.itemMap.getAllItems,
      item.id ≠ "ITEM-000001") ∧
    ∀ (name color location category type : String) (dateFrom dateTo : Int)
      (includeArchived : Bool),
      ∀ r ∈ ((fresh.runOps sampleClaimOps).deleteItem "ITEM-000001").1.advancedSearch name
        color location category type dateFrom dateTo includeArchived, r.id ≠ "ITEM-000001") :=
  ⟨by decide!, deleteItem_spec sampleClaimOps "ITEM-000001" (by decide!)⟩

/-- C32, as stated, fails: after the backpack of `sampleSystem` is deleted (the call returns
true), `getHistory` still returns it, in both directions. -/
theorem deleteItem_history_counterexample :
    sampleSystem.itemMap.exists "ITEM-000001" = true ∧
    (sampleSystem.deleteItem "ITEM-000001").2 = true ∧
    (sampleSystem.deleteItem "ITEM-000001").1.getHistory true = [sampleLostItem] ∧
    (sampleSystem.deleteItem "ITEM-000001").1.getHistory false = [sampleLostItem] ∧
    sampleLostItem.id = "ITEM-000001" := by
  decide!

theorem deleteItem_frame (s : LostFoundSystem) (id : String) :
    (s.deleteItem id).1.historyBST = s.historyBST ∧
    (s.deleteItem id).1.searchTrie = s.searchTrie ∧
    (s.deleteItem id).1.categoryTries = s.categoryTries ∧
    (s.deleteItem id).1.itemCounter = s.itemCounter := by
  unfold deleteItem
  cases s.itemMap.get id with
  | none => exact ⟨rfl, rfl, rfl, rfl⟩
  | some item => exact ⟨rfl, rfl, rfl, rfl⟩

theorem registry_in_history_applyOp (s : LostFoundSystem) (r : Report)
    (h : ∀ p ∈ s.itemMap.items, p.2 ∈ ItemBST.toList s.historyBST) :
    ∀ p ∈ (s.applyOp r.toOp).itemMap.items, p.2 ∈ ItemBST.toList (s.applyOp r.toOp).historyBST := by
  obtain ⟨hm, _⟩ := applyOp_toOp s r
  have hh : (s.applyOp r.toOp).historyBST = ItemBST.insert s.historyBST
      (r.item ("ITEM-" ++ padSix (wrapInt (s.itemCounter + 1)))) := by
    unfold Report.toOp Report.item
    cases hf : r.found with
    | false => rfl
    | true => rfl
  intro p hp
  rw [hm] at hp
  rw [hh]
  have hperm := ItemBST.toList_insert_perm s.historyBST
    (r.item ("ITEM-" ++ padSix (wrapInt (s.itemCounter + 1))))
  rcases ItemHashMap.mem_insert _ _ _ p hp with h1 | h1
  · exact hperm.symm.subset (List.mem_cons_of_mem _ (h p h1.1))
  · rw [h1]
    exact hperm.symm.subset (List.mem_cons_self _ _)

theorem registry_in_history (reports : List Report) :
    ∀ p ∈ (fresh.runOps (reports.map Report.toOp)).itemMap.items,
      p.2 ∈ ItemBST.toList (fresh.runOps (reports.map Report.toOp)).historyBST := by
  induction reports using List.reverseRecOn with
  | nil => intro p hp; simp [runOps, fresh, ItemHashMap.empty] at hp
  | append_singleton reports r ih =>
    rw [List.map_append, List.map_singleton, runOps_append]
    exact registry_in_history_applyOp _ r ih

theorem mem_getHistory (s : LostFoundSystem) (ascending : Bool) (x : Item) :
    x ∈ s.getHistory ascending ↔ x ∈ ItemBST.toList s.historyBST := by
  unfold getHistory
  cases ascending with
  | true => rw [ItemBST.getSortedHistory_true]
  | false => rw [ItemBST.getSortedHistory_false, List.mem_reverse]

/-- C32, amended. `deleteItem` does not touch the history (nor the tries): for every state,
every id and both directions, `getHistory` after `deleteItem` equals `getHistory` before it;
so in a state reached by reports the deleted record is still returned by `getHistory`. -/
theorem deleteItem_keeps_history (s : LostFoundSystem) (id : String) (ascending : Bool)
    (reports : List Report) (item : Item) :
    (s.deleteItem id).1.getHistory ascending = s.getHistory ascending ∧
    (s.deleteItem id).1.searchTrie = s.searchTrie ∧
    (s.deleteItem id).1.categoryTries = s.categoryTries ∧
    ((fresh.runOps (reports.map Report.toOp)).getItemById id = some item →
      item ∈ ((fresh.runOps (reports.map Report.toOp)).deleteItem id).1.getHistory
        ascending) := by
  obtain ⟨h1, h2, h3, _⟩ := deleteItem_frame s id
  refine ⟨by unfold getHistory; rw [h1], h2, h3, ?_⟩
  intro hg
  rw [mem_getHistory, (deleteItem_frame _ id).1]
  exact registry_in_history reports _ (ItemHashMap.get_mem _ _ _ hg)

end LostFoundSystem

namespace ItemHashMap

theorem get_insert_other (m : ItemHashMap) (id id2 : String) (item : Item) (h : id2 ≠ id) :
    (m.insert id item).get id2 = m.get id2 := by
  unfold insert get
  by_cases hex : m.exists id = true
  · simp only [hex, if_true]
    congr 1
    induction m.items with
    | nil => rfl
    | cons p rest ih =>
      by_cases hp : p.1 = id
      · have e : (if p.1 = id then (p.1, item) else p) = (p.1, item) := if_pos hp
        have hb : (p.1 == id2) = false := by
          simpa using (fun hh : p.1 = id2 => h (hh.symm.trans hp))
        rw [List.map_cons, e]
        simp only [List.find?, hb]
        exact ih
      · have e : (if p.1 = id then (p.1, item) else p) = p := if_neg hp
        rw [List.map_cons, e]
        by_cases hp2 : p.1 = id2
        · simp [List.find?, hp2]
        · have hb : (p.1 == id2) = false := by simpa using hp2
          simp only [List.find?, hb]
          exact ih
  · simp only [hex, if_false, Bool.false_eq_true]
    congr 1
    rw [List.find?_append]
    have hb : ((id, item).1 == id2) = false := by simpa using (fun hh : id = id2 => h hh.symm)
    cases hf : m.items.find? (fun p => p.1 == id2) with
    | none => simp [List.find?, hb]
    | some x => simp

theorem keys_insert (m : ItemHashMap) (id : String) (item : Item) (key : String)
    (h : key ∈ (m.insert id item).keys) : key ∈ m.keys ∨ key = id := by
  simp only [keys, List.mem_map] at h
  obtain ⟨p, hp, rfl⟩ := h
  rcases mem_insert m id item p hp with h1 | h1
  · exact Or.inl (List.mem_map_of_mem _ h1.1)
  · rw [h1]
    exact Or.inr rfl

end ItemHashMap

namespace LostFoundSystem

theorem hist_modify (m : ItemHashMap) (H : List Item) (id : String) (f : Item → Item)
    (hf : ∀ x, (f x).reported = x.reported)
    (h : ∀ x ∈ H, ∃ r, m.get x.id = some r ∧ x = r.reported) :
    ∀ x ∈ H, ∃ r, (m.modify id f).get x.id = some r ∧ x = r.reported := by
  intro x hx
  obtain ⟨r, hr, hxr⟩ := h x hx
  rw [ItemHashMap.get_modify]
  by_cases hid : x.id = id
  · refine ⟨f r, ?_, by rw [hf]; exact hxr⟩
    rw [if_pos hid, hr]
    rfl
  · refine ⟨r, ?_, hxr⟩
    rw [if_neg hid, hr]

theorem hist_archiveLoop (now : Int) (H : List Item) :
    ∀ (todo : List Item) (m : ItemHashMap) (count : Int),
      (∀ x ∈ H, ∃ r, m.get x.id = some r ∧ x = r.reported) →
      (∀ x ∈ H, ∃ r, (archiveLoop now todo m count).1.get x.id = some r ∧ x = r.reported) ∧
      (archiveLoop now todo m count).1.keys = m.keys := by
  intro todo
  induction todo with
  | nil => intro m count h; exact ⟨h, rfl⟩
  | cons item rest ih =>
    intro m count h
    unfold archiveLoop
    by_cases hc : (!item.archived && item.isExpired now) = true
    · simp only [hc, if_true]
      cases hg : m.get item.id with
      | none => exact ih m count h
      | some x =>
        obtain ⟨h1, h2⟩ := ih (m.modify item.id Item.markArchived) (count + 1)
          (hist_modify m H _ _ (fun _ => rfl) h)
        exact ⟨h1, h2.trans (ItemHashMap.keys_modify _ _ _)⟩
    · simp only [hc, if_false, Bool.false_eq_true]
      exact ih m count h

theorem get_some_key (m : ItemHashMap) (id : String) (r : Item) (h : m.get id = some r) :
    id ∈ m.keys := by
  by_contra hn
  rw [(ItemHashMap.get_eq_none_iff _ _).mpr hn] at h
  exact absurd h (by simp)

theorem historyInv_report (s : LostFoundSystem) (k : Nat) (r : Report)
    (hk : (k : Int) + 1 ≤ INT_MAX) (hi : IdsUpTo s k) (hh : HistoryOfRegistry s) :
    IdsUpTo (s.applyOp r.toOp) (k + 1) ∧ HistoryOfRegistry (s.applyOp r.toOp) := by
  obtain ⟨hm, hc⟩ := applyOp_toOp s r
  have hmax : INT_MAX = 2147483647 := rfl
  rw [hmax] at hk
  have hw : wrapInt (s.itemCounter + 1) = ((k + 1 : Nat) : Int) := by
    rw [hi.1, LocationGraph.wrapInt_of_range _ (by omega) (by omega)]
    push_cast
    rfl
  have hid : "ITEM-" ++ padSix (wrapInt (s.itemCounter + 1)) = reportId (k + 1) := by
    rw [hw]
    rfl
  rw [hid] at hm
  have hhist : (s.applyOp r.toOp).historyBST =
      ItemBST.insert s.historyBST (r.item (reportId (k + 1))) := by
    rw [← hid]
    unfold Report.toOp Report.item
    cases hf : r.found with
    | false => rfl
    | true => rfl
  refine ⟨⟨hc.trans hw, ?_⟩, ?_⟩
  · intro key hkey
    rw [hm] at hkey
    rcases ItemHashMap.keys_insert _ _ _ _ hkey with h1 | h1
    · obtain ⟨j, hj, hkj⟩ := hi.2 key h1
      exact ⟨j, by omega, hkj⟩
    · exact ⟨k + 1, le_refl _, h1⟩
  · intro x hx
    rw [hhist] at hx
    rw [hm]
    rcases List.mem_cons.mp ((ItemBST.toList_insert_perm _ _).subset hx) with h1 | h1
    · rw [h1]
      exact ⟨_, ItemHashMap.get_insert_self _ _ _, rfl⟩
    · obtain ⟨r0, hr0, hx0⟩ := hh x h1
      refine ⟨r0, ?_, hx0⟩
      rw [ItemHashMap.get_insert_other _ _ _ _ ?_]
      · exact hr0
      · intro heq
        obtain ⟨j, hj, hkj⟩ := hi.2 _ (get_some_key _ _ _ hr0)
        have := reportId_injective _ _ (hkj.symm.trans heq)
        omega

end LostFoundSystem

namespace LostFoundSystem

theorem historyInv_applyOp (s : LostFoundSystem) (k : Nat) (op : SystemOp)
    (hop : op.KeepsRecords) (hk : (k : Int) + 1 ≤ INT_MAX) (hi : IdsUpTo s k)
    (hh : HistoryOfRegistry s) :
    ∃ k2, k2 ≤ k + 1 ∧ IdsUpTo (s.applyOp op) k2 ∧ HistoryOfRegistry (s.applyOp op) := by
  cases op with
  | reportLostItem now name color location owner description categoryStr email =>
    obtain ⟨h1, h2⟩ := historyInv_report s k
      ⟨false, now, name, color, location, owner, description, categoryStr, email⟩ hk hi hh
    exact ⟨k + 1, le_refl _, h1, h2⟩
  | reportFoundItem now name color location finder description categoryStr email =>
    obtain ⟨h1, h2⟩ := historyInv_report s k
      ⟨true, now, name, color, location, finder, description, categoryStr, email⟩ hk hi hh
    exact ⟨k + 1, le_refl _, h1, h2⟩
  | claimItem now id claimedBy =>
    refine ⟨k, Nat.le_succ k, ?_⟩
    simp only [applyOp, claimItem]
    cases hg : s.itemMap.get id with
    | none => exact ⟨hi, hh⟩
    | some x =>
      refine ⟨⟨hi.1, ?_⟩, hist_modify _ _ _ _ (fun _ => rfl) hh⟩
      intro key hkey
      exact hi.2 key (by rw [← ItemHashMap.keys_modify]; exact hkey)
  | archiveItem id =>
    refine ⟨k, Nat.le_succ k, ?_⟩
    simp only [applyOp, archiveItem]
    cases hg : s.itemMap.get id with
    | none => exact ⟨hi, hh⟩
    | some x =>
      refine ⟨⟨hi.1, ?_⟩, hist_modify _ _ _ _ (fun _ => rfl) hh⟩
      intro key hkey
      exact hi.2 key (by rw [← ItemHashMap.keys_modify]; exact hkey)
  | deleteItem id => exact False.elim hop
  | archiveExpiredItems now =>
    refine ⟨k, Nat.le_succ k, ?_⟩
    obtain ⟨h1, h2⟩ := hist_archiveLoop now (ItemBST.toList s.historyBST)
      s.itemMap.getAllItems s.itemMap 0 hh
    refine ⟨⟨hi.1, ?_⟩, h1⟩
    intro key hkey
    exact hi.2 key (by rw [← h2]; exact hkey)

theorem historyInv_runOps (ops : List SystemOp) :
    ∀ (s : LostFoundSystem) (k : Nat), (∀ op ∈ ops, op.KeepsRecords) →
      (k : Int) + ops.length ≤ INT_MAX → IdsUpTo s k → HistoryOfRegistry s →
      HistoryOfRegistry (s.runOps ops) := by
  induction ops with
  | nil => intro s k _ _ _ hh; exact hh
  | cons op rest ih =>
    intro s k hops hk hi hh
    simp only [List.length_cons, Nat.cast_add, Nat.cast_one] at hk
    have hmax : INT_MAX = 2147483647 := rfl
    rw [hmax] at hk
    obtain ⟨k2, hk2, hi2, hh2⟩ := historyInv_applyOp s k op (hops op (List.mem_cons_self _ _))
      (by rw [hmax]; omega) hi hh
    exact ih _ k2 (fun o ho => hops o (List.mem_cons_of_mem _ ho)) (by rw [hmax]; omega) hi2 hh2

theorem history_aux (ops : List SystemOp) (hops : ∀ op ∈ ops, op.KeepsRecords)
    (hlen : (ops.length : Int) ≤ INT_MAX) (ascending : Bool) :
    ∀ h ∈ (fresh.runOps ops).getHistory ascending,
      ∃ r, (fresh.runOps ops).getItemById h.id = some r ∧ h = r.reported := by
  intro h hh
  rw [mem_getHistory] at hh
  have hi : IdsUpTo fresh 0 := by
    refine ⟨rfl, ?_⟩
    intro key hkey
    simp [fresh, ItemHashMap.empty, ItemHashMap.keys] at hkey
  have h0 : HistoryOfRegistry fresh := by
    intro x hx
    simp [fresh, ItemBST.toList] at hx
  exact historyInv_runOps ops fresh 0 hops (by simpa using hlen) hi h0 h hh

end LostFoundSystem

namespace LostFoundSystem

/-- C33, as stated, fails: the history holds copies made at report time. After the backpack
is reported and then claimed by alice (the call returns true), the registry record is
claimed and archived, while the history entry of the same id is neither. -/
theorem history_counterexample :
    (sampleSystem.claimItem 200 "ITEM-000001" "alice").2 = true ∧
    (fresh.runOps sampleClaimOps).getItemById "ITEM-000001" = some sampleClaimedItem ∧
    (fresh.runOps sampleClaimOps).getHistory false = [sampleLostItem] ∧
    sampleLostItem.id = "ITEM-000001" ∧ sampleLostItem ≠ sampleClaimedItem ∧
    sampleLostItem.claimed = false ∧ sampleLostItem.archived = false ∧
    sampleClaimedItem.claimed = true ∧ sampleClaimedItem.archived = true := by
  decide!

/-- C33, amended. In every state reached from a fresh system by at most INT_MAX calls of
`reportLostItem`, `reportFoundItem`, `claimItem`, `archiveItem` and `archiveExpiredItems`,
every item returned by `getHistory` is the copy made when it was reported: the registry
holds a record with the same id, and the history entry equals that record except that its
`archived` and `claimed` are false, its `claimedBy` is empty and its `claimedAt` is 0. -/
theorem history_is_report_copy (ops : List SystemOp) (hops : ∀ op ∈ ops, op.KeepsRecords)
    (hlen : (ops.length : Int) ≤ INT_MAX) (ascending : Bool) :
    ∀ h ∈ (fresh.runOps ops).getHistory ascending,
      ∃ r, (fresh.runOps ops).getItemById h.id = some r ∧ h = r.reported :=
  history_aux ops hops hlen ascending

theorem history_is_report_copy_witness :
    (∀ op ∈ sampleClaimOps, op.KeepsRecords) ∧ ((sampleClaimOps.length : Nat) : Int) ≤ INT_MAX ∧
    ∀ h ∈ (fresh.runOps sampleClaimOps).getHistory false,
      ∃ r, (fresh.runOps sampleClaimOps).getItemById h.id = some r ∧ h = r.reported :=
  have hops : ∀ op ∈ sampleClaimOps, op.KeepsRecords := by
    intro op hop
    simp only [sampleClaimOps, List.mem_cons, List.mem_singleton, List.not_mem_nil,
      or_false] at hop
    rcases hop with rfl | rfl
    · exact True.intro
    · exact True.intro
  ⟨hops, by decide, history_is_report_copy sampleClaimOps hops (by decide) false⟩

end LostFoundSystem

namespace LostFoundSystem

theorem searchFilter_eq (s : LostFoundSystem) (type : String) (dateFrom dateTo : Int)
    (includeArchived : Bool) (id : String) :
    searchFilter s type dateFrom dateTo includeArchived id =
      (s.itemMap.get id).bind (fun item =>
        if passesFilters type dateFrom dateTo includeArchived item = true then some item
        else none) := by
  unfold searchFilter
  cases hg : s.itemMap.get id with
  | none => rfl
  | some item =>
    simp only [Option.some_bind, passesFilters]
    by_cases h1 : (!includeArchived && item.archived) = true
    · have : (includeArchived || !item.archived) = false := by
        cases includeArchived <;> cases hia : item.archived <;> simp_all
      simp [h1, this]
    · have h1b : (includeArchived || !item.archived) = true := by
        cases includeArchived <;> cases hia : item.archived <;> simp_all
      simp only [h1, if_false, Bool.false_eq_true, h1b, Bool.true_and]
      by_cases h2 : type ≠ "" ∧ item.type ≠ type
      · have : (decide (type = "") || decide (item.type = type)) = false := by
          simp [h2.1, h2.2]
        simp [h2, this]
      · have h2b : (decide (type = "") || decide (item.type = type)) = true := by
          by_cases ht : type = ""
          · simp [ht]
          · have : item.type = type := by
              by_contra hne
              exact h2 ⟨ht, hne⟩
            simp [this]
        simp only [h2, if_false, h2b, Bool.true_and]
        by_cases h3 : dateFrom > 0 ∧ item.timestamp < dateFrom
        · have : (decide (dateFrom ≤ 0) || decide (dateFrom ≤ item.timestamp)) = false := by
            simp only [Bool.or_eq_false_iff, decide_eq_false_iff_not]
            omega
          simp [h3, this]
        · have h3b : (decide (dateFrom ≤ 0) || decide (dateFrom ≤ item.timestamp)) = true := by
            simp only [Bool.or_eq_true, decide_eq_true_eq]
            omega
          simp only [h3, if_false, h3b, Bool.true_and]
          by_cases h4 : dateTo > 0 ∧ item.timestamp > dateTo
          · have : (decide (dateTo ≤ 0) || decide (item.timestamp ≤ dateTo)) = false := by
              simp only [Bool.or_eq_false_iff, decide_eq_false_iff_not]
              omega
            simp [h4, this]
          · have h4b : (decide (dateTo ≤ 0) || decide (item.timestamp ≤ dateTo)) = true := by
              simp only [Bool.or_eq_true, decide_eq_true_eq]
              omega
            simp [h4, h4b]

theorem advancedSearch_passes (s : LostFoundSystem) (name color location category type : String)
    (dateFrom dateTo : Int) (includeArchived : Bool) (r : Item)
    (hr : r ∈ s.advancedSearch name color location category type dateFrom dateTo
      includeArchived) :
    passesFilters type dateFrom dateTo includeArchived r = true ∧ r ∈ s.itemMap.getAllItems := by
  simp only [advancedSearch, List.mem_filterMap] at hr
  obtain ⟨id, _, hf⟩ := hr
  rw [searchFilter_eq] at hf
  cases hg : s.itemMap.get id with
  | none => simp [hg] at hf
  | some item =>
    simp only [hg, Option.some_bind] at hf
    split_ifs at hf with hp
    simp only [Option.some.injEq] at hf
    subst hf
    exact ⟨hp, List.mem_map.mpr ⟨_, ItemHashMap.get_mem _ _ _ hg, rfl⟩⟩

theorem passesFilters_iff (type : String) (dateFrom dateTo : Int) (includeArchived : Bool)
    (r : Item) :
    passesFilters type dateFrom dateTo includeArchived r = true ↔
      (includeArchived = false → r.archived = false) ∧ (type ≠ "" → r.type = type) ∧
      (dateFrom > 0 → dateFrom ≤ r.timestamp) ∧ (dateTo > 0 → r.timestamp ≤ dateTo) := by
  simp only [passesFilters, Bool.and_eq_true, Bool.or_eq_true, decide_eq_true_eq,
    Bool.not_eq_true']
  constructor
  · rintro ⟨⟨⟨h1, h2⟩, h3⟩, h4⟩
    refine ⟨?_, ?_, ?_, ?_⟩
    · intro hi
      rcases h1 with h1 | h1
      · rw [hi] at h1
        exact absurd h1 (by decide)
      · exact h1
    · intro ht
      rcases h2 with h2 | h2
      · exact absurd h2 ht
      · exact h2
    · intro hd
      omega
    · intro hd
      omega
  · rintro ⟨h1, h2, h3, h4⟩
    refine ⟨⟨⟨?_, ?_⟩, ?_⟩, ?_⟩
    · cases hi : includeArchived with
      | true => exact Or.inl rfl
      | false => exact Or.inr (h1 hi)
    · by_cases ht : type = ""
      · exact Or.inl ht
      · exact Or.inr (h2 ht)
    · by_cases hd : dateFrom ≤ 0
      · exact Or.inl hd
      · exact Or.inr (h3 (by omega))
    · by_cases hd : dateTo ≤ 0
      · exact Or.inl hd
      · exact Or.inr (h4 (by omega))

end LostFoundSystem

namespace LostFoundSystem

theorem nodup_keys_insert (m : ItemHashMap) (id : String) (item : Item) (h : m.keys.Nodup) :
    (m.insert id item).keys.Nodup := by
  by_cases hex : m.exists id = true
  · have : (m.insert id item).keys = m.keys := by
      unfold ItemHashMap.insert ItemHashMap.keys
      simp only [hex, if_true, List.map_map]
      apply List.map_congr_left
      intro p _
      by_cases hp : p.1 = id
      · simp [hp]
      · simp [hp]
    rw [this]
    exact h
  · have hnk : id ∉ m.keys := fun hm => hex ((ItemHashMap.exists_iff _ _).mpr hm)
    unfold ItemHashMap.keys
    rw [items_insert_new m id item hnk, List.map_append]
    rw [List.nodup_append]
    refine ⟨h, List.nodup_singleton _, ?_⟩
    intro x hx hx2
    simp only [List.map_cons, List.map_nil, List.mem_singleton] at hx2
    exact hnk (hx2 ▸ hx)

theorem nodup_keys_applyOp (s : LostFoundSystem) (op : SystemOp) (h : s.itemMap.keys.Nodup) :
    (s.applyOp op).itemMap.keys.Nodup := by
  cases op with
  | reportLostItem now name color location owner description categoryStr email =>
    exact nodup_keys_insert _ _ _ h
  | reportFoundItem now name color location finder description categoryStr email =>
    exact nodup_keys_insert _ _ _ h
  | claimItem now id claimedBy =>
    simp only [applyOp, claimItem]
    cases hg : s.itemMap.get id with
    | none => exact h
    | some x =>
      show (ItemHashMap.modify _ _ _).keys.Nodup
      rw [ItemHashMap.keys_modify]
      exact h
  | archiveItem id =>
    simp only [applyOp, archiveItem]
    cases hg : s.itemMap.get id with
    | none => exact h
    | some x =>
      show (ItemHashMap.modify _ _ _).keys.Nodup
      rw [ItemHashMap.keys_modify]
      exact h
  | deleteItem id =>
    simp only [applyOp, deleteItem]
    cases hg : s.itemMap.get id with
    | none => exact h
    | some x =>
      show (List.map (fun p => p.1) (s.itemMap.items.filter _)).Nodup
      exact List.Nodup.sublist (List.Sublist.map _ (List.filter_sublist _)) h
  | archiveExpiredItems now =>
    show (archiveLoop now s.itemMap.getAllItems s.itemMap 0).1.keys.Nodup
    rw [(hist_archiveLoop now [] s.itemMap.getAllItems s.itemMap 0
      (fun x hx => absurd hx (List.not_mem_nil x))).2]
    exact h

theorem nodup_keys_runOps (ops : List SystemOp) :
    ∀ s : LostFoundSystem, s.itemMap.keys.Nodup → (s.runOps ops).itemMap.keys.Nodup := by
  induction ops with
  | nil => intro s h; exact h
  | cons op rest ih =>
    intro s h
    exact ih _ (nodup_keys_applyOp s op h)

theorem nodup_foldl_setInsert (ids : List String) :
    ∀ acc : List String, acc.Nodup → (ids.foldl IndexMap.setInsert acc).Nodup := by
  induction ids with
  | nil => intro acc h; exact h
  | cons a rest ih =>
    intro acc h
    rw [List.foldl_cons]
    apply ih
    unfold IndexMap.setInsert
    by_cases ha : a ∈ acc
    · simp only [ha, if_true]
      exact h
    · simp only [ha, if_false]
      exact ((List.perm_orderedInsert _ a acc).nodup_iff).mpr (List.nodup_cons.mpr ⟨ha, h⟩)

theorem search_empty_filters (ix : InvertedIndex) : ix.search "" "" "" "" = [] := by
  simp [InvertedIndex.search, InvertedIndex.filterStep]

/-- With no index filter, `advancedSearch` returns the registry records that pass the other
tests, each once, when the keys are distinct and equal to the record ids. -/
theorem advancedSearch_all (s : LostFoundSystem) (hk : KeysMatch s.itemMap)
    (hn : s.itemMap.keys.Nodup) (type : String) (dateFrom dateTo : Int)
    (includeArchived : Bool) :
    (s.advancedSearch "" "" "" "" type dateFrom dateTo includeArchived).Perm
      (s.itemMap.getAllItems.filter (passesFilters type dateFrom dateTo includeArchived)) := by
  have hids : ((s.itemMap.getAllItems.map (fun item => item.id)).foldl IndexMap.setInsert
      (s.invertedIndex.search "" "" "" "")).Perm s.itemMap.keys := by
    rw [search_empty_filters]
    rw [List.perm_ext_iff_of_nodup (nodup_foldl_setInsert _ [] List.nodup_nil) hn]
    intro x
    rw [IndexMap.mem_foldl_setInsert]
    simp only [List.not_mem_nil, or_false, ItemHashMap.getAllItems, ItemHashMap.keys,
      List.map_map, List.mem_map, Function.comp]
    constructor
    · rintro ⟨p, hp, rfl⟩
      exact ⟨p, hp, hk p hp⟩
    · rintro ⟨p, hp, rfl⟩
      exact ⟨p, hp, (hk p hp).symm⟩
  have heq : s.itemMap.keys.filterMap (searchFilter s type dateFrom dateTo includeArchived) =
      s.itemMap.getAllItems.filter (passesFilters type dateFrom dateTo includeArchived) := by
    unfold ItemHashMap.keys ItemHashMap.getAllItems
    rw [List.filterMap_map, ← List.filterMap_eq_filter, List.filterMap_map]
    apply List.filterMap_congr
    intro p hp
    simp only [Function.comp, searchFilter_eq, get_of_mem_nodup s.itemMap hn p.1 p.2 hp,
      Option.some_bind, Option.guard]
  simp only [advancedSearch, and_self, if_true]
  rw [← heq]
  exact List.Perm.filterMap _ hids

end LostFoundSystem

namespace LostFoundSystem

/-- C34. In every state and for all arguments, every item returned by `advancedSearch` is a
registry record that satisfies the non-index filters: not archived unless `includeArchived`,
of the given type when one is given, with time stamp at least `dateFrom` when that is
positive and at most `dateTo` when that is positive. In every state reached from a fresh
system by calls of the interface, when the name, color, location and category filters are
all empty, the result consists of exactly the registry records that pass these tests
(`passesFilters`), each once. -/
theorem advancedSearch_spec (s : LostFoundSystem) (ops : List SystemOp)
    (name color location category type : String) (dateFrom dateTo : Int)
    (includeArchived : Bool) :
    (∀ r ∈ s.advancedSearch name color location category type dateFrom dateTo includeArchived,
      r ∈ s.itemMap.getAllItems ∧
      (includeArchived = false → r.archived = false) ∧ (type ≠ "" → r.type = type) ∧
      (dateFrom > 0 → dateFrom ≤ r.timestamp) ∧ (dateTo > 0 → r.timestamp ≤ dateTo)) ∧
    ((fresh.runOps ops).advancedSearch "" "" "" "" type dateFrom dateTo includeArchived).Perm
      ((fresh.runOps ops).itemMap.getAllItems.filter
        (passesFilters type dateFrom dateTo includeArchived)) ∧
    (∀ r : Item, passesFilters type dateFrom dateTo includeArchived r = true ↔
      (includeArchived = false → r.archived = false) ∧ (type ≠ "" → r.type = type) ∧
      (dateFrom > 0 → dateFrom ≤ r.timestamp) ∧ (dateTo > 0 → r.timestamp ≤ dateTo)) := by
  refine ⟨?_, ?_, passesFilters_iff type dateFrom dateTo includeArchived⟩
  · intro r hr
    obtain ⟨h1, h2⟩ := advancedSearch_passes s _ _ _ _ _ _ _ _ r hr
    exact ⟨h2, (passesFilters_iff _ _ _ _ r).mp h1⟩
  · exact advancedSearch_all _ (keysMatch_runOps ops fresh keysMatch_fresh)
      (nodup_keys_runOps ops fresh (by simp [fresh, ItemHashMap.empty, ItemHashMap.keys]))
      type dateFrom dateTo includeArchived

/-- A run of `advancedSearch` with a type filter only: of a lost backpack and a found
bottle, the search for the type "found" returns the bottle. -/
theorem advancedSearch_example :
    ((fresh.runOps
      [SystemOp.reportLostItem 100 "blue backpack" "blue" "cafeteria" "owner" "" "bags" "",
       SystemOp.reportFoundItem 150 "bottle" "red" "parking" "finder" "" "other" ""]).advancedSearch
      "" "" "" "" "found" 0 0 false).map (fun r => r.id) = ["ITEM-000002"] := by
  decide!

end LostFoundSystem

namespace MatchHeap

theorem isHeap_applyOp (heap : List MatchCandidate) (op : HeapOp) (h : IsHeap heap) :
    IsHeap (applyOp heap op) := by
  cases op with
  | insert candidate => exact (insert_spec heap candidate h).1
  | extractMax =>
    by_cases hne : heap = []
    · subst hne
      exact isHeap_nil
    · exact (extractMax_spec heap hne h).1

theorem isHeap_runOps (ops : List HeapOp) :
    ∀ heap : List MatchCandidate, IsHeap heap → IsHeap (runOps heap ops) := by
  induction ops with
  | nil => intro heap h; exact h
  | cons op rest ih =>
    intro heap h
    exact ih _ (isHeap_applyOp heap op h)

/-- C37. In every heap reached from the empty heap by `insert` and `extractMax`, each
element's score is at most its parent's score; and `extractMax` on such a heap, when it is
not empty, returns a candidate of the heap whose score is at least every score in the heap
and leaves a heap in max-heap order that holds exactly the remaining candidates as a
multiset. -/
theorem reachable_heap_order (ops : List HeapOp) :
    (∀ j, 0 < j → j < (runOps [] ops).length →
      scoreAt (runOps [] ops) j ≤ scoreAt (runOps [] ops) ((j - 1) / 2)) ∧
    (runOps [] ops ≠ [] →
      (∀ y ∈ runOps [] ops, y.score ≤ (extractMax (runOps [] ops)).1.score) ∧
      ((extractMax (runOps [] ops)).1 :: (extractMax (runOps [] ops)).2).Perm (runOps [] ops) ∧
      IsHeap (extractMax (runOps [] ops)).2) := by
  have h := isHeap_runOps ops [] isHeap_nil
  refine ⟨h, fun hne => ?_⟩
  obtain ⟨h1, h2, h3⟩ := extractMax_spec _ hne h
  refine ⟨?_, h2, h1⟩
  intro y hy
  rcases List.mem_cons.mp (h2.symm.subset hy) with rfl | hy2
  · exact le_refl _
  · exact h3 y hy2

end MatchHeap

namespace LocationGraph

theorem relax_single (d : Int) (x : String) (w : Int) (D : String → Int)
    (Q : List (Int × String)) :
    relax d [(x, w)] (D, Q) = (D, Q) ∨
      ((relax d [(x, w)] (D, Q)).1 x < D x ∧
        (relax d [(x, w)] (D, Q)).2 = (wrapInt (d + w), x) :: Q) := by
  simp only [relax]
  by_cases h : wrapInt (d + w) < D x
  · right
    rw [if_pos h]
    refine ⟨?_, rfl⟩
    show setDistance D x (wrapInt (d + w)) x < D x
    rw [setDistance_apply, if_pos rfl]
    exact h
  · left
    rw [if_neg h]

/-- C38. For every graph (non-negative weights or not) and all strings a, b the loop of
`getDistance a b` returns within its iteration budget, and `getDistance` is the value it
returns when both names are known. The reason is the one given in the claim: one relaxation
step either changes nothing or strictly lowers the tentative distance of the neighbour and
pushes exactly one frontier entry. -/
theorem getDistance_terminates (g : LocationGraph) (a b : String) :
    (∃ r, runDijkstra g a b = some r ∧
      (g.contains a = true → g.contains b = true → g.getDistance a b = r)) ∧
    ∀ (d : Int) (x : String) (w : Int) (D : String → Int) (Q : List (Int × String)),
      relax d [(x, w)] (D, Q) = (D, Q) ∨
        ((relax d [(x, w)] (D, Q)).1 x < D x ∧
          (relax d [(x, w)] (D, Q)).2 = (wrapInt (d + w), x) :: Q) := by
  obtain ⟨r, hr⟩ := runDijkstra_isSome g a b
  refine ⟨⟨r, hr, ?_⟩, relax_single⟩
  intro ha hb
  simp [getDistance, ha, hb, hr]

end LocationGraph

namespace LocationCluster

/-- Following parent links from a stored name reaches its root. -/
theorem follow_reaches_root (st : LocationCluster) (ρ : String → String) (hinv : Inv st)
    (hrep : Rep st ρ) :
    ∀ (d : Nat) (k : String), (st.parent.lookup k).isSome = true →
      maxRank st - rankOf st k ≤ (d : Int) →
      ∃ n, follow st n k = ρ k ∧ st.parent.lookup (ρ k) = some (ρ k) := by
  intro d
  induction d with
  | zero =>
    intro k hk hd
    obtain ⟨v, hv⟩ := Option.isSome_iff_exists.mp hk
    by_cases hvk : v = k
    · rw [hvk] at hv
      have := hrep.2.1 k hv
      exact ⟨0, this.symm, by rw [this]; exact hv⟩
    · have h1 := (hinv.1 k v hv).2.2 hvk
      have h2 := rankOf_le_maxRank st v
      simp only [Nat.cast_zero] at hd
      omega
  | succ d ih =>
    intro k hk hd
    obtain ⟨v, hv⟩ := Option.isSome_iff_exists.mp hk
    by_cases hvk : v = k
    · rw [hvk] at hv
      have := hrep.2.1 k hv
      exact ⟨0, this.symm, by rw [this]; exact hv⟩
    · obtain ⟨_, hvkey, hrank⟩ := hinv.1 k v hv
      have h1 := hrank hvk
      push_cast at hd
      obtain ⟨n, hn, hroot⟩ := ih v hvkey (by omega)
      have hρ : ρ v = ρ k := hrep.1 k v hv
      refine ⟨n + 1, ?_, hρ ▸ hroot⟩
      show follow st n (parentOf st k) = ρ k
      have : parentOf st k = v := by simp [parentOf, hv]
      rw [this, hn, hρ]

theorem roots_of_sound (st : LocationCluster) (ρ : String → String)
    (R : String → String → Prop) (h : Sound st ρ R) :
    ∀ k ∈ keys st, ∃ n, follow st n k = ρ k ∧ st.parent.lookup (ρ k) = some (ρ k) := by
  intro k hk
  have hnn := h.2.1 k
  have hmax := rankOf_le_maxRank st k
  exact follow_reaches_root st ρ h.1 h.2.2.1 (maxRank st - rankOf st k).toNat k
    ((lookup_isSome_iff _ _).mpr hk) (by omega)

theorem sound_applyOp (st : LocationCluster) (op : ClusterOp) (ρ : String → String)
    (R : String → String → Prop) (h : Sound st ρ R) :
    ∃ st' ρ' R', applyOp st op = some st' ∧ Sound st' ρ' R' := by
  cases op with
  | find loc =>
    obtain ⟨st', h1, h2, _⟩ := find_sound st loc ρ R h
    exact ⟨st', ρ, R, by simp [applyOp, h1], h2⟩
  | unite loc1 loc2 =>
    obtain ⟨st', ρ', h1, h2, _⟩ := unite_sem st loc1 loc2 ρ R h
    exact ⟨st', ρ', _, h1, h2⟩
  | buildClusters =>
    show ∃ st' ρ' R', buildClusters st = some st' ∧ Sound st' ρ' R'
    unfold buildClusters
    cases hg : st.graph with
    | none => exact ⟨st, ρ, R, rfl, h⟩
    | some g =>
      obtain ⟨st', ρ', h1, h2⟩ := buildOuter_sem g g.getLocations st ρ R h
      exact ⟨st', ρ', _, h1, h2⟩
  | getClusterMembers location =>
    obtain ⟨members, st', h1, h2, _⟩ := getClusterMembers_sound st location ρ R h
    exact ⟨st', ρ, R, by simp [applyOp, h1], h2⟩
  | inSameCluster loc1 loc2 =>
    obtain ⟨st1, h1, s1, _⟩ := find_sound st loc1 ρ R h
    obtain ⟨st2, h2, s2, _⟩ := find_sound st1 loc2 ρ R s1
    exact ⟨st2, ρ, R, by simp [applyOp, inSameCluster, h1, h2], s2⟩

theorem sound_runOps (ops : List ClusterOp) :
    ∀ (st : LocationCluster) (ρ : String → String) (R : String → String → Prop),
      Sound st ρ R → ∃ st' ρ' R', runOps st ops = some st' ∧ Sound st' ρ' R' := by
  induction ops with
  | nil => intro st ρ R h; exact ⟨st, ρ, R, rfl, h⟩
  | cons op rest ih =>
    intro st ρ R h
    obtain ⟨st1, ρ1, R1, h1, s1⟩ := sound_applyOp st op ρ R h
    obtain ⟨st2, ρ2, R2, h2, s2⟩ := ih st1 ρ1 R1 s1
    exact ⟨st2, ρ2, R2, by simp [runOps, h1, h2], s2⟩

theorem forest_aux (graph : Option LocationGraph) (radius : Int) (ops : List ClusterOp) :
    ∃ st, runOps (create graph radius) ops = some st ∧
      (∀ k v, st.parent.lookup k = some v → (st.parent.lookup v).isSome = true) ∧
      ∃ ρ : String → String,
        (∀ k ∈ keys st, ∃ n, follow st n k = ρ k ∧ st.parent.lookup (ρ k) = some (ρ k)) ∧
        ∀ loc, ∃ st', find st loc = some (ρ (toLower loc), st') ∧
          ∀ k ∈ keys st, ∃ n, follow st' n k = ρ k ∧
            st'.parent.lookup (ρ k) = some (ρ k) := by
  obtain ⟨st, ρ, R, hrun, hs⟩ := sound_runOps ops _ _ _ (sound_create graph radius)
  refine ⟨st, hrun, fun k v hkv => (hs.1.1 k v hkv).2.1, ρ, roots_of_sound st ρ R hs, ?_⟩
  intro loc
  obtain ⟨st', h1, s1, _, _, hsub, _⟩ := find_sound st loc ρ R hs
  exact ⟨st', h1, fun k hk => roots_of_sound st' ρ R s1 k (hsub k hk)⟩

end LocationCluster

namespace LocationCluster

/-- C39. In every state reached from the empty cluster (with or without a graph) by `find`,
`unite`, `buildClusters`, `getClusterMembers` and `inSameCluster`, all of which return, the
parent map is a forest: every parent value has an entry itself, and following parent links
from any stored name reaches a self-parented root after finitely many steps. Hence `find`
returns, it returns that root, and after its path compression every stored name still
resolves to the same root. -/
theorem reachable_forest (graph : Option LocationGraph) (radius : Int) (ops : List ClusterOp) :
    ∃ st, runOps (create graph radius) ops = some st ∧
      (∀ k v, st.parent.lookup k = some v → (st.parent.lookup v).isSome = true) ∧
      ∃ ρ : String → String,
        (∀ k ∈ keys st, ∃ n, follow st n k = ρ k ∧ st.parent.lookup (ρ k) = some (ρ k)) ∧
        ∀ loc, ∃ st', find st loc = some (ρ (toLower loc), st') ∧
          ∀ k ∈ keys st, ∃ n, follow st' n k = ρ k ∧
            st'.parent.lookup (ρ k) = some (ρ k) :=
  forest_aux graph radius ops

end LocationCluster

namespace LostFoundSystem

theorem freshLocationCluster_eq : freshLocationCluster = some campusClusterState := by
  decide!

theorem campus_single_cluster :
    (∀ a ∈ campusGraph.getLocations, ∀ b ∈ campusGraph.getLocations,
      (campusClusterState.inSameCluster a b).map (fun r => r.1) = some true) ∧
    (∀ l ∈ campusGraph.getLocations,
      ((getNearbyLocations campusClusterState l).map (fun r => r.1)).map
        (fun members => decide (members.length = 24 ∧ members.Nodup ∧
          ∀ m ∈ campusGraph.getLocations, m ∈ members)) = some true) ∧
    campusGraph.getLocations.length = 24 ∧ campusGraph.getLocations.Nodup := by
  decide!

end LostFoundSystem

namespace LostFoundSystem

/-- C40. In a freshly constructed system (default campus graph, cluster radius 100) the
member `locationCluster` is built, the campus has 24 locations, `inSameCluster a b` holds for
every pair of campus locations, and `getNearbyLocations l` returns all 24 locations (each
once) for every campus location `l`. -/
theorem fresh_campus_single_cluster :
    ∃ st, freshLocationCluster = some st ∧ campusGraph.getLocations.length = 24 ∧
      (∀ a ∈ campusGraph.getLocations, ∀ b ∈ campusGraph.getLocations,
        ∃ st', st.inSameCluster a b = some (true, st')) ∧
      (∀ l ∈ campusGraph.getLocations, ∃ members st',
        getNearbyLocations st l = some (members, st') ∧
          members.Perm campusGraph.getLocations) := by
  obtain ⟨h1, h2, h3, h4⟩ := campus_single_cluster
  refine ⟨campusClusterState, freshLocationCluster_eq, h3, ?_, ?_⟩
  · intro a ha b hb
    have := h1 a ha b hb
    cases hq : campusClusterState.inSameCluster a b with
    | none => simp [hq] at this
    | some r =>
      obtain ⟨ans, st'⟩ := r
      simp only [hq, Option.map_some', Option.some.injEq] at this
      exact ⟨st', by rw [this]⟩
  · intro l hl
    have := h2 l hl
    cases hq : getNearbyLocations campusClusterState l with
    | none => simp [hq] at this
    | some r =>
      obtain ⟨members, st'⟩ := r
      simp only [hq, Option.map_some', Option.some.injEq, decide_eq_true_eq] at this
      obtain ⟨hlen, hnd, hsub⟩ := this
      refine ⟨members, st', rfl, ?_⟩
      have hsp : campusGraph.getLocations.Subperm members := List.subperm_of_subset h4 hsub
      exact (hsp.perm_of_length_le (by rw [hlen, h3])).symm

end LostFoundSystem

theorem findFrom_spec (needle : List Char) : ∀ (hay : List Char) (pos r : Nat),
    findFrom needle hay pos = some r →
    pos ≤ r ∧ r - pos ≤ hay.length ∧ needle <+: hay.drop (r - pos) := by
  intro hay
  induction hay with
  | nil =>
    intro pos r h
    simp only [findFrom] at h
    split_ifs at h with hp
    · cases h
      refine ⟨le_refl _, by simp, ?_⟩
      simpa [List.isPrefixOf_iff_prefix] using hp
  | cons c hay ih =>
    intro pos r h
    rw [findFrom] at h
    split_ifs at h with hp
    · cases h
      refine ⟨le_refl _, by simp, ?_⟩
      simpa [List.isPrefixOf_iff_prefix] using hp
    · obtain ⟨h1, h2, h3⟩ := ih (pos + 1) r h
      refine ⟨by omega, by simp only [List.length_cons]; omega, ?_⟩
      have : r - pos = (r - (pos + 1)) + 1 := by omega
      rw [this, List.drop_succ_cons]
      exact h3

theorem findAt_spec (hay needle : List Char) (pos r : Nat) (h : findAt hay needle pos = some r) :
    pos ≤ r ∧ r ≤ hay.length ∧ needle <+: hay.drop r := by
  unfold findAt at h
  split_ifs at h with hp
  obtain ⟨h1, h2, h3⟩ := findFrom_spec needle (hay.drop pos) pos r h
  rw [List.length_drop] at h2
  rw [List.drop_drop] at h3
  have e : pos + (r - pos) = r := by omega
  rw [e] at h3
  exact ⟨h1, by omega, h3⟩

theorem findAt_char (hay : List Char) (c : Char) (pos r : Nat)
    (h : findAt hay [c] pos = some r) : pos ≤ r ∧ r < hay.length ∧ hay.get? r = some c := by
  obtain ⟨h1, h2, h3⟩ := findAt_spec hay [c] pos r h
  obtain ⟨t, ht⟩ := h3
  have hlen : r < hay.length := by
    by_contra hn
    have : hay.drop r = [] := List.drop_eq_nil_of_le (by omega)
    rw [this] at ht
    simp at ht
  refine ⟨h1, hlen, ?_⟩
  have := @List.getElem?_drop _ hay r 0
  rw [← ht] at this
  simpa using this.symm

theorem itemBlocks_isSome (content : List Char) : ∀ (fuel : Nat) (start : Option Nat),
    0 < fuel → (∀ pos, start = some pos → content.length - pos < fuel) →
    (itemBlocks content fuel start).isSome = true := by
  intro fuel
  induction fuel with
  | zero => intro start h; omega
  | succ fuel ih =>
    intro start _ hb
    cases start with
    | none => rfl
    | some pos =>
      have hb1 := hb pos rfl
      rw [itemBlocks]
      split_ifs with hlt
      · cases hE : findAt content [closeBrace] pos with
        | none => rfl
        | some itemEnd =>
          obtain ⟨e1, e2, e3⟩ := findAt_char content closeBrace pos itemEnd hE
          have hnext := ih (findAt content [openBrace] itemEnd) (by omega) (by
            intro pos2 hp2
            obtain ⟨o1, o2, o3⟩ := findAt_char content openBrace itemEnd pos2 hp2
            have hne : pos2 ≠ itemEnd := by
              intro hEq
              rw [hEq, e3] at o3
              exact absurd (Option.some.inj o3) (by decide)
            omega)
          simp only []
          cases hB : itemBlocks content fuel (findAt content [openBrace] itemEnd) with
          | none => rw [hB] at hnext; cases hnext
          | some blocks => rfl
      · rfl

/-- The call `loadFromFile` always ends: the iteration budget of the block loop is never
used up. -/
theorem loadFromFile_total (s : LostFoundSystem) (content : String) :
    ∃ r, s.loadFromFile content = some r := by
  unfold LostFoundSystem.loadFromFile
  cases extractJsonInt content.data "itemCounter" with
  | none => exact ⟨_, rfl⟩
  | some counter =>
    simp only []
    cases findAt content.data (quotedKey "items") 0 with
    | none => exact ⟨_, rfl⟩
    | some itemsStart =>
      simp only []
      have h := itemBlocks_isSome content.data (content.data.length + 1)
        (findAt content.data [openBrace] itemsStart) (by omega) (by intro pos _; omega)
      cases hB : itemBlocks content.data (content.data.length + 1)
          (findAt content.data [openBrace] itemsStart) with
      | none => rw [hB] at h; cases h
      | some blocks =>
        simp only []
        cases LostFoundSystem.parseBlocks blocks with
        | none => exact ⟨_, rfl⟩
        | some items => exact ⟨_, rfl⟩

theorem findFrom_found (needle hay : List Char) (pos : Nat) (h : needle <+: hay) :
    findFrom needle hay pos = some pos := by
  cases hay with
  | nil => rw [findFrom, if_pos (List.isPrefixOf_iff_prefix.mpr h)]
  | cons c hay => rw [findFrom, if_pos (List.isPrefixOf_iff_prefix.mpr h)]

theorem findFrom_cons_skip (needle : List Char) (c : Char) (hay : List Char) (pos : Nat)
    (h : ¬ needle <+: c :: hay) :
    findFrom needle (c :: hay) pos = findFrom needle hay (pos + 1) := by
  rw [findFrom, if_neg (fun hp => h (List.isPrefixOf_iff_prefix.mp hp))]

theorem findFrom_skip (a : Char) (n : List Char) : ∀ (seg rest : List Char) (pos : Nat),
    a ∉ seg → findFrom (a :: n) (seg ++ rest) pos = findFrom (a :: n) rest (pos + seg.length) := by
  intro seg
  induction seg with
  | nil => intro rest pos _; rfl
  | cons c seg ih =>
    intro rest pos h
    have hc : c ≠ a := fun e => h (by rw [e]; exact List.mem_cons_self _ _)
    have hs : a ∉ seg := fun e => h (List.mem_cons_of_mem _ e)
    rw [List.cons_append, findFrom_cons_skip _ _ _ _ (by
      intro hp
      exact hc (List.cons_prefix_cons.mp hp).1.symm), ih rest (pos + 1) hs, List.length_cons]
    congr 1
    omega

theorem findFrom_none (a : Char) (n : List Char) : ∀ (seg : List Char) (pos : Nat),
    a ∉ seg → findFrom (a :: n) seg pos = none := by
  intro seg
  induction seg with
  | nil => intro pos _; rw [findFrom, if_neg (by simp [List.isPrefixOf])]
  | cons c seg ih =>
    intro pos h
    have hc : c ≠ a := fun e => h (by rw [e]; exact List.mem_cons_self _ _)
    have hs : a ∉ seg := fun e => h (List.mem_cons_of_mem _ e)
    rw [findFrom_cons_skip _ _ _ _ (by
      intro hp
      exact hc (List.cons_prefix_cons.mp hp).1.symm), ih (pos + 1) hs]

theorem quoted_mismatch : ∀ (key w rest : List Char), quoteChar ∉ key → quoteChar ∉ w →
    w ≠ key → ¬ (key ++ [quoteChar]) <+: (w ++ quoteChar :: rest) := by
  intro key
  induction key with
  | nil =>
    intro w rest _ hw hne hp
    cases w with
    | nil => exact hne rfl
    | cons c w =>
      have := (List.cons_prefix_cons.mp hp).1
      exact hw (by rw [this]; exact List.mem_cons_self _ _)
  | cons k key ih =>
    intro w rest hk hw hne hp
    cases w with
    | nil =>
      have := (List.cons_prefix_cons.mp hp).1
      exact hk (by rw [← this]; exact List.mem_cons_self _ _)
    | cons c w =>
      have h2 := List.cons_prefix_cons.mp hp
      refine ih w rest (fun e => hk (List.mem_cons_of_mem _ e))
        (fun e => hw (List.mem_cons_of_mem _ e)) ?_ h2.2
      intro e
      exact hne (by rw [h2.1, e])

theorem findFrom_skip_token (key w rest : List Char) (c : Char) (pos : Nat)
    (hk : quoteChar ∉ key) (hw : quoteChar ∉ w) (hne : w ≠ key) (hc : key.head? ≠ some c)
    (hq : c ≠ quoteChar) :
    findFrom (quoteChar :: (key ++ [quoteChar])) (quoteChar :: (w ++ quoteChar :: c :: rest)) pos =
      findFrom (quoteChar :: (key ++ [quoteChar])) (c :: rest) (pos + w.length + 2) := by
  rw [findFrom_cons_skip _ _ _ _ (by
    intro hp
    exact quoted_mismatch key w (c :: rest) hk hw hne (List.cons_prefix_cons.mp hp).2)]
  rw [findFrom_skip _ _ w _ _ hw]
  rw [findFrom_cons_skip _ _ _ _ (by
    intro hp
    have h2 := (List.cons_prefix_cons.mp hp).2
    cases key with
    | nil => exact hq (List.cons_prefix_cons.mp h2).1.symm
    | cons k key => exact hc (by rw [(List.cons_prefix_cons.mp h2).1]; rfl))]
  congr 1
  omega

theorem quoteChar_not_mem_blanks : quoteChar ∉ "      ".data := by decide

theorem quoteChar_not_mem_colon : quoteChar ∉ ": ".data := by decide

theorem findFrom_skip_field (key : String) (f : JsonField) (rest : List Char) (pos : Nat)
    (hk : quoteChar ∉ key.data) (hcolon : key.data.head? ≠ some ':')
    (hf : f.PassedBy key.data) :
    findFrom (quotedKey key) (f.chars ++ rest) pos =
      findFrom (quotedKey key) rest (pos + f.chars.length) := by
  obtain ⟨h1, h2, h3, h4, c, cl, hcl, h5⟩ := hf
  have hcq : c ≠ quoteChar := by
    intro e
    exact h4 (by rw [hcl, e]; exact List.mem_cons_self _ _)
  have e6 : "      ".data.length = 6 := rfl
  have hlen : f.chars.length = 6 + (f.key.data.length + 2) + 2 + f.value.chars.length +
      f.close.length := by
    simp only [JsonField.chars, quotedKey, List.length_append, List.length_cons,
      List.length_nil, e6]
    omega
  rw [hlen]
  unfold JsonField.chars
  rw [show quotedKey key = quoteChar :: (key.data ++ [quoteChar]) from rfl]
  rw [List.append_assoc, findFrom_skip _ _ _ _ _ quoteChar_not_mem_blanks, e6]
  rw [show ": ".data = [':', ' '] from rfl]
  unfold quotedKey
  simp only [List.cons_append, List.append_assoc, List.nil_append, List.singleton_append]
  rw [findFrom_skip_token key.data f.key.data _ ':' _ hk h2 h1 hcolon (by decide)]
  rw [show ∀ X : List Char, ':' :: ' ' :: X = [':', ' '] ++ X from fun _ => rfl,
    findFrom_skip _ _ _ _ _ (by decide)]
  cases hv : f.value with
  | text v =>
    rw [hv] at h3
    rw [hcl] at h4 ⊢
    simp only [JsonValue.chars, List.cons_append, List.append_assoc, List.singleton_append,
      List.nil_append, List.length_append, List.length_cons, List.length_nil]
    rw [findFrom_skip_token key.data v _ c _ hk h3.1 h3.2 h5 hcq]
    rw [show c :: (cl ++ rest) = (c :: cl) ++ rest from rfl, findFrom_skip _ _ _ _ _ h4]
    congr 1
    simp only [List.length_cons]
    omega
  | plain cs =>
    rw [hv] at h3
    simp only [JsonValue.chars, List.length_append, List.length_cons, List.length_nil]
    rw [findFrom_skip _ _ _ _ _ h3, findFrom_skip _ _ _ _ _ h4]
    congr 1
    omega

theorem findFrom_skip_fields (key : String) (hk : quoteChar ∉ key.data)
    (hcolon : key.data.head? ≠ some ':') : ∀ (fs : List JsonField) (rest : List Char) (pos : Nat),
    (∀ f ∈ fs, f.PassedBy key.data) →
    findFrom (quotedKey key) (fieldsText fs ++ rest) pos =
      findFrom (quotedKey key) rest (pos + (fieldsText fs).length) := by
  intro fs
  induction fs with
  | nil => intro rest pos _; rfl
  | cons f fs ih =>
    intro rest pos h
    rw [fieldsText, List.append_assoc, findFrom_skip_field key f _ _ hk hcolon
      (h f (List.mem_cons_self _ _)), ih rest _ (fun g hg => h g (List.mem_cons_of_mem _ hg)),
      List.length_append]
    congr 1
    omega
theorem digitChar_isDigit (k : Nat) (h : k < 10) : (Nat.digitChar k).isDigit = true := by
  interval_cases k <;> rfl

theorem toDigitsCore_isDigit : ∀ (fuel n : Nat) (ds : List Char),
    (∀ c ∈ ds, c.isDigit = true) → ∀ c ∈ Nat.toDigitsCore 10 fuel n ds, c.isDigit = true := by
  intro fuel
  induction fuel with
  | zero => intro n ds h; simpa [Nat.toDigitsCore] using h
  | succ fuel ih =>
    intro n ds h
    unfold Nat.toDigitsCore
    have hd : ∀ c ∈ Nat.digitChar (n % 10) :: ds, c.isDigit = true := by
      intro c hc
      rcases List.mem_cons.mp hc with e | e
      · rw [e]; exact digitChar_isDigit _ (Nat.mod_lt _ (by decide))
      · exact h c e
    by_cases h0 : n / 10 = 0
    · simp only [h0, if_true]
      exact hd
    · simp only [h0, if_false]
      exact ih _ _ hd

theorem toDigitsCore_ne_nil : ∀ (fuel n : Nat) (ds : List Char),
    (0 < fuel ∨ ds ≠ []) → Nat.toDigitsCore 10 fuel n ds ≠ [] := by
  intro fuel
  induction fuel with
  | zero =>
    intro n ds h
    rcases h with h | h
    · omega
    · simpa [Nat.toDigitsCore] using h
  | succ fuel ih =>
    intro n ds _
    unfold Nat.toDigitsCore
    by_cases h0 : n / 10 = 0
    · simp only [h0, if_true]
      exact List.cons_ne_nil _ _
    · simp only [h0, if_false]
      exact ih _ _ (Or.inr (List.cons_ne_nil _ _))

theorem natRepr_isDigit (n : Nat) : ∀ c ∈ (toString n).data, c.isDigit = true := by
  show ∀ c ∈ (Nat.toDigits 10 n).asString.data, c.isDigit = true
  unfold Nat.toDigits
  simp only [List.asString]
  exact toDigitsCore_isDigit _ _ _ (by simp)

theorem natRepr_ne_nil (n : Nat) : (toString n).data ≠ [] := by
  show (Nat.toDigits 10 n).asString.data ≠ []
  unfold Nat.toDigits
  simp only [List.asString]
  exact toDigitsCore_ne_nil _ _ _ (Or.inl (Nat.succ_pos n))

theorem intRepr_ofNat (m : Nat) : (toString (Int.ofNat m)).data = (toString m).data := rfl

theorem intRepr_negSucc (m : Nat) :
    (toString (Int.negSucc m)).data = '-' :: (toString (m + 1)).data := rfl

theorem intRepr_numeric (n : Int) :
    ∀ c ∈ (toString n).data, (c.isDigit || decide (c = '-')) = true := by
  intro c hc
  cases n with
  | ofNat m =>
    rw [intRepr_ofNat] at hc
    rw [natRepr_isDigit m c hc]
    rfl
  | negSucc m =>
    rw [intRepr_negSucc] at hc
    rcases List.mem_cons.mp hc with e | e
    · rw [e]; rfl
    · rw [natRepr_isDigit (m + 1) c e]
      rfl

theorem intRepr_ne_nil (n : Int) : (toString n).data ≠ [] := by
  cases n with
  | ofNat m => rw [intRepr_ofNat]; exact natRepr_ne_nil m
  | negSucc m => rw [intRepr_negSucc]; exact List.cons_ne_nil _ _

theorem intRepr_not_mem (n : Int) (c : Char) (h : (c.isDigit || decide (c = '-')) = false) :
    c ∉ (toString n).data := by
  intro hc
  rw [intRepr_numeric n c hc] at h
  cases h

theorem takeWhile_all (p : Char → Bool) (l : List Char) (h : ∀ c ∈ l, p c = true) :
    l.takeWhile p = l := by
  induction l with
  | nil => rfl
  | cons c l ih =>
    rw [List.takeWhile_cons, h c (List.mem_cons_self _ _)]
    simp only [if_true]
    rw [ih (fun d hd => h d (List.mem_cons_of_mem _ hd))]

theorem stoll_digits (ds : List Char) (hne : ds ≠ []) (hd : ∀ c ∈ ds, c.isDigit = true)
    (hr : (digitsValue ds : Int) ≤ 9223372036854775807) :
    stoll ds = some (digitsValue ds : Int) := by
  unfold stoll
  split
  · rename_i rest
    have := hd '-' (List.mem_cons_self _ _)
    cases this
  · rw [takeWhile_all _ ds hd, if_neg hne, if_pos hr]

theorem stoll_minus (ds : List Char) (hne : ds ≠ []) (hd : ∀ c ∈ ds, c.isDigit = true)
    (hr : (digitsValue ds : Int) ≤ 9223372036854775808) :
    stoll ('-' :: ds) = some (-(digitsValue ds : Int)) := by
  unfold stoll
  split
  · rename_i rest heq
    have e : ds = rest := (List.cons.inj heq).2
    subst e
    rw [takeWhile_all _ ds hd, if_neg hne, if_pos hr]
  · rename_i hno
    exact absurd rfl (hno ds)

/-- The number written by `operator<<` is read back by `std::stoll`. -/
theorem stoll_repr (n : Int) (h1 : -9223372036854775808 ≤ n) (h2 : n ≤ 9223372036854775807) :
    stoll (toString n).data = some n := by
  cases n with
  | ofNat m =>
    rw [intRepr_ofNat, stoll_digits _ (natRepr_ne_nil m) (natRepr_isDigit m)
      (by rw [digitsValue_repr]; exact h2), digitsValue_repr]
    rfl
  | negSucc m =>
    rw [intRepr_negSucc, stoll_minus _ (natRepr_ne_nil _) (natRepr_isDigit _)
      (by rw [digitsValue_repr]; have := Int.negSucc_eq m; omega), digitsValue_repr]
    congr 1

theorem collectNumber_numeric : ∀ (num acc : List Char) (c : Char) (rest : List Char),
    (∀ d ∈ num, (d.isDigit || decide (d = '-')) = true) →
    (c.isDigit || decide (c = '-')) = false → acc ++ num ≠ [] →
    collectNumber (num ++ c :: rest) acc = acc ++ num := by
  intro num
  induction num with
  | nil =>
    intro acc c rest _ hc hne
    rw [List.nil_append, collectNumber, if_neg (by rw [hc]; decide), if_pos (by simpa using hne)]
    simp
  | cons d num ih =>
    intro acc c rest hd hc hne
    rw [List.cons_append, collectNumber, if_pos (hd d (List.mem_cons_self _ _)),
      ih (acc ++ [d]) c rest (fun x hx => hd x (List.mem_cons_of_mem _ hx)) hc (by simp)]
    simp

theorem collectNumber_blank (rest : List Char) :
    collectNumber (' ' :: rest) [] = collectNumber rest [] := by
  rw [collectNumber, if_neg (by decide), if_neg (by simp)]
theorem findAt_split (T P S needle : List Char) (pos : Nat) (hT : T = P ++ S)
    (hpos : pos = P.length) : findAt T needle pos = findFrom needle S pos := by
  subst hT hpos
  unfold findAt
  rw [if_pos (by rw [List.length_append]; omega), List.drop_left]

theorem drop_split (T P S : List Char) (pos : Nat) (hT : T = P ++ S) (hpos : pos = P.length) :
    T.drop pos = S := by
  subst hT hpos
  exact List.drop_left _ _

theorem length_quotedKey (key : String) : (quotedKey key).length = key.data.length + 2 := by
  simp [quotedKey]

theorem not_mem_quotedKey (key : String) (c : Char) (hc : c ≠ quoteChar) (h : c ∉ key.data) :
    c ∉ quotedKey key := by
  simp [quotedKey, hc, h]

theorem findAt_colon (T A X : List Char) (key : String) (hcolon : ':' ∉ key.data)
    (hT : T = A ++ (quotedKey key ++ ':' :: X)) :
    findAt T [':'] A.length = some (A.length + key.data.length + 2) := by
  rw [findAt_split T A _ [':'] _ hT rfl,
    findFrom_skip ':' [] _ _ _ (not_mem_quotedKey key ':' (by decide) hcolon),
    findFrom_found _ _ _ (by simp), length_quotedKey]
  rfl

theorem extractJsonString_at (T A v X : List Char) (key : String) (hcolon : ':' ∉ key.data)
    (hv : quoteChar ∉ v)
    (hT : T = A ++ (quotedKey key ++ ':' :: ' ' :: quoteChar :: (v ++ quoteChar :: X)))
    (hfind : findAt T (quotedKey key) 0 = some A.length) :
    extractJsonString T key = String.mk v := by
  have hc := findAt_colon T A _ key hcolon hT
  have hs : findAt T [quoteChar] (A.length + key.data.length + 2) =
      some (A.length + key.data.length + 2 + 2) := by
    rw [findAt_split T (A ++ quotedKey key) (':' :: ' ' :: quoteChar :: (v ++ quoteChar :: X))
        [quoteChar] _ (by rw [hT, List.append_assoc])
        (by rw [List.length_append, length_quotedKey]; omega),
      show ∀ Y : List Char, ':' :: ' ' :: Y = [':', ' '] ++ Y from fun _ => rfl,
      findFrom_skip quoteChar [] _ _ _ (by decide), findFrom_found _ _ _ (by simp)]
    rfl
  have he : findAt T [quoteChar] (A.length + key.data.length + 2 + 2 + 1) =
      some (A.length + key.data.length + 2 + 2 + 1 + v.length) := by
    rw [findAt_split T (A ++ (quotedKey key ++ [':', ' ', quoteChar])) (v ++ quoteChar :: X)
        [quoteChar] _ (by rw [hT]; simp)
        (by simp only [List.length_append, length_quotedKey, List.length_cons,
              List.length_nil]; omega),
      findFrom_skip quoteChar [] _ _ _ hv, findFrom_found _ _ _ (by simp)]
  have hd : T.drop (A.length + key.data.length + 2 + 2 + 1) = v ++ quoteChar :: X :=
    drop_split T (A ++ (quotedKey key ++ [':', ' ', quoteChar])) _ _ (by rw [hT]; simp)
      (by simp only [List.length_append, length_quotedKey, List.length_cons,
            List.length_nil]; omega)
  unfold extractJsonString
  rw [hfind]
  simp only []
  rw [hc]
  simp only []
  rw [hs]
  simp only []
  rw [he]
  simp only []
  rw [hd]
  have : A.length + key.data.length + 2 + 2 + 1 + v.length -
      (A.length + key.data.length + 2 + 2) - 1 = v.length := by omega
  rw [this, List.take_left]

theorem extractJsonLong_at (T A num X : List Char) (c : Char) (key : String)
    (hcolon : ':' ∉ key.data) (hne : num ≠ [])
    (hnum : ∀ d ∈ num, (d.isDigit || decide (d = '-')) = true)
    (hc : (c.isDigit || decide (c = '-')) = false)
    (hT : T = A ++ (quotedKey key ++ ':' :: ' ' :: (num ++ c :: X)))
    (hfind : findAt T (quotedKey key) 0 = some A.length) :
    extractJsonLong T key = stoll num := by
  have hcp := findAt_colon T A _ key hcolon hT
  have hd : T.drop (A.length + key.data.length + 2 + 1) = ' ' :: (num ++ c :: X) :=
    drop_split T (A ++ (quotedKey key ++ [':'])) _ _ (by rw [hT]; simp)
      (by simp only [List.length_append, length_quotedKey, List.length_cons,
            List.length_nil]; omega)
  unfold extractJsonLong
  rw [hfind]
  simp only []
  rw [hcp]
  simp only []
  rw [hd, collectNumber_blank, collectNumber_numeric num [] c X hnum hc (by simpa using hne),
    List.nil_append, if_neg hne]

theorem extractJsonBool_at (T A X : List Char) (b : Bool) (key : String)
    (hcolon : ':' ∉ key.data)
    (hT : T = A ++ (quotedKey key ++ ':' :: ' ' :: ((if b then "true" else "false").data ++ X)))
    (hfind : findAt T (quotedKey key) 0 = some A.length) :
    extractJsonBool T key = b := by
  have hcp := findAt_colon T A _ key hcolon hT
  have hd : T.drop (A.length + key.data.length + 2 + 1) =
      ' ' :: ((if b then "true" else "false").data ++ X) :=
    drop_split T (A ++ (quotedKey key ++ [':'])) _ _ (by rw [hT]; simp)
      (by simp only [List.length_append, length_quotedKey, List.length_cons,
            List.length_nil]; omega)
  unfold extractJsonBool
  rw [hfind]
  simp only []
  rw [hcp]
  simp only []
  rw [hd]
  cases b
  · rfl
  · simp [List.dropWhile, List.isPrefixOf]
set_option maxRecDepth 8000 in
theorem itemText_eq (item : Item) :
    LostFoundSystem.itemText item = "    ".data ++ blockText item := by
  simp only [LostFoundSystem.itemText, blockText, itemFields, fieldsText, JsonField.chars,
    JsonValue.chars, List.append_assoc, List.cons_append, List.nil_append, List.append_nil,
    List.singleton_append]

theorem fieldsText_append (fs1 fs2 : List JsonField) :
    fieldsText (fs1 ++ fs2) = fieldsText fs1 ++ fieldsText fs2 := by
  induction fs1 with
  | nil => rfl
  | cons f fs1 ih => rw [List.cons_append, fieldsText, fieldsText, ih, List.append_assoc]

theorem itemKeys_no_quote : ∀ k ∈ itemKeys, quoteChar ∉ k.data := by decide

theorem itemKeys_no_colon : ∀ k ∈ itemKeys, ':' ∉ k.data := by decide

theorem itemKeys_no_brace : ∀ k ∈ itemKeys, closeBrace ∉ k.data := by decide

theorem itemKeys_head : ∀ k ∈ itemKeys,
    k.data.head? ≠ some ':' ∧ k.data.head? ≠ some ',' ∧ k.data.head? ≠ some lineFeed := by
  decide

theorem clean_passedBy (g : JsonField) (key : String) (hg : g.Clean) (hkey : key ∈ itemKeys)
    (hne : g.key ≠ key) : g.PassedBy key.data := by
  obtain ⟨h1, h2, h3⟩ := hg
  refine ⟨fun e => hne (String.ext e), itemKeys_no_quote _ h1, ?_, ?_, ?_⟩
  · cases hv : g.value with
    | text v =>
      rw [hv] at h2
      refine ⟨h2.1, fun e => h2.2.2 ?_⟩
      rw [e]
      exact hkey
    | plain cs =>
      rw [hv] at h2
      exact h2.1
  · rcases h3 with e | e <;> rw [e] <;> decide
  · rcases h3 with e | e
    · exact ⟨',', [lineFeed], e, (itemKeys_head key hkey).2.1⟩
    · exact ⟨lineFeed, [], e, (itemKeys_head key hkey).2.2⟩

theorem find_key (T pre rest : List Char) (fs1 : List JsonField) (f : JsonField)
    (hT : T = pre ++ (fieldsText fs1 ++ (f.chars ++ rest))) (hpre : quoteChar ∉ pre)
    (hfs : ∀ g ∈ fs1, g.PassedBy f.key.data) (hq : quoteChar ∉ f.key.data)
    (hcolon : f.key.data.head? ≠ some ':') :
    findAt T (quotedKey f.key) 0 = some (pre ++ (fieldsText fs1 ++ "      ".data)).length := by
  rw [findAt_split T [] T _ 0 rfl rfl, hT]
  rw [show quotedKey f.key = quoteChar :: (f.key.data ++ [quoteChar]) from rfl,
    findFrom_skip _ _ _ _ _ hpre]
  rw [show quoteChar :: (f.key.data ++ [quoteChar]) = quotedKey f.key from rfl,
    findFrom_skip_fields f.key hq hcolon fs1 _ _ hfs]
  unfold JsonField.chars
  rw [List.append_assoc, show quotedKey f.key = quoteChar :: (f.key.data ++ [quoteChar]) from rfl,
    findFrom_skip _ _ _ _ _ quoteChar_not_mem_blanks, findFrom_found _ _ _ (by simp)]
  simp only [List.length_append]
  congr 1
  omega

/-- The place of a line in a list of clean lines with distinct keys. -/
theorem fields_split (fs : List JsonField) (f : JsonField) (hclean : ∀ g ∈ fs, g.Clean)
    (hnd : (fs.map JsonField.key).Nodup) (hf : f ∈ fs) :
    ∃ fs1 fs2, fs = fs1 ++ f :: fs2 ∧ ∀ g ∈ fs1, g.PassedBy f.key.data := by
  obtain ⟨fs1, fs2, hsplit⟩ := List.append_of_mem hf
  refine ⟨fs1, fs2, hsplit, ?_⟩
  intro g hg
  refine clean_passedBy g f.key (hclean g (by rw [hsplit]; simp [hg])) (hclean f hf).1 ?_
  intro e
  rw [hsplit, List.map_append, List.map_cons] at hnd
  have := (List.nodup_append.mp hnd).2.2
  exact this (List.mem_map_of_mem _ hg) (by rw [e]; exact List.mem_cons_self _ _)

theorem head_of_not_mem (l : List Char) (c : Char) (h : c ∉ l) : l.head? ≠ some c := by
  cases l with
  | nil => simp
  | cons d l =>
    intro e
    simp only [List.head?_cons, Option.some.injEq] at e
    exact h (by rw [e]; exact List.mem_cons_self _ _)

theorem lookup_string (fs : List JsonField) (f : JsonField) (pre post v : List Char)
    (hclean : ∀ g ∈ fs, g.Clean) (hnd : (fs.map JsonField.key).Nodup) (hf : f ∈ fs)
    (hpre : quoteChar ∉ pre) (hv : f.value = .text v) :
    extractJsonString (pre ++ (fieldsText fs ++ post)) f.key = String.mk v := by
  obtain ⟨fs1, fs2, hsplit, hpass⟩ := fields_split fs f hclean hnd hf
  have hk := (hclean f hf).1
  have hval := (hclean f hf).2.1
  rw [hv] at hval
  have hT : pre ++ (fieldsText fs ++ post) =
      pre ++ (fieldsText fs1 ++ (f.chars ++ (fieldsText fs2 ++ post))) := by
    rw [hsplit, fieldsText_append, fieldsText, List.append_assoc, List.append_assoc]
  have hfind := find_key _ pre _ fs1 f hT hpre hpass (itemKeys_no_quote _ hk)
    (itemKeys_head _ hk).1
  refine extractJsonString_at _ (pre ++ (fieldsText fs1 ++ "      ".data)) v
    (f.close ++ (fieldsText fs2 ++ post)) f.key (itemKeys_no_colon _ hk) hval.1 ?_ hfind
  rw [hT]
  simp [JsonField.chars, JsonValue.chars, hv]

theorem lookup_long (fs : List JsonField) (f : JsonField) (pre post num : List Char)
    (hclean : ∀ g ∈ fs, g.Clean) (hnd : (fs.map JsonField.key).Nodup) (hf : f ∈ fs)
    (hpre : quoteChar ∉ pre) (hv : f.value = .plain num) (hne : num ≠ [])
    (hnum : ∀ d ∈ num, (d.isDigit || decide (d = '-')) = true) :
    extractJsonLong (pre ++ (fieldsText fs ++ post)) f.key = stoll num := by
  obtain ⟨fs1, fs2, hsplit, hpass⟩ := fields_split fs f hclean hnd hf
  have hk := (hclean f hf).1
  have hT : pre ++ (fieldsText fs ++ post) =
      pre ++ (fieldsText fs1 ++ (f.chars ++ (fieldsText fs2 ++ post))) := by
    rw [hsplit, fieldsText_append, fieldsText, List.append_assoc, List.append_assoc]
  have hfind := find_key _ pre _ fs1 f hT hpre hpass (itemKeys_no_quote _ hk)
    (itemKeys_head _ hk).1
  rcases (hclean f hf).2.2 with hc | hc
  · refine extractJsonLong_at _ (pre ++ (fieldsText fs1 ++ "      ".data)) num
      (lineFeed :: (fieldsText fs2 ++ post)) ',' f.key (itemKeys_no_colon _ hk) hne hnum
      (by decide) ?_ hfind
    rw [hT]
    simp [JsonField.chars, JsonValue.chars, hv, hc]
  · refine extractJsonLong_at _ (pre ++ (fieldsText fs1 ++ "      ".data)) num
      (fieldsText fs2 ++ post) lineFeed f.key (itemKeys_no_colon _ hk) hne hnum
      (by decide) ?_ hfind
    rw [hT]
    simp [JsonField.chars, JsonValue.chars, hv, hc]

theorem lookup_bool (fs : List JsonField) (f : JsonField) (pre post : List Char) (b : Bool)
    (hclean : ∀ g ∈ fs, g.Clean) (hnd : (fs.map JsonField.key).Nodup) (hf : f ∈ fs)
    (hpre : quoteChar ∉ pre) (hv : f.value = .plain (if b then "true" else "false").data) :
    extractJsonBool (pre ++ (fieldsText fs ++ post)) f.key = b := by
  obtain ⟨fs1, fs2, hsplit, hpass⟩ := fields_split fs f hclean hnd hf
  have hk := (hclean f hf).1
  have hT : pre ++ (fieldsText fs ++ post) =
      pre ++ (fieldsText fs1 ++ (f.chars ++ (fieldsText fs2 ++ post))) := by
    rw [hsplit, fieldsText_append, fieldsText, List.append_assoc, List.append_assoc]
  have hfind := find_key _ pre _ fs1 f hT hpre hpass (itemKeys_no_quote _ hk)
    (itemKeys_head _ hk).1
  refine extractJsonBool_at _ (pre ++ (fieldsText fs1 ++ "      ".data))
    (f.close ++ (fieldsText fs2 ++ post)) b f.key (itemKeys_no_colon _ hk) ?_ hfind
  rw [hT]
  simp [JsonField.chars, JsonValue.chars, hv]
theorem cleanText_spec (v : String) (h : cleanText v = true) :
    quoteChar ∉ v.data ∧ closeBrace ∉ v.data ∧ v ∉ itemKeys := by
  simpa [cleanText, and_assoc] using h

theorem categoryToString_clean (c : Category) : cleanText (categoryToString c) = true := by
  cases c <;> decide

theorem categoryToString_load (c : Category) :
    (if categoryToString c = "" then Category.OTHER
      else stringToCategory (categoryToString c)) = c := by
  cases c <;> decide

theorem clean_text_field (key v : String) (close : List Char) (hk : key ∈ itemKeys)
    (hv : cleanText v = true) (hc : close = [',', lineFeed] ∨ close = [lineFeed]) :
    (JsonField.mk key (.text v.data) close).Clean :=
  ⟨hk, cleanText_spec v hv, hc⟩

theorem clean_number_field (key : String) (n : Int) (close : List Char) (hk : key ∈ itemKeys)
    (hc : close = [',', lineFeed] ∨ close = [lineFeed]) :
    (JsonField.mk key (.plain (toString n).data) close).Clean :=
  ⟨hk, ⟨intRepr_not_mem n quoteChar (by decide), intRepr_not_mem n closeBrace (by decide)⟩, hc⟩

theorem clean_bool_field (key : String) (b : Bool) (close : List Char) (hk : key ∈ itemKeys)
    (hc : close = [',', lineFeed] ∨ close = [lineFeed]) :
    (JsonField.mk key (.plain (if b then "true" else "false").data) close).Clean :=
  ⟨hk, by
    cases b
    · exact ⟨by decide, by decide⟩
    · exact ⟨by decide, by decide⟩, hc⟩

theorem itemFields_clean (item : Item) (h : item.Clean) : ∀ g ∈ itemFields item, g.Clean := by
  obtain ⟨_, h1, h2, h3, h4, h5, h6, h7, h8, h9, _, _, _, _⟩ := h
  intro g hg
  simp only [itemFields, List.mem_cons, List.mem_singleton, List.not_mem_nil, or_false] at hg
  rcases hg with e | e | e | e | e | e | e | e | e | e | e | e | e | e | e <;> rw [e]
  · exact clean_text_field _ _ _ (by decide) h1 (Or.inl rfl)
  · exact clean_text_field _ _ _ (by decide) h2 (Or.inl rfl)
  · exact clean_text_field _ _ _ (by decide) h3 (Or.inl rfl)
  · exact clean_text_field _ _ _ (by decide) h4 (Or.inl rfl)
  · exact clean_text_field _ _ _ (by decide) h5 (Or.inl rfl)
  · exact clean_text_field _ _ _ (by decide) h6 (Or.inl rfl)
  · exact clean_text_field _ _ _ (by decide) h7 (Or.inl rfl)
  · exact clean_number_field _ _ _ (by decide) (Or.inl rfl)
  · exact clean_text_field _ _ _ (by decide) h8 (Or.inl rfl)
  · exact clean_text_field _ _ _ (by decide) (categoryToString_clean _) (Or.inl rfl)
  · exact clean_bool_field _ _ _ (by decide) (Or.inl rfl)
  · exact clean_number_field _ _ _ (by decide) (Or.inl rfl)
  · exact clean_bool_field _ _ _ (by decide) (Or.inl rfl)
  · exact clean_text_field _ _ _ (by decide) h9 (Or.inl rfl)
  · exact clean_number_field _ _ _ (by decide) (Or.inr rfl)

theorem itemFields_nodup (item : Item) : ((itemFields item).map JsonField.key).Nodup := by
  simp only [itemFields, List.map]
  decide

theorem inLongRange_spec (n : Int) (h : inLongRange n = true) :
    -9223372036854775808 ≤ n ∧ n ≤ 9223372036854775807 := by
  simpa [inLongRange] using h

/-- The record written for a clean item is read back as that item. -/
theorem parseItem_blockText (item : Item) (h : item.Clean) :
    parseItem (blockText item) = some item := by
  have hc := itemFields_clean item h
  have hn := itemFields_nodup item
  have hpre : quoteChar ∉ [openBrace, lineFeed] := by decide
  have hs : ∀ (key v : String) (close : List Char),
      JsonField.mk key (.text v.data) close ∈ itemFields item →
      extractJsonString (blockText item) key = v := fun key v close hf =>
    lookup_string (itemFields item) ⟨key, .text v.data, close⟩ _ _ v.data hc hn hf hpre rfl
  have hl : ∀ (key : String) (n : Int) (close : List Char),
      JsonField.mk key (.plain (toString n).data) close ∈ itemFields item →
      inLongRange n = true → extractJsonLong (blockText item) key = some n :=
    fun key n close hf hr => by
    have := lookup_long (itemFields item) ⟨key, .plain (toString n).data, close⟩
      [openBrace, lineFeed] ("    ".data ++ [closeBrace]) (toString n).data hc hn hf hpre rfl
      (intRepr_ne_nil n) (intRepr_numeric n)
    rw [stoll_repr n (inLongRange_spec n hr).1 (inLongRange_spec n hr).2] at this
    exact this
  have hb : ∀ (key : String) (b : Bool) (close : List Char),
      JsonField.mk key (.plain (if b then "true" else "false").data) close ∈ itemFields item →
      extractJsonBool (blockText item) key = b := fun key b close hf =>
    lookup_bool (itemFields item) ⟨key, .plain (if b then "true" else "false").data, close⟩
      _ _ b hc hn hf hpre rfl
  obtain ⟨_, _, _, _, _, _, _, _, _, _, r1, r2, r3, hex⟩ := h
  unfold parseItem
  rw [hl "timestamp" item.timestamp [',', lineFeed] (by simp [itemFields]) r1,
    hl "expiresAt" item.expiresAt [',', lineFeed] (by simp [itemFields]) r2,
    hl "claimedAt" item.claimedAt [lineFeed] (by simp [itemFields]) r3]
  simp only []
  rw [hs "id" item.id [',', lineFeed] (by simp [itemFields]), hs "name" item.name [',', lineFeed] (by simp [itemFields]),
    hs "color" item.color [',', lineFeed] (by simp [itemFields]),
    hs "location" item.location [',', lineFeed] (by simp [itemFields]),
    hs "owner" item.owner [',', lineFeed] (by simp [itemFields]),
    hs "email" item.email [',', lineFeed] (by simp [itemFields]),
    hs "type" item.type [',', lineFeed] (by simp [itemFields]),
    hs "description" item.description [',', lineFeed] (by simp [itemFields]),
    hs "category" (categoryToString item.category) [',', lineFeed] (by simp [itemFields]),
    hs "claimedBy" item.claimedBy [',', lineFeed] (by simp [itemFields]),
    hb "archived" item.archived [',', lineFeed] (by simp [itemFields]),
    hb "claimed" item.claimed [',', lineFeed] (by simp [itemFields]),
    categoryToString_load, if_neg hex]
theorem clean_field_no_brace (g : JsonField) (hg : g.Clean) : closeBrace ∉ g.chars := by
  obtain ⟨h1, h2, h3⟩ := hg
  have hk := itemKeys_no_brace _ h1
  have hv : closeBrace ∉ g.value.chars := by
    cases hv : g.value with
    | text v =>
      rw [hv] at h2
      simp only [JsonValue.chars, List.mem_cons, List.mem_append, List.mem_singleton, not_or]
      exact ⟨by decide, h2.2.1, by decide, by simp⟩
    | plain cs =>
      rw [hv] at h2
      exact h2.2
  have hc : closeBrace ∉ g.close := by
    rcases h3 with e | e <;> rw [e] <;> decide
  simp only [JsonField.chars, List.mem_append, not_or]
  exact ⟨by decide, not_mem_quotedKey _ _ (by decide) hk, by decide, hv, hc⟩

theorem clean_fields_no_brace : ∀ (fs : List JsonField), (∀ g ∈ fs, g.Clean) →
    closeBrace ∉ fieldsText fs := by
  intro fs
  induction fs with
  | nil => intro _; simp [fieldsText]
  | cons f fs ih =>
    intro h
    simp only [fieldsText, List.mem_append, not_or]
    exact ⟨clean_field_no_brace f (h f (List.mem_cons_self _ _)),
      ih (fun g hg => h g (List.mem_cons_of_mem _ hg))⟩

/-- The record of an item without its closing brace. -/
theorem blockText_body (item : Item) (h : item.Clean) :
    ∃ body, blockText item = openBrace :: (body ++ [closeBrace]) ∧ closeBrace ∉ body ∧
      closeBrace ≠ openBrace := by
  refine ⟨lineFeed :: (fieldsText (itemFields item) ++ "    ".data), ?_, ?_, by decide⟩
  · simp [blockText]
  · simp only [List.mem_cons, List.mem_append, not_or]
    exact ⟨by decide, clean_fields_no_brace _ (itemFields_clean item h), by decide⟩

/-- What `saveToFile` writes after the closing brace of an item. -/
theorem itemsText_cons (item : Item) (rest : List Item) :
    LostFoundSystem.itemsText (item :: rest) =
      "    ".data ++ (blockText item ++
        (if rest = [] then [lineFeed]
          else [',', lineFeed] ++ LostFoundSystem.itemsText rest)) := by
  cases rest with
  | nil => simp [LostFoundSystem.itemsText, itemText_eq]
  | cons item2 rest => simp [LostFoundSystem.itemsText, itemText_eq]

theorem itemBlocks_items (S : List Char) (hS : openBrace ∉ S) :
    ∀ (items : List Item) (item : Item) (P content : List Char) (fuel : Nat),
    (∀ it ∈ item :: items, it.Clean) → items.length + 1 < fuel →
    content = P ++ (LostFoundSystem.itemsText (item :: items) ++ S) →
    itemBlocks content fuel (some (P.length + 4)) = some ((item :: items).map blockText) := by
  intro items
  induction items with
  | nil =>
    intro item P content fuel hclean hfuel hcontent
    obtain ⟨body, hb, hbody, hne⟩ := blockText_body item (hclean item (List.mem_cons_self _ _))
    rw [itemsText_cons, if_pos rfl, hb] at hcontent
    obtain ⟨fuel, rfl⟩ : ∃ k, fuel = k + 1 := ⟨fuel - 1, by omega⟩
    obtain ⟨fuel, rfl⟩ : ∃ k, fuel = k + 1 := ⟨fuel - 1, by omega⟩
    have hlen : P.length + 4 < content.length := by
      rw [hcontent]
      simp only [List.length_append, List.length_cons, List.length_nil]
      omega
    have hE : findAt content [closeBrace] (P.length + 4) =
        some (P.length + 4 + 1 + body.length) := by
      rw [findAt_split content (P ++ "    ".data)
          (openBrace :: (body ++ [closeBrace]) ++ ([lineFeed] ++ S)) _ _
          (by rw [hcontent]; simp) (by rw [List.length_append]; rfl),
        List.cons_append, findFrom_cons_skip _ _ _ _ (by
          intro hp
          exact hne (List.cons_prefix_cons.mp hp).1), List.append_assoc,
        findFrom_skip _ _ _ _ _ hbody, findFrom_found _ _ _ (by simp)]
    have hO : findAt content [openBrace] (P.length + 4 + 1 + body.length) = none := by
      rw [findAt_split content (P ++ "    ".data ++ openBrace :: body)
          (closeBrace :: ([lineFeed] ++ S)) _ _ (by rw [hcontent]; simp)
          (by simp only [List.length_append, List.length_cons, List.length_nil]; omega)]
      exact findFrom_none _ _ _ _ (by
        simp only [List.mem_cons, List.mem_append, List.mem_singleton, not_or, List.not_mem_nil,
          or_false]
        exact ⟨by decide, by decide, hS⟩)
    have hD : content.drop (P.length + 4) =
        openBrace :: (body ++ [closeBrace]) ++ ([lineFeed] ++ S) :=
      drop_split content (P ++ "    ".data) _ _ (by rw [hcontent]; simp)
        (by rw [List.length_append]; rfl)
    rw [itemBlocks, if_pos hlen, hE]
    simp only []
    rw [hO, itemBlocks, hD]
    simp only [List.map, hb]
    have : P.length + 4 + 1 + body.length - (P.length + 4) + 1 =
        (openBrace :: (body ++ [closeBrace])).length := by
      simp only [List.length_append, List.length_cons, List.length_nil]
      omega
    rw [this, List.take_left]
  | cons item2 items ih =>
    intro item P content fuel hclean hfuel hcontent
    obtain ⟨body, hb, hbody, hne⟩ := blockText_body item (hclean item (List.mem_cons_self _ _))
    obtain ⟨body2, hb2, _, _⟩ := blockText_body item2
      (hclean item2 (List.mem_cons_of_mem _ (List.mem_cons_self _ _)))
    have hcontent0 := hcontent
    rw [itemsText_cons, if_neg (List.cons_ne_nil _ _), hb] at hcontent
    obtain ⟨fuel, rfl⟩ : ∃ k, fuel = k + 1 := ⟨fuel - 1, by omega⟩
    have hlen : P.length + 4 < content.length := by
      rw [hcontent]
      simp only [List.length_append, List.length_cons, List.length_nil]
      omega
    have hE : findAt content [closeBrace] (P.length + 4) =
        some (P.length + 4 + 1 + body.length) := by
      rw [findAt_split content (P ++ "    ".data)
          (openBrace :: (body ++ [closeBrace]) ++
            ([',', lineFeed] ++ LostFoundSystem.itemsText (item2 :: items) ++ S)) _ _
          (by rw [hcontent]; simp) (by rw [List.length_append]; rfl),
        List.cons_append, findFrom_cons_skip _ _ _ _ (by
          intro hp
          exact hne (List.cons_prefix_cons.mp hp).1), List.append_assoc,
        findFrom_skip _ _ _ _ _ hbody, findFrom_found _ _ _ (by simp)]
    have hcontent2 : content = P ++ ("    ".data ++ (openBrace :: (body ++ (closeBrace ::
        ',' :: lineFeed :: (LostFoundSystem.itemsText (item2 :: items) ++ S))))) := by
      rw [hcontent]
      simp
    have hnext : LostFoundSystem.itemsText (item2 :: items) ++ S =
        "    ".data ++ (openBrace :: (body2 ++ [closeBrace] ++
          ((if items = [] then [lineFeed]
            else [',', lineFeed] ++ LostFoundSystem.itemsText items) ++ S))) := by
      rw [itemsText_cons, hb2]
      simp
    have hO : findAt content [openBrace] (P.length + 4 + 1 + body.length) =
        some (P.length + 4 + 1 + body.length + 7) := by
      rw [findAt_split content (P ++ "    ".data ++ openBrace :: body)
          ([closeBrace, ',', lineFeed, ' ', ' ', ' ', ' '] ++ (openBrace :: (body2 ++ [closeBrace] ++
          ((if items = [] then [lineFeed]
            else [',', lineFeed] ++ LostFoundSystem.itemsText items) ++ S)))) _ _
          (by rw [hcontent2, hnext]; simp)
          (by simp only [List.length_append, List.length_cons, List.length_nil]; omega),
        findFrom_skip _ _ _ _ _ (by decide), findFrom_found _ _ _ (by simp)]
      rfl
    have hD : content.drop (P.length + 4) =
        openBrace :: (body ++ [closeBrace]) ++
            ([',', lineFeed] ++ LostFoundSystem.itemsText (item2 :: items) ++ S) :=
      drop_split content (P ++ "    ".data) _ _ (by rw [hcontent]; simp)
        (by rw [List.length_append]; rfl)
    have hrec := ih item2 (P ++ "    ".data ++ blockText item ++ [',', lineFeed]) content fuel
      (fun it hit => hclean it (List.mem_cons_of_mem _ hit))
      (by simp only [List.length_cons] at hfuel ⊢; omega)
      (by rw [hcontent, hb]; simp)
    have hpos : (P ++ "    ".data ++ blockText item ++ [',', lineFeed]).length + 4 =
        P.length + 4 + 1 + body.length + 7 := by
      rw [hb]
      simp only [List.length_append, List.length_cons, List.length_nil]
      omega
    rw [hpos] at hrec
    rw [itemBlocks, if_pos hlen, hE]
    simp only []
    rw [hO, hrec, hD]
    simp only [List.map, hb]
    have : P.length + 4 + 1 + body.length - (P.length + 4) + 1 =
        (openBrace :: (body ++ [closeBrace])).length := by
      simp only [List.length_append, List.length_cons, List.length_nil]
      omega
    rw [this, List.take_left]
theorem findFrom_skip_key (key w : String) (c : Char) (rest : List Char) (pos : Nat)
    (hk : quoteChar ∉ key.data) (hw : quoteChar ∉ w.data) (hne : w.data ≠ key.data)
    (hc : key.data.head? ≠ some c) (hq : c ≠ quoteChar) :
    findFrom (quotedKey key) (quotedKey w ++ c :: rest) pos =
      findFrom (quotedKey key) (c :: rest) (pos + w.data.length + 2) := by
  have := findFrom_skip_token key.data w.data rest c pos hk hw hne hc hq
  simpa [quotedKey] using this

theorem findAt_zero (T needle : List Char) : findAt T needle 0 = findFrom needle T 0 :=
  findAt_split T [] T needle 0 rfl rfl

theorem parseBlocks_blockText : ∀ (items : List Item), (∀ it ∈ items, it.Clean) →
    LostFoundSystem.parseBlocks (items.map blockText) = some items := by
  intro items
  induction items with
  | nil => intro _; rfl
  | cons item items ih =>
    intro h
    rw [List.map_cons, LostFoundSystem.parseBlocks,
      parseItem_blockText item (h item (List.mem_cons_self _ _)),
      ih (fun it hit => h it (List.mem_cons_of_mem _ hit))]

theorem length_itemsText : ∀ (items : List Item),
    items.length ≤ (LostFoundSystem.itemsText items).length := by
  intro items
  induction items with
  | nil => simp
  | cons item items ih =>
    rw [itemsText_cons]
    by_cases h : items = []
    · rw [if_pos h, h]
      simp
    · rw [if_neg h]
      simp only [List.length_append, List.length_cons, List.length_nil]
      omega

/-- The text written by `saveToFile`, cut at the places that `loadFromFile` searches for. -/
theorem saveToFile_data (s : LostFoundSystem) (items : List Item) :
    (LostFoundSystem.saveToFile s items).data =
      [openBrace, lineFeed, ' ', ' '] ++ (quotedKey "itemCounter" ++ ':' :: ' ' ::
        ((toString s.itemCounter).data ++ ',' :: ([lineFeed, ' ', ' '] ++
        (quotedKey "webhookUrl" ++ ':' :: ([' '] ++
        (quotedKey s.webhookUrl ++ ',' :: ([lineFeed, ' ', ' '] ++
        (quotedKey "claimWebhookUrl" ++ ':' :: ([' '] ++
        (quotedKey s.claimWebhookUrl ++ ',' :: ([lineFeed, ' ', ' '] ++
        (quotedKey "items" ++ ([':', ' ', '[', lineFeed] ++
        (LostFoundSystem.itemsText items ++
          [' ', ' ', ']', lineFeed, closeBrace, lineFeed])))))))))))))) := by
  simp [LostFoundSystem.saveToFile, quotedKey]

theorem saveToFile_counter (s : LostFoundSystem) (items : List Item)
    (hr : -2147483648 ≤ s.itemCounter ∧ s.itemCounter ≤ 2147483647) :
    extractJsonInt (LostFoundSystem.saveToFile s items).data "itemCounter" = some s.itemCounter := by
  have hT := saveToFile_data s items
  have hfind : findAt (LostFoundSystem.saveToFile s items).data (quotedKey "itemCounter") 0 =
      some [openBrace, lineFeed, ' ', ' '].length := by
    rw [findAt_zero, hT,
      show quotedKey "itemCounter" = quoteChar :: ("itemCounter".data ++ [quoteChar]) from rfl,
      findFrom_skip _ _ _ _ _ (by decide), findFrom_found _ _ _ (by simp)]
    rfl
  unfold extractJsonInt
  rw [extractJsonLong_at _ _ (toString s.itemCounter).data _ ',' "itemCounter" (by decide)
    (intRepr_ne_nil _) (intRepr_numeric _) (by decide) hT hfind,
    stoll_repr _ (by omega) (by omega)]
  simp only [Option.map_some']
  rw [LocationGraph.wrapInt_of_range _ hr.1 hr.2]

theorem saveToFile_items (s : LostFoundSystem) (items : List Item) (hU : quoteChar ∉ s.webhookUrl.data)
    (hU2 : s.webhookUrl ≠ "items") (hV : quoteChar ∉ s.claimWebhookUrl.data)
    (hV2 : s.claimWebhookUrl ≠ "items") :
    ∃ P : List Char, findAt (LostFoundSystem.saveToFile s items).data (quotedKey "items") 0 =
        some P.length ∧ openBrace ∉ quotedKey "items" ++ [':', ' ', '[', lineFeed] ∧
      (LostFoundSystem.saveToFile s items).data = P ++ ((quotedKey "items" ++
        [':', ' ', '[', lineFeed]) ++ (LostFoundSystem.itemsText items ++
          [' ', ' ', ']', lineFeed, closeBrace, lineFeed])) := by
  refine ⟨[openBrace, lineFeed, ' ', ' '] ++ (quotedKey "itemCounter" ++ ':' :: ' ' ::
        ((toString s.itemCounter).data ++ ',' :: ([lineFeed, ' ', ' '] ++
        (quotedKey "webhookUrl" ++ ':' :: ([' '] ++
        (quotedKey s.webhookUrl ++ ',' :: ([lineFeed, ' ', ' '] ++
        (quotedKey "claimWebhookUrl" ++ ':' :: ([' '] ++
        (quotedKey s.claimWebhookUrl ++ ',' :: [lineFeed, ' ', ' '])))))))))), ?_, by decide, ?_⟩
  · have hq : quoteChar ∉ "items".data := by decide
    rw [findAt_zero, saveToFile_data s items,
      show quotedKey "items" = quoteChar :: ("items".data ++ [quoteChar]) from rfl,
      findFrom_skip _ _ _ _ _ (by decide),
      show quoteChar :: ("items".data ++ [quoteChar]) = quotedKey "items" from rfl,
      findFrom_skip_key "items" "itemCounter" ':' _ _ hq (by decide) (by decide) (by decide)
        (by decide),
      show ∀ X : List Char, ':' :: ' ' :: ((toString s.itemCounter).data ++ ',' :: X) =
        ([':', ' '] ++ ((toString s.itemCounter).data ++ [','])) ++ X from fun _ => by simp,
      show quotedKey "items" = quoteChar :: ("items".data ++ [quoteChar]) from rfl,
      findFrom_skip _ _ _ _ _ (by
        simp only [List.mem_append, not_or]
        exact ⟨by decide, intRepr_not_mem _ _ (by decide), by decide⟩),
      findFrom_skip _ _ _ _ _ (by decide),
      show quoteChar :: ("items".data ++ [quoteChar]) = quotedKey "items" from rfl,
      findFrom_skip_key "items" "webhookUrl" ':' _ _ hq (by decide) (by decide) (by decide)
        (by decide),
      show ∀ X : List Char, ':' :: ([' '] ++ X) = [':', ' '] ++ X from fun _ => rfl,
      show quotedKey "items" = quoteChar :: ("items".data ++ [quoteChar]) from rfl,
      findFrom_skip _ _ _ _ _ (by decide),
      show quoteChar :: ("items".data ++ [quoteChar]) = quotedKey "items" from rfl,
      findFrom_skip_key "items" s.webhookUrl ',' _ _ hq hU
        (fun e => hU2 (String.ext e)) (by decide) (by decide),
      show ∀ X : List Char, ',' :: ([lineFeed, ' ', ' '] ++ X) = [',', lineFeed, ' ', ' '] ++ X
        from fun _ => rfl,
      show quotedKey "items" = quoteChar :: ("items".data ++ [quoteChar]) from rfl,
      findFrom_skip _ _ _ _ _ (by decide),
      show quoteChar :: ("items".data ++ [quoteChar]) = quotedKey "items" from rfl,
      findFrom_skip_key "items" "claimWebhookUrl" ':' _ _ hq (by decide) (by decide) (by decide)
        (by decide),
      show ∀ X : List Char, ':' :: ([' '] ++ X) = [':', ' '] ++ X from fun _ => rfl,
      show quotedKey "items" = quoteChar :: ("items".data ++ [quoteChar]) from rfl,
      findFrom_skip _ _ _ _ _ (by decide),
      show quoteChar :: ("items".data ++ [quoteChar]) = quotedKey "items" from rfl,
      findFrom_skip_key "items" s.claimWebhookUrl ',' _ _ hq hV
        (fun e => hV2 (String.ext e)) (by decide) (by decide),
      show ∀ X : List Char, ',' :: ([lineFeed, ' ', ' '] ++ X) = [',', lineFeed, ' ', ' '] ++ X
        from fun _ => rfl,
      show quotedKey "items" = quoteChar :: ("items".data ++ [quoteChar]) from rfl,
      findFrom_skip _ _ _ _ _ (by decide), findFrom_found _ _ _ (by simp)]
    congr 1
    simp only [List.length_append, List.length_cons, List.length_nil, length_quotedKey]
    omega
  · rw [saveToFile_data s items]
    simp
theorem blocks_of_text (content P : List Char) (items : List Item)
    (hclean : ∀ it ∈ items, it.Clean)
    (hT : content = P ++ ((quotedKey "items" ++
        [':', ' ', '[', lineFeed]) ++ (LostFoundSystem.itemsText items ++
          [' ', ' ', ']', lineFeed, closeBrace, lineFeed]))) :
    itemBlocks content (content.length + 1) (findAt content [openBrace] P.length) =
      some (items.map blockText) := by
  cases items with
  | nil =>
    rw [findAt_split _ P _ _ _ hT rfl, findFrom_none _ _ _ _ (by
      simp only [LostFoundSystem.itemsText, List.nil_append, List.mem_append, not_or]
      exact ⟨by decide, by decide⟩)]
    rfl
  | cons item rest =>
    obtain ⟨body, hb, _, _⟩ := blockText_body item (hclean item (List.mem_cons_self _ _))
    have hT2 := hT
    rw [itemsText_cons, hb] at hT2
    have hO : findAt content [openBrace] P.length =
        some ((P ++ (quotedKey "items" ++ [':', ' ', '[', lineFeed])).length + 4) := by
      rw [findAt_split _ P _ _ _ hT2 rfl, List.append_assoc, List.append_assoc,
        findFrom_skip _ _ _ _ _ (by decide), findFrom_skip _ _ _ _ _ (by decide),
        findFrom_skip _ _ _ _ _ (by decide), findFrom_found _ _ _ (by simp)]
      congr 1
      simp only [List.length_append, List.length_cons, List.length_nil]
      omega
    rw [hO]
    refine itemBlocks_items [' ', ' ', ']', lineFeed, closeBrace, lineFeed] (by decide) rest item
      _ _ _ hclean ?_ (by rw [hT]; simp only [List.append_assoc])
    have h1 := length_itemsText (item :: rest)
    have h2 : (LostFoundSystem.itemsText (item :: rest)).length ≤ content.length := by
      rw [hT]
      simp only [List.length_append]
      omega
    simp only [List.length_cons] at h1
    omega

/-- Reading back the text that `saveToFile` wrote when the registry handed out the clean
records `items`, for a state whose notification addresses hold no quote: `loadFromFile` sets
the counter and stores the records in the order of the file. -/
theorem loadFromFile_saveToFile (s0 s : LostFoundSystem) (items : List Item)
    (hclean : ∀ it ∈ items, it.Clean)
    (hr : -2147483648 ≤ s.itemCounter ∧ s.itemCounter ≤ 2147483647)
    (hU : quoteChar ∉ s.webhookUrl.data) (hU2 : s.webhookUrl ≠ "items")
    (hV : quoteChar ∉ s.claimWebhookUrl.data) (hV2 : s.claimWebhookUrl ≠ "items") :
    ∃ s1 : LostFoundSystem, s1.itemMap = s0.itemMap ∧ s1.searchTrie = s0.searchTrie ∧
      s1.historyBST = s0.historyBST ∧ s1.categoryTries = s0.categoryTries ∧
      s1.invertedIndex = s0.invertedIndex ∧ s1.itemCounter = s.itemCounter ∧
      s0.loadFromFile (LostFoundSystem.saveToFile s items) =
        some (some (items.foldl LostFoundSystem.loadItem s1)) := by
  obtain ⟨P, hfind, _, hT⟩ := saveToFile_items s items hU hU2 hV hV2
  have hc := saveToFile_counter s items hr
  have hb := blocks_of_text _ P _ hclean hT
  have hp := parseBlocks_blockText _ hclean
  generalize (LostFoundSystem.saveToFile s items) = content at hfind hc hb ⊢
  refine ⟨LostFoundSystem.mk s0.searchTrie s0.itemMap s0.historyBST s0.invertedIndex
    s0.categoryTries s.itemCounter (extractJsonString content.data "webhookUrl")
    (extractJsonString content.data "claimWebhookUrl"), rfl, rfl, rfl, rfl, rfl, rfl, ?_⟩
  unfold LostFoundSystem.loadFromFile
  rw [hc]
  simp only []
  rw [hfind]
  simp only []
  rw [hb]
  simp only []
  rw [hp]
namespace LostFoundSystem

theorem foldl_loadItem : ∀ (items : List Item) (s1 : LostFoundSystem),
    (∀ it ∈ items, it.id ≠ "") →
    (items.foldl loadItem s1).itemMap =
      items.foldl (fun m it => m.insert it.id it) s1.itemMap ∧
    (items.foldl loadItem s1).searchTrie = Trie.insertAll s1.searchTrie (items.map Item.name) ∧
    (items.foldl loadItem s1).categoryTries =
      CategoryTrieManager.insertAll s1.categoryTries
        (items.map (fun it => (it.name, it.category))) ∧
    (items.foldl loadItem s1).historyBST = ItemBST.insertAll s1.historyBST items ∧
    (items.foldl loadItem s1).itemCounter = s1.itemCounter := by
  intro items
  induction items with
  | nil => intro s1 _; exact ⟨rfl, rfl, rfl, rfl, rfl⟩
  | cons item items ih =>
    intro s1 h
    have hid := h item (List.mem_cons_self _ _)
    have hstep : loadItem s1 item = s1.store item := by
      unfold loadItem
      rw [if_pos hid]
    obtain ⟨h1, h2, h3, h4, h5⟩ := ih (s1.store item)
      (fun it hit => h it (List.mem_cons_of_mem _ hit))
    simp only [List.foldl_cons, hstep]
    exact ⟨h1, h2, h3, h4, h5⟩

theorem foldl_insert_pairs : ∀ (l acc : List (String × Item)),
    (∀ p ∈ l, p.1 = p.2.id) → ((acc ++ l).map Prod.fst).Nodup →
    (l.map Prod.snd).foldl (fun m it => m.insert it.id it) (ItemHashMap.mk acc) =
      ItemHashMap.mk (acc ++ l) := by
  intro l
  induction l with
  | nil => intro acc _ _; simp
  | cons p l ih =>
    intro acc hk hnd
    have hnew : p.2.id ∉ (ItemHashMap.mk acc).keys := by
      rw [← hk p (List.mem_cons_self _ _)]
      intro hmem
      rw [List.map_append, List.map_cons] at hnd
      exact (List.nodup_append.mp hnd).2.2 hmem (List.mem_cons_self _ _)
    have hins : (ItemHashMap.mk acc).insert p.2.id p.2 = ItemHashMap.mk (acc ++ [p]) := by
      have := items_insert_new (ItemHashMap.mk acc) p.2.id p.2 hnew
      rw [← hk p (List.mem_cons_self _ _)] at this
      cases hm : (ItemHashMap.mk acc).insert p.1 p.2 with
      | mk items2 =>
        rw [← hk p (List.mem_cons_self _ _), hm]
        rw [hm] at this
        simp only at this
        rw [this]
    simp only [List.map_cons, List.foldl_cons]
    rw [hins, ih (acc ++ [p]) (fun q hq => hk q (List.mem_cons_of_mem _ hq))
      (by simpa using hnd)]
    simp

end LostFoundSystem

namespace ItemBST

theorem mapItems_insert (f : Item → Item) (hf : ∀ x, (f x).timestamp = x.timestamp) :
    ∀ (t : BSTNode) (x : Item), insert (mapItems f t) (f x) = mapItems f (insert t x) := by
  intro t
  induction t with
  | nil => intro x; rfl
  | node y left right ihl ihr =>
    intro x
    simp only [mapItems, insert, hf]
    by_cases h : x.timestamp < y.timestamp
    · rw [if_pos h, if_pos h, mapItems, ihl]
    · rw [if_neg h, if_neg h, mapItems, ihr]

theorem mapItems_insertAll (f : Item → Item) (hf : ∀ x, (f x).timestamp = x.timestamp) :
    ∀ (l : List Item) (t : BSTNode),
      insertAll (mapItems f t) (l.map f) = mapItems f (insertAll t l) := by
  intro l
  induction l with
  | nil => intro t; rfl
  | cons x l ih =>
    intro t
    simp only [insertAll, List.map_cons, List.foldl_cons] at ih ⊢
    rw [mapItems_insert f hf, ih]

theorem toList_mapItems (f : Item → Item) : ∀ t : BSTNode,
    toList (mapItems f t) = (toList t).map f := by
  intro t
  induction t with
  | nil => rfl
  | node y left right ihl ihr => simp [mapItems, toList, ihl, ihr]

theorem getSortedHistory_mapItems (f : Item → Item) (t : BSTNode) (ascending : Bool) :
    getSortedHistory (mapItems f t) ascending = (getSortedHistory t ascending).map f := by
  cases ascending with
  | true => rw [getSortedHistory_true, getSortedHistory_true, toList_mapItems]
  | false =>
    rw [getSortedHistory_false, getSortedHistory_false, toList_mapItems, List.map_reverse]

end ItemBST
theorem cleanText_of (v : String) (h1 : quoteChar ∉ v.data) (h2 : closeBrace ∉ v.data)
    (h3 : v ∉ itemKeys) : cleanText v = true := by
  simp [cleanText, h1, h2, h3]

theorem reportId_data (n : Nat) : ∃ z, (LostFoundSystem.reportId n).data =
    "ITEM-".data ++ (List.replicate z '0' ++ (toString (n : Int)).data) :=
  ⟨6 - (toString (n : Int)).length, by
    simp [LostFoundSystem.reportId, padSix, String.data_append]⟩

theorem itemKeys_first : ∀ k ∈ itemKeys, k.data.head? ≠ some 'I' := by decide

theorem cleanText_reportId (n : Nat) : cleanText (LostFoundSystem.reportId n) = true := by
  obtain ⟨z, hz⟩ := reportId_data n
  refine cleanText_of _ ?_ ?_ ?_
  · rw [hz]
    simp only [List.mem_append, not_or]
    refine ⟨by decide, ?_, intRepr_not_mem _ _ (by decide)⟩
    intro hm
    exact absurd (List.eq_of_mem_replicate hm) (by decide)
  · rw [hz]
    simp only [List.mem_append, not_or]
    refine ⟨by decide, ?_, intRepr_not_mem _ _ (by decide)⟩
    intro hm
    exact absurd (List.eq_of_mem_replicate hm) (by decide)
  · intro hm
    have := itemKeys_first _ hm
    rw [hz] at this
    exact this rfl

theorem reportId_ne_empty (n : Nat) : LostFoundSystem.reportId n ≠ "" := by
  obtain ⟨z, hz⟩ := reportId_data n
  intro e
  rw [e] at hz
  cases hz

theorem create_clean (id name color loc owner type desc email : String) (now : Int)
    (cat : Category) (hid : id ≠ "") (h1 : cleanText id = true) (h2 : cleanText name = true)
    (h3 : cleanText color = true) (h4 : cleanText loc = true) (h5 : cleanText owner = true)
    (h6 : cleanText email = true) (h7 : cleanText type = true) (h8 : cleanText desc = true)
    (hnow : inClockRange now = true) :
    (Item.create id name color loc owner type now desc cat email).Clean := by
  have hr : -9223372036854775808 ≤ now ∧ now + 2592000 ≤ 9223372036854775807 := by
    simpa [inClockRange] using hnow
  refine ⟨hid, h1, h2, h3, h4, h5, h6, h7, h8, (by decide : cleanText "" = true), ?_, ?_,
    (by decide : inLongRange 0 = true), ?_⟩
  · simp only [Item.create, inLongRange, Bool.and_eq_true, decide_eq_true_eq]
    omega
  · simp only [Item.create, inLongRange, Bool.and_eq_true, decide_eq_true_eq]
    omega
  · simp only [Item.create]
    omega

namespace LostFoundSystem

theorem getAllItems_insert_new (m : ItemHashMap) (item : Item) (h : item.id ∉ m.keys) :
    (m.insert item.id item).getAllItems = m.getAllItems ++ [item] := by
  simp [ItemHashMap.getAllItems, items_insert_new m item.id item h]

theorem rebuildable_store (s s2 : LostFoundSystem) (item : Item) (h : s.Rebuildable)
    (hnew : item.id ∉ s.itemMap.keys) (hc : item.Clean) (hrep : item.reported = item)
    (hm : s2.itemMap = s.itemMap.insert item.id item)
    (ht : s2.searchTrie = Trie.insert s.searchTrie item.name)
    (hcat : s2.categoryTries = s.categoryTries.insert item.name item.category)
    (hh : s2.historyBST = ItemBST.insert s.historyBST item)
    (hw : s2.webhookUrl = s.webhookUrl) (hw2 : s2.claimWebhookUrl = s.claimWebhookUrl) :
    s2.Rebuildable := by
  obtain ⟨r1, r2, r3, r4, r5, r6⟩ := h
  have hall : s2.itemMap.getAllItems = s.itemMap.getAllItems ++ [item] := by
    rw [hm, getAllItems_insert_new _ _ hnew]
  unfold Rebuildable
  rw [hall]
  refine ⟨?_, ?_, ?_, ?_, hw.trans r5, hw2.trans r6⟩
  · intro it hit
    rcases List.mem_append.mp hit with h1 | h1
    · exact r1 it h1
    · rw [List.mem_singleton.mp h1]
      exact hc
  · rw [ht, r2]
    simp [Trie.insertAll, List.foldl_append]
  · rw [hcat, r3]
    simp [CategoryTrieManager.insertAll, List.foldl_append]
  · rw [hh, r4]
    simp [ItemBST.insertAll, List.foldl_append, hrep]

theorem rebuildable_update (s s2 : LostFoundSystem) (u : String × Item → String × Item)
    (h : s.Rebuildable) (hm : s2.itemMap.items = s.itemMap.items.map u)
    (hu : ∀ p, (u p).2.name = p.2.name ∧ (u p).2.category = p.2.category ∧
      (u p).2.reported = p.2.reported ∧ (p.2.Clean → (u p).2.Clean))
    (ht : s2.searchTrie = s.searchTrie) (hcat : s2.categoryTries = s.categoryTries)
    (hh : s2.historyBST = s.historyBST)
    (hw : s2.webhookUrl = s.webhookUrl) (hw2 : s2.claimWebhookUrl = s.claimWebhookUrl) :
    s2.Rebuildable := by
  obtain ⟨r1, r2, r3, r4, r5, r6⟩ := h
  have hmap : ∀ {β : Type} (g : Item → β), (∀ p, g (u p).2 = g p.2) →
      s2.itemMap.getAllItems.map g = s.itemMap.getAllItems.map g := by
    intro β g hg
    simp only [ItemHashMap.getAllItems, hm, List.map_map]
    apply List.map_congr_left
    intro p _
    exact hg p
  refine ⟨?_, ?_, ?_, ?_, hw.trans r5, hw2.trans r6⟩
  · intro it hit
    simp only [ItemHashMap.getAllItems, hm, List.map_map, List.mem_map] at hit
    obtain ⟨p, hp, rfl⟩ := hit
    exact (hu p).2.2.2 (r1 p.2 (List.mem_map_of_mem _ hp))
  · rw [ht, r2, hmap Item.name (fun p => (hu p).1)]
  · rw [hcat, r3, hmap (fun it => (it.name, it.category)) (fun p => by
      simp only [(hu p).1, (hu p).2.1])]
  · rw [hh, r4, hmap Item.reported (fun p => (hu p).2.2.1)]

theorem claim_clean (x : Item) (now : Int) (claimedBy : String) (hx : x.Clean)
    (hnow : inLongRange now = true) (hby : cleanText claimedBy = true) :
    Item.Clean { x with claimed := true, claimedBy := claimedBy, claimedAt := now,
                        archived := true } := by
  obtain ⟨c0, c1, c2, c3, c4, c5, c6, c7, c8, _, c10, c11, _, c13⟩ := hx
  exact ⟨c0, c1, c2, c3, c4, c5, c6, c7, c8, hby, c10, c11, hnow, c13⟩

theorem markArchived_clean (x : Item) (hx : x.Clean) : x.markArchived.Clean := by
  obtain ⟨c0, c1, c2, c3, c4, c5, c6, c7, c8, c9, c10, c11, c12, c13⟩ := hx
  exact ⟨c0, c1, c2, c3, c4, c5, c6, c7, c8, c9, c10, c11, c12, c13⟩

theorem rebuildable_report (s : LostFoundSystem) (k : Nat) (r : Report)
    (hk : (k : Int) + 1 ≤ INT_MAX) (hi : IdsUpTo s k) (h : s.Rebuildable)
    (hnow : inClockRange r.now = true) (h2 : cleanText r.name = true)
    (h3 : cleanText r.color = true) (h4 : cleanText r.location = true)
    (h5 : cleanText r.reporter = true) (h6 : cleanText r.description = true)
    (h7 : cleanText r.email = true) : (s.applyOp r.toOp).Rebuildable := by
  have hmax : INT_MAX = 2147483647 := rfl
  rw [hmax] at hk
  have hw : wrapInt (s.itemCounter + 1) = ((k + 1 : Nat) : Int) := by
    rw [hi.1, LocationGraph.wrapInt_of_range _ (by omega) (by omega)]
    push_cast
    rfl
  have hid : "ITEM-" ++ padSix (wrapInt (s.itemCounter + 1)) = reportId (k + 1) := by
    rw [hw]
    rfl
  have hnew : reportId (k + 1) ∉ s.itemMap.keys := by
    intro hmem
    obtain ⟨j, hj, hkj⟩ := hi.2 _ hmem
    have := reportId_injective _ _ hkj
    omega
  have hclean : (r.item (reportId (k + 1))).Clean := by
    unfold Report.item
    refine create_clean _ _ _ _ _ _ _ _ _ _ (reportId_ne_empty _) (cleanText_reportId _) h2 h3
      h4 h5 h7 ?_ h6 hnow
    cases r.found <;> decide
  refine rebuildable_store s _ (r.item (reportId (k + 1))) h hnew hclean rfl ?_ ?_ ?_ ?_ ?_ ?_
  all_goals
    try rw [← hid]
    try unfold Report.item
    unfold Report.toOp
    cases hf : r.found <;> rfl

theorem rebuildable_applyOp (s : LostFoundSystem) (k : Nat) (op : SystemOp)
    (hkeep : op.KeepsRecords) (hclean : op.Clean) (hk : (k : Int) + 1 ≤ INT_MAX)
    (hi : IdsUpTo s k) (h : s.Rebuildable) : (s.applyOp op).Rebuildable := by
  cases op with
  | reportLostItem now name color location owner description categoryStr email =>
    obtain ⟨c1, c2, c3, c4, c5, c6, c7⟩ := hclean
    exact rebuildable_report s k
      ⟨false, now, name, color, location, owner, description, categoryStr, email⟩ hk hi h
      c1 c2 c3 c4 c5 c6 c7
  | reportFoundItem now name color location finder description categoryStr email =>
    obtain ⟨c1, c2, c3, c4, c5, c6, c7⟩ := hclean
    exact rebuildable_report s k
      ⟨true, now, name, color, location, finder, description, categoryStr, email⟩ hk hi h
      c1 c2 c3 c4 c5 c6 c7
  | claimItem now id claimedBy =>
    obtain ⟨c1, c2⟩ := hclean
    simp only [applyOp, claimItem]
    cases hg : s.itemMap.get id with
    | none => exact h
    | some x =>
      refine rebuildable_update s _ _ h rfl ?_ rfl rfl rfl rfl rfl
      intro p
      by_cases hp : p.1 = id
      · beta_reduce
        rw [if_pos hp]
        exact ⟨rfl, rfl, rfl, fun hx => claim_clean p.2 now claimedBy hx c1 c2⟩
      · beta_reduce
        rw [if_neg hp]
        exact ⟨rfl, rfl, rfl, fun hx => hx⟩
  | archiveItem id =>
    simp only [applyOp, archiveItem]
    cases hg : s.itemMap.get id with
    | none => exact h
    | some x =>
      refine rebuildable_update s _ _ h rfl ?_ rfl rfl rfl rfl rfl
      intro p
      by_cases hp : p.1 = id
      · beta_reduce
        rw [if_pos hp]
        exact ⟨rfl, rfl, rfl, fun hx => markArchived_clean p.2 hx⟩
      · beta_reduce
        rw [if_neg hp]
        exact ⟨rfl, rfl, rfl, fun hx => hx⟩
  | deleteItem id => exact False.elim hkeep
  | archiveExpiredItems now =>
    refine rebuildable_update s _ _ h
      (archiveLoop_spec now s.itemMap.getAllItems s.itemMap 0).1 ?_ rfl rfl rfl rfl rfl
    intro p
    split_ifs
    · exact ⟨rfl, rfl, rfl, fun hx => markArchived_clean p.2 hx⟩
    · exact ⟨rfl, rfl, rfl, fun hx => hx⟩

theorem rebuildable_runOps (ops : List SystemOp) :
    ∀ (s : LostFoundSystem) (k : Nat), (∀ op ∈ ops, op.KeepsRecords) →
      (∀ op ∈ ops, op.Clean) → (k : Int) + ops.length ≤ INT_MAX → IdsUpTo s k →
      HistoryOfRegistry s → s.Rebuildable →
      ∃ k2 : Nat, (k2 : Int) ≤ INT_MAX ∧ IdsUpTo (s.runOps ops) k2 ∧
        (s.runOps ops).Rebuildable := by
  induction ops with
  | nil => intro s k _ _ hk hi _ h; exact ⟨k, by simpa using hk, hi, h⟩
  | cons op rest ih =>
    intro s k hops hclean hk hi hh h
    simp only [List.length_cons, Nat.cast_add, Nat.cast_one] at hk
    have hmax : INT_MAX = 2147483647 := rfl
    rw [hmax] at hk
    obtain ⟨k2, hk2, hi2, hh2⟩ := historyInv_applyOp s k op (hops op (List.mem_cons_self _ _))
      (by rw [hmax]; omega) hi hh
    have h2 := rebuildable_applyOp s k op (hops op (List.mem_cons_self _ _))
      (hclean op (List.mem_cons_self _ _)) (by rw [hmax]; omega) hi h
    exact ih _ k2 (fun o ho => hops o (List.mem_cons_of_mem _ ho))
      (fun o ho => hclean o (List.mem_cons_of_mem _ ho)) (by rw [hmax]; omega) hi2 hh2 h2

end LostFoundSystem

namespace LostFoundSystem

theorem loaded_registry (items : List Item) (hnd : (items.map Item.id).Nodup) :
    items.foldl (fun m it => m.insert it.id it) ItemHashMap.empty =
      ItemHashMap.mk (items.map (fun it => (it.id, it))) := by
  have h := foldl_insert_pairs (items.map (fun it => (it.id, it))) []
    (by
      intro p hp
      obtain ⟨it, _, rfl⟩ := List.mem_map.mp hp
      rfl)
    (by simpa [List.map_map, Function.comp] using hnd)
  have hsnd : (items.map (fun it => (it.id, it))).map Prod.snd = items := by
    rw [List.map_map]
    conv_rhs => rw [← List.map_id items]
    rfl
  rw [hsnd] at h
  simpa [ItemHashMap.empty] using h

theorem registry_pairs (m : ItemHashMap) (hk : KeysMatch m) :
    m.items = m.getAllItems.map (fun it => (it.id, it)) := by
  unfold ItemHashMap.getAllItems
  rw [List.map_map]
  symm
  conv_rhs => rw [← List.map_id m.items]
  apply List.map_congr_left
  intro p hp
  simp only [Function.comp, id]
  exact Prod.ext (hk p hp).symm rfl

/-- The registry rebuilt from any arrangement of the records of a registry holds the same
record under every id. -/
theorem loaded_registry_get (m : ItemHashMap) (hk : KeysMatch m) (hnd : m.keys.Nodup)
    (items : List Item) (hp : items.Perm m.getAllItems) :
    (items.map Item.id).Nodup ∧
    ∀ id, (ItemHashMap.mk (items.map (fun it => (it.id, it)))).get id = m.get id := by
  have hpairs : (items.map (fun it => (it.id, it))).Perm m.items := by
    rw [registry_pairs m hk]
    exact hp.map _
  have hkeys : ((items.map (fun it => (it.id, it))).map (fun p => p.1)).Perm m.keys :=
    hpairs.map _
  have hnd2 : (ItemHashMap.mk (items.map (fun it => (it.id, it)))).keys.Nodup :=
    hkeys.nodup_iff.mpr hnd
  refine ⟨by simpa [ItemHashMap.keys, List.map_map, Function.comp] using hnd2, ?_⟩
  intro id
  cases hg : m.get id with
  | none =>
    rw [ItemHashMap.get_eq_none_iff] at hg ⊢
    intro hmem
    exact hg (hkeys.mem_iff.mp hmem)
  | some x =>
    exact get_of_mem_nodup _ hnd2 id x (hpairs.mem_iff.mpr (ItemHashMap.get_mem _ _ _ hg))

end LostFoundSystem

namespace Trie

theorem lastInserted_consistent (ws : List String)
    (hc : ∀ a ∈ ws, ∀ b ∈ ws, toLower a = toLower b → a = b) (key : List Char) (v : String) :
    lastInserted ws key = some v ↔ v ∈ ws ∧ (toLower v).data = key := by
  constructor
  · exact lastInserted_some ws key v
  · rintro ⟨hv, hk⟩
    obtain ⟨u, hu⟩ := lastInserted_of_mem ws v hv
    rw [hk] at hu
    obtain ⟨hu1, hu2⟩ := lastInserted_some ws key u hu
    have : u = v := hc u hu1 v hv (String.ext (hu2.trans hk.symm))
    rw [hu, this]

theorem lastInserted_perm (ws1 ws2 : List String) (hp : ws1.Perm ws2)
    (hc : ∀ a ∈ ws1, ∀ b ∈ ws1, toLower a = toLower b → a = b) (key : List Char) :
    lastInserted ws1 key = lastInserted ws2 key := by
  have hc2 : ∀ a ∈ ws2, ∀ b ∈ ws2, toLower a = toLower b → a = b :=
    fun a ha b hb => hc a (hp.mem_iff.mpr ha) b (hp.mem_iff.mpr hb)
  apply Option.ext
  intro v
  simp only [Option.mem_def]
  rw [lastInserted_consistent ws1 hc, lastInserted_consistent ws2 hc2, hp.mem_iff]

/-- The stored words below the node of a key, each with the characters that lead to it. -/
theorem mem_entries_below (root : TrieNode) (hu : TrieNode.UniqueChildren root)
    (p q : List Char) (w : String) :
    (q, w) ∈ (match TrieNode.descend root p with
      | none => []
      | some node => TrieNode.allEntries node) ↔
    TrieNode.lookup root (p ++ q) = some w := by
  cases hd : TrieNode.descend root p with
  | none =>
    simp only [List.not_mem_nil, false_iff]
    simp [TrieNode.lookup, TrieNode.descend_append, hd]
  | some sub =>
    simp only []
    rw [TrieNode.lookup_append p root sub q hd]
    constructor
    · exact TrieNode.lookup_of_mem_allEntries q sub w
        (TrieNode.uniqueChildren_descend p root sub hu hd)
    · exact TrieNode.mem_allEntries_of_lookup q sub w

theorem nodup_entries_below (root : TrieNode) (hu : TrieNode.UniqueChildren root)
    (p : List Char) :
    (match TrieNode.descend root p with
      | none => []
      | some node => TrieNode.allEntries node).Nodup := by
  cases hd : TrieNode.descend root p with
  | none => exact List.nodup_nil
  | some sub =>
    exact List.Nodup.of_map _ (TrieNode.nodup_allEntries sub
      (TrieNode.uniqueChildren_descend p root sub hu hd))

theorem words_below (root : TrieNode) (p : List Char) :
    (match TrieNode.descend root p with
      | none => []
      | some node => TrieNode.allWords node) =
    (match TrieNode.descend root p with
      | none => []
      | some node => TrieNode.allEntries node).map (fun (e : List Char × String) => e.2) := by
  cases TrieNode.descend root p with
  | none => rfl
  | some sub => exact TrieNode.allWords_eq_entries sub

/-- Two tries that store the same word under every key hold the same words below every
prefix, up to the order in which the children are met. -/
theorem words_below_perm (root1 root2 : TrieNode) (hu1 : TrieNode.UniqueChildren root1)
    (hu2 : TrieNode.UniqueChildren root2)
    (hl : ∀ key, TrieNode.lookup root1 key = TrieNode.lookup root2 key) (p : List Char) :
    (match TrieNode.descend root1 p with
      | none => []
      | some node => TrieNode.allWords node).Perm
    (match TrieNode.descend root2 p with
      | none => []
      | some node => TrieNode.allWords node) := by
  rw [words_below root1 p, words_below root2 p]
  apply List.Perm.map
  rw [List.perm_ext_iff_of_nodup (nodup_entries_below root1 hu1 p)
    (nodup_entries_below root2 hu2 p)]
  rintro ⟨q, w⟩
  rw [mem_entries_below root1 hu1, mem_entries_below root2 hu2, hl]

theorem autocomplete_eq_take (root : TrieNode) (pre : String) (limit : Int) :
    autocomplete root pre limit =
      (match TrieNode.descend root (toLower pre).data with
        | none => []
        | some node => TrieNode.allWords node).take (sizeOfLimit limit) := by
  unfold autocomplete
  cases TrieNode.descend root (toLower pre).data with
  | none => simp
  | some sub => simp [TrieNode.collectWords_eq]

theorem storedUnder_eq (root : TrieNode) (pre : String) :
    storedUnder root pre =
      (match TrieNode.descend root (toLower pre).data with
        | none => []
        | some node => TrieNode.allWords node).length := by
  unfold storedUnder
  cases TrieNode.descend root (toLower pre).data with
  | none => rfl
  | some sub => rfl

/-- Two tries that store the same word under every key return the same completions of a
prefix, up to order, when the limit covers the words stored below the prefix. -/
theorem autocomplete_perm (root1 root2 : TrieNode) (hu1 : TrieNode.UniqueChildren root1)
    (hu2 : TrieNode.UniqueChildren root2)
    (hl : ∀ key, TrieNode.lookup root1 key = TrieNode.lookup root2 key) (pre : String)
    (limit : Int) (hs : storedUnder root1 pre ≤ sizeOfLimit limit) :
    storedUnder root2 pre = storedUnder root1 pre ∧
    (autocomplete root2 pre limit).Perm (autocomplete root1 pre limit) := by
  have hp := words_below_perm root1 root2 hu1 hu2 hl (toLower pre).data
  have hlen : storedUnder root2 pre = storedUnder root1 pre := by
    rw [storedUnder_eq, storedUnder_eq]
    exact hp.length_eq.symm
  refine ⟨hlen, ?_⟩
  rw [autocomplete_eq_take, autocomplete_eq_take, List.take_of_length_le, List.take_of_length_le]
  · exact hp.symm
  · rw [← storedUnder_eq]; exact hs
  · rw [← storedUnder_eq, hlen]; exact hs

/-- The tries built from two arrangements of the same words, no two of which differ only in
the case of letters, store the same word under every key. -/
theorem lookup_built_perm (ws1 ws2 : List String) (hp : ws1.Perm ws2)
    (hc : ∀ a ∈ ws1, ∀ b ∈ ws1, toLower a = toLower b → a = b) (key : List Char) :
    TrieNode.lookup (insertAll TrieNode.empty ws1) key =
      TrieNode.lookup (insertAll TrieNode.empty ws2) key := by
  rw [lookup_built, lookup_built, lastInserted_perm ws1 ws2 hp hc]

end Trie

namespace ItemBST

theorem eq_of_map_eq {β : Type} (f : Item → β) : ∀ (l1 l2 : List Item),
    l1.map f = l2.map f → (∀ a ∈ l1, ∀ b ∈ l2, f a = f b → a = b) → l1 = l2 := by
  intro l1
  induction l1 with
  | nil =>
    intro l2 h _
    cases l2 with
    | nil => rfl
    | cons b l2 => simp at h
  | cons a l1 ih =>
    intro l2 h hinj
    cases l2 with
    | nil => simp at h
    | cons b l2 =>
      simp only [List.map_cons, List.cons.injEq] at h
      have hab := hinj a (List.mem_cons_self _ _) b (List.mem_cons_self _ _) h.1
      rw [hab, ih l2 h.2 (fun x hx y hy =>
        hinj x (List.mem_cons_of_mem _ hx) y (List.mem_cons_of_mem _ hy))]

/-- Two arrangements of the same items, both in the order of their time stamps, are equal
when no two of the items share a time stamp. -/
theorem sorted_perm_eq (l1 l2 : List Item) (hp : l1.Perm l2)
    (h1 : l1.Sorted (fun a b => a.timestamp ≤ b.timestamp))
    (h2 : l2.Sorted (fun a b => a.timestamp ≤ b.timestamp))
    (hinj : ∀ a ∈ l1, ∀ b ∈ l1, a.timestamp = b.timestamp → a = b) : l1 = l2 := by
  have hm : l1.map Item.timestamp = l2.map Item.timestamp := by
    refine @List.eq_of_perm_of_sorted Int (fun a b => a ≤ b) _ _ _ (hp.map _) ?_ ?_
    · exact List.pairwise_map.mpr h1
    · exact List.pairwise_map.mpr h2
  exact eq_of_map_eq Item.timestamp l1 l2 hm
    (fun a ha b hb => hinj a ha b (hp.mem_iff.mpr hb))

theorem toList_insertAll_perm (items : List Item) :
    (toList (insertAll .nil items)).Perm items ∧
    (toList (insertAll .nil items)).Sorted (fun a b => a.timestamp ≤ b.timestamp) :=
  ⟨(insertAll_spec items).2.1, sorted_toList _ (insertAll_spec items).1⟩

/-- The histories built from two arrangements of the same records, one from their
report-time copies: the same entries up to order, and the same list when no two records
share a time stamp. -/
theorem history_rebuilt (regs items : List Item) (hp : items.Perm regs) :
    (toList (insertAll .nil (regs.map Item.reported))).Perm
      ((toList (insertAll .nil items)).map Item.reported) ∧
    ((∀ a ∈ regs, ∀ b ∈ regs, a.timestamp = b.timestamp → a = b) →
      toList (insertAll .nil (regs.map Item.reported)) =
        (toList (insertAll .nil items)).map Item.reported) := by
  obtain ⟨p1, s1⟩ := toList_insertAll_perm (regs.map Item.reported)
  obtain ⟨p2, s2⟩ := toList_insertAll_perm items
  have hperm : (toList (insertAll .nil (regs.map Item.reported))).Perm
      ((toList (insertAll .nil items)).map Item.reported) :=
    p1.trans ((hp.map _).symm.trans (p2.map _).symm)
  refine ⟨hperm, ?_⟩
  intro hd
  refine sorted_perm_eq _ _ hperm s1 ?_ ?_
  · exact List.pairwise_map.mpr s2
  · intro a ha b hb hab
    obtain ⟨x, hx, rfl⟩ := List.mem_map.mp (p1.mem_iff.mp ha)
    obtain ⟨y, hy, rfl⟩ := List.mem_map.mp (p1.mem_iff.mp hb)
    rw [hd x hx y hy hab]

end ItemBST
namespace LostFoundSystem

theorem roundTrip_aux (ops : List SystemOp) (hkeep : ∀ op ∈ ops, op.KeepsRecords)
    (hclean : ∀ op ∈ ops, op.Clean) (hlen : (ops.length : Int) ≤ INT_MAX)
    (items : List Item) (horder : items.Perm (fresh.runOps ops).itemMap.getAllItems) :
    ∃ s2 : LostFoundSystem,
      fresh.loadFromFile ((fresh.runOps ops).saveToFile items) = some (some s2) ∧
      (∀ id, s2.getItemById id = (fresh.runOps ops).getItemById id) ∧
      s2.itemMap.getAllItems.Perm (fresh.runOps ops).itemMap.getAllItems ∧
      s2.itemCounter = (fresh.runOps ops).itemCounter ∧
      ((fresh.runOps ops).CaseConsistentNames → ∀ pre,
        Trie.storedUnder (fresh.runOps ops).searchTrie pre ≤ 10 →
        (s2.searchAutocomplete pre).Perm ((fresh.runOps ops).searchAutocomplete pre)) ∧
      (∀ ascending, ((fresh.runOps ops).getHistory ascending).Perm
        ((s2.getHistory ascending).map Item.reported)) ∧
      ((fresh.runOps ops).DistinctTimestamps → ∀ ascending,
        (s2.getHistory ascending).map Item.id =
          ((fresh.runOps ops).getHistory ascending).map Item.id ∧
        (fresh.runOps ops).getHistory ascending =
          (s2.getHistory ascending).map Item.reported) := by
  have hi0 : IdsUpTo fresh 0 := by
    refine ⟨rfl, ?_⟩
    intro key hkey
    simp [fresh, ItemHashMap.empty, ItemHashMap.keys] at hkey
  have hh0 : HistoryOfRegistry fresh := by
    intro x hx
    simp [fresh, ItemBST.toList] at hx
  have hR0 : fresh.Rebuildable := by
    refine ⟨?_, rfl, rfl, rfl, rfl, rfl⟩
    intro it hit
    simp [fresh, ItemHashMap.empty, ItemHashMap.getAllItems] at hit
  obtain ⟨k2, hk2, hi2, hR⟩ := rebuildable_runOps ops fresh 0 hkeep hclean
    (by simpa using hlen) hi0 hh0 hR0
  have hkm : KeysMatch (fresh.runOps ops).itemMap := keysMatch_runOps ops fresh keysMatch_fresh
  have hnd : (fresh.runOps ops).itemMap.keys.Nodup :=
    nodup_keys_runOps ops fresh (by simp [fresh, ItemHashMap.empty, ItemHashMap.keys])
  generalize fresh.runOps ops = s at hi2 hR hkm hnd horder ⊢
  obtain ⟨r1, r2, _, r4, r5, r6⟩ := hR
  have hmax : INT_MAX = 2147483647 := rfl
  rw [hmax] at hk2
  have hitems : ∀ it ∈ items, it.Clean := fun it hit => r1 it (horder.mem_iff.mp hit)
  obtain ⟨s1, e1, e2, e3, _, _, e6, hload⟩ := loadFromFile_saveToFile fresh s items hitems
    (by rw [hi2.1]; constructor <;> omega) (by rw [r5]; decide) (by rw [r5]; decide)
    (by rw [r6]; decide) (by rw [r6]; decide)
  obtain ⟨f1, f2, _, f4, f5⟩ := foldl_loadItem items s1 (fun it hit => (hitems it hit).1)
  obtain ⟨hids, hget⟩ := loaded_registry_get s.itemMap hkm hnd items horder
  have hmap : (items.foldl loadItem s1).itemMap =
      ItemHashMap.mk (items.map (fun it => (it.id, it))) := by
    rw [f1, e1]
    exact loaded_registry items hids
  have hall : (items.foldl loadItem s1).itemMap.getAllItems = items := by
    rw [hmap]
    simp only [ItemHashMap.getAllItems, List.map_map]
    conv_rhs => rw [← List.map_id items]
    rfl
  have htrie : (items.foldl loadItem s1).searchTrie =
      Trie.insertAll TrieNode.empty (items.map Item.name) := by
    rw [f2, e2]
    rfl
  have hbst : (items.foldl loadItem s1).historyBST = ItemBST.insertAll .nil items := by
    rw [f4, e3]
    rfl
  obtain ⟨hp, heq⟩ := ItemBST.history_rebuilt s.itemMap.getAllItems items horder
  refine ⟨_, hload, ?_, ?_, f5.trans e6, ?_, ?_, ?_⟩
  · intro id
    unfold getItemById
    rw [hmap]
    exact hget id
  · rw [hall]
    exact horder
  · intro hcase pre hstored
    unfold searchAutocomplete
    have hl : ∀ key, TrieNode.lookup s.searchTrie key =
        TrieNode.lookup (items.foldl loadItem s1).searchTrie key := by
      intro key
      rw [htrie, r2]
      refine Trie.lookup_built_perm _ _ (horder.map _).symm ?_ key
      intro a ha b hb hab
      obtain ⟨x, hx, rfl⟩ := List.mem_map.mp ha
      obtain ⟨y, hy, rfl⟩ := List.mem_map.mp hb
      exact hcase x hx y hy hab
    refine (Trie.autocomplete_perm s.searchTrie _ ?_ ?_ hl pre 10 hstored).2
    · rw [r2]
      exact Trie.uniqueChildren_insertAll _ _ TrieNode.uniqueChildren_empty
    · rw [htrie]
      exact Trie.uniqueChildren_insertAll _ _ TrieNode.uniqueChildren_empty
  · intro ascending
    unfold getHistory
    rw [hbst, r4]
    cases ascending with
    | true =>
      rw [ItemBST.getSortedHistory_true, ItemBST.getSortedHistory_true]
      exact hp
    | false =>
      rw [ItemBST.getSortedHistory_false, ItemBST.getSortedHistory_false, List.map_reverse]
      exact (List.reverse_perm _).trans (hp.trans (List.reverse_perm _).symm)
  · intro hd ascending
    have hlist := heq hd
    have hboth : s.getHistory ascending =
        ((items.foldl loadItem s1).getHistory ascending).map Item.reported := by
      unfold getHistory
      rw [hbst, r4]
      cases ascending with
      | true =>
        rw [ItemBST.getSortedHistory_true, ItemBST.getSortedHistory_true]
        exact hlist
      | false =>
        rw [ItemBST.getSortedHistory_false, ItemBST.getSortedHistory_false, List.map_reverse,
          hlist]
    refine ⟨?_, hboth⟩
    rw [hboth, List.map_map]
    rfl

/-- C35 (as the code has it): take a state reached from a fresh system by at most 2147483647
(INT_MAX) calls other than `deleteItem`, in which the reports and claims pass texts that the
file keeps (no double quote, no right brace, not the name of a key) and clock values in the
range of `long long`, and let `saveToFile` write the records in any order `items` in which
the registry may hand them out. Then `loadFromFile` into a fresh system reads the text to
the end and yields a registry with the same record under every id (so the same ids, each
record equal in every field) and the same item counter. If no two names differ only in the
case of letters, the completions of every prefix with at most 10 stored words below it are
the same up to order. The history entries of the original are the report-time copies of
those of the loaded system up to order, and if no two records share a time stamp they come
in the same order, so `getHistory` lists the ids in the same order. -/
theorem saveLoad_roundTrip (ops : List SystemOp) (hkeep : ∀ op ∈ ops, op.KeepsRecords)
    (hclean : ∀ op ∈ ops, op.Clean) (hlen : (ops.length : Int) ≤ INT_MAX)
    (items : List Item) (horder : items.Perm (fresh.runOps ops).itemMap.getAllItems) :
    ∃ s2 : LostFoundSystem,
      fresh.loadFromFile ((fresh.runOps ops).saveToFile items) = some (some s2) ∧
      (∀ id, s2.getItemById id = (fresh.runOps ops).getItemById id) ∧
      s2.itemMap.getAllItems.Perm (fresh.runOps ops).itemMap.getAllItems ∧
      s2.itemCounter = (fresh.runOps ops).itemCounter ∧
      ((fresh.runOps ops).CaseConsistentNames → ∀ pre,
        Trie.storedUnder (fresh.runOps ops).searchTrie pre ≤ 10 →
        (s2.searchAutocomplete pre).Perm ((fresh.runOps ops).searchAutocomplete pre)) ∧
      (∀ ascending, ((fresh.runOps ops).getHistory ascending).Perm
        ((s2.getHistory ascending).map Item.reported)) ∧
      ((fresh.runOps ops).DistinctTimestamps → ∀ ascending,
        (s2.getHistory ascending).map Item.id =
          ((fresh.runOps ops).getHistory ascending).map Item.id ∧
        (fresh.runOps ops).getHistory ascending =
          (s2.getHistory ascending).map Item.reported) :=
  roundTrip_aux ops hkeep hclean hlen items horder

theorem sampleTwoOps_keep : ∀ op ∈ sampleTwoOps, op.KeepsRecords := by
  intro op hop
  simp only [sampleTwoOps, List.mem_cons, List.mem_singleton, List.not_mem_nil,
    or_false] at hop
  rcases hop with rfl | rfl | rfl
  · trivial
  · trivial
  · trivial

theorem sampleTwoOps_clean : ∀ op ∈ sampleTwoOps, op.Clean := by
  intro op hop
  simp only [sampleTwoOps, List.mem_cons, List.mem_singleton, List.not_mem_nil,
    or_false] at hop
  rcases hop with rfl | rfl | rfl
  · exact ⟨by decide, by decide, by decide, by decide, by decide, by decide, by decide⟩
  · exact ⟨by decide, by decide, by decide, by decide, by decide, by decide, by decide⟩
  · exact ⟨by decide, by decide⟩

theorem sampleTwoOps_names : (fresh.runOps sampleTwoOps).CaseConsistentNames := by
  unfold CaseConsistentNames
  decide!

theorem sampleTwoOps_times : (fresh.runOps sampleTwoOps).DistinctTimestamps := by
  unfold DistinctTimestamps
  decide!

theorem saveLoad_roundTrip_witness :
    (∀ op ∈ sampleTwoOps, op.KeepsRecords) ∧ (∀ op ∈ sampleTwoOps, op.Clean) ∧
    ((sampleTwoOps.length : Nat) : Int) ≤ INT_MAX ∧
    ((fresh.runOps sampleTwoOps).itemMap.getAllItems.reverse).Perm
      (fresh.runOps sampleTwoOps).itemMap.getAllItems ∧
    (fresh.runOps sampleTwoOps).CaseConsistentNames ∧
    (fresh.runOps sampleTwoOps).DistinctTimestamps ∧
    ∃ s2 : LostFoundSystem,
      fresh.loadFromFile ((fresh.runOps sampleTwoOps).saveToFile
        (fresh.runOps sampleTwoOps).itemMap.getAllItems.reverse) = some (some s2) ∧
      (∀ id, s2.getItemById id = (fresh.runOps sampleTwoOps).getItemById id) ∧
      s2.itemMap.getAllItems.Perm (fresh.runOps sampleTwoOps).itemMap.getAllItems ∧
      s2.itemCounter = (fresh.runOps sampleTwoOps).itemCounter ∧
      ((fresh.runOps sampleTwoOps).CaseConsistentNames → ∀ pre,
        Trie.storedUnder (fresh.runOps sampleTwoOps).searchTrie pre ≤ 10 →
        (s2.searchAutocomplete pre).Perm ((fresh.runOps sampleTwoOps).searchAutocomplete pre)) ∧
      (∀ ascending, ((fresh.runOps sampleTwoOps).getHistory ascending).Perm
        ((s2.getHistory ascending).map Item.reported)) ∧
      ((fresh.runOps sampleTwoOps).DistinctTimestamps → ∀ ascending,
        (s2.getHistory ascending).map Item.id =
          ((fresh.runOps sampleTwoOps).getHistory ascending).map Item.id ∧
        (fresh.runOps sampleTwoOps).getHistory ascending =
          (s2.getHistory ascending).map Item.reported) :=
  ⟨sampleTwoOps_keep, sampleTwoOps_clean, by decide, List.reverse_perm _, sampleTwoOps_names,
    sampleTwoOps_times,
    saveLoad_roundTrip sampleTwoOps sampleTwoOps_keep sampleTwoOps_clean (by decide) _
      (List.reverse_perm _)⟩

/-- C35, as stated, fails in two ways. `saveToFile` writes the registry only: after the
backpack is reported and deleted (the registry is empty), the original state still completes
"blue" to its name and still lists it in the history, while the state loaded from the written
text does neither. And the tries and the history are rebuilt in the order of the file: after
"Apple" and "apple" are reported within the same second, the original completes "a" to
"apple" and lists ITEM-000001 first, while the state loaded from the text that holds the two
records in the other order completes "a" to "Apple" and lists ITEM-000002 first. -/
theorem saveLoad_counterexample :
    (fresh.runOps sampleDeleteOps).itemMap.getAllItems = [] ∧
    (fresh.runOps sampleDeleteOps).searchAutocomplete "blue" = ["blue backpack"] ∧
    ((fresh.runOps sampleDeleteOps).getHistory true).map Item.id = ["ITEM-000001"] ∧
    (fresh.loadFromFile ((fresh.runOps sampleDeleteOps).saveToFile [])).map (fun r => r.map
      (fun s2 => (s2.itemMap.getAllItems, s2.itemCounter, s2.searchAutocomplete "blue",
        (s2.getHistory true).map Item.id))) = some (some ([], 1, [], [])) ∧
    (fresh.runOps sampleOrderOps).searchAutocomplete "a" = ["apple"] ∧
    ((fresh.runOps sampleOrderOps).getHistory true).map Item.id =
      ["ITEM-000001", "ITEM-000002"] ∧
    (fresh.loadFromFile ((fresh.runOps sampleOrderOps).saveToFile
      (fresh.runOps sampleOrderOps).itemMap.getAllItems.reverse)).map (fun r => r.map
      (fun s2 => (s2.searchAutocomplete "a", (s2.getHistory true).map Item.id))) =
      some (some (["Apple"], ["ITEM-000002", "ITEM-000001"])) := by
  decide!

/-- What the text format does to a double quote: the name `a"b c` is written between quotes
as it is and read back as `a`. -/
theorem saveLoad_quote_example :
    ((fresh.runOps sampleQuoteOps).getItemById "ITEM-000001").map Item.name =
      some "a\x22b c" ∧
    (fresh.loadFromFile ((fresh.runOps sampleQuoteOps).saveToFile
      (fresh.runOps sampleQuoteOps).itemMap.getAllItems)).map (fun r => r.map
      (fun s2 => (s2.getItemById "ITEM-000001").map Item.name)) = some (some (some "a")) := by
  decide!

end LostFoundSystem

namespace LostFoundSystem

/-- Why the completions are compared for prefixes with at most 10 stored words: with eleven
names below "a", the ten completions returned depend on the order in which the children of
a node are met, which follows the order of insertion. The original state leaves out "ak",
the state loaded from the text that holds the records in the reverse order leaves out
"aa". -/
theorem saveLoad_limit_example :
    Trie.storedUnder (fresh.runOps sampleElevenOps).searchTrie "a" = 11 ∧
    (fresh.runOps sampleElevenOps).searchAutocomplete "a" =
      ["aa", "ab", "ac", "ad", "ae", "af", "ag", "ah", "ai", "aj"] ∧
    (fresh.loadFromFile ((fresh.runOps sampleElevenOps).saveToFile
      (fresh.runOps sampleElevenOps).itemMap.getAllItems.reverse)).map (fun r => r.map
      (fun s2 => s2.searchAutocomplete "a")) =
      some (some ["ak", "aj", "ai", "ah", "ag", "af", "ae", "ad", "ac", "ab"]) := by
  decide!

end LostFoundSystem

end LostFound
